import Mathlib

/-!
A shallow embedding of the hse-scheme interpreter.

The development follows the sources file by file:

* `tokenizer.h`, `tokenizer.cpp`: `Token`, `Tokenizer`, `Tokenizer.Next`, ...
* `parser.cpp`: `Read`, `ReadList`
* `object.h`, `object.cpp`: `Object`, `Context`, `Evaluate`, `Serialize`
* `operations_impl.cpp`: one `Apply` per operator, `Lambda.Apply`, `Context.GetKeywords`
* `scheme.cpp`: `Interpreter`, `Interpreter.Run`

Conventions of the embedding.

* An input stream is the list of characters not yet consumed; `peek` is the head of the list and
  end of file is the empty list.
* `std::shared_ptr<Object>` is an `ObjectPtr`: `none` is `nullptr`, `some a` is the address of an
  object in the heap.  `std::shared_ptr<Context>` is the address of a frame in the heap.
* The reader only creates fresh, unshared objects, so it is embedded as returning a `Tree`;
  `Interpreter.Run` places that tree in the heap before it evaluates it.
* A thrown exception is an `Error`; functions that can throw after having changed the heap return
  the heap together with the outcome, because the changes made before the throw persist.
* Recursion through the evaluator, the reader and the printer is bounded by a fuel argument.
* `int` and `int64_t` arithmetic is done on `Int` and wrapped to 32 and 64 bits.
-/

namespace Scheme

deriving instance DecidableEq for Except

/-! ## error.h -/

/-- Modelled from the spec: `error.h` is not part of the sources. The spec names three error
categories (syntax, name, runtime), which are the exception classes `SyntaxError`, `NameError` and
`RuntimeError` thrown by the code. Two further outcomes belong to the embedding and are not
exceptions of the program: `Undefined` stands for an execution whose behaviour C++ leaves
undefined (division by zero, a dangling address), `OutOfFuel` for a computation that needs more
recursion budget than it was given. -/
inductive Error where
  | SyntaxError
  | RuntimeError
  | NameError
  | Undefined
  | OutOfFuel
  deriving DecidableEq, Repr

/-! ## Machine integers -/

/-- Wrap an integer to the range of a two's complement signed integer of `w` bits. -/
def wrap (w : Nat) (x : Int) : Int :=
  (x + 2 ^ (w - 1)) % 2 ^ w - 2 ^ (w - 1)

/-- Wrap to `int`. -/
def wrap32 (x : Int) : Int := wrap 32 x

/-- Wrap to `int64_t`. -/
def wrap64 (x : Int) : Int := wrap 64 x

/-! ## tokenizer.h -/

/-- The two values of `enum class BracketToken`. -/
inductive BracketToken where
  | OPEN
  | CLOSE
  deriving DecidableEq, Repr

/-- The variant `Token`; `monostate` is the state before the first read. -/
inductive Token where
  | monostate
  | ConstantToken (value : Int)
  | BracketToken (b : BracketToken)
  | SymbolToken (name : String)
  | QuoteToken
  | DotToken
  deriving DecidableEq, Repr

/-- The class `Tokenizer`: the unread part of the stream `is_`, `current_token_` and `is_end_`. -/
structure Tokenizer where
  is_ : List Char
  current_token_ : Token
  is_end_ : Bool
  deriving DecidableEq, Repr

/-! ## tokenizer.cpp -/

/-- The predicate `std::isspace` in the C locale. -/
def isspace (c : Char) : Bool :=
  c == ' ' || (9 ≤ c.toNat && c.toNat ≤ 13)

/-- The predicate `std::isdigit`. -/
def isdigit (c : Char) : Bool :=
  48 ≤ c.toNat && c.toNat ≤ 57

/-- The predicate `std::isalpha` in the C locale. -/
def isalpha (c : Char) : Bool :=
  (65 ≤ c.toNat && c.toNat ≤ 90) || (97 ≤ c.toNat && c.toNat ≤ 122)

def IsSign (c : Char) : Bool := c == '+' || c == '-'

def IsParen (c : Char) : Bool := c == '(' || c == ')'

def IsDigit (c : Char) : Bool := isdigit c

def IsDot (c : Char) : Bool := c == '.'

def IsQuote (c : Char) : Bool := c == '\''

/-- A predicate applied to `is->peek()`: at end of file `peek` is `EOF`, on which every character
predicate of the tokenizer is false. -/
def peekIs (p : Char → Bool) (s : List Char) : Bool :=
  match s with
  | [] => false
  | c :: _ => p c

/-- Embeds `GetParen`: consumes one character. -/
def GetParen (s : List Char) : Token × List Char :=
  match s with
  | [] => (Token.BracketToken BracketToken.CLOSE, [])
  | c :: rest =>
    if c == '(' then (Token.BracketToken BracketToken.OPEN, rest)
    else (Token.BracketToken BracketToken.CLOSE, rest)

/-- Embeds `GetDot`: `is->ignore()`. -/
def GetDot (s : List Char) : Token × List Char :=
  (Token.DotToken, s.tail)

/-- Embeds `GetQuote`: `is->ignore()`. -/
def GetQuote (s : List Char) : Token × List Char :=
  (Token.QuoteToken, s.tail)

/-- The loop `while (IsDigit(is->peek())) value = value * 10 + (is->get() - '0')` of
`GetConstantOrSign`, on an `int` accumulator. -/
def readDigits : List Char → Int → Int × List Char
  | [], value => (value, [])
  | c :: rest, value =>
    if IsDigit c then readDigits rest (wrap32 (value * 10 + ((c.toNat : Int) - 48)))
    else (value, c :: rest)

/-- Embeds `GetConstantOrSign`. -/
def GetConstantOrSign (s : List Char) : Token × List Char :=
  match s with
  | [] => (Token.ConstantToken 0, [])
  | c :: rest =>
    if IsSign c then
      if !peekIs IsDigit rest then
        (Token.SymbolToken (String.mk [c]), rest)
      else
        let r := readDigits rest 0
        if c == '-' then (Token.ConstantToken (wrap32 (r.1 * -1)), r.2)
        else (Token.ConstantToken r.1, r.2)
    else
      let r := readDigits (c :: rest) 0
      (Token.ConstantToken r.1, r.2)

def IsFirstCharOfSymbol (c : Char) : Bool :=
  isalpha c || c == '<' || c == '=' || c == '>' || c == '*' || c == '/' || c == '#'

def IsContinuingCharOfSymbol (c : Char) : Bool :=
  IsFirstCharOfSymbol c || isdigit c || c == '!' || c == '?' || c == '-'

/-- The loop of `GetSymbol` that collects the characters after the first one. -/
def readSymbolTail : List Char → List Char × List Char
  | [] => ([], [])
  | c :: rest =>
    if !isspace c then
      if !IsContinuingCharOfSymbol c then ([], c :: rest)
      else
        let r := readSymbolTail rest
        (c :: r.1, r.2)
    else ([], c :: rest)

/-- Embeds `GetSymbol`. -/
def GetSymbol (s : List Char) : Except Error (Token × List Char) :=
  match s with
  | [] => Except.error Error.SyntaxError
  | c :: rest =>
    if IsSign c then Except.ok (Token.SymbolToken (String.mk [c]), rest)
    else if !IsFirstCharOfSymbol c then Except.error Error.SyntaxError
    else
      let r := readSymbolTail rest
      Except.ok (Token.SymbolToken (String.mk (c :: r.1)), r.2)

/-- The constructor `Tokenizer::Tokenizer(std::istream*)`. -/
def Tokenizer.new (s : List Char) : Tokenizer :=
  ⟨s, Token.monostate, false⟩

/-- Embeds `Tokenizer::IgnoreSpaces`. -/
def Tokenizer.IgnoreSpaces (tk : Tokenizer) : Tokenizer :=
  { tk with is_ := tk.is_.dropWhile isspace }

/-- Embeds `Tokenizer::IsEnd`; before the first read it skips the leading spaces of the stream. -/
def Tokenizer.IsEnd (tk : Tokenizer) : Bool × Tokenizer :=
  if tk.current_token_ = Token.monostate then
    let tk1 := tk.IgnoreSpaces
    (tk1.is_.isEmpty, tk1)
  else (tk.is_end_, tk)

/-- Embeds `Tokenizer::Next`. -/
def Tokenizer.Next (tk : Tokenizer) : Except Error Tokenizer :=
  let tk1 := tk.IgnoreSpaces
  match tk1.is_ with
  | [] => Except.ok { tk1 with is_end_ := true }
  | c :: _ =>
    if IsParen c then
      let r := GetParen tk1.is_
      Except.ok { tk1 with is_ := r.2, current_token_ := r.1 }
    else if IsDot c then
      let r := GetDot tk1.is_
      Except.ok { tk1 with is_ := r.2, current_token_ := r.1 }
    else if IsQuote c then
      let r := GetQuote tk1.is_
      Except.ok { tk1 with is_ := r.2, current_token_ := r.1 }
    else if IsSign c || IsDigit c then
      let r := GetConstantOrSign tk1.is_
      Except.ok { tk1 with is_ := r.2, current_token_ := r.1 }
    else
      match GetSymbol tk1.is_ with
      | Except.error e => Except.error e
      | Except.ok r => Except.ok { tk1 with is_ := r.2, current_token_ := r.1 }

/-- Embeds `Tokenizer::GetToken`. -/
def Tokenizer.GetToken (tk : Tokenizer) : Except Error (Token × Tokenizer) :=
  if tk.current_token_ = Token.monostate then
    match tk.Next with
    | Except.error e => Except.error e
    | Except.ok tk1 => Except.ok (tk1.current_token_, tk1)
  else Except.ok (tk.current_token_, tk)

/-! ## parser.cpp -/

/-- The tree of fresh objects built by the reader: `Null` is `nullptr` (the empty list), the other
constructors are the `make_shared` calls of `Read` and `ReadList`. -/
inductive Tree where
  | Null
  | Number (value : Int)
  | Boolean (value : Bool)
  | Symbol (name : String)
  | Cell (first second : Tree)
  deriving DecidableEq, Repr

/-- The result of the reader: the tree and the tokenizer after it. -/
abbrev ReadResult := Except Error (Tree × Tokenizer)

/-- The body of `ReadList` (the opening bracket has been read); `read` and `readList` are the
recursive calls of `Read` and `ReadList`. -/
def ReadList.body (read readList : Tokenizer → ReadResult) (tk0 : Tokenizer) : ReadResult :=
  let e1 := tk0.IsEnd
  if e1.1 then Except.error Error.SyntaxError
  else
    match e1.2.GetToken with
    | Except.error e => Except.error e
    | Except.ok (t1, tk1) =>
      if t1 = Token.BracketToken BracketToken.CLOSE then
        match tk1.Next with
        | Except.error e => Except.error e
        | Except.ok tk2 => Except.ok (Tree.Null, tk2)
      else if t1 = Token.DotToken then Except.error Error.SyntaxError
      else
        match read tk1 with
        | Except.error e => Except.error e
        | Except.ok (first, tk2) =>
          let e2 := tk2.IsEnd
          if e2.1 then Except.error Error.SyntaxError
          else
            match e2.2.GetToken with
            | Except.error e => Except.error e
            | Except.ok (t2, tk3) =>
              if t2 = Token.DotToken then
                match tk3.Next with
                | Except.error e => Except.error e
                | Except.ok tk4 =>
                  match read tk4 with
                  | Except.error e => Except.error e
                  | Except.ok (second, tk5) =>
                    let e3 := tk5.IsEnd
                    if e3.1 then Except.error Error.SyntaxError
                    else
                      match e3.2.GetToken with
                      | Except.error e => Except.error e
                      | Except.ok (t3, tk6) =>
                        if t3 ≠ Token.BracketToken BracketToken.CLOSE then
                          Except.error Error.SyntaxError
                        else
                          match tk6.Next with
                          | Except.error e => Except.error e
                          | Except.ok tk7 => Except.ok (Tree.Cell first second, tk7)
              else
                match readList tk3 with
                | Except.error e => Except.error e
                | Except.ok (second, tk4) => Except.ok (Tree.Cell first second, tk4)

/-- The body of `Read`; `read` and `readList` are the recursive calls of `Read` and
`ReadList`. -/
def Read.body (read readList : Tokenizer → ReadResult) (tk0 : Tokenizer) : ReadResult :=
  let e1 := tk0.IsEnd
  if e1.1 then Except.error Error.SyntaxError
  else
    match e1.2.GetToken with
    | Except.error e => Except.error e
    | Except.ok (token, tk1) =>
      match tk1.Next with
      | Except.error e => Except.error e
      | Except.ok tk2 =>
        match token with
        | Token.BracketToken BracketToken.CLOSE => Except.error Error.SyntaxError
        | Token.BracketToken BracketToken.OPEN => readList tk2
        | Token.ConstantToken value => Except.ok (Tree.Number value, tk2)
        | Token.SymbolToken name =>
          if name = "#t" then Except.ok (Tree.Boolean true, tk2)
          else if name = "#f" then Except.ok (Tree.Boolean false, tk2)
          else Except.ok (Tree.Symbol name, tk2)
        | Token.QuoteToken =>
          match read tk2 with
          | Except.error e => Except.error e
          | Except.ok (t, tk3) =>
            Except.ok (Tree.Cell (Tree.Symbol "quote") (Tree.Cell t Tree.Null), tk3)
        | Token.DotToken => Except.error Error.SyntaxError
        | Token.monostate => Except.error Error.SyntaxError

mutual

/-- Embeds `ReadList`, with a bound on the depth of the recursion. -/
def ReadList : Nat → Tokenizer → ReadResult
  | 0, _ => Except.error Error.OutOfFuel
  | fuel + 1, tk => ReadList.body (Read fuel) (ReadList fuel) tk

/-- Embeds `Read`: reads one whole expression; with a bound on the depth of the recursion. -/
def Read : Nat → Tokenizer → ReadResult
  | 0, _ => Except.error Error.OutOfFuel
  | fuel + 1, tk => Read.body (Read fuel) (ReadList fuel) tk

end

/-! ## object.h, object.cpp: the objects and the heap -/

/-- A `std::shared_ptr<Object>`: `none` is `nullptr`, `some a` the address of an object. -/
abbrev ObjectPtr := Option Nat

/-- The classes declared with `DECLARE_FUNCTION` in `operations_impl.cpp`. -/
inductive Operator where
  | QuoteOp
  | PlusOp | MinusOp | MultiplyOp | DivideOp | IntegerPredicate
  | EqualOp | LessOp | GreaterOp | LessEqualOp | GreaterEqualOp
  | MinOp | MaxOp | AbsOp
  | PairPredicate | NullPredicate | ListPredicate | ConsOp | CarOp | CdrOp
  | ListOp | ListRef | ListTail
  | BooleanPredicate | NotOp | AndOp | OrOp
  | DefineOp | SetOp | SymbolPredicate | SetCar | SetCdr
  | IfOp | LambdaOp
  deriving DecidableEq, Repr

/-- The subclasses of `Object`. `Builtin` and `Lambda` are the subclasses of `Function`; the
captured `context` of a lambda is the address of a frame. -/
inductive Object where
  | Number (value_ : Int)
  | Boolean (value_ : Bool)
  | Symbol (name_ : String)
  | Cell (first_ second_ : ObjectPtr)
  | Builtin (op : Operator)
  | Lambda (commands : List ObjectPtr) (arg_names : List String) (context : Nat)
  deriving DecidableEq, Repr

/-- The class `Context`: `name_table_` is the `unordered_map` as an association list in which the
first entry of a name is its binding; `upper_` is the address of the enclosing frame. -/
structure Context where
  name_table_ : List (String × ObjectPtr)
  upper_ : Option Nat
  deriving DecidableEq, Repr

/-- The memory of the process: the objects and the frames, each addressed by its position. -/
structure Heap where
  objects : List Object
  contexts : List Context
  deriving DecidableEq, Repr

/-- Embeds `name_table_.contains(name)`. -/
def contains (table : List (String × ObjectPtr)) (name : String) : Bool :=
  (table.lookup name).isSome

/-- Embeds `name_table_[name] = value`: rebinds the name where it is bound, adds it otherwise. -/
def assign : List (String × ObjectPtr) → String → ObjectPtr → List (String × ObjectPtr)
  | [], name, value => [(name, value)]
  | (k, v) :: rest, name, value =>
    if k = name then (k, value) :: rest else (k, v) :: assign rest name value

/-- The loop shared by `Context::Get` and `Context::Set`: from `current_context` upwards, the
first frame whose table contains the name (`none` when the walk reaches `nullptr`). The walk is
bounded by the number of frames of the heap, which a chain without a cycle cannot exceed. -/
def Context.walk (h : Heap) (name : String) : Nat → Option Nat → Except Error (Option Nat)
  | 0, _ => Except.error Error.OutOfFuel
  | _ + 1, none => Except.ok none
  | n + 1, some c =>
    match h.contexts[c]? with
    | none => Except.error Error.Undefined
    | some ctx =>
      if contains ctx.name_table_ name then Except.ok (some c)
      else Context.walk h name n ctx.upper_

/-- Embeds `Context::Get`, called on the frame at address `self`. -/
def Context.Get (h : Heap) (self : Nat) (name : String) : Except Error ObjectPtr :=
  match Context.walk h name (h.contexts.length + 1) (some self) with
  | Except.error e => Except.error e
  | Except.ok none => Except.error Error.NameError
  | Except.ok (some c) =>
    match h.contexts[c]? with
    | none => Except.error Error.Undefined
    | some ctx =>
      match ctx.name_table_.lookup name with
      | none => Except.error Error.Undefined
      | some value => Except.ok value

/-- Embeds `Context::Set`, called on the frame at address `self`; the heap is returned with the
outcome. -/
def Context.Set (self : Nat) (name : String) (value : ObjectPtr) (h : Heap) :
    Except Error Unit × Heap :=
  match Context.walk h name (h.contexts.length + 1) (some self) with
  | Except.error e => (Except.error e, h)
  | Except.ok none => (Except.error Error.NameError, h)
  | Except.ok (some c) =>
    match h.contexts[c]? with
    | none => (Except.error Error.Undefined, h)
    | some ctx =>
      (Except.ok (),
        { h with contexts := h.contexts.set c { ctx with name_table_ := assign ctx.name_table_ name value } })

/-- Embeds `Context::Define`, called on the frame at address `self`. -/
def Context.Define (self : Nat) (name : String) (value : ObjectPtr) (h : Heap) : Heap :=
  match h.contexts[self]? with
  | none => h
  | some ctx =>
    { h with contexts := h.contexts.set self { ctx with name_table_ := assign ctx.name_table_ name value } }

/-- Embeds `std::to_string` on an `int64_t`. -/
def to_string (value : Int) : String :=
  if value < 0 then "-" ++ Nat.repr value.natAbs else Nat.repr value.toNat

/-- The loop and the final branch of `Cell::Serialize`, from the cell `current` with the given
slots; `ser` is `::Serialize` and `res` the text written so far. -/
def Cell.SerializeLoop (ser : ObjectPtr → Except Error String) (h : Heap) :
    Nat → String → ObjectPtr → ObjectPtr → Except Error String
  | 0, _, _, _ => Except.error Error.OutOfFuel
  | n + 1, res, first_, second_ =>
    match second_ with
    | none =>
      match ser first_ with
      | Except.error e => Except.error e
      | Except.ok a => Except.ok (res ++ (a ++ ")"))
    | some b =>
      match h.objects[b]? with
      | none => Except.error Error.Undefined
      | some (Object.Cell f s) =>
        match ser first_ with
        | Except.error e => Except.error e
        | Except.ok a => Cell.SerializeLoop ser h n (res ++ (a ++ " ")) f s
      | some _ =>
        match ser first_ with
        | Except.error e => Except.error e
        | Except.ok a =>
          match ser second_ with
          | Except.error e => Except.error e
          | Except.ok d => Except.ok (res ++ (a ++ " . " ++ d ++ ")"))

/-- The function `::Serialize`, with the virtual `Serialize` of each class; a `Function` does not
override `Object::Serialize`, which throws. -/
def Serialize : Nat → Heap → ObjectPtr → Except Error String
  | 0, _, _ => Except.error Error.OutOfFuel
  | _ + 1, _, none => Except.ok "()"
  | fuel + 1, h, some a =>
    match h.objects[a]? with
    | none => Except.error Error.Undefined
    | some (Object.Number value_) => Except.ok (to_string value_)
    | some (Object.Boolean value_) => Except.ok (if value_ then "#t" else "#f")
    | some (Object.Symbol name_) => Except.ok name_
    | some (Object.Cell first_ second_) =>
      Cell.SerializeLoop (Serialize fuel h) h fuel "(" first_ second_
    | some (Object.Builtin _) => Except.error Error.RuntimeError
    | some (Object.Lambda _ _ _) => Except.error Error.RuntimeError

/-- Embeds `std::make_shared` of an object: the new object is placed at the end of the heap. -/
def Heap.alloc (h : Heap) (o : Object) : ObjectPtr × Heap :=
  (some h.objects.length, { h with objects := h.objects ++ [o] })

/-- Embeds `std::make_shared<Context>(upper)`. -/
def Heap.allocContext (h : Heap) (upper : Option Nat) : Nat × Heap :=
  (h.contexts.length, { h with contexts := h.contexts ++ [⟨[], upper⟩] })

/-- Places the objects of a tree built by the reader in the heap. -/
def Heap.store (h : Heap) : Tree → ObjectPtr × Heap
  | Tree.Null => (none, h)
  | Tree.Number value => h.alloc (Object.Number value)
  | Tree.Boolean value => h.alloc (Object.Boolean value)
  | Tree.Symbol name => h.alloc (Object.Symbol name)
  | Tree.Cell first second =>
    let r1 := h.store first
    let r2 := r1.2.store second
    r2.2.alloc (Object.Cell r1.1 r2.1)

/-! ## The heap as state -/

/-- A computation that reads and changes the heap and may throw; the heap is returned with the
outcome, so that the effects that precede a throw are kept. -/
def M (α : Type) : Type := Heap → Except Error α × Heap

def M.pure {α : Type} (a : α) : M α := fun h => (Except.ok a, h)

def M.bind {α β : Type} (x : M α) (f : α → M β) : M β := fun h =>
  match x h with
  | (Except.ok a, h1) => f a h1
  | (Except.error e, h1) => (Except.error e, h1)

/-- A `throw`. -/
def M.throw {α : Type} (e : Error) : M α := fun h => (Except.error e, h)

/-- A computation that only reads the heap. -/
def M.read {α : Type} (f : Heap → Except Error α) : M α := fun h => (f h, h)

instance : Monad M where
  pure := M.pure
  bind := M.bind

/-- Embeds `std::make_shared` of an object, as a computation. -/
def make (o : Object) : M ObjectPtr := fun h => (Except.ok (h.alloc o).1, (h.alloc o).2)

/-- Embeds `std::make_shared<Context>(upper)`, as a computation. -/
def makeContext (upper : Nat) : M Nat := fun h =>
  (Except.ok (h.allocContext (some upper)).1, (h.allocContext (some upper)).2)

/-- The object behind a pointer that is not null; `nullptr` gives `none`. -/
def deref (ptr : ObjectPtr) : M (Option Object) := fun h =>
  match ptr with
  | none => (Except.ok none, h)
  | some a =>
    match h.objects[a]? with
    | none => (Except.error Error.Undefined, h)
    | some o => (Except.ok (some o), h)

/-- Embeds `VALIDATE_ARGUMENT_TYPE(ptr, Number)` followed by `As<Number>(ptr)->GetValue()`. -/
def asNumber (ptr : ObjectPtr) : M Int := do
  match (← deref ptr) with
  | some (Object.Number value_) => pure value_
  | _ => M.throw Error.RuntimeError

/-- Embeds `VALIDATE_ARGUMENT_TYPE(ptr, Symbol)` followed by `As<Symbol>(ptr)->GetName()`. -/
def asSymbol (ptr : ObjectPtr) : M String := do
  match (← deref ptr) with
  | some (Object.Symbol name_) => pure name_
  | _ => M.throw Error.RuntimeError

/-- Embeds `VALIDATE_ARGUMENT_TYPE(ptr, Cell)`: the address of the cell and its two slots. -/
def asCell (ptr : ObjectPtr) : M (Nat × ObjectPtr × ObjectPtr) := do
  match ptr, (← deref ptr) with
  | some a, some (Object.Cell first_ second_) => pure (a, first_, second_)
  | _, _ => M.throw Error.RuntimeError

/-- Embeds `Is<Number>`, `Is<Boolean>`, `Is<Symbol>`, `Is<Cell>`, `Is<Function>` on an object. -/
def Object.IsNumber : Object → Bool
  | Object.Number _ => true
  | _ => false

def Object.IsBoolean : Object → Bool
  | Object.Boolean _ => true
  | _ => false

def Object.IsSymbol : Object → Bool
  | Object.Symbol _ => true
  | _ => false

def Object.IsCell : Object → Bool
  | Object.Cell _ _ => true
  | _ => false

def Object.IsFunction : Object → Bool
  | Object.Builtin _ => true
  | Object.Lambda _ _ _ => true
  | _ => false

/-- Embeds `Is<T>(ptr)` for the class test `p`; it is false on `nullptr`. -/
def Is (p : Object → Bool) (ptr : ObjectPtr) : M Bool := do
  match (← deref ptr) with
  | some o => pure (p o)
  | none => pure false

/-- The constructor `Boolean::Boolean(ObjectPtr)` followed by `GetValue()`: the value of a
`Boolean`, and true for everything else. -/
def Boolean.ofObject (obj : ObjectPtr) : M Bool := do
  match (← deref obj) with
  | some (Object.Boolean value_) => pure value_
  | _ => pure true

/-! ## operations_impl.cpp -/

/-- The loop of `VectorizeList`, entered on a cell with the given slots. It is bounded by the
number of objects of the heap, which a list without a cycle cannot exceed. -/
def VectorizeList.loop (h : Heap) : Nat → ObjectPtr → ObjectPtr → Except Error (List ObjectPtr)
  | 0, _, _ => Except.error Error.OutOfFuel
  | n + 1, first_, second_ =>
    match second_ with
    | none => Except.ok [first_]
    | some b =>
      match h.objects[b]? with
      | none => Except.error Error.Undefined
      | some (Object.Cell f s) =>
        match VectorizeList.loop h n f s with
        | Except.error e => Except.error e
        | Except.ok l => Except.ok (first_ :: l)
      | some _ => Except.error Error.RuntimeError

/-- Embeds `VectorizeList`. -/
def VectorizeList (list : ObjectPtr) : M (List ObjectPtr) := M.read fun h =>
  match list with
  | none => Except.ok []
  | some a =>
    match h.objects[a]? with
    | none => Except.error Error.Undefined
    | some (Object.Cell f s) => VectorizeList.loop h h.objects.length f s
    | some _ => Except.error Error.RuntimeError

/-- The type of `::Evaluate`, which every `Apply` receives as its first argument. -/
abbrev Evaluator := ObjectPtr → Nat → M ObjectPtr

def QuoteOp.Apply (args : ObjectPtr) (_context : Nat) : M ObjectPtr := do
  let arguments ← VectorizeList args
  match arguments with
  | [a] => pure a
  | _ => M.throw Error.RuntimeError

/-- The loop of `PlusOp::Apply`, `MinusOp::Apply` and `MultiplyOp::Apply`: each argument is
evaluated, checked to be a `Number` and combined with the running result by `op`. Only the last
`make_shared<Number>` of the loop is kept in the heap. -/
def arithLoop (op : Int → Int → Int) (eval : Evaluator) (context : Nat) :
    List ObjectPtr → Int → M Int
  | [], result => pure result
  | arg :: rest, result => do
    let evaluated ← eval arg context
    let v ← asNumber evaluated
    arithLoop op eval context rest (wrap64 (op result v))

def PlusOp.Apply (eval : Evaluator) (args : ObjectPtr) (context : Nat) : M ObjectPtr := do
  let arguments ← VectorizeList args
  let result ← arithLoop (fun x y => x + y) eval context arguments 0
  make (Object.Number result)

def MinusOp.Apply (eval : Evaluator) (args : ObjectPtr) (context : Nat) : M ObjectPtr := do
  let arguments ← VectorizeList args
  match arguments with
  | [] => M.throw Error.RuntimeError
  | a0 :: rest =>
    let first_value ← eval a0 context
    let v ← asNumber first_value
    if rest.isEmpty then make (Object.Number (wrap64 (-v)))
    else do
      let result ← arithLoop (fun x y => x - y) eval context rest v
      make (Object.Number result)

def MultiplyOp.Apply (eval : Evaluator) (args : ObjectPtr) (context : Nat) : M ObjectPtr := do
  let arguments ← VectorizeList args
  let result ← arithLoop (fun x y => x * y) eval context arguments 1
  make (Object.Number result)

/-- The operator `/` on `int64_t`: it truncates towards zero; a zero divisor and the quotient
of the least value by `-1` have no defined behaviour. -/
def divide (x y : Int) : M Int :=
  if y = 0 then M.throw Error.Undefined
  else if x = -(2 ^ 63) ∧ y = -1 then M.throw Error.Undefined
  else pure (Int.tdiv x y)

/-- The loop of `DivideOp::Apply`. -/
def DivideOp.loop (eval : Evaluator) (context : Nat) : List ObjectPtr → Int → M Int
  | [], result => pure result
  | arg :: rest, result => do
    let evaluated ← eval arg context
    let v ← asNumber evaluated
    let q ← divide result v
    DivideOp.loop eval context rest q

def DivideOp.Apply (eval : Evaluator) (args : ObjectPtr) (context : Nat) : M ObjectPtr := do
  let arguments ← VectorizeList args
  match arguments with
  | [] => M.throw Error.RuntimeError
  | a0 :: rest =>
    let first_value ← eval a0 context
    let v ← asNumber first_value
    if rest.isEmpty then do
      let q ← divide 1 v
      make (Object.Number q)
    else do
      let result ← DivideOp.loop eval context rest v
      make (Object.Number result)

/-- The body shared by the predicates of one argument: the argument is evaluated and `test` is
applied to the result. -/
def predicate (test : ObjectPtr → M Bool) (eval : Evaluator) (args : ObjectPtr) (context : Nat) :
    M ObjectPtr := do
  let arguments ← VectorizeList args
  match arguments with
  | [a] =>
    let evaluated ← eval a context
    let b ← test evaluated
    make (Object.Boolean b)
  | _ => M.throw Error.RuntimeError

def IntegerPredicate.Apply : Evaluator → ObjectPtr → Nat → M ObjectPtr :=
  predicate (Is Object.IsNumber)

/-- The loop of `EqualOp::Apply`, which runs over all the arguments, the first included. -/
def EqualOp.loop (eval : Evaluator) (context : Nat) (first_value : Int) :
    List ObjectPtr → M Bool
  | [] => pure true
  | arg :: rest => do
    let evaluated ← eval arg context
    let v ← asNumber evaluated
    if first_value ≠ v then pure false
    else EqualOp.loop eval context first_value rest

def EqualOp.Apply (eval : Evaluator) (args : ObjectPtr) (context : Nat) : M ObjectPtr := do
  let arguments ← VectorizeList args
  match arguments with
  | [] => make (Object.Boolean true)
  | [_] => make (Object.Boolean true)
  | a0 :: a1 :: rest =>
    let first_value ← eval a0 context
    let v ← asNumber first_value
    let b ← EqualOp.loop eval context v (a0 :: a1 :: rest)
    make (Object.Boolean b)

/-- The loop of `LessOp::Apply`, `GreaterOp::Apply`, `LessEqualOp::Apply` and
`GreaterEqualOp::Apply`, which differ in the relation `rel` only. -/
def compareLoop (rel : Int → Int → Bool) (eval : Evaluator) (context : Nat) :
    List ObjectPtr → Int → M Bool
  | [], _ => pure true
  | arg :: rest, previous_value => do
    let evaluated ← eval arg context
    let v ← asNumber evaluated
    if !rel previous_value v then pure false
    else compareLoop rel eval context rest v

/-- The body of the four ordering operators. -/
def compareApply (rel : Int → Int → Bool) (eval : Evaluator) (args : ObjectPtr) (context : Nat) :
    M ObjectPtr := do
  let arguments ← VectorizeList args
  match arguments with
  | [] => make (Object.Boolean true)
  | [_] => make (Object.Boolean true)
  | a0 :: a1 :: rest =>
    let previous_value ← eval a0 context
    let v ← asNumber previous_value
    let b ← compareLoop rel eval context (a1 :: rest) v
    make (Object.Boolean b)

def LessOp.Apply : Evaluator → ObjectPtr → Nat → M ObjectPtr :=
  compareApply (fun x y => decide (x < y))

def GreaterOp.Apply : Evaluator → ObjectPtr → Nat → M ObjectPtr :=
  compareApply (fun x y => decide (x > y))

def LessEqualOp.Apply : Evaluator → ObjectPtr → Nat → M ObjectPtr :=
  compareApply (fun x y => decide (x ≤ y))

def GreaterEqualOp.Apply : Evaluator → ObjectPtr → Nat → M ObjectPtr :=
  compareApply (fun x y => decide (x ≥ y))

/-- The body of `MinOp::Apply` and `MaxOp::Apply`, which differ in `pick` only: the first
argument is evaluated, then the loop runs over all the arguments, the first included. -/
def extremumApply (pick : Int → Int → Int) (eval : Evaluator) (args : ObjectPtr) (context : Nat) :
    M ObjectPtr := do
  let arguments ← VectorizeList args
  match arguments with
  | [] => M.throw Error.RuntimeError
  | a0 :: rest =>
    let evaluated ← eval a0 context
    let v ← asNumber evaluated
    let result ← arithLoop pick eval context (a0 :: rest) v
    make (Object.Number result)

def MinOp.Apply : Evaluator → ObjectPtr → Nat → M ObjectPtr :=
  extremumApply (fun x y => min x y)

def MaxOp.Apply : Evaluator → ObjectPtr → Nat → M ObjectPtr :=
  extremumApply (fun x y => max x y)

def AbsOp.Apply (eval : Evaluator) (args : ObjectPtr) (context : Nat) : M ObjectPtr := do
  let arguments ← VectorizeList args
  match arguments with
  | [a] =>
    let evaluated ← eval a context
    let v ← asNumber evaluated
    make (Object.Number (wrap64 (if v < 0 then -v else v)))
  | _ => M.throw Error.RuntimeError

def BooleanPredicate.Apply : Evaluator → ObjectPtr → Nat → M ObjectPtr :=
  predicate (Is Object.IsBoolean)

def NotOp.Apply : Evaluator → ObjectPtr → Nat → M ObjectPtr :=
  predicate (fun evaluated => do
    let b ← Boolean.ofObject evaluated
    pure (!b))

/-- The loop of `AndOp::Apply`; `evaluated` is the value of the last argument evaluated. -/
def AndOp.loop (eval : Evaluator) (context : Nat) : List ObjectPtr → ObjectPtr → M ObjectPtr
  | [], evaluated => pure evaluated
  | arg :: rest, _ => do
    let evaluated ← eval arg context
    let b ← Boolean.ofObject evaluated
    if !b then pure evaluated
    else AndOp.loop eval context rest evaluated

def AndOp.Apply (eval : Evaluator) (args : ObjectPtr) (context : Nat) : M ObjectPtr := do
  let arguments ← VectorizeList args
  if arguments.isEmpty then make (Object.Boolean true)
  else AndOp.loop eval context arguments none

/-- The loop of `OrOp::Apply`. -/
def OrOp.loop (eval : Evaluator) (context : Nat) : List ObjectPtr → M ObjectPtr
  | [] => make (Object.Boolean false)
  | arg :: rest => do
    let evaluated ← eval arg context
    let b ← Boolean.ofObject evaluated
    if b then pure evaluated
    else OrOp.loop eval context rest

def OrOp.Apply (eval : Evaluator) (args : ObjectPtr) (context : Nat) : M ObjectPtr := do
  let arguments ← VectorizeList args
  if arguments.isEmpty then make (Object.Boolean false)
  else OrOp.loop eval context arguments

def PairPredicate.Apply : Evaluator → ObjectPtr → Nat → M ObjectPtr :=
  predicate (Is Object.IsCell)

def NullPredicate.Apply : Evaluator → ObjectPtr → Nat → M ObjectPtr :=
  predicate (fun evaluated => pure evaluated.isNone)

/-- The loop `while (Is<Cell>(ptr)) ptr = As<Cell>(ptr)->GetSecond()` of `ListPredicate::Apply`,
bounded by the number of objects of the heap. -/
def ListPredicate.walk (h : Heap) : Nat → ObjectPtr → Except Error ObjectPtr
  | 0, _ => Except.error Error.OutOfFuel
  | _ + 1, none => Except.ok none
  | n + 1, some a =>
    match h.objects[a]? with
    | none => Except.error Error.Undefined
    | some (Object.Cell _ s) => ListPredicate.walk h n s
    | some _ => Except.ok (some a)

/-- Embeds `ListPredicate::Apply`: the end of the chain of cells is compared with `nullptr` and, when
it is an object, evaluated in the current scope and the result compared with `nullptr`. -/
def ListPredicate.Apply (eval : Evaluator) (args : ObjectPtr) (context : Nat) : M ObjectPtr := do
  let arguments ← VectorizeList args
  match arguments with
  | [a] =>
    let evaluated ← eval a context
    let ptr ← M.read fun h => ListPredicate.walk h (h.objects.length + 1) evaluated
    match ptr with
    | none => make (Object.Boolean true)
    | some _ =>
      let r ← eval ptr context
      make (Object.Boolean r.isNone)
  | _ => M.throw Error.RuntimeError

/-- Embeds `ConsOp::Apply`. C++ leaves the order of the two evaluations unspecified; the embedding takes
them from left to right. -/
def ConsOp.Apply (eval : Evaluator) (args : ObjectPtr) (context : Nat) : M ObjectPtr := do
  let arguments ← VectorizeList args
  match arguments with
  | [a0, a1] =>
    let first ← eval a0 context
    let second ← eval a1 context
    make (Object.Cell first second)
  | _ => M.throw Error.RuntimeError

def CarOp.Apply (eval : Evaluator) (args : ObjectPtr) (context : Nat) : M ObjectPtr := do
  let arguments ← VectorizeList args
  match arguments with
  | [a] =>
    let evaluated ← eval a context
    let c ← asCell evaluated
    pure c.2.1
  | _ => M.throw Error.RuntimeError

def CdrOp.Apply (eval : Evaluator) (args : ObjectPtr) (context : Nat) : M ObjectPtr := do
  let arguments ← VectorizeList args
  match arguments with
  | [a] =>
    let evaluated ← eval a context
    let c ← asCell evaluated
    pure c.2.2
  | _ => M.throw Error.RuntimeError

/-- The recursion of `ListOp::Apply` on its argument list, which it copies cell by cell without
evaluating the elements. -/
def ListOp.copy : Nat → ObjectPtr → M ObjectPtr
  | 0, _ => M.throw Error.OutOfFuel
  | _ + 1, none => pure none
  | n + 1, some a => do
    let c ← asCell (some a)
    let rest ← ListOp.copy n c.2.2
    make (Object.Cell c.2.1 rest)

def ListOp.Apply (_eval : Evaluator) (args : ObjectPtr) (_context : Nat) : M ObjectPtr := do
  let n ← M.read fun h => Except.ok h.objects.length
  ListOp.copy (n + 1) args

/-- The element `list[i]` of a vector. -/
def elementAt (list : List ObjectPtr) (i : Nat) : M ObjectPtr :=
  match list[i]? with
  | some x => pure x
  | none => M.throw Error.Undefined

def ListRef.Apply (eval : Evaluator) (args : ObjectPtr) (context : Nat) : M ObjectPtr := do
  let arguments ← VectorizeList args
  match arguments with
  | [a0, a1] =>
    let eval_list ← eval a0 context
    let eval_ind ← eval a1 context
    let k ← asNumber eval_ind
    let list ← VectorizeList eval_list
    if k < 0 ∨ k.toNat ≥ list.length then M.throw Error.RuntimeError
    else elementAt list k.toNat
  | _ => M.throw Error.RuntimeError

/-- The loop `result = As<Cell>(result)->GetSecond()` of `ListTail::Apply`, run `k` times. -/
def ListTail.loop : Nat → ObjectPtr → M ObjectPtr
  | 0, result => pure result
  | k + 1, result => do
    match (← deref result) with
    | some (Object.Cell _ s) => ListTail.loop k s
    | _ => M.throw Error.Undefined

def ListTail.Apply (eval : Evaluator) (args : ObjectPtr) (context : Nat) : M ObjectPtr := do
  let arguments ← VectorizeList args
  match arguments with
  | [a0, a1] =>
    let eval_list ← eval a0 context
    let eval_ind ← eval a1 context
    let k ← asNumber eval_ind
    let list ← VectorizeList eval_list
    if k < 0 ∨ k.toNat > list.length then M.throw Error.RuntimeError
    else ListTail.loop k.toNat eval_list
  | _ => M.throw Error.RuntimeError

/-- Embeds `context->Define(name, value)` as a computation. -/
def define (context : Nat) (name : String) (value : ObjectPtr) : M Unit := fun h =>
  (Except.ok (), Context.Define context name value h)

/-- The loop that checks each parameter to be a `Symbol` and collects the names. -/
def argNames : List ObjectPtr → M (List String)
  | [] => pure []
  | arg_name :: rest => do
    let name ← asSymbol arg_name
    let names ← argNames rest
    pure (name :: names)

def DefineOp.Apply (eval : Evaluator) (args : ObjectPtr) (context : Nat) : M ObjectPtr := do
  let arguments ← VectorizeList args
  match arguments with
  | [] => M.throw Error.SyntaxError
  | eval_name :: commands =>
    if ← Is Object.IsSymbol eval_name then
      match commands with
      | [a1] =>
        let eval_val ← eval a1 context
        let name ← asSymbol eval_name
        define context name eval_val
        make (Object.Symbol name)
      | _ => M.throw Error.SyntaxError
    else if !(← Is Object.IsCell eval_name) then M.throw Error.SyntaxError
    else do
      let name_args ← VectorizeList eval_name
      match name_args with
      | [] => M.throw Error.Undefined
      | real_name_obj :: arg_name_list =>
        let real_name ← asSymbol real_name_obj
        let lambda_scope ← makeContext context
        let arg_names ← argNames arg_name_list
        let result ← make (Object.Lambda commands arg_names lambda_scope)
        define context real_name result
        make (Object.Symbol real_name)

def SetOp.Apply (eval : Evaluator) (args : ObjectPtr) (context : Nat) : M ObjectPtr := do
  let arguments ← VectorizeList args
  match arguments with
  | [eval_name, a1] =>
    let eval_val ← eval a1 context
    let name ← asSymbol eval_name
    let ret ← M.read fun h => Context.Get h context name
    Context.Set context name eval_val
    pure ret
  | _ => M.throw Error.SyntaxError

/-- Embeds `As<Cell>(ptr)->SetFirst(value)`. -/
def SetFirst (a : Nat) (value : ObjectPtr) : M Unit := fun h =>
  match h.objects[a]? with
  | some (Object.Cell _ s) => (Except.ok (), { h with objects := h.objects.set a (Object.Cell value s) })
  | _ => (Except.error Error.Undefined, h)

/-- Embeds `As<Cell>(ptr)->SetSecond(value)`. -/
def SetSecond (a : Nat) (value : ObjectPtr) : M Unit := fun h =>
  match h.objects[a]? with
  | some (Object.Cell f _) => (Except.ok (), { h with objects := h.objects.set a (Object.Cell f value) })
  | _ => (Except.error Error.Undefined, h)

def SetCar.Apply (eval : Evaluator) (args : ObjectPtr) (context : Nat) : M ObjectPtr := do
  let arguments ← VectorizeList args
  match arguments with
  | [a0, a1] =>
    let eval_name ← eval a0 context
    let eval_val ← eval a1 context
    let c ← asCell eval_name
    SetFirst c.1 eval_val
    pure none
  | _ => M.throw Error.SyntaxError

def SetCdr.Apply (eval : Evaluator) (args : ObjectPtr) (context : Nat) : M ObjectPtr := do
  let arguments ← VectorizeList args
  match arguments with
  | [a0, a1] =>
    let eval_name ← eval a0 context
    let eval_val ← eval a1 context
    let c ← asCell eval_name
    SetSecond c.1 eval_val
    pure none
  | _ => M.throw Error.SyntaxError

def SymbolPredicate.Apply : Evaluator → ObjectPtr → Nat → M ObjectPtr :=
  predicate (Is Object.IsSymbol)

def IfOp.Apply (eval : Evaluator) (args : ObjectPtr) (context : Nat) : M ObjectPtr := do
  let arguments ← VectorizeList args
  match arguments with
  | [a0, a1] =>
    let eval_condition ← eval a0 context
    if ← Boolean.ofObject eval_condition then eval a1 context
    else pure none
  | [a0, a1, a2] =>
    let eval_condition ← eval a0 context
    if ← Boolean.ofObject eval_condition then eval a1 context
    else eval a2 context
  | _ => M.throw Error.SyntaxError

def LambdaOp.Apply (_eval : Evaluator) (args : ObjectPtr) (context : Nat) : M ObjectPtr := do
  let lambda_scope ← makeContext context
  let argumets ← VectorizeList args
  match argumets with
  | a0 :: c0 :: commands =>
    let arg_name_list ← VectorizeList a0
    let arg_names ← argNames arg_name_list
    make (Object.Lambda (c0 :: commands) arg_names lambda_scope)
  | _ => M.throw Error.SyntaxError

/-- The first loop of `Lambda::Apply`: each argument is evaluated in the scope of the caller and
bound to its parameter in the new frame. -/
def Lambda.bindLoop (eval : Evaluator) (contextp cur_context : Nat) :
    List String → List ObjectPtr → M Unit
  | name :: names, arg :: arguments => do
    let value ← eval arg contextp
    define cur_context name value
    Lambda.bindLoop eval contextp cur_context names arguments
  | _, _ => pure ()

/-- The second loop of `Lambda::Apply`: the commands are evaluated in order in the new frame. -/
def Lambda.bodyLoop (eval : Evaluator) (cur_context : Nat) : List ObjectPtr → ObjectPtr → M ObjectPtr
  | [], last_result => pure last_result
  | cmd :: rest, _ => do
    let r ← eval cmd cur_context
    Lambda.bodyLoop eval cur_context rest r

/-- Embeds `Lambda::Apply` on the lambda with the given `commands`, `arg_names` and `context`. -/
def Lambda.Apply (eval : Evaluator) (commands : List ObjectPtr) (arg_names : List String)
    (context : Nat) (args : ObjectPtr) (contextp : Nat) : M ObjectPtr := do
  let arguments ← VectorizeList args
  if arguments.length ≠ arg_names.length then M.throw Error.RuntimeError
  else do
    let cur_context ← makeContext context
    Lambda.bindLoop eval contextp cur_context arg_names arguments
    Lambda.bodyLoop eval cur_context commands none

/-- The virtual call `Apply` on an operator. -/
def Operator.Apply (eval : Evaluator) : Operator → ObjectPtr → Nat → M ObjectPtr
  | Operator.QuoteOp => QuoteOp.Apply
  | Operator.PlusOp => PlusOp.Apply eval
  | Operator.MinusOp => MinusOp.Apply eval
  | Operator.MultiplyOp => MultiplyOp.Apply eval
  | Operator.DivideOp => DivideOp.Apply eval
  | Operator.IntegerPredicate => IntegerPredicate.Apply eval
  | Operator.EqualOp => EqualOp.Apply eval
  | Operator.LessOp => LessOp.Apply eval
  | Operator.GreaterOp => GreaterOp.Apply eval
  | Operator.LessEqualOp => LessEqualOp.Apply eval
  | Operator.GreaterEqualOp => GreaterEqualOp.Apply eval
  | Operator.MinOp => MinOp.Apply eval
  | Operator.MaxOp => MaxOp.Apply eval
  | Operator.AbsOp => AbsOp.Apply eval
  | Operator.PairPredicate => PairPredicate.Apply eval
  | Operator.NullPredicate => NullPredicate.Apply eval
  | Operator.ListPredicate => ListPredicate.Apply eval
  | Operator.ConsOp => ConsOp.Apply eval
  | Operator.CarOp => CarOp.Apply eval
  | Operator.CdrOp => CdrOp.Apply eval
  | Operator.ListOp => ListOp.Apply eval
  | Operator.ListRef => ListRef.Apply eval
  | Operator.ListTail => ListTail.Apply eval
  | Operator.BooleanPredicate => BooleanPredicate.Apply eval
  | Operator.NotOp => NotOp.Apply eval
  | Operator.AndOp => AndOp.Apply eval
  | Operator.OrOp => OrOp.Apply eval
  | Operator.DefineOp => DefineOp.Apply eval
  | Operator.SetOp => SetOp.Apply eval
  | Operator.SymbolPredicate => SymbolPredicate.Apply eval
  | Operator.SetCar => SetCar.Apply eval
  | Operator.SetCdr => SetCdr.Apply eval
  | Operator.IfOp => IfOp.Apply eval
  | Operator.LambdaOp => LambdaOp.Apply eval

/-- The virtual call `As<Function>(evaluated)->Apply(args, context)`. -/
def Function.Apply (eval : Evaluator) (f : Object) (args : ObjectPtr) (context : Nat) :
    M ObjectPtr :=
  match f with
  | Object.Builtin op => Operator.Apply eval op args context
  | Object.Lambda commands arg_names ctx => Lambda.Apply eval commands arg_names ctx args context
  | _ => M.throw Error.Undefined

/-! ## object.cpp: evaluation -/

/-- Embeds `Cell::Evaluate` on a cell with the given slots. -/
def Cell.Evaluate (eval : Evaluator) (first_ second_ : ObjectPtr) (context : Nat) : M ObjectPtr := do
  let evaluated ← eval first_ context
  match (← deref evaluated) with
  | some f =>
    if !f.IsFunction then M.throw Error.RuntimeError
    else Function.Apply eval f second_ context
  | none => M.throw Error.RuntimeError

/-- The function `::Evaluate`, with the virtual `Evaluate` of each class. Each call consumes one
unit of fuel. -/
def Evaluate : Nat → ObjectPtr → Nat → M ObjectPtr
  | 0, _, _ => M.throw Error.OutOfFuel
  | _ + 1, none, _ => M.throw Error.RuntimeError
  | fuel + 1, some a, context => do
    match (← deref (some a)) with
    | some (Object.Number _) => pure (some a)
    | some (Object.Boolean _) => pure (some a)
    | some (Object.Symbol name_) => M.read fun h => Context.Get h context name_
    | some (Object.Cell first_ second_) => Cell.Evaluate (Evaluate fuel) first_ second_ context
    | some (Object.Builtin _) => M.throw Error.RuntimeError
    | some (Object.Lambda _ _ _) => M.throw Error.RuntimeError
    | none => M.throw Error.Undefined

/-! ## operations_impl.cpp: the keywords -/

/-- The table of `Context::GetKeywords`, in the order of the `REGISTER_KEYWORD` lines. -/
def keywordTable : List (String × Operator) :=
  [("+", Operator.PlusOp), ("-", Operator.MinusOp), ("*", Operator.MultiplyOp),
   ("/", Operator.DivideOp), ("number?", Operator.IntegerPredicate), ("=", Operator.EqualOp),
   ("<", Operator.LessOp), (">", Operator.GreaterOp), ("<=", Operator.LessEqualOp),
   (">=", Operator.GreaterEqualOp), ("min", Operator.MinOp), ("max", Operator.MaxOp),
   ("abs", Operator.AbsOp), ("pair?", Operator.PairPredicate), ("null?", Operator.NullPredicate),
   ("list?", Operator.ListPredicate), ("cons", Operator.ConsOp), ("car", Operator.CarOp),
   ("cdr", Operator.CdrOp), ("list", Operator.ListOp), ("list-ref", Operator.ListRef),
   ("list-tail", Operator.ListTail), ("boolean?", Operator.BooleanPredicate),
   ("not", Operator.NotOp), ("and", Operator.AndOp), ("or", Operator.OrOp),
   ("quote", Operator.QuoteOp), ("define", Operator.DefineOp), ("set!", Operator.SetOp),
   ("set-car!", Operator.SetCar), ("set-cdr!", Operator.SetCdr),
   ("symbol?", Operator.SymbolPredicate), ("if", Operator.IfOp), ("lambda", Operator.LambdaOp)]

/-- The frame built by `Context::GetKeywords`: the operator objects are the objects `0` to `33`
of the heap and the frame has no upper frame. -/
def keywordContext : Context :=
  ⟨(List.range keywordTable.length).zipWith (fun i kw => (kw.1, some i)) keywordTable, none⟩

/-! ## scheme.h, scheme.cpp -/

/-- The class `Interpreter` together with the memory of the process. The frame of
`Context::GetKeywords` is the frame `0` of the heap. -/
structure Interpreter where
  heap : Heap
  global_context_ : Nat
  deriving DecidableEq, Repr

/-- The constructor `Interpreter::Interpreter` in a new process: the heap holds the operator
objects and the keyword frame, and the global frame is a new frame above the keyword frame. -/
def Interpreter.new : Interpreter :=
  ⟨⟨keywordTable.map (fun kw => Object.Builtin kw.2), [keywordContext, ⟨[], some 0⟩]⟩, 1⟩

/-- Embeds `Interpreter::Run`. The outcome is returned with the interpreter, whose heap keeps the
effects of the evaluation. -/
def Interpreter.Run (fuel : Nat) (self : Interpreter) (s : String) :
    Except Error String × Interpreter :=
  match Read fuel (Tokenizer.new s.data) with
  | Except.error e => (Except.error e, self)
  | Except.ok (ast, tokenizer) =>
    if !tokenizer.IsEnd.1 then (Except.error Error.SyntaxError, self)
    else
      let stored := self.heap.store ast
      match Evaluate fuel stored.1 self.global_context_ stored.2 with
      | (Except.error e, h) => (Except.error e, { self with heap := h })
      | (Except.ok result, h) => (Serialize fuel h result, { self with heap := h })

/-! ## Notions used to state the properties -/

/-- The scope chain that starts at a frame pointer: the frames met by following `upper_`, each
with its address, innermost first. -/
inductive IsChain (h : Heap) : Option Nat → List (Nat × Context) → Prop where
  | nil : IsChain h none []
  | cons {c : Nat} {ctx : Context} {rest : List (Nat × Context)} :
      h.contexts[c]? = some ctx → IsChain h ctx.upper_ rest → IsChain h (some c) ((c, ctx) :: rest)

/-- Whether a frame of a chain holds a name. -/
def holds (name : String) (f : Nat × Context) : Bool :=
  contains f.2.name_table_ name

/-- The binding of a name in the frame at an address, when the frame exists and binds it. -/
def Heap.binding (h : Heap) (a : Nat) (name : String) : Option ObjectPtr :=
  match h.contexts[a]? with
  | none => none
  | some ctx => ctx.name_table_.lookup name

/-- The enclosing frame of the frame at an address. -/
def Heap.upper (h : Heap) (a : Nat) : Option Nat :=
  match h.contexts[a]? with
  | none => none
  | some ctx => ctx.upper_

/-! ## Example heaps -/

/-- A heap with two frames: the frame `1` binds `y` and lies above the frame `0`, which binds
`x` and `y`. -/
def exampleHeap : Heap :=
  ⟨[Object.Number 1, Object.Number 2, Object.Number 3],
   [⟨[("x", some 0), ("y", some 1)], none⟩, ⟨[("y", some 2)], some 0⟩]⟩

/-- The scope chain of `exampleHeap` from the frame `1`. -/
def exampleChain : List (Nat × Context) :=
  [(1, ⟨[("y", some 2)], some 0⟩), (0, ⟨[("x", some 0), ("y", some 1)], none⟩)]

/-- A heap in which the symbol `q` is bound to the operator `quote`, with the list `(q q)` at
the address `3` and the list `(1)` at the address `5`. -/
def exampleHeapCell : Heap :=
  ⟨[Object.Builtin Operator.QuoteOp, Object.Symbol "q", Object.Cell (some 1) none,
    Object.Cell (some 1) (some 2), Object.Number 1, Object.Cell (some 4) none],
   [⟨[("q", some 0)], none⟩]⟩

/-- The value of a digit character. -/
def digitValue (c : Char) : Int := (c.toNat : Int) - 48

/-- The decimal value of a run of digits. -/
def decimalValue (ds : List Char) : Int :=
  ds.foldl (fun v c => v * 10 + digitValue c) 0

/-- A pointer into the heap represents a tree of numbers, booleans, symbols, pairs and the empty
value: the value that is built from these, read through the heap. -/
inductive Represents (h : Heap) : ObjectPtr → Tree → Prop where
  | null : Represents h none Tree.Null
  | number {a : Nat} {v : Int} :
      h.objects[a]? = some (Object.Number v) → Represents h (some a) (Tree.Number v)
  | boolean {a : Nat} {b : Bool} :
      h.objects[a]? = some (Object.Boolean b) → Represents h (some a) (Tree.Boolean b)
  | symbol {a : Nat} {name : String} :
      h.objects[a]? = some (Object.Symbol name) → Represents h (some a) (Tree.Symbol name)
  | cell {a : Nat} {f s : ObjectPtr} {tf ts : Tree} :
      h.objects[a]? = some (Object.Cell f s) → Represents h f tf → Represents h s ts →
      Represents h (some a) (Tree.Cell tf ts)

/-- The number of nodes of a tree. -/
def Tree.size : Tree → Nat
  | Tree.Cell a b => 1 + a.size + b.size
  | _ => 1

/-- The chain of pairs with the given elements and the given final tail. -/
def Tree.chain : List Tree → Tree → Tree
  | [], tail => tail
  | t :: ts, tail => Tree.Cell t (Tree.chain ts tail)

/-- Whether a tree is neither a pair nor the empty value. -/
def Tree.isAtom : Tree → Bool
  | Tree.Null => false
  | Tree.Cell _ _ => false
  | _ => true

mutual

/-- The reference printer, after the words of the specification: the empty value prints `()`,
an integer in decimal, a boolean `#t` or `#f`, a symbol its name; a chain of pairs prints `(`,
the prints of its elements joined by single spaces, then ` . ` and the print of the final tail
when that tail is not the empty value, then `)`. -/
def printRef : Tree → String
  | Tree.Null => "()"
  | Tree.Number value => to_string value
  | Tree.Boolean value => if value then "#t" else "#f"
  | Tree.Symbol name => name
  | Tree.Cell a b =>
    "(" ++ " ".intercalate (printRef a :: printElements b) ++ printFinalTail b ++ ")"

/-- The prints of the elements of the chain of pairs that starts at a tail. -/
def printElements : Tree → List String
  | Tree.Cell a b => printRef a :: printElements b
  | _ => []

/-- The text for the final tail of the chain of pairs that starts at a tail: nothing for the
empty value, ` . ` and its print otherwise. -/
def printFinalTail : Tree → String
  | Tree.Cell _ b => printFinalTail b
  | Tree.Null => ""
  | Tree.Number value => " . " ++ to_string value
  | Tree.Boolean value => " . " ++ (if value then "#t" else "#f")
  | Tree.Symbol name => " . " ++ name

end

/-- The text that follows the first element in the print of a chain of pairs, by recursion on
the tail. -/
def tailString : Tree → String
  | Tree.Null => ")"
  | Tree.Cell a b => " " ++ (printRef a ++ tailString b)
  | Tree.Number value => " . " ++ to_string value ++ ")"
  | Tree.Boolean value => " . " ++ (if value then "#t" else "#f") ++ ")"
  | Tree.Symbol name => " . " ++ name ++ ")"

/-- What `Tokenizer::Next` reads from a stream: after the leading spaces, the end of input
(`none`) or the next token and the rest of the stream. -/
def nextToken (s : List Char) : Except Error (Option (Token × List Char)) :=
  match s.dropWhile isspace with
  | [] => Except.ok none
  | c :: r =>
    if IsParen c then Except.ok (some (GetParen (c :: r)))
    else if IsDot c then Except.ok (some (GetDot (c :: r)))
    else if IsQuote c then Except.ok (some (GetQuote (c :: r)))
    else if IsSign c || IsDigit c then Except.ok (some (GetConstantOrSign (c :: r)))
    else
      match GetSymbol (c :: r) with
      | Except.error e => Except.error e
      | Except.ok x => Except.ok (some x)

/-- The tokenizer on the stream continued by `sfx`. -/
def Tokenizer.extend (sfx : List Char) (tk : Tokenizer) : Tokenizer :=
  { tk with is_ := tk.is_ ++ sfx }

/-- A character that ends every token before it: it is no digit and does not continue a symbol
(a space, a bracket, a dot, a quote, `+`, or a character of no token). -/
def stopper (d : Char) : Bool := !IsContinuingCharOfSymbol d

/-- The tokenizer after the reader, on the stream continued by `sfx`: when the reader stopped at
the end of the stream, the token it holds in advance is now read from `sfx`; otherwise the rest
of the stream is continued by `sfx`. -/
def Tokenizer.continued (sfx : List Char) (tk : Tokenizer) : Except Error Tokenizer :=
  if tk.is_end_ then (Tokenizer.mk sfx tk.current_token_ false).Next
  else Except.ok (tk.extend sfx)

/-- The outcome of the reader on the stream continued by `sfx`, in terms of its outcome `r` on
the stream itself. -/
def extendResult (sfx : List Char) (r : Tree × Tokenizer) : ReadResult :=
  match r.2.continued sfx with
  | Except.error e => Except.error e
  | Except.ok t => Except.ok (r.1, t)

/-- The property of a reading function that the theorem on continued streams establishes. -/
def Extends (sfx : List Char) (read : Tokenizer → ReadResult) : Prop :=
  ∀ tk r, tk.current_token_ ≠ Token.monostate → tk.is_end_ = false → read tk = Except.ok r →
    r.2.current_token_ ≠ Token.monostate ∧ read (tk.extend sfx) = extendResult sfx r

/-- A reading function that fails at the end of the stream. -/
def FailsAtEnd (read : Tokenizer → ReadResult) : Prop :=
  ∀ tk r, tk.current_token_ ≠ Token.monostate → tk.is_end_ = true → read tk ≠ Except.ok r

/-- A heap that keeps the objects of another one at their addresses. -/
def Heap.Extends (h2 h : Heap) : Prop :=
  ∃ new : List Object, h2.objects = h.objects ++ new

/-! ## Lists in the heap -/

/-- The chain of pairs that starts at a pointer: the cells met by following the tail slots, each
with its address and its head, and the final tail, which is the empty value or an object that is
no pair. -/
inductive TailPath (h : Heap) : ObjectPtr → List (Nat × ObjectPtr) → ObjectPtr → Prop where
  | null : TailPath h none [] none
  | atom {a : Nat} {o : Object} :
      h.objects[a]? = some o → o.IsCell = false → TailPath h (some a) [] (some a)
  | cell {a : Nat} {f s : ObjectPtr} {path : List (Nat × ObjectPtr)} {t : ObjectPtr} :
      h.objects[a]? = some (Object.Cell f s) → TailPath h s path t →
      TailPath h (some a) ((a, f) :: path) t

/-- A pointer is a proper list with the given elements: the empty value, or a pair whose head
is the first element and whose tail is a proper list of the other elements. -/
inductive ListOf (h : Heap) : ObjectPtr → List ObjectPtr → Prop where
  | nil : ListOf h none []
  | cons {a : Nat} {f s : ObjectPtr} {rest : List ObjectPtr} :
      h.objects[a]? = some (Object.Cell f s) → ListOf h s rest → ListOf h (some a) (f :: rest)

/-- A pointer is an object that is no proper list: an object that is no pair, or a chain of
pairs whose final tail is such an object. -/
inductive ImproperList (h : Heap) : ObjectPtr → Prop where
  | atom {a : Nat} {o : Object} :
      h.objects[a]? = some o → o.IsCell = false → ImproperList h (some a)
  | cons {a : Nat} {f s : ObjectPtr} :
      h.objects[a]? = some (Object.Cell f s) → ImproperList h s → ImproperList h (some a)

/-! ## repl.cpp -/

/-- The loop of `main` in `repl.cpp` on the lines of the input: each line is given to `Run` of
the one interpreter, and its print or its error is the output for the line. -/
def repl.loop (fuel : Nat) : Interpreter → List String → List (Except Error String)
  | _, [] => []
  | interpreter, s :: rest =>
    (interpreter.Run fuel s).1 :: repl.loop fuel (interpreter.Run fuel s).2 rest

/-- Embeds `main` of `repl.cpp`: the outputs for the lines of the input, from a new interpreter. -/
def repl.main (fuel : Nat) (lines : List String) : List (Except Error String) :=
  repl.loop fuel Interpreter.new lines

/-! ## Truth values and example arguments -/

/-- A value is the boolean `#f`. -/
def IsFalse (h : Heap) (v : ObjectPtr) : Prop :=
  ∃ a, v = some a ∧ h.objects[a]? = some (Object.Boolean false)

/-- A value is not the boolean `#f`: the empty value, or an object other than `#f`. -/
def IsTrue (h : Heap) (v : ObjectPtr) : Prop :=
  v = none ∨ ∃ a o, v = some a ∧ h.objects[a]? = some o ∧ o ≠ Object.Boolean false

/-- A heap with one frame, which binds `x` to `2`, and with the argument lists `(0 1 2)` at the
address `6`, `(#f 1 2)` at `7`, `(x 1)` at `10`, `(#f #f)` at `12` and `(1 . 2)` at `13`. -/
def exampleHeapArgs : Heap :=
  ⟨[Object.Number 0, Object.Number 1, Object.Number 2, Object.Boolean false,
    Object.Cell (some 2) none, Object.Cell (some 1) (some 4), Object.Cell (some 0) (some 5),
    Object.Cell (some 3) (some 5), Object.Symbol "x", Object.Cell (some 1) none,
    Object.Cell (some 8) (some 9), Object.Cell (some 3) none, Object.Cell (some 3) (some 11),
    Object.Cell (some 1) (some 2)],
   [⟨[("x", some 2)], none⟩]⟩

/-- The evaluation of a sequence of expressions in one scope, from left to right, each from the
heap left by the one before, in which every value satisfies `P` in the heap left by its
evaluation; the last argument is the heap left by the whole sequence. -/
inductive EvalAll (eval : Evaluator) (context : Nat) (P : Heap → ObjectPtr → Prop) :
    List ObjectPtr → Heap → Heap → Prop where
  | nil {h : Heap} : EvalAll eval context P [] h h
  | cons {e : ObjectPtr} {es : List ObjectPtr} {h h1 h2 : Heap} {v : ObjectPtr} :
      eval e context h = (Except.ok v, h1) → P h1 v → EvalAll eval context P es h1 h2 →
      EvalAll eval context P (e :: es) h h2

/-- The evaluation of a sequence of expressions in one scope, from left to right, each from the
heap left by the one before, in which every value is an integer: the integers, and the heap left
by the whole sequence. -/
inductive EvalNumbers (eval : Evaluator) (context : Nat) :
    List ObjectPtr → Heap → List Int → Heap → Prop where
  | nil {h : Heap} : EvalNumbers eval context [] h [] h
  | cons {e : ObjectPtr} {es : List ObjectPtr} {h h1 h2 : Heap} {p : Nat} {x : Int}
      {xs : List Int} :
      eval e context h = (Except.ok (some p), h1) → h1.objects[p]? = some (Object.Number x) →
      EvalNumbers eval context es h1 xs h2 → EvalNumbers eval context (e :: es) h (x :: xs) h2

/-- An integer in the range of `int64_t`. -/
def InRange (x : Int) : Prop := -(2 ^ 63) ≤ x ∧ x < 2 ^ 63

/-- No intermediate result of the left fold of `op` over the integers, from `acc`, leaves the
range of `int64_t`. -/
def FoldInRange (op : Int → Int → Int) : Int → List Int → Prop
  | _, [] => True
  | acc, x :: xs => InRange (op acc x) ∧ FoldInRange op (op acc x) xs

/-- No division of the left fold of the truncating quotient over the integers, from `acc`, is
by zero or is the division of the least `int64_t` by `-1`. -/
def Divisible : Int → List Int → Prop
  | _, [] => True
  | acc, x :: xs => x ≠ 0 ∧ ¬ (acc = -(2 ^ 63) ∧ x = -1) ∧ Divisible (Int.tdiv acc x) xs

/-- An outcome is a boolean object, which is `#t` exactly when `P` holds. -/
def ReturnsBoolean (r : Except Error ObjectPtr × Heap) (P : Prop) : Prop :=
  ∃ p h b, r = (Except.ok (some p), h) ∧ h.objects[p]? = some (Object.Boolean b) ∧
    (b = true ↔ P)

/-- The binding of the parameters of a lambda to its arguments: each argument is evaluated in
the scope `contextp`, from the heap left by the binding before, and its value is bound to its
parameter in the frame `frame`; the last argument is the heap left by the whole sequence. -/
inductive BindArgs (eval : Evaluator) (contextp frame : Nat) :
    List String → List ObjectPtr → Heap → Heap → Prop where
  | nil {h : Heap} : BindArgs eval contextp frame [] [] h h
  | cons {name : String} {names : List String} {arg : ObjectPtr} {arguments : List ObjectPtr}
      {h h1 h2 : Heap} {v : ObjectPtr} :
      eval arg contextp h = (Except.ok v, h1) →
      BindArgs eval contextp frame names arguments (Context.Define frame name v h1) h2 →
      BindArgs eval contextp frame (name :: names) (arg :: arguments) h h2

/-- The evaluation of a sequence of expressions in one scope, from left to right, each from the
heap left by the one before: the values, and the heap left by the whole sequence. -/
inductive EvalSeq (eval : Evaluator) (context : Nat) :
    List ObjectPtr → Heap → List ObjectPtr → Heap → Prop where
  | nil {h : Heap} : EvalSeq eval context [] h [] h
  | cons {e : ObjectPtr} {es : List ObjectPtr} {h h1 h2 : Heap} {v : ObjectPtr}
      {vs : List ObjectPtr} :
      eval e context h = (Except.ok v, h1) → EvalSeq eval context es h1 vs h2 →
      EvalSeq eval context (e :: es) h (v :: vs) h2

/-- A heap whose one frame binds `l` to the list `(7 8)` at the address `4`, with the argument
lists `(l 1)` at the address `7` and `(l)` at the address `8`. -/
def exampleHeapList : Heap :=
  ⟨[Object.Number 1, Object.Number 7, Object.Number 8, Object.Cell (some 2) none,
    Object.Cell (some 1) (some 3), Object.Symbol "l", Object.Cell (some 0) none,
    Object.Cell (some 5) (some 6), Object.Cell (some 5) none],
   [⟨[("l", some 4)], none⟩]⟩

/-- The other order in which the two arguments of `make_shared<Cell>` in `ConsOp::Apply` may be
evaluated, which C++ leaves to the compiler: the second argument first. -/
def ConsOp.ApplyRightFirst (eval : Evaluator) (args : ObjectPtr) (context : Nat) :
    M ObjectPtr := do
  let arguments ← VectorizeList args
  match arguments with
  | [a0, a1] =>
    let second ← eval a1 context
    let first ← eval a0 context
    make (Object.Cell first second)
  | _ => M.throw Error.RuntimeError

/-- The heap of a new interpreter in which the argument list `((cons 1 2))` has been placed: the
expression `(cons 1 2)` is at the address `39`, its arguments at `38`, and the list at `40`. -/
def exampleHeapCons : Heap :=
  (Interpreter.new.heap.store
    (Tree.Cell (Tree.Cell (Tree.Symbol "cons")
      (Tree.Cell (Tree.Number 1) (Tree.Cell (Tree.Number 2) Tree.Null))) Tree.Null)).2

/-- A value is no symbol: the empty value, or an object that is no symbol. -/
def NotSymbol (h : Heap) (p : ObjectPtr) : Prop :=
  p = none ∨ ∃ a o, p = some a ∧ h.objects[a]? = some o ∧ o.IsSymbol = false

/-- The values are symbols, with the given names. -/
def AllSymbols (h : Heap) (ps : List ObjectPtr) (names : List String) : Prop :=
  List.Forall₂ (fun p name => ∃ a, p = some a ∧ h.objects[a]? = some (Object.Symbol name))
    ps names

/-- A value is no integer: the empty value, or an object that is no integer. -/
def NotNumber (h : Heap) (v : ObjectPtr) : Prop :=
  v = none ∨ ∃ a o, v = some a ∧ h.objects[a]? = some o ∧ o.IsNumber = false

/-- A heap with one empty frame and the argument lists `(zz)` at the address `2` and `(1 zz)` at
the address `3`, in which `zz` is unbound. -/
def exampleHeapError : Heap :=
  ⟨[Object.Number 1, Object.Symbol "zz", Object.Cell (some 1) none,
    Object.Cell (some 0) (some 2)],
   [⟨[], none⟩]⟩

/-! ## The factorial program -/

/-- The definition of the factorial of the specification. -/
def factSource : String := "(define (fact n) (if (= n 0) 1 (* n (fact (- n 1)))))"

/-- The heap of a new interpreter after `Run` on `factSource`: the expression that was read is at
the addresses `34` to `67`, its body `(if ...)` at the address `64`; the lambda is the object
`68`, bound to `fact` in the global frame `1`, and its captured scope is the frame `2`. -/
def factHeap : Heap :=
  ⟨Interpreter.new.heap.objects ++
    [Object.Symbol "define", Object.Symbol "fact", Object.Symbol "n",
      Object.Cell (some 36) none, Object.Cell (some 35) (some 37), Object.Symbol "if",
      Object.Symbol "=", Object.Symbol "n", Object.Number 0, Object.Cell (some 42) none,
      Object.Cell (some 41) (some 43), Object.Cell (some 40) (some 44), Object.Number 1,
      Object.Symbol "*", Object.Symbol "n", Object.Symbol "fact", Object.Symbol "-",
      Object.Symbol "n", Object.Number 1, Object.Cell (some 52) none,
      Object.Cell (some 51) (some 53), Object.Cell (some 50) (some 54),
      Object.Cell (some 55) none, Object.Cell (some 49) (some 56), Object.Cell (some 57) none,
      Object.Cell (some 48) (some 58), Object.Cell (some 47) (some 59),
      Object.Cell (some 60) none, Object.Cell (some 46) (some 61),
      Object.Cell (some 45) (some 62), Object.Cell (some 39) (some 63),
      Object.Cell (some 64) none, Object.Cell (some 38) (some 65),
      Object.Cell (some 34) (some 66), Object.Lambda [some 64] ["n"] 2, Object.Symbol "fact"],
   [keywordContext, ⟨[("fact", some 68)], some 0⟩, ⟨[], some 1⟩]⟩

/-- A heap that keeps the objects and the frames of another one at their addresses. -/
def Heap.Grows (h2 h : Heap) : Prop :=
  (∃ objects : List Object, h2.objects = h.objects ++ objects) ∧
  (∃ contexts : List Context, h2.contexts = h.contexts ++ contexts)


/-- The tree that the reader builds from `factSource`. -/
def factTree : Tree :=
  Tree.chain [Tree.Symbol "define", Tree.chain [Tree.Symbol "fact", Tree.Symbol "n"] Tree.Null,
    Tree.chain [Tree.Symbol "if",
      Tree.chain [Tree.Symbol "=", Tree.Symbol "n", Tree.Number 0] Tree.Null,
      Tree.Number 1,
      Tree.chain [Tree.Symbol "*", Tree.Symbol "n",
        Tree.chain [Tree.Symbol "fact",
          Tree.chain [Tree.Symbol "-", Tree.Symbol "n", Tree.Number 1] Tree.Null] Tree.Null]
        Tree.Null] Tree.Null] Tree.Null

/-- The heap `factHeap` in which the call `(fact n)` has been placed, at the address `73`. -/
def factCallHeap (n : Int) : Heap :=
  ⟨factHeap.objects ++ [Object.Symbol "fact", Object.Number n, Object.Cell (some 71) none,
    Object.Cell (some 70) (some 72)], factHeap.contexts⟩


/-! ## The print/read round trip -/

/-- A symbol name that the tokenizer accepts whole: on the characters of the name,
`Tokenizer::Next` reads one symbol token with that name and leaves nothing unread. -/
def LegalSymbol (name : String) : Prop :=
  nextToken name.data = Except.ok (some (Token.SymbolToken name, []))

instance (name : String) : Decidable (LegalSymbol name) := by
  unfold LegalSymbol
  infer_instance

/-- A tree built only from integers of the 32-bit range, booleans, symbols whose names the
tokenizer accepts, pairs and the empty value. The integers are those from `-2^31` to
`2^31 - 1`. -/
def Tree.Legal : Tree → Prop
  | Tree.Null => True
  | Tree.Number value => -(2 ^ 31) ≤ value ∧ value < 2 ^ 31
  | Tree.Boolean _ => True
  | Tree.Symbol name => LegalSymbol name
  | Tree.Cell a b => a.Legal ∧ b.Legal

/-- A tree with no symbol named `#t` or `#f`, the two names that `Read` turns into booleans. -/
def Tree.NoBooleanName : Tree → Prop
  | Tree.Symbol name => name ≠ "#t" ∧ name ≠ "#f"
  | Tree.Cell a b => a.NoBooleanName ∧ b.NoBooleanName
  | _ => True

/-- The reader reads the print of `t` back: the print starts with a token, and from the
tokenizer that holds this token `Read` returns `t` at the end of the stream, with any bound on
the depth of at least twice the size of `t`. -/
def ReadsBack (t : Tree) : Prop :=
  ∃ (tok : Token) (rest : List Char) (last : Token),
    nextToken (printRef t).data = Except.ok (some (tok, rest)) ∧
    last ≠ Token.monostate ∧
    ∀ fuel, 2 * t.size ≤ fuel →
      Read fuel ⟨rest, tok, false⟩ = Except.ok (t, ⟨[], last, true⟩)

/-- The list reader reads the inside of the print of the pair of `a` and `b` back: after the
opening bracket, `ReadList` returns the pair at the end of the stream. -/
def ReadsBackList (a b : Tree) : Prop :=
  ∃ (tok : Token) (rest : List Char),
    nextToken (printRef a ++ tailString b).data = Except.ok (some (tok, rest)) ∧
    tok ≠ Token.DotToken ∧ tok ≠ Token.BracketToken BracketToken.CLOSE ∧
    ∀ fuel, 2 * a.size + 2 * b.size - 1 ≤ fuel →
      ReadList fuel ⟨rest, tok, false⟩
        = Except.ok (Tree.Cell a b, ⟨[], Token.BracketToken BracketToken.CLOSE, true⟩)


/-! ## The frames of the interpreter -/

/-- The heap `h2` keeps the frames of the heap `h`, at the same addresses and with the same
upper frames, and the objects of `h` that are no pairs; `h2` may hold more frames and more
objects, and the tables of the frames and the slots of the pairs may differ. -/
def Heap.Keeps (h h2 : Heap) : Prop :=
  h.contexts.length ≤ h2.contexts.length ∧
  (∀ c, c < h.contexts.length → h2.upper c = h.upper c) ∧
  ∀ (a : Nat) (o : Object), h.objects[a]? = some o → o.IsCell = false → h2.objects[a]? = some o

/-- A computation that leaves a heap that keeps the one it starts from, whatever the outcome. -/
structure Preserving {α : Type} (m : M α) : Prop where
  keeps : ∀ h : Heap, h.Keeps (m h).2

/-- An interpreter that a new interpreter becomes by calls of `Run`, each with any input and any
bound on the depth of the recursion. -/
inductive Reachable : Interpreter → Prop where
  | new : Reachable Interpreter.new
  | run {i : Interpreter} (fuel : Nat) (s : String) :
      Reachable i → Reachable (i.Run fuel s).2

/-- The heap of a new interpreter in which the argument lists `(car 5)` and `((f x) x)` have
been placed: the symbol `car` is at the address `34`, the integer `5` at `35` and the first
list at `37`; the symbol `f` is at `38`, the parameter list `(x)` at `40`, the pair `(f x)` at
`41`, the body `x` at `42` and the second list at `44`. -/
def exampleHeapGlobal : Heap :=
  ((Interpreter.new.heap.store
      (Tree.Cell (Tree.Symbol "car") (Tree.Cell (Tree.Number 5) Tree.Null))).2.store
    (Tree.Cell (Tree.Cell (Tree.Symbol "f") (Tree.Cell (Tree.Symbol "x") Tree.Null))
      (Tree.Cell (Tree.Symbol "x") Tree.Null))).2


/-! ## The names of the symbols of the heap -/

/-- No symbol of the heap is named `#t` or `#f`. -/
def Heap.NoBooleanSymbol (h : Heap) : Prop :=
  ∀ (a : Nat) (name : String), h.objects[a]? = some (Object.Symbol name) →
    name ≠ "#t" ∧ name ≠ "#f"

/-- A computation that, from a heap with no symbol named `#t` or `#f`, leaves such a heap,
whatever the outcome. -/
structure KeepsSymbols {α : Type} (m : M α) : Prop where
  keeps : ∀ h : Heap, h.NoBooleanSymbol → (m h).2.NoBooleanSymbol

/-! ## The grammar of the reader -/

/-- The two nonterminals of the grammar of the reader. -/
inductive Nonterminal where
  | expr
  | list_tail
  deriving DecidableEq, Repr

/-- The grammar of the reader, after the words of the specification:
`expr := INT | BOOL | SYMBOL | '(' list_tail | QUOTE expr` and
`list_tail := ')' | expr '.' expr ')' | expr list_tail`, where `BOOL` is a symbol token named
`#t` or `#f`, and `'E` stands for the list `(quote E)`. `Derives nt ts t rest` says that the
tokens `ts` start with a phrase of the nonterminal `nt`, which denotes the tree `t`, and that
`rest` are the tokens after that phrase. -/
inductive Derives : Nonterminal → List Token → Tree → List Token → Prop where
  | int (v : Int) (rest : List Token) :
      Derives Nonterminal.expr (Token.ConstantToken v :: rest) (Tree.Number v) rest
  | bool_true (rest : List Token) :
      Derives Nonterminal.expr (Token.SymbolToken "#t" :: rest) (Tree.Boolean true) rest
  | bool_false (rest : List Token) :
      Derives Nonterminal.expr (Token.SymbolToken "#f" :: rest) (Tree.Boolean false) rest
  | symbol (name : String) (rest : List Token) : name ≠ "#t" → name ≠ "#f" →
      Derives Nonterminal.expr (Token.SymbolToken name :: rest) (Tree.Symbol name) rest
  | list {ts : List Token} {t : Tree} {rest : List Token} :
      Derives Nonterminal.list_tail ts t rest →
      Derives Nonterminal.expr (Token.BracketToken BracketToken.OPEN :: ts) t rest
  | quote {ts : List Token} {t : Tree} {rest : List Token} :
      Derives Nonterminal.expr ts t rest →
      Derives Nonterminal.expr (Token.QuoteToken :: ts)
        (Tree.Cell (Tree.Symbol "quote") (Tree.Cell t Tree.Null)) rest
  | empty (rest : List Token) :
      Derives Nonterminal.list_tail (Token.BracketToken BracketToken.CLOSE :: rest)
        Tree.Null rest
  | dotted {ts ts2 : List Token} {a b : Tree} {rest : List Token} :
      Derives Nonterminal.expr ts a (Token.DotToken :: ts2) →
      Derives Nonterminal.expr ts2 b (Token.BracketToken BracketToken.CLOSE :: rest) →
      Derives Nonterminal.list_tail ts (Tree.Cell a b) rest
  | cons {ts ts1 : List Token} {a b : Tree} {rest : List Token} :
      Derives Nonterminal.expr ts a ts1 →
      Derives Nonterminal.list_tail ts1 b rest →
      Derives Nonterminal.list_tail ts (Tree.Cell a b) rest

/-- The first tokens of a text: `Lexes cs ts rest` says that `Tokenizer::Next`, called again and
again on the stream `cs`, gives the tokens `ts` one after the other and leaves `rest` unread. -/
inductive Lexes : List Char → List Token → List Char → Prop where
  | nil (cs : List Char) : Lexes cs [] cs
  | cons {cs cs1 cs2 : List Char} {t : Token} {ts : List Token} :
      nextToken cs = Except.ok (some (t, cs1)) → Lexes cs1 ts cs2 → Lexes cs (t :: ts) cs2

/-- A bound on the number of tokens that a tokenizer can still give, the one it holds included:
none at the end of the stream, and otherwise at most one for each unread character and one for
the token it holds. -/
def Tokenizer.unread (tk : Tokenizer) : Nat :=
  if tk.is_end_ then 0 else tk.is_.length + 1

/-- The tokens that a tokenizer holds and will give until the end of its stream: `Holds tk ts`
says that `ts` are the token that `tk` holds and the tokens that `Next` reads after it, one by
one and without an error, up to the end of the stream. -/
inductive Holds : Tokenizer → List Token → Prop where
  | nil {tk : Tokenizer} : tk.current_token_ ≠ Token.monostate → tk.is_end_ = true →
      Holds tk []
  | cons {tk tk1 : Tokenizer} {ts : List Token} : tk.current_token_ ≠ Token.monostate →
      tk.is_end_ = false → tk.Next = Except.ok tk1 → Holds tk1 ts →
      Holds tk (tk.current_token_ :: ts)

/-- A sequence of expressions of the grammar, one after the other. -/
inductive Exprs : List Token → Prop where
  | nil : Exprs []
  | cons {ts rest : List Token} {t : Tree} :
      Derives Nonterminal.expr ts t [] → Exprs rest → Exprs (ts ++ rest)

end Scheme

/-! # Properties -/

namespace Scheme

/-! ## The association list of a frame -/

theorem lookup_assign_self (t : List (String × ObjectPtr)) (name : String) (value : ObjectPtr) :
    (assign t name value).lookup name = some value := by
  induction t with
  | nil => simp [assign, List.lookup]
  | cons kv rest ih =>
    obtain ⟨k, v⟩ := kv
    by_cases hk : k = name
    · simp [assign, hk, List.lookup]
    · have hne : (name == k) = false := by
        simpa using fun hh : name = k => hk hh.symm
      simp [assign, hk, List.lookup, hne, ih]

theorem lookup_assign_ne (t : List (String × ObjectPtr)) (name other : String) (value : ObjectPtr)
    (hne : other ≠ name) : (assign t name value).lookup other = t.lookup other := by
  induction t with
  | nil =>
    have : (other == name) = false := by simpa using hne
    simp [assign, List.lookup, this]
  | cons kv rest ih =>
    obtain ⟨k, v⟩ := kv
    by_cases hk : k = name
    · subst hk
      have : (other == k) = false := by simpa using hne
      simp [assign, List.lookup, this]
    · simp only [assign, hk, if_false, List.lookup]
      cases other == k <;> simp [ih]

theorem contains_assign_self (t : List (String × ObjectPtr)) (name : String) (value : ObjectPtr) :
    contains (assign t name value) name = true := by
  simp [contains, lookup_assign_self]

theorem contains_assign_ne (t : List (String × ObjectPtr)) (name other : String) (value : ObjectPtr)
    (hne : other ≠ name) : contains (assign t name value) other = contains t other := by
  simp [contains, lookup_assign_ne t name other value hne]

/-! ## Scope chains -/

theorem IsChain.functional {h : Heap} {p : Option Nat} {l1 l2 : List (Nat × Context)}
    (h1 : IsChain h p l1) (h2 : IsChain h p l2) : l1 = l2 := by
  induction h1 generalizing l2 with
  | nil => cases h2; rfl
  | cons hc _ ih =>
    cases h2 with
    | cons hc2 hr2 =>
      rw [hc] at hc2
      cases hc2
      rw [ih hr2]

theorem IsChain.lookup_of_mem {h : Heap} {p : Option Nat} {l : List (Nat × Context)}
    (hl : IsChain h p l) {f : Nat × Context} (hf : f ∈ l) : h.contexts[f.1]? = some f.2 := by
  induction hl with
  | nil => cases hf
  | cons hc _ ih =>
    rcases List.mem_cons.1 hf with rfl | hm
    · exact hc
    · exact ih hm

/-- From every frame of a chain the chain continues as a suffix of the same list. -/
theorem IsChain.suffix_of_mem {h : Heap} {p : Option Nat} {l : List (Nat × Context)}
    (hl : IsChain h p l) {f : Nat × Context} (hf : f ∈ l) :
    ∃ l2, IsChain h (some f.1) l2 ∧ l2.length ≤ l.length := by
  induction hl with
  | nil => cases hf
  | cons hc hr ih =>
    rcases List.mem_cons.1 hf with rfl | hm
    · exact ⟨_, IsChain.cons hc hr, le_refl _⟩
    · obtain ⟨l2, h2, hlen⟩ := ih hm
      exact ⟨l2, h2, by simp only [List.length_cons]; omega⟩

theorem IsChain.nodup {h : Heap} {p : Option Nat} {l : List (Nat × Context)}
    (hl : IsChain h p l) : (l.map Prod.fst).Nodup := by
  induction hl with
  | nil => simp
  | @cons c ctx rest hc hr ih =>
    simp only [List.map_cons, List.nodup_cons]
    refine ⟨?_, ih⟩
    intro hmem
    obtain ⟨f, hf, hfc⟩ := List.mem_map.1 hmem
    obtain ⟨l2, h2, hlen⟩ := hr.suffix_of_mem hf
    rw [hfc] at h2
    have := IsChain.functional h2 (IsChain.cons hc hr)
    rw [this] at hlen
    simp only [List.length_cons] at hlen
    omega

/-- A chain has no more frames than the heap. -/
theorem IsChain.length_le {h : Heap} {p : Option Nat} {l : List (Nat × Context)}
    (hl : IsChain h p l) : l.length ≤ h.contexts.length := by
  have hnd := hl.nodup
  have hsub : (l.map Prod.fst).toFinset ⊆ Finset.range h.contexts.length := by
    intro a ha
    rw [List.mem_toFinset] at ha
    obtain ⟨f, hf, rfl⟩ := List.mem_map.1 ha
    have := hl.lookup_of_mem hf
    rw [Finset.mem_range]
    by_contra hge
    rw [List.getElem?_eq_none (by omega)] at this
    cases this
  have hcard := Finset.card_le_card hsub
  rw [List.toFinset_card_of_nodup hnd, Finset.card_range, List.length_map] at hcard
  exact hcard

/-- The walk of `Get` and `Set` stops at the nearest frame of the chain that holds the name. -/
theorem walk_eq {h : Heap} {p : Option Nat} {l : List (Nat × Context)} (hl : IsChain h p l)
    (name : String) (n : Nat) (hn : l.length < n) :
    Context.walk h name n p = Except.ok ((l.find? (holds name)).map Prod.fst) := by
  induction hl generalizing n with
  | nil =>
    cases n with
    | zero => simp at hn
    | succ n => simp [Context.walk]
  | @cons c ctx rest hc hr ih =>
    cases n with
    | zero => simp at hn
    | succ n =>
      simp only [List.length_cons, Nat.add_lt_add_iff_right] at hn
      simp only [Context.walk, hc, List.find?_cons, holds]
      cases hcont : contains ctx.name_table_ name
      · simpa using ih n hn
      · simp

theorem walk_chain {h : Heap} {c : Nat} {l : List (Nat × Context)} (hl : IsChain h (some c) l)
    (name : String) :
    Context.walk h name (h.contexts.length + 1) (some c)
      = Except.ok ((l.find? (holds name)).map Prod.fst) :=
  walk_eq hl name _ (Nat.lt_succ_of_le hl.length_le)

/-- The function `Get` in terms of the chain: the binding in the nearest frame that holds the name. -/
theorem Get_eq {h : Heap} {c : Nat} {l : List (Nat × Context)} (hl : IsChain h (some c) l)
    (name : String) :
    Context.Get h c name =
      match l.find? (holds name) with
      | none => Except.error Error.NameError
      | some f =>
        match f.2.name_table_.lookup name with
        | none => Except.error Error.Undefined
        | some value => Except.ok value := by
  unfold Context.Get
  rw [walk_chain hl name]
  cases hf : l.find? (holds name) with
  | none => simp
  | some f =>
    have hmem : f ∈ l := List.mem_of_find?_eq_some hf
    simp [hl.lookup_of_mem hmem]

/-- C7. Scope lookup: on every scope chain, `Get` returns the value bound to the name in the
nearest frame (innermost first) that holds it, and it fails with a name error exactly when no
frame of the chain holds the name. -/
theorem C7_Get_nearest_frame (h : Heap) (c : Nat) (frames : List (Nat × Context))
    (name : String) (hchain : IsChain h (some c) frames) :
    (∀ f, frames.find? (holds name) = some f →
        ∃ value, f.2.name_table_.lookup name = some value ∧
          Context.Get h c name = Except.ok value) ∧
    (Context.Get h c name = Except.error Error.NameError ↔
        ∀ f ∈ frames, holds name f = false) := by
  rw [Get_eq hchain name]
  constructor
  · intro f hf
    have hh : holds name f = true := List.find?_some hf
    simp only [holds, contains, Option.isSome_iff_exists] at hh
    obtain ⟨value, hv⟩ := hh
    exact ⟨value, hv, by simp [hf, hv]⟩
  · cases hf : frames.find? (holds name) with
    | none =>
      simp only [true_iff]
      intro f hm
      have := List.find?_eq_none.1 hf f hm
      simpa using this
    | some f =>
      have hh : holds name f = true := List.find?_some hf
      have hmem : f ∈ frames := List.mem_of_find?_eq_some hf
      have hh2 := hh
      simp only [holds, contains, Option.isSome_iff_exists] at hh2
      obtain ⟨value, hv⟩ := hh2
      simp only [hv]
      constructor
      · intro hcontra; cases hcontra
      · intro hall
        rw [hall f hmem] at hh
        cases hh

theorem exampleChain_isChain : IsChain exampleHeap (some 1) exampleChain :=
  IsChain.cons (c := 1) rfl (IsChain.cons (c := 0) rfl IsChain.nil)

/-- The instance of C7 on `exampleHeap`: from the frame `1` the name `x` is found in the frame
`0`. -/
theorem C7_Get_nearest_frame_witness :
    IsChain exampleHeap (some 1) exampleChain ∧
    ((∀ f, exampleChain.find? (holds "x") = some f →
        ∃ value, f.2.name_table_.lookup "x" = some value ∧
          Context.Get exampleHeap 1 "x" = Except.ok value) ∧
    (Context.Get exampleHeap 1 "x" = Except.error Error.NameError ↔
        ∀ f ∈ exampleChain, holds "x" f = false)) :=
  ⟨exampleChain_isChain, C7_Get_nearest_frame exampleHeap 1 exampleChain "x" exampleChain_isChain⟩

/-! ## Assignment and definition in a scope chain -/

theorem binding_set (h : Heap) (a : Nat) (ctx2 : Context) (b : Nat) (other : String) :
    (Heap.mk h.objects (h.contexts.set a ctx2)).binding b other =
      if a = b then (if a < h.contexts.length then ctx2.name_table_.lookup other else none)
      else h.binding b other := by
  simp only [Heap.binding, List.getElem?_set]
  by_cases hab : a = b
  · by_cases hlt : a < h.contexts.length <;> simp [hab, hlt]
    · subst hab; simp [hlt]
    · subst hab; simp [hlt]
  · simp [hab]

theorem upper_set (h : Heap) (a : Nat) (ctx ctx2 : Context) (hctx : h.contexts[a]? = some ctx)
    (hup : ctx2.upper_ = ctx.upper_) (b : Nat) :
    (Heap.mk h.objects (h.contexts.set a ctx2)).upper b = h.upper b := by
  have hlt : a < h.contexts.length := by
    by_contra hge
    rw [List.getElem?_eq_none (by omega)] at hctx
    cases hctx
  simp only [Heap.upper, List.getElem?_set]
  by_cases hab : a = b
  · subst hab; simp [hlt, hctx, hup]
  · simp [hab]

/-- Replacing a frame by one with the same upper frame keeps the chains, frame for frame. -/
theorem IsChain.set {h : Heap} {p : Option Nat} {l : List (Nat × Context)} (hl : IsChain h p l)
    (a : Nat) (ctx ctx2 : Context) (hctx : h.contexts[a]? = some ctx)
    (hup : ctx2.upper_ = ctx.upper_) :
    IsChain (Heap.mk h.objects (h.contexts.set a ctx2)) p
      (l.map fun f => if f.1 = a then (a, ctx2) else f) := by
  have hlt : a < h.contexts.length := by
    by_contra hge
    rw [List.getElem?_eq_none (by omega)] at hctx
    cases hctx
  induction hl with
  | nil => exact IsChain.nil
  | @cons c ctx1 rest hc hr ih =>
    simp only [List.map_cons]
    by_cases hca : c = a
    · subst hca
      rw [hc] at hctx
      cases hctx
      simp only [if_true]
      refine IsChain.cons ?_ ?_
      · simp [List.getElem?_set, hlt]
      · rw [hup]; exact ih
    · simp only [hca, if_false]
      refine IsChain.cons ?_ ih
      simp [List.getElem?_set, Ne.symm hca, hc]

theorem find_map_set {l : List (Nat × Context)} {name : String} {a : Nat} {ctx ctx2 : Context}
    (huniq : ∀ f ∈ l, f.1 = a → f = (a, ctx))
    (hfind : l.find? (holds name) = some (a, ctx)) (hholds : holds name (a, ctx2) = true) :
    (l.map fun f => if f.1 = a then (a, ctx2) else f).find? (holds name) = some (a, ctx2) := by
  induction l with
  | nil => simp at hfind
  | cons f rest ih =>
    simp only [List.map_cons, List.find?_cons]
    by_cases hfa : f.1 = a
    · simp [hfa, hholds]
    · simp only [hfa, if_false]
      simp only [List.find?_cons] at hfind
      cases hh : holds name f
      · simp only [hh] at hfind
        exact ih (fun g hg => huniq g (List.mem_cons_of_mem _ hg)) hfind
      · simp only [hh] at hfind
        cases hfind
        exact absurd rfl hfa

/-- C8. Scope assign: on every scope chain, `Set` rebinds the name in the nearest frame that
holds it and nowhere else: the objects, the upper frames and every other binding of every frame
are unchanged, and afterwards `Get` of the name returns the new value. When no frame of the chain
holds the name, `Set` fails with a name error and the heap is unchanged. -/
theorem C8_Set_nearest_frame (h : Heap) (c : Nat) (frames : List (Nat × Context))
    (name : String) (value : ObjectPtr) (hchain : IsChain h (some c) frames) :
    (∀ a ctx, frames.find? (holds name) = some (a, ctx) →
        (Context.Set c name value h).1 = Except.ok () ∧
        (Context.Set c name value h).2.objects = h.objects ∧
        (Context.Set c name value h).2.contexts.length = h.contexts.length ∧
        (∀ b other, (b ≠ a ∨ other ≠ name) →
          (Context.Set c name value h).2.binding b other = h.binding b other) ∧
        (∀ b, (Context.Set c name value h).2.upper b = h.upper b) ∧
        (Context.Set c name value h).2.binding a name = some value ∧
        Context.Get (Context.Set c name value h).2 c name = Except.ok value) ∧
    (frames.find? (holds name) = none →
        Context.Set c name value h = (Except.error Error.NameError, h)) := by
  constructor
  · intro a ctx hfind
    have hmem : (a, ctx) ∈ frames := List.mem_of_find?_eq_some hfind
    have hctx : h.contexts[a]? = some ctx := hchain.lookup_of_mem hmem
    have hlt : a < h.contexts.length := by
      by_contra hge
      rw [List.getElem?_eq_none (by omega)] at hctx
      cases hctx
    have hset : Context.Set c name value h =
        (Except.ok (), Heap.mk h.objects
          (h.contexts.set a { ctx with name_table_ := assign ctx.name_table_ name value })) := by
      unfold Context.Set
      rw [walk_chain hchain name, hfind]
      simp [hctx]
    rw [hset]
    refine ⟨rfl, rfl, by simp, ?_, ?_, ?_, ?_⟩
    · intro b other hne
      rw [binding_set]
      by_cases hab : a = b
      · subst hab
        have hon : other ≠ name := by
          rcases hne with h1 | h1
          · exact absurd rfl h1
          · exact h1
        simp [hlt, Heap.binding, hctx, lookup_assign_ne _ _ _ _ hon]
      · simp [hab]
    · intro b
      exact upper_set h a ctx { ctx with name_table_ := assign ctx.name_table_ name value } hctx rfl b
    · rw [binding_set]
      simp [hlt, lookup_assign_self]
    · have hch2 := hchain.set a ctx { ctx with name_table_ := assign ctx.name_table_ name value }
        hctx rfl
      rw [Get_eq hch2 name]
      have huniq : ∀ f ∈ frames, f.1 = a → f = (a, ctx) := by
        intro f hf hfa
        have := hchain.lookup_of_mem hf
        rw [hfa, hctx] at this
        cases this
        exact Prod.ext hfa rfl
      rw [find_map_set huniq hfind (by simp [holds, contains_assign_self])]
      simp [lookup_assign_self]
  · intro hnone
    unfold Context.Set
    rw [walk_chain hchain name, hnone]
    rfl

/-- The instance of C8 on `exampleHeap`: from the frame `1`, `x` is assigned in the frame `0`. -/
theorem C8_Set_nearest_frame_witness :
    IsChain exampleHeap (some 1) exampleChain ∧
    ((∀ a ctx, exampleChain.find? (holds "x") = some (a, ctx) →
        (Context.Set 1 "x" (some 2) exampleHeap).1 = Except.ok () ∧
        (Context.Set 1 "x" (some 2) exampleHeap).2.objects = exampleHeap.objects ∧
        (Context.Set 1 "x" (some 2) exampleHeap).2.contexts.length = exampleHeap.contexts.length ∧
        (∀ b other, (b ≠ a ∨ other ≠ "x") →
          (Context.Set 1 "x" (some 2) exampleHeap).2.binding b other
            = exampleHeap.binding b other) ∧
        (∀ b, (Context.Set 1 "x" (some 2) exampleHeap).2.upper b = exampleHeap.upper b) ∧
        (Context.Set 1 "x" (some 2) exampleHeap).2.binding a "x" = some (some 2) ∧
        Context.Get (Context.Set 1 "x" (some 2) exampleHeap).2 1 "x" = Except.ok (some 2)) ∧
    (exampleChain.find? (holds "x") = none →
        Context.Set 1 "x" (some 2) exampleHeap = (Except.error Error.NameError, exampleHeap))) :=
  ⟨exampleChain_isChain,
    C8_Set_nearest_frame exampleHeap 1 exampleChain "x" (some 2) exampleChain_isChain⟩

/-- C9. Scope define: `Define` on a frame binds the name in that frame only, overwriting a prior
binding there: the objects, every other frame, the upper frame and every other binding of the
frame are unchanged, and afterwards `Get` of the name from that frame returns the defined value.
`Define` has no failing outcome. -/
theorem C9_Define_innermost_frame (h : Heap) (c : Nat) (ctx : Context) (name : String)
    (value : ObjectPtr) (hctx : h.contexts[c]? = some ctx) :
    (Context.Define c name value h).objects = h.objects ∧
    (Context.Define c name value h).contexts.length = h.contexts.length ∧
    (∀ b, b ≠ c → (Context.Define c name value h).contexts[b]? = h.contexts[b]?) ∧
    (∀ other, other ≠ name →
      (Context.Define c name value h).binding c other = h.binding c other) ∧
    (∀ b, (Context.Define c name value h).upper b = h.upper b) ∧
    (Context.Define c name value h).binding c name = some value ∧
    Context.Get (Context.Define c name value h) c name = Except.ok value := by
  have hlt : c < h.contexts.length := by
    by_contra hge
    rw [List.getElem?_eq_none (by omega)] at hctx
    cases hctx
  have hdef : Context.Define c name value h =
      Heap.mk h.objects
        (h.contexts.set c { ctx with name_table_ := assign ctx.name_table_ name value }) := by
    simp [Context.Define, hctx]
  rw [hdef]
  refine ⟨rfl, by simp, ?_, ?_, ?_, ?_, ?_⟩
  · intro b hb
    simp [List.getElem?_set, Ne.symm hb]
  · intro other hne
    rw [binding_set]
    simp [hlt, Heap.binding, hctx, lookup_assign_ne _ _ _ _ hne]
  · intro b
    exact upper_set h c ctx { ctx with name_table_ := assign ctx.name_table_ name value } hctx rfl b
  · rw [binding_set]
    simp [hlt, lookup_assign_self]
  · simp [Context.Get, Context.walk, List.getElem?_set, hlt, contains_assign_self,
      lookup_assign_self]

/-- The instance of C9 on `exampleHeap`: `y` is defined anew in the frame `1`. -/
theorem C9_Define_innermost_frame_witness :
    exampleHeap.contexts[1]? = some ⟨[("y", some 2)], some 0⟩ ∧
    ((Context.Define 1 "y" (some 0) exampleHeap).objects = exampleHeap.objects ∧
    (Context.Define 1 "y" (some 0) exampleHeap).contexts.length = exampleHeap.contexts.length ∧
    (∀ b, b ≠ 1 →
      (Context.Define 1 "y" (some 0) exampleHeap).contexts[b]? = exampleHeap.contexts[b]?) ∧
    (∀ other, other ≠ "y" →
      (Context.Define 1 "y" (some 0) exampleHeap).binding 1 other
        = exampleHeap.binding 1 other) ∧
    (∀ b, (Context.Define 1 "y" (some 0) exampleHeap).upper b = exampleHeap.upper b) ∧
    (Context.Define 1 "y" (some 0) exampleHeap).binding 1 "y" = some (some 0) ∧
    Context.Get (Context.Define 1 "y" (some 0) exampleHeap) 1 "y" = Except.ok (some 0)) :=
  ⟨rfl, C9_Define_innermost_frame exampleHeap 1 _ "y" (some 0) rfl⟩

/-! ## Computations on the heap -/

@[simp] theorem M.pure_apply {α : Type} (a : α) (h : Heap) :
    (Pure.pure a : M α) h = (Except.ok a, h) := rfl

@[simp] theorem M.bind_apply {α β : Type} (x : M α) (f : α → M β) (h : Heap) :
    (x >>= f) h =
      match x h with
      | (Except.ok a, h1) => f a h1
      | (Except.error e, h1) => (Except.error e, h1) := rfl

@[simp] theorem M.throw_apply {α : Type} (e : Error) (h : Heap) :
    (M.throw e : M α) h = (Except.error e, h) := rfl

@[simp] theorem M.read_apply {α : Type} (f : Heap → Except Error α) (h : Heap) :
    (M.read f) h = (f h, h) := rfl

theorem deref_some {h : Heap} {a : Nat} {o : Object} (ho : h.objects[a]? = some o) :
    deref (some a) h = (Except.ok (some o), h) := by
  simp [deref, ho]

@[simp] theorem deref_none (h : Heap) : deref none h = (Except.ok none, h) := rfl

/-! ## Evaluation of a pair -/

/-- C10. Evaluating a pair evaluates its head in the current scope: an error of the head is the
error of the pair; a head whose value is `nullptr` or an object that is no `Function` gives a
runtime error; otherwise the result is the `Apply` of that function on the unevaluated tail of the
pair and the same scope. Evaluating the empty value fails with a runtime error. -/
theorem C10_Cell_Evaluate (fuel : Nat) (h : Heap) (a : Nat) (first second : ObjectPtr)
    (context : Nat) (hcell : h.objects[a]? = some (Object.Cell first second)) :
    (∀ e h1, Evaluate fuel first context h = (Except.error e, h1) →
        Evaluate (fuel + 1) (some a) context h = (Except.error e, h1)) ∧
    (∀ h1, Evaluate fuel first context h = (Except.ok none, h1) →
        Evaluate (fuel + 1) (some a) context h = (Except.error Error.RuntimeError, h1)) ∧
    (∀ f o h1, Evaluate fuel first context h = (Except.ok (some f), h1) →
        h1.objects[f]? = some o → o.IsFunction = false →
        Evaluate (fuel + 1) (some a) context h = (Except.error Error.RuntimeError, h1)) ∧
    (∀ f o h1, Evaluate fuel first context h = (Except.ok (some f), h1) →
        h1.objects[f]? = some o → o.IsFunction = true →
        Evaluate (fuel + 1) (some a) context h
          = Function.Apply (Evaluate fuel) o second context h1) ∧
    (∀ h0 : Heap, Evaluate (fuel + 1) none context h0 = (Except.error Error.RuntimeError, h0)) := by
  have hev : Evaluate (fuel + 1) (some a) context h
      = Cell.Evaluate (Evaluate fuel) first second context h := by
    simp [Evaluate, deref_some hcell]
  rw [hev]
  refine ⟨?_, ?_, ?_, ?_, ?_⟩
  · intro e h1 he
    simp [Cell.Evaluate, he]
  · intro h1 he
    simp [Cell.Evaluate, he]
  · intro f o h1 he ho hf
    simp [Cell.Evaluate, he, deref_some ho, hf]
  · intro f o h1 he ho hf
    simp [Cell.Evaluate, he, deref_some ho, hf]
  · intro h0
    rfl

/-- The instance of C10 on `exampleHeapCell`: the list `(q q)` at the address `3`. -/
theorem C10_Cell_Evaluate_witness :
    exampleHeapCell.objects[3]? = some (Object.Cell (some 1) (some 2)) ∧
    ((∀ e h1, Evaluate 1 (some 1) 0 exampleHeapCell = (Except.error e, h1) →
        Evaluate 2 (some 3) 0 exampleHeapCell = (Except.error e, h1)) ∧
    (∀ h1, Evaluate 1 (some 1) 0 exampleHeapCell = (Except.ok none, h1) →
        Evaluate 2 (some 3) 0 exampleHeapCell = (Except.error Error.RuntimeError, h1)) ∧
    (∀ f o h1, Evaluate 1 (some 1) 0 exampleHeapCell = (Except.ok (some f), h1) →
        h1.objects[f]? = some o → o.IsFunction = false →
        Evaluate 2 (some 3) 0 exampleHeapCell = (Except.error Error.RuntimeError, h1)) ∧
    (∀ f o h1, Evaluate 1 (some 1) 0 exampleHeapCell = (Except.ok (some f), h1) →
        h1.objects[f]? = some o → o.IsFunction = true →
        Evaluate 2 (some 3) 0 exampleHeapCell
          = Function.Apply (Evaluate 1) o (some 2) 0 h1) ∧
    (∀ h0 : Heap, Evaluate 2 none 0 h0 = (Except.error Error.RuntimeError, h0))) :=
  ⟨rfl, C10_Cell_Evaluate 1 exampleHeapCell 3 (some 1) (some 2) 0 rfl⟩

/-! ## The tokenizer: integers and signs -/

theorem wrap32_of_range {x : Int} (h0 : -(2 ^ 31) ≤ x) (h1 : x < 2 ^ 31) : wrap32 x = x := by
  unfold wrap32 wrap
  norm_num
  rw [Int.emod_eq_of_lt (by omega) (by omega)]
  omega

theorem digitValue_range {c : Char} (hc : IsDigit c = true) :
    0 ≤ digitValue c ∧ digitValue c ≤ 9 := by
  simp only [IsDigit, isdigit, Bool.and_eq_true, decide_eq_true_eq] at hc
  unfold digitValue
  omega

theorem foldl_digits_ge (ds : List Char) (hds : ∀ c ∈ ds, IsDigit c = true) (v : Int)
    (hv : 0 ≤ v) : v ≤ ds.foldl (fun v c => v * 10 + digitValue c) v := by
  induction ds generalizing v with
  | nil => simp
  | cons c rest ih =>
    have hc := digitValue_range (hds c (List.mem_cons_self _ _))
    simp only [List.foldl_cons]
    have := ih (fun d hd => hds d (List.mem_cons_of_mem _ hd)) (v * 10 + digitValue c)
      (by omega)
    omega

/-- Without overflow the digit loop computes the decimal value and stops at the first character
that is no digit. -/
theorem readDigits_append (ds rest : List Char) (hds : ∀ c ∈ ds, IsDigit c = true)
    (hrest : peekIs IsDigit rest = false) (v : Int) (hv : 0 ≤ v)
    (hfit : ds.foldl (fun v c => v * 10 + digitValue c) v < 2 ^ 31) :
    readDigits (ds ++ rest) v = (ds.foldl (fun v c => v * 10 + digitValue c) v, rest) := by
  induction ds generalizing v with
  | nil =>
    cases rest with
    | nil => simp [readDigits]
    | cons d rest =>
      simp only [peekIs] at hrest
      simp [readDigits, hrest]
  | cons c ds ih =>
    have hc := hds c (List.mem_cons_self _ _)
    have hcr := digitValue_range hc
    have hds2 : ∀ d ∈ ds, IsDigit d = true := fun d hd => hds d (List.mem_cons_of_mem _ hd)
    simp only [List.foldl_cons] at hfit
    have hge := foldl_digits_ge ds hds2 (v * 10 + digitValue c) (by omega)
    have hw : wrap32 (v * 10 + ((c.toNat : Int) - 48)) = v * 10 + digitValue c := by
      show wrap32 (v * 10 + digitValue c) = v * 10 + digitValue c
      exact wrap32_of_range (by omega) (by omega)
    simp only [List.cons_append, readDigits, hc, if_true, hw, List.foldl_cons]
    exact ih hds2 _ (by omega) hfit

theorem decimalValue_nonneg (ds : List Char) (hds : ∀ c ∈ ds, IsDigit c = true) :
    0 ≤ decimalValue ds :=
  foldl_digits_ge ds hds 0 (le_refl 0)

theorem isspace_false_of_digit {c : Char} (hc : IsDigit c = true) : isspace c = false := by
  simp only [IsDigit, isdigit, Bool.and_eq_true, decide_eq_true_eq] at hc
  have h32 : c ≠ ' ' := by
    intro h; subst h; revert hc; decide
  simp only [isspace, Bool.or_eq_false_iff, beq_eq_false_iff_ne, ne_eq, h32, not_false_eq_true,
    Bool.and_eq_false_imp, decide_eq_true_eq, true_and, decide_eq_false_iff_not, not_le]
  omega

theorem IsSign_cases {c : Char} (hc : IsSign c = true) : c = '+' ∨ c = '-' := by
  simpa [IsSign] using hc

theorem Next_digits (ds rest : List Char) (cur : Token) (e : Bool) (hne : ds ≠ [])
    (hds : ∀ c ∈ ds, IsDigit c = true) (hrest : peekIs IsDigit rest = false)
    (hfit : decimalValue ds < 2 ^ 31) :
    (Tokenizer.mk (ds ++ rest) cur e).Next
      = Except.ok ⟨rest, Token.ConstantToken (decimalValue ds), e⟩ := by
  cases ds with
  | nil => exact absurd rfl hne
  | cons c ds =>
    have hc := hds c (List.mem_cons_self _ _)
    have hsp := isspace_false_of_digit hc
    have hrd := readDigits_append (c :: ds) rest hds hrest 0 (le_refl 0) hfit
    have hnp : IsParen c = false := by
      simp only [IsDigit, isdigit, Bool.and_eq_true, decide_eq_true_eq] at hc
      simp only [IsParen, Bool.or_eq_false_iff, beq_eq_false_iff_ne, ne_eq]
      constructor <;> (intro h; subst h; revert hc; decide)
    have hnd : IsDot c = false := by
      simp only [IsDigit, isdigit, Bool.and_eq_true, decide_eq_true_eq] at hc
      simp only [IsDot, beq_eq_false_iff_ne, ne_eq]
      intro h; subst h; revert hc; decide
    have hnq : IsQuote c = false := by
      simp only [IsDigit, isdigit, Bool.and_eq_true, decide_eq_true_eq] at hc
      simp only [IsQuote, beq_eq_false_iff_ne, ne_eq]
      intro h; subst h; revert hc; decide
    have hns : IsSign c = false := by
      simp only [IsDigit, isdigit, Bool.and_eq_true, decide_eq_true_eq] at hc
      simp only [IsSign, Bool.or_eq_false_iff, beq_eq_false_iff_ne, ne_eq]
      constructor <;> (intro h; subst h; revert hc; decide)
    simp only [List.cons_append] at hrd
    simp [Tokenizer.Next, Tokenizer.IgnoreSpaces, List.dropWhile, hsp, hnp, hnd, hnq, hc,
      hns, GetConstantOrSign, hrd, decimalValue]

theorem Next_sign_symbol (sign : Char) (rest : List Char) (cur : Token) (e : Bool)
    (hs : IsSign sign = true) (hrest : peekIs IsDigit rest = false) :
    (Tokenizer.mk (sign :: rest) cur e).Next
      = Except.ok ⟨rest, Token.SymbolToken (String.mk [sign]), e⟩ := by
  rcases IsSign_cases hs with rfl | rfl <;>
    simp [Tokenizer.Next, Tokenizer.IgnoreSpaces, List.dropWhile, isspace, IsParen, IsDot,
      IsQuote, IsSign, GetConstantOrSign, hrest]

theorem Next_sign_digits (sign : Char) (ds rest : List Char) (cur : Token) (e : Bool)
    (hs : IsSign sign = true) (hne : ds ≠ [])
    (hds : ∀ c ∈ ds, IsDigit c = true) (hrest : peekIs IsDigit rest = false)
    (hfit : decimalValue ds < 2 ^ 31) :
    (Tokenizer.mk (sign :: (ds ++ rest)) cur e).Next
      = Except.ok ⟨rest,
          Token.ConstantToken (if sign = '-' then -decimalValue ds else decimalValue ds), e⟩ := by
  have hrd := readDigits_append ds rest hds hrest 0 (le_refl 0) hfit
  have hpk : peekIs IsDigit (ds ++ rest) = true := by
    cases ds with
    | nil => exact absurd rfl hne
    | cons c ds => simpa [peekIs] using hds c (List.mem_cons_self _ _)
  have hnn := decimalValue_nonneg ds hds
  have hneg : wrap32 (-decimalValue ds) = -decimalValue ds :=
    wrap32_of_range (by omega) (by omega)
  rcases IsSign_cases hs with rfl | rfl
  · simp [Tokenizer.Next, Tokenizer.IgnoreSpaces, List.dropWhile, isspace, IsParen, IsDot,
      IsQuote, IsSign, GetConstantOrSign, hpk, hrd, decimalValue]
  · have hneg2 := hneg
    unfold decimalValue at hneg2
    simp [Tokenizer.Next, Tokenizer.IgnoreSpaces, List.dropWhile, isspace, IsParen, IsDot,
      IsQuote, IsSign, GetConstantOrSign, hpk, hrd, decimalValue, hneg2]

/-- C6, as the code has it. Tokenizer sign rule: a `+` or `-` immediately followed by a run of
digits whose decimal value is at most `2^31 - 1` yields one integer token whose value is the
signed decimal value of the digits; a `+` or `-` not immediately followed by a digit yields a
symbol token of that one character and consumes only that character; an unsigned run of digits
whose decimal value is at most `2^31 - 1` yields its decimal value. -/
theorem C6_sign_rule_within_int :
    (∀ (sign : Char) (ds rest : List Char) (cur : Token) (e : Bool),
      IsSign sign = true → ds ≠ [] → (∀ c ∈ ds, IsDigit c = true) →
      peekIs IsDigit rest = false → decimalValue ds < 2 ^ 31 →
      (Tokenizer.mk (sign :: (ds ++ rest)) cur e).Next
        = Except.ok ⟨rest,
            Token.ConstantToken (if sign = '-' then -decimalValue ds else decimalValue ds), e⟩) ∧
    (∀ (sign : Char) (rest : List Char) (cur : Token) (e : Bool),
      IsSign sign = true → peekIs IsDigit rest = false →
      (Tokenizer.mk (sign :: rest) cur e).Next
        = Except.ok ⟨rest, Token.SymbolToken (String.mk [sign]), e⟩) ∧
    (∀ (ds rest : List Char) (cur : Token) (e : Bool),
      ds ≠ [] → (∀ c ∈ ds, IsDigit c = true) →
      peekIs IsDigit rest = false → decimalValue ds < 2 ^ 31 →
      (Tokenizer.mk (ds ++ rest) cur e).Next
        = Except.ok ⟨rest, Token.ConstantToken (decimalValue ds), e⟩) :=
  ⟨fun sign ds rest cur e hs hne hds hrest hfit =>
      Next_sign_digits sign ds rest cur e hs hne hds hrest hfit,
    fun sign rest cur e hs hrest => Next_sign_symbol sign rest cur e hs hrest,
    fun ds rest cur e hne hds hrest hfit => Next_digits ds rest cur e hne hds hrest hfit⟩

/-- The instances of C6 on `-12)`, on `+ 5` and on `12)`. -/
theorem C6_sign_rule_within_int_witness :
    (Tokenizer.mk ('-' :: (['1', '2'] ++ [')'])) Token.monostate false).Next
        = Except.ok ⟨[')'], Token.ConstantToken (-12), false⟩ ∧
    (Tokenizer.mk ('+' :: [' ', '5']) Token.monostate false).Next
        = Except.ok ⟨[' ', '5'], Token.SymbolToken "+", false⟩ ∧
    (Tokenizer.mk (['1', '2'] ++ [')']) Token.monostate false).Next
        = Except.ok ⟨[')'], Token.ConstantToken 12, false⟩ :=
  ⟨C6_sign_rule_within_int.1 '-' ['1', '2'] [')'] Token.monostate false (by decide) (by decide)
      (by decide) (by decide) (by decide),
    C6_sign_rule_within_int.2.1 '+' [' ', '5'] Token.monostate false (by decide) (by decide),
    C6_sign_rule_within_int.2.2 ['1', '2'] [')'] Token.monostate false (by decide) (by decide)
      (by decide) (by decide)⟩

set_option maxRecDepth 100000 in
/-- C6 as stated fails: the digits of `+2147483648` have the decimal value `2147483648`, and the
token read from them has the value `-2147483648`. -/
theorem C6_counterexample :
    decimalValue "2147483648".toList = 2147483648 ∧
    (Tokenizer.new "+2147483648".toList).Next
      = Except.ok ⟨[], Token.ConstantToken (-2147483648), false⟩ :=
  ⟨by decide, by rfl⟩

/-! ## The printer -/

theorem intercalate_go_append (x acc s : String) (l : List String) :
    String.intercalate.go (x ++ acc) s l = x ++ String.intercalate.go acc s l := by
  induction l generalizing acc with
  | nil => simp [String.intercalate.go]
  | cons a l ih =>
    simp only [String.intercalate.go]
    rw [String.append_assoc, String.append_assoc, ih, String.append_assoc]

theorem intercalate_cons_cons (s a b : String) (l : List String) :
    s.intercalate (a :: b :: l) = a ++ (s ++ s.intercalate (b :: l)) := by
  simp only [String.intercalate, String.intercalate.go]
  rw [String.append_assoc, intercalate_go_append, intercalate_go_append]

/-- The print of a chain of pairs is `(`, the print of the first element and the text of the
tail. -/
theorem printRef_cell_aux (b : Tree) (x : String) :
    " ".intercalate (x :: printElements b) ++ printFinalTail b ++ ")" = x ++ tailString b := by
  induction b generalizing x with
  | Null => simp [printElements, printFinalTail, tailString, String.intercalate,
      String.intercalate.go]
  | Number v => simp [printElements, printFinalTail, tailString, String.intercalate,
      String.intercalate.go, String.append_assoc]
  | Boolean v => simp [printElements, printFinalTail, tailString, String.intercalate,
      String.intercalate.go, String.append_assoc]
  | Symbol n => simp [printElements, printFinalTail, tailString, String.intercalate,
      String.intercalate.go, String.append_assoc]
  | Cell a b _ ihb =>
    simp only [printElements, printFinalTail, tailString]
    rw [intercalate_cons_cons, String.append_assoc, String.append_assoc, String.append_assoc,
      ← String.append_assoc (" ".intercalate (printRef a :: printElements b)), ihb (printRef a)]

theorem printRef_cell (a b : Tree) :
    printRef (Tree.Cell a b) = "(" ++ (printRef a ++ tailString b) := by
  simp only [printRef]
  rw [String.append_assoc, String.append_assoc]
  congr 1
  rw [← String.append_assoc]
  exact printRef_cell_aux b (printRef a)

/-- The loop of `Cell::Serialize` on a represented chain, given that the serializer it calls is
right on the trees that are small enough. -/
theorem SerializeLoop_eq (h : Heap) (k : Nat)
    (hk : ∀ t p, Represents h p t → t.size < k → Serialize k h p = Except.ok (printRef t))
    (tb : Tree) :
    ∀ (ta : Tree) (first second : ObjectPtr) (n : Nat) (res : String),
      Represents h first ta → Represents h second tb → ta.size < k → tb.size < k →
      tb.size ≤ n →
      Cell.SerializeLoop (Serialize k h) h n res first second
        = Except.ok (res ++ (printRef ta ++ tailString tb)) := by
  induction tb with
  | Null =>
    intro ta first second n res hfirst hsecond hsa _ hn
    cases hsecond
    cases n with
    | zero => simp [Tree.size] at hn
    | succ n => simp [Cell.SerializeLoop, hk ta first hfirst hsa, tailString]
  | Number v =>
    intro ta first second n res hfirst hsecond hsa hsb hn
    have hs := hk _ _ hsecond hsb
    cases hsecond with
    | number ho =>
      cases n with
      | zero => simp [Tree.size] at hn
      | succ n =>
        simp only [printRef] at hs
        simp [Cell.SerializeLoop, ho, hk ta first hfirst hsa, hs, tailString,
          String.append_assoc]
  | Boolean v =>
    intro ta first second n res hfirst hsecond hsa hsb hn
    have hs := hk _ _ hsecond hsb
    cases hsecond with
    | boolean ho =>
      cases n with
      | zero => simp [Tree.size] at hn
      | succ n =>
        simp only [printRef] at hs
        simp [Cell.SerializeLoop, ho, hk ta first hfirst hsa, hs, tailString,
          String.append_assoc]
  | Symbol name =>
    intro ta first second n res hfirst hsecond hsa hsb hn
    have hs := hk _ _ hsecond hsb
    cases hsecond with
    | symbol ho =>
      cases n with
      | zero => simp [Tree.size] at hn
      | succ n =>
        simp only [printRef] at hs
        simp [Cell.SerializeLoop, ho, hk ta first hfirst hsa, hs, tailString,
          String.append_assoc]
  | Cell a b _ ihb =>
    intro ta first second n res hfirst hsecond hsa hsb hn
    cases hsecond with
    | cell ho hf hs =>
      simp only [Tree.size] at hsb hn
      cases n with
      | zero => omega
      | succ n =>
        simp only [Cell.SerializeLoop, ho, hk ta first hfirst hsa]
        rw [ihb a _ _ n _ hf hs (by omega) (by omega) (by omega)]
        simp [tailString, String.append_assoc]

/-- The function `Serialize` on a represented tree, with fuel above the size of the tree. -/
theorem Serialize_eq (h : Heap) :
    ∀ (k : Nat) (t : Tree) (p : ObjectPtr), Represents h p t → t.size < k →
      Serialize k h p = Except.ok (printRef t) := by
  intro k
  induction k with
  | zero => intro t p _ hs; omega
  | succ k ih =>
    intro t p hrep hs
    cases hrep with
    | null => simp [Serialize, printRef]
    | number ho => simp [Serialize, ho, printRef]
    | boolean ho => simp [Serialize, ho, printRef]
    | symbol ho => simp [Serialize, ho, printRef]
    | @cell a f s tf ts ho hf hsnd =>
      simp only [Tree.size] at hs
      simp only [Serialize, ho]
      rw [SerializeLoop_eq h k ih ts tf f s k "(" hf hsnd (by omega) (by omega) (by omega)]
      rw [printRef_cell]

/-- C3. `Serialize` equals the reference printer on every value built from integers, booleans,
symbols, pairs and the empty value, for every fuel above the size of the value. -/
theorem C3_Serialize_reference_printer (h : Heap) (p : ObjectPtr) (t : Tree) (fuel : Nat)
    (hrep : Represents h p t) (hfuel : t.size < fuel) :
    Serialize fuel h p = Except.ok (printRef t) :=
  Serialize_eq h fuel t p hrep hfuel

/-- The instance of C3 on the list `(1)` at the address `5` of `exampleHeapCell`. -/
theorem C3_Serialize_reference_printer_witness :
    Represents exampleHeapCell (some 5) (Tree.Cell (Tree.Number 1) Tree.Null) ∧
    (Tree.Cell (Tree.Number 1) Tree.Null).size < 4 ∧
    Serialize 4 exampleHeapCell (some 5)
      = Except.ok (printRef (Tree.Cell (Tree.Number 1) Tree.Null)) :=
  ⟨Represents.cell (a := 5) rfl (Represents.number (a := 4) rfl) Represents.null, by decide,
    C3_Serialize_reference_printer exampleHeapCell (some 5) _ 4
      (Represents.cell (a := 5) rfl (Represents.number (a := 4) rfl) Represents.null)
      (by decide)⟩

/-- The reference printer on a proper list of at least one element. -/
theorem printRef_properList (t : Tree) (ts : List Tree) :
    printRef (Tree.chain (t :: ts) Tree.Null)
      = "(" ++ " ".intercalate ((t :: ts).map printRef) ++ ")" := by
  have hel : ∀ l : List Tree, printElements (Tree.chain l Tree.Null) = l.map printRef := by
    intro l
    induction l with
    | nil => simp [Tree.chain, printElements]
    | cons a l ih => simp [Tree.chain, printElements, ih]
  have hft : ∀ l : List Tree, printFinalTail (Tree.chain l Tree.Null) = "" := by
    intro l
    induction l with
    | nil => simp [Tree.chain, printFinalTail]
    | cons a l ih => simp [Tree.chain, printFinalTail, ih]
  simp [Tree.chain, printRef, hel, hft]

/-- The reference printer on a chain of pairs that ends in a tail that is neither a pair nor the
empty value. -/
theorem printRef_dotted (t : Tree) (ts : List Tree) (tail : Tree) (htail : tail.isAtom = true) :
    printRef (Tree.chain (t :: ts) tail)
      = "(" ++ " ".intercalate ((t :: ts).map printRef) ++ " . " ++ printRef tail ++ ")" := by
  have hel : ∀ l : List Tree, printElements (Tree.chain l tail) = l.map printRef := by
    intro l
    induction l with
    | nil => cases tail <;> simp_all [Tree.chain, printElements, Tree.isAtom]
    | cons a l ih => simp [Tree.chain, printElements, ih]
  have hft : ∀ l : List Tree, printFinalTail (Tree.chain l tail) = " . " ++ printRef tail := by
    intro l
    induction l with
    | nil => cases tail <;> simp_all [Tree.chain, printFinalTail, printRef, Tree.isAtom]
    | cons a l ih => simp [Tree.chain, printFinalTail, ih]
  simp [Tree.chain, printRef, hel, hft, String.append_assoc]

/-! ## The tokenizer: one token at a time -/

theorem Next_eq (tk : Tokenizer) :
    tk.Next =
      match nextToken tk.is_ with
      | Except.error e => Except.error e
      | Except.ok none => Except.ok ⟨[], tk.current_token_, true⟩
      | Except.ok (some x) => Except.ok ⟨x.2, x.1, tk.is_end_⟩ := by
  unfold Tokenizer.Next nextToken Tokenizer.IgnoreSpaces
  cases hd : tk.is_.dropWhile isspace with
  | nil => simp
  | cons c r =>
    simp only
    cases IsParen c <;> cases IsDot c <;> cases IsQuote c <;> cases (IsSign c || IsDigit c) <;>
      simp
    cases GetSymbol (c :: r) <;> simp

theorem GetSymbol_error {s : List Char} {e : Error} (h : GetSymbol s = Except.error e) :
    e = Error.SyntaxError := by
  unfold GetSymbol at h
  split at h
  · cases h; rfl
  · split at h
    · cases h
    · split at h
      · cases h; rfl
      · cases h

theorem nextToken_error {s : List Char} {e : Error} (h : nextToken s = Except.error e) :
    e = Error.SyntaxError := by
  unfold nextToken at h
  split at h
  · cases h
  · split at h
    · cases h
    · split at h
      · cases h
      · split at h
        · cases h
        · split at h
          · cases h
          · split at h
            · rename_i heq
              cases h
              exact GetSymbol_error heq
            · cases h

/-- The function `Tokenizer::Next` throws syntax errors only. -/
theorem Next_error {tk : Tokenizer} {e : Error} (h : tk.Next = Except.error e) :
    e = Error.SyntaxError := by
  rw [Next_eq] at h
  split at h
  · rename_i heq
    cases h
    exact nextToken_error heq
  · cases h
  · cases h

theorem GetSymbol_ne_monostate {s : List Char} {x : Token × List Char}
    (h : GetSymbol s = Except.ok x) : x.1 ≠ Token.monostate := by
  unfold GetSymbol at h
  split at h
  · cases h
  · split at h
    · cases h; simp
    · split at h
      · cases h
      · cases h; simp

theorem GetConstantOrSign_ne_monostate (s : List Char) :
    (GetConstantOrSign s).1 ≠ Token.monostate := by
  unfold GetConstantOrSign
  split
  · simp
  · split
    · split
      · simp
      · split <;> simp
    · simp

theorem nextToken_ne_monostate {s : List Char} {x : Token × List Char}
    (h : nextToken s = Except.ok (some x)) : x.1 ≠ Token.monostate := by
  unfold nextToken at h
  split at h
  · cases h
  · split at h
    · cases h
      unfold GetParen
      split
      · simp
      · split <;> simp
    · split at h
      · cases h; simp [GetDot]
      · split at h
        · cases h; simp [GetQuote]
        · split at h
          · cases h
            exact GetConstantOrSign_ne_monostate _
          · split at h
            · cases h
            · rename_i heq
              cases h
              exact GetSymbol_ne_monostate heq

/-! ## The tokenizer on a continued stream -/

theorem stopper_not_digit {d : Char} (hd : stopper d = true) : IsDigit d = false := by
  simp only [stopper, IsContinuingCharOfSymbol, Bool.not_eq_true', Bool.or_eq_false_iff] at hd
  exact hd.1.1.1.2

theorem peekIs_stopper_digit {sfx : List Char} (hs : peekIs stopper sfx = true) :
    peekIs IsDigit sfx = false := by
  cases sfx with
  | nil => rfl
  | cons d _ => exact stopper_not_digit hs

theorem readDigits_extend (sfx : List Char) (hs : peekIs IsDigit sfx = false) (r : List Char) :
    ∀ v, readDigits (r ++ sfx) v = ((readDigits r v).1, (readDigits r v).2 ++ sfx) := by
  induction r with
  | nil =>
    intro v
    cases sfx with
    | nil => simp [readDigits]
    | cons d sfx =>
      simp only [peekIs] at hs
      simp [readDigits, hs]
  | cons c r ih =>
    intro v
    simp only [List.cons_append, readDigits]
    cases hc : IsDigit c
    · simp
    · simp [ih]

theorem readSymbolTail_extend (sfx : List Char) (hs : peekIs stopper sfx = true)
    (r : List Char) :
    readSymbolTail (r ++ sfx) = ((readSymbolTail r).1, (readSymbolTail r).2 ++ sfx) := by
  induction r with
  | nil =>
    cases sfx with
    | nil => simp [readSymbolTail]
    | cons d sfx =>
      simp only [peekIs, stopper, Bool.not_eq_true'] at hs
      simp only [List.nil_append, readSymbolTail, hs]
      cases isspace d <;> simp
  | cons c r ih =>
    simp only [List.cons_append, readSymbolTail]
    cases isspace c <;> cases IsContinuingCharOfSymbol c <;> simp [ih]

theorem peekIs_extend (sfx : List Char) (hs : peekIs IsDigit sfx = false) (r : List Char) :
    peekIs IsDigit (r ++ sfx) = peekIs IsDigit r := by
  cases r with
  | nil => simpa [peekIs] using hs
  | cons c r => rfl

theorem GetConstantOrSign_extend (sfx : List Char) (hs : peekIs stopper sfx = true)
    (c : Char) (r : List Char) :
    GetConstantOrSign (c :: r ++ sfx)
      = ((GetConstantOrSign (c :: r)).1, (GetConstantOrSign (c :: r)).2 ++ sfx) := by
  have hd := peekIs_stopper_digit hs
  simp only [List.cons_append, GetConstantOrSign, peekIs_extend sfx hd]
  have h1 := readDigits_extend sfx hd r 0
  have h2 := readDigits_extend sfx hd (c :: r) 0
  simp only [List.cons_append] at h2
  cases IsSign c
  · simp [h2]
  · cases peekIs IsDigit r
    · simp
    · by_cases hm : c = '-' <;> simp [h1, hm]

theorem GetSymbol_extend (sfx : List Char) (hs : peekIs stopper sfx = true)
    (c : Char) (r : List Char) :
    GetSymbol (c :: r ++ sfx) =
      match GetSymbol (c :: r) with
      | Except.error e => Except.error e
      | Except.ok x => Except.ok (x.1, x.2 ++ sfx) := by
  simp only [List.cons_append, GetSymbol, readSymbolTail_extend sfx hs]
  cases IsSign c <;> cases IsFirstCharOfSymbol c <;> simp

/-- The token read from a stream is not changed by a continuation of the stream that starts with
a stopper; at the end of the stream the token is read from the continuation. -/
theorem nextToken_extend (sfx : List Char) (hs : peekIs stopper sfx = true) (cs : List Char) :
    nextToken (cs ++ sfx) =
      match nextToken cs with
      | Except.error e => Except.error e
      | Except.ok none => nextToken sfx
      | Except.ok (some x) => Except.ok (some (x.1, x.2 ++ sfx)) := by
  unfold nextToken
  rw [List.dropWhile_append]
  cases hd : cs.dropWhile isspace with
  | nil => simp
  | cons c r =>
    simp only [List.isEmpty_cons, Bool.false_eq_true, if_false]
    have hg := GetConstantOrSign_extend sfx hs c r
    have hy := GetSymbol_extend sfx hs c r
    simp only [List.cons_append] at hg hy ⊢
    cases IsParen c
    · cases IsDot c
      · cases IsQuote c
        · cases (IsSign c || IsDigit c)
          · simp only [Bool.false_eq_true, if_false, hy]
            cases GetSymbol (c :: r) <;> simp
          · simp [hg]
        · simp [GetQuote]
      · simp [GetDot]
    · simp only [if_true, GetParen]
      split <;> simp

/-! ## The reader on a continued stream -/

theorem IsEnd_of_ne {tk : Tokenizer} (h : tk.current_token_ ≠ Token.monostate) :
    tk.IsEnd = (tk.is_end_, tk) := by
  simp [Tokenizer.IsEnd, h]

theorem GetToken_of_ne {tk : Tokenizer} (h : tk.current_token_ ≠ Token.monostate) :
    tk.GetToken = Except.ok (tk.current_token_, tk) := by
  simp [Tokenizer.GetToken, h]

theorem Next_ne_monostate {tk tk2 : Tokenizer} (hn : tk.Next = Except.ok tk2)
    (hm : tk.current_token_ ≠ Token.monostate) : tk2.current_token_ ≠ Token.monostate := by
  rw [Next_eq] at hn
  split at hn
  · cases hn
  · cases hn; exact hm
  · rename_i x heq
    cases hn
    exact nextToken_ne_monostate heq

theorem Next_extend (sfx : List Char) (hs : peekIs stopper sfx = true) {tk tk2 : Tokenizer}
    (hn : tk.Next = Except.ok tk2) (he : tk.is_end_ = false) :
    (tk.extend sfx).Next = tk2.continued sfx := by
  rw [Next_eq] at hn
  rw [Next_eq]
  simp only [Tokenizer.extend, nextToken_extend sfx hs]
  split at hn
  · cases hn
  · rename_i heq
    cases hn
    simp only [heq, Tokenizer.continued, if_true]
    rw [Next_eq]
    simp [he]
  · rename_i x heq
    cases hn
    simp [heq, Tokenizer.continued, he, Tokenizer.extend]

theorem Read_body_end (read readList : Tokenizer → ReadResult) {tk : Tokenizer}
    (hm : tk.current_token_ ≠ Token.monostate) (he : tk.is_end_ = true) :
    Read.body read readList tk = Except.error Error.SyntaxError := by
  simp [Read.body, IsEnd_of_ne hm, he]

theorem ReadList_body_end (read readList : Tokenizer → ReadResult) {tk : Tokenizer}
    (hm : tk.current_token_ ≠ Token.monostate) (he : tk.is_end_ = true) :
    ReadList.body read readList tk = Except.error Error.SyntaxError := by
  simp [ReadList.body, IsEnd_of_ne hm, he]

theorem Read_end (fuel : Nat) {tk : Tokenizer} (hm : tk.current_token_ ≠ Token.monostate)
    (he : tk.is_end_ = true) (r : Tree × Tokenizer) : Read fuel tk ≠ Except.ok r := by
  cases fuel with
  | zero => simp [Read]
  | succ n => simp [Read, Read_body_end _ _ hm he]

theorem ReadList_end (fuel : Nat) {tk : Tokenizer} (hm : tk.current_token_ ≠ Token.monostate)
    (he : tk.is_end_ = true) (r : Tree × Tokenizer) : ReadList fuel tk ≠ Except.ok r := by
  cases fuel with
  | zero => simp [ReadList]
  | succ n => simp [ReadList, ReadList_body_end _ _ hm he]

theorem extendResult_of_not_end (sfx : List Char) {r : Tree × Tokenizer}
    (he : r.2.is_end_ = false) : extendResult sfx r = Except.ok (r.1, r.2.extend sfx) := by
  simp [extendResult, Tokenizer.continued, he]

theorem Read_body_extends (sfx : List Char) (hs : peekIs stopper sfx = true)
    (read readList : Tokenizer → ReadResult)
    (hread : Extends sfx read) (hreadList : Extends sfx readList)
    (hend : FailsAtEnd read) (hendL : FailsAtEnd readList) :
    Extends sfx (Read.body read readList) := by
  intro tk r hm he h
  have hm' : (tk.extend sfx).current_token_ ≠ Token.monostate := hm
  have he' : (tk.extend sfx).is_end_ = false := he
  simp only [Read.body, IsEnd_of_ne hm, GetToken_of_ne hm, he] at h
  simp only [Read.body, IsEnd_of_ne hm', GetToken_of_ne hm', he']
  cases hn : tk.Next with
  | error e => simp [hn] at h
  | ok tk2 =>
    have hm2 := Next_ne_monostate hn hm
    rw [Next_extend sfx hs hn he]
    simp only [hn, Bool.false_eq_true, if_false] at h
    have hcur : (tk.extend sfx).current_token_ = tk.current_token_ := rfl
    simp only [Bool.false_eq_true, if_false, hcur]
    cases hc : tk.current_token_ with
    | monostate => exact absurd hc hm
    | ConstantToken v =>
      simp only [hc] at h
      cases h
      refine ⟨hm2, ?_⟩
      simp only [extendResult]
    | BracketToken b =>
      cases b with
      | CLOSE => simp [hc] at h
      | OPEN =>
        simp only [hc] at h
        cases he2 : tk2.is_end_ with
        | true => exact absurd h (hendL tk2 r hm2 he2)
        | false =>
          have := hreadList tk2 r hm2 he2 h
          refine ⟨this.1, ?_⟩
          simp only [Tokenizer.continued, he2, Bool.false_eq_true, if_false]
          exact this.2
    | SymbolToken name =>
      simp only [hc] at h
      by_cases h1 : name = "#t"
      · simp only [h1, if_true] at h
        cases h
        refine ⟨hm2, ?_⟩
        simp only [extendResult, h1, if_true]
      · by_cases h2 : name = "#f"
        · simp only [h2, if_true] at h
          cases h
          refine ⟨hm2, ?_⟩
          simp only [extendResult, h2]
          cases tk2.continued sfx <;> simp
        · simp only [h1, h2, if_false] at h
          cases h
          refine ⟨hm2, ?_⟩
          simp only [extendResult, h1, h2, if_false]
    | QuoteToken =>
      simp only [hc] at h
      cases hr : read tk2 with
      | error e => simp [hr] at h
      | ok r2 =>
        obtain ⟨t, tk3⟩ := r2
        simp only [hr] at h
        cases h
        cases he2 : tk2.is_end_ with
        | true => exact absurd hr (hend tk2 _ hm2 he2)
        | false =>
          have := hread tk2 _ hm2 he2 hr
          refine ⟨this.1, ?_⟩
          simp only [Tokenizer.continued, he2, Bool.false_eq_true, if_false, this.2]
          simp only [extendResult]
          cases tk3.continued sfx <;> rfl
    | DotToken => simp [hc] at h
theorem ReadList_body_extends (sfx : List Char) (hs : peekIs stopper sfx = true)
    (read readList : Tokenizer → ReadResult)
    (hread : Extends sfx read) (hreadList : Extends sfx readList)
    (hend : FailsAtEnd read) :
    Extends sfx (ReadList.body read readList) := by
  intro tk r hm he h
  have hm' : (tk.extend sfx).current_token_ ≠ Token.monostate := hm
  have he' : (tk.extend sfx).is_end_ = false := he
  have hcur : (tk.extend sfx).current_token_ = tk.current_token_ := rfl
  simp only [ReadList.body, IsEnd_of_ne hm, GetToken_of_ne hm, he, Bool.false_eq_true,
    if_false] at h
  simp only [ReadList.body, IsEnd_of_ne hm', GetToken_of_ne hm', he', Bool.false_eq_true,
    if_false, hcur]
  by_cases hclose : tk.current_token_ = Token.BracketToken BracketToken.CLOSE
  · simp only [hclose, if_true] at h ⊢
    cases hn : tk.Next with
    | error e => simp [hn] at h
    | ok tk2 =>
      simp only [hn] at h
      cases h
      rw [Next_extend sfx hs hn he]
      exact ⟨Next_ne_monostate hn hm, by simp only [extendResult]⟩
  · simp only [hclose, if_false] at h ⊢
    by_cases hdot : tk.current_token_ = Token.DotToken
    · simp [hdot] at h
    · simp only [hdot, if_false] at h ⊢
      cases hr : read tk with
      | error e => simp [hr] at h
      | ok r1 =>
        obtain ⟨first, tk2⟩ := r1
        have h1 := hread tk _ hm he hr
        simp only [hr, IsEnd_of_ne h1.1, GetToken_of_ne h1.1] at h
        cases he2 : tk2.is_end_ with
        | true => simp [he2] at h
        | false =>
          have hm2' : (tk2.extend sfx).current_token_ ≠ Token.monostate := h1.1
          have he2' : (tk2.extend sfx).is_end_ = false := he2
          have hcur2 : (tk2.extend sfx).current_token_ = tk2.current_token_ := rfl
          simp only [he2, Bool.false_eq_true, if_false] at h
          rw [h1.2, extendResult_of_not_end sfx he2]
          simp only [IsEnd_of_ne hm2', GetToken_of_ne hm2', he2', Bool.false_eq_true, if_false,
            hcur2]
          by_cases hd2 : tk2.current_token_ = Token.DotToken
          · simp only [hd2, if_true] at h ⊢
            cases hn : tk2.Next with
            | error e => simp [hn] at h
            | ok tk4 =>
              simp only [hn] at h
              rw [Next_extend sfx hs hn he2]
              have hm4 := Next_ne_monostate hn h1.1
              cases hr2 : read tk4 with
              | error e => simp [hr2] at h
              | ok r2 =>
                obtain ⟨second, tk5⟩ := r2
                cases he4 : tk4.is_end_ with
                | true => exact absurd hr2 (hend tk4 _ hm4 he4)
                | false =>
                  have h2 := hread tk4 _ hm4 he4 hr2
                  simp only [Tokenizer.continued, he4, Bool.false_eq_true, if_false]
                  rw [h2.2]
                  simp only [hr2, IsEnd_of_ne h2.1, GetToken_of_ne h2.1] at h
                  cases he5 : tk5.is_end_ with
                  | true => simp [he5] at h
                  | false =>
                    have hm5' : (tk5.extend sfx).current_token_ ≠ Token.monostate := h2.1
                    have he5' : (tk5.extend sfx).is_end_ = false := he5
                    have hcur5 : (tk5.extend sfx).current_token_ = tk5.current_token_ := rfl
                    rw [extendResult_of_not_end sfx he5]
                    simp only [he5, Bool.false_eq_true, if_false] at h
                    simp only [IsEnd_of_ne hm5', GetToken_of_ne hm5', he5', Bool.false_eq_true,
                      if_false, hcur5]
                    by_cases hc5 : tk5.current_token_ = Token.BracketToken BracketToken.CLOSE
                    · simp only [hc5, ne_eq, not_true_eq_false, if_false] at h ⊢
                      cases hn5 : tk5.Next with
                      | error e => simp [hn5] at h
                      | ok tk7 =>
                        simp only [hn5] at h
                        cases h
                        rw [Next_extend sfx hs hn5 he5]
                        exact ⟨Next_ne_monostate hn5 h2.1, by simp only [extendResult]⟩
                    · simp [hc5] at h
          · simp only [hd2, if_false] at h ⊢
            cases hrl : readList tk2 with
            | error e => simp [hrl] at h
            | ok r2 =>
              obtain ⟨second, tk4⟩ := r2
              simp only [hrl] at h
              cases h
              have h2 := hreadList tk2 _ h1.1 he2 hrl
              rw [h2.2]
              refine ⟨h2.1, ?_⟩
              simp only [extendResult]
              cases tk4.continued sfx <;> simp

theorem Read_extends (sfx : List Char) (hs : peekIs stopper sfx = true) (fuel : Nat) :
    Extends sfx (Read fuel) ∧ Extends sfx (ReadList fuel) := by
  induction fuel with
  | zero =>
    constructor <;> intro tk r _ _ h
    · simp [Read] at h
    · simp [ReadList] at h
  | succ n ih =>
    have hend : FailsAtEnd (Read n) := fun tk r hm he => Read_end n hm he r
    have hendL : FailsAtEnd (ReadList n) := fun tk r hm he => ReadList_end n hm he r
    constructor
    · intro tk r hm he h
      simp only [Read] at h ⊢
      exact Read_body_extends sfx hs _ _ ih.1 ih.2 hend hendL tk r hm he h
    · intro tk r hm he h
      simp only [ReadList] at h ⊢
      exact ReadList_body_extends sfx hs _ _ ih.1 ih.2 hend tk r hm he h

/-! ## The reader and its fuel -/

theorem Read_body_mono (read readList read2 readList2 : Tokenizer → ReadResult)
    (hread : ∀ tk r, read tk = Except.ok r → read2 tk = Except.ok r)
    (hreadList : ∀ tk r, readList tk = Except.ok r → readList2 tk = Except.ok r)
    (tk : Tokenizer) (r : Tree × Tokenizer) (h : Read.body read readList tk = Except.ok r) :
    Read.body read2 readList2 tk = Except.ok r := by
  unfold Read.body at h ⊢
  simp only at h ⊢
  split at h
  · cases h
  · rename_i hne
    simp only [hne, if_false]
    split at h
    · cases h
    · split at h
      · cases h
      · split at h
        · cases h
        · exact hreadList _ _ h
        · exact h
        · exact h
        · split at h
          · cases h
          · rename_i t tk3 hr
            simp only [hread _ _ hr]
            exact h
        · cases h
        · cases h

theorem ReadList_body_mono (read readList read2 readList2 : Tokenizer → ReadResult)
    (hread : ∀ tk r, read tk = Except.ok r → read2 tk = Except.ok r)
    (hreadList : ∀ tk r, readList tk = Except.ok r → readList2 tk = Except.ok r)
    (tk : Tokenizer) (r : Tree × Tokenizer) (h : ReadList.body read readList tk = Except.ok r) :
    ReadList.body read2 readList2 tk = Except.ok r := by
  unfold ReadList.body at h ⊢
  simp only at h ⊢
  split at h
  · cases h
  · rename_i hne
    simp only [hne, if_false]
    split at h
    · cases h
    · split at h
      · rename_i hc
        simp only [hc, if_true]
        exact h
      · rename_i hc
        simp only [hc, if_false]
        split at h
        · cases h
        · rename_i hd
          simp only [hd, if_false]
          split at h
          · cases h
          · rename_i first tk2 hr
            simp only [hread _ _ hr]
            split at h
            · cases h
            · rename_i hne2
              simp only [hne2, if_false]
              split at h
              · cases h
              · split at h
                · rename_i hd2
                  simp only [hd2, if_true]
                  split at h
                  · cases h
                  · split at h
                    · cases h
                    · rename_i second tk5 hr2
                      simp only [hread _ _ hr2]
                      exact h
                · rename_i hd2
                  simp only [hd2, if_false]
                  split at h
                  · cases h
                  · rename_i second tk4 hrl
                    simp only [hreadList _ _ hrl]
                    exact h

theorem Read_mono_succ (fuel : Nat) :
    (∀ tk r, Read fuel tk = Except.ok r → Read (fuel + 1) tk = Except.ok r) ∧
    (∀ tk r, ReadList fuel tk = Except.ok r → ReadList (fuel + 1) tk = Except.ok r) := by
  induction fuel with
  | zero =>
    constructor <;> intro tk r h
    · simp [Read] at h
    · simp [ReadList] at h
  | succ n ih =>
    constructor
    · intro tk r h
      rw [Read] at h ⊢
      exact Read_body_mono _ _ _ _ ih.1 ih.2 tk r h
    · intro tk r h
      rw [ReadList] at h ⊢
      exact ReadList_body_mono _ _ _ _ ih.1 ih.2 tk r h

/-- More fuel does not change a result of the reader. -/
theorem Read_mono {fuel fuel2 : Nat} (hle : fuel ≤ fuel2) {tk : Tokenizer}
    {r : Tree × Tokenizer} (h : Read fuel tk = Except.ok r) : Read fuel2 tk = Except.ok r := by
  induction hle with
  | refl => exact h
  | step _ ih => exact (Read_mono_succ _).1 tk r ih

/-! ## The reader at the start of a stream -/

theorem nextToken_eq_none_iff (cs : List Char) :
    nextToken cs = Except.ok none ↔ cs.dropWhile isspace = [] := by
  unfold nextToken
  cases hd : cs.dropWhile isspace with
  | nil => simp
  | cons c r =>
    simp only [reduceCtorEq, iff_false]
    cases IsParen c <;> cases IsDot c <;> cases IsQuote c <;> cases (IsSign c || IsDigit c) <;>
      simp
    cases GetSymbol (c :: r) <;> simp

theorem nextToken_dropWhile (cs : List Char) :
    nextToken (cs.dropWhile isspace) = nextToken cs := by
  unfold nextToken
  rw [List.dropWhile_idempotent]

/-- On a new tokenizer the reader first reads a token; from there on it goes as on the tokenizer
that holds this token. -/
theorem Read_body_new (read readList : Tokenizer → ReadResult) (cs : List Char) :
    Read.body read readList (Tokenizer.new cs) =
      match nextToken cs with
      | Except.error e => Except.error e
      | Except.ok none => Except.error Error.SyntaxError
      | Except.ok (some x) => Read.body read readList ⟨x.2, x.1, false⟩ := by
  cases hn : nextToken cs with
  | error e =>
    have hne : cs.dropWhile isspace ≠ [] := by
      intro h
      rw [(nextToken_eq_none_iff cs).2 h] at hn
      cases hn
    simp [Read.body, Tokenizer.new, Tokenizer.IsEnd, Tokenizer.IgnoreSpaces, Tokenizer.GetToken,
      hne, Next_eq, nextToken_dropWhile, hn]
  | ok o =>
    cases o with
    | none =>
      have := (nextToken_eq_none_iff cs).1 hn
      simp [Read.body, Tokenizer.new, Tokenizer.IsEnd, Tokenizer.IgnoreSpaces, this]
    | some x =>
      have hne : cs.dropWhile isspace ≠ [] := by
        intro h
        rw [(nextToken_eq_none_iff cs).2 h] at hn
        cases hn
      have hm : x.1 ≠ Token.monostate := nextToken_ne_monostate hn
      simp [Read.body, Tokenizer.new, Tokenizer.IsEnd, Tokenizer.IgnoreSpaces,
        Tokenizer.GetToken, hne, Next_eq, nextToken_dropWhile, hn, hm]

theorem Read_new (fuel : Nat) (cs : List Char) :
    Read (fuel + 1) (Tokenizer.new cs) =
      match nextToken cs with
      | Except.error e => Except.error e
      | Except.ok none => Except.error Error.SyntaxError
      | Except.ok (some x) => Read (fuel + 1) ⟨x.2, x.1, false⟩ := by
  simp only [Read]
  exact Read_body_new _ _ cs

/-- The tokenizer after a successful reading holds a token. -/
theorem Read_new_ne_monostate {fuel : Nat} {cs : List Char} {r : Tree × Tokenizer}
    (h : Read fuel (Tokenizer.new cs) = Except.ok r) : r.2.current_token_ ≠ Token.monostate := by
  cases fuel with
  | zero => simp [Read] at h
  | succ n =>
    rw [Read_new] at h
    split at h
    · cases h
    · cases h
    · rename_i x hn
      exact ((Read_extends [')'] (by decide) (n + 1)).1 _ r (nextToken_ne_monostate hn) rfl h).1

/-- The reader on a stream continued by a text that starts with a stopper. -/
theorem Read_new_extend (sfx : List Char) (hs : peekIs stopper sfx = true) {fuel : Nat}
    {cs : List Char} {r : Tree × Tokenizer} (h : Read fuel (Tokenizer.new cs) = Except.ok r) :
    Read fuel (Tokenizer.new (cs ++ sfx)) = extendResult sfx r := by
  cases fuel with
  | zero => simp [Read] at h
  | succ n =>
    rw [Read_new] at h
    rw [Read_new, nextToken_extend sfx hs]
    split at h
    · cases h
    · cases h
    · rename_i x hn
      simp only [hn]
      exact ((Read_extends sfx hs (n + 1)).1 _ r (nextToken_ne_monostate hn) rfl h).2

/-! ## Malformed lists -/

theorem Read_ne_monostate {fuel : Nat} {tk : Tokenizer} {r : Tree × Tokenizer}
    (hm : tk.current_token_ ≠ Token.monostate) (he : tk.is_end_ = false)
    (h : Read fuel tk = Except.ok r) : r.2.current_token_ ≠ Token.monostate :=
  ((Read_extends [')'] (by decide) fuel).1 tk r hm he h).1

theorem ReadList_dot_first (fuel : Nat) (tk : Tokenizer)
    (hc : tk.current_token_ = Token.DotToken) (he : tk.is_end_ = false) :
    ReadList (fuel + 1) tk = Except.error Error.SyntaxError := by
  have hm : tk.current_token_ ≠ Token.monostate := by rw [hc]; simp
  simp [ReadList, ReadList.body, IsEnd_of_ne hm, GetToken_of_ne hm, he, hc]

theorem Read_close (fuel : Nat) (tk : Tokenizer)
    (hc : tk.current_token_ = Token.BracketToken BracketToken.CLOSE) (he : tk.is_end_ = false) :
    Read (fuel + 1) tk = Except.error Error.SyntaxError := by
  have hm : tk.current_token_ ≠ Token.monostate := by rw [hc]; simp
  simp only [Read, Read.body, IsEnd_of_ne hm, GetToken_of_ne hm, he, Bool.false_eq_true,
    if_false, hc]
  cases hn : tk.Next with
  | error e => rw [Next_error hn]
  | ok tk2 => rfl

theorem ReadList_after_element (fuel : Nat) (tk : Tokenizer) (first : Tree) (tk2 : Tokenizer)
    (hm : tk.current_token_ ≠ Token.monostate) (he : tk.is_end_ = false)
    (hclose : tk.current_token_ ≠ Token.BracketToken BracketToken.CLOSE)
    (hdot : tk.current_token_ ≠ Token.DotToken)
    (hr : Read fuel tk = Except.ok (first, tk2)) (he2 : tk2.is_end_ = true) :
    ReadList (fuel + 1) tk = Except.error Error.SyntaxError := by
  have hm2 : tk2.current_token_ ≠ Token.monostate := Read_ne_monostate hm he hr
  simp [ReadList, ReadList.body, IsEnd_of_ne hm, GetToken_of_ne hm, he, hclose, hdot, hr,
    IsEnd_of_ne hm2, he2]

theorem ReadList_after_dotted_tail (fuel : Nat) (tk : Tokenizer) (first : Tree)
    (tk2 tk4 : Tokenizer) (second : Tree) (tk5 : Tokenizer)
    (hm : tk.current_token_ ≠ Token.monostate) (he : tk.is_end_ = false)
    (hclose : tk.current_token_ ≠ Token.BracketToken BracketToken.CLOSE)
    (hdot : tk.current_token_ ≠ Token.DotToken)
    (hr : Read fuel tk = Except.ok (first, tk2)) (he2 : tk2.is_end_ = false)
    (hd2 : tk2.current_token_ = Token.DotToken) (hn : tk2.Next = Except.ok tk4)
    (hr2 : Read fuel tk4 = Except.ok (second, tk5))
    (hbad : tk5.is_end_ = true ∨ tk5.current_token_ ≠ Token.BracketToken BracketToken.CLOSE) :
    ReadList (fuel + 1) tk = Except.error Error.SyntaxError := by
  have hm2 : tk2.current_token_ ≠ Token.monostate := Read_ne_monostate hm he hr
  have hm4 : tk4.current_token_ ≠ Token.monostate := Next_ne_monostate hn hm2
  have he4 : tk4.is_end_ = false := by
    cases h : tk4.is_end_ with
    | false => rfl
    | true => exact absurd hr2 (Read_end fuel hm4 h _)
  have hm5 : tk5.current_token_ ≠ Token.monostate := Read_ne_monostate hm4 he4 hr2
  simp only [ReadList, ReadList.body, IsEnd_of_ne hm, GetToken_of_ne hm, he, hclose, hdot, hr,
    IsEnd_of_ne hm2, he2, GetToken_of_ne hm2, hd2, hn, hr2, IsEnd_of_ne hm5, GetToken_of_ne hm5,
    Bool.false_eq_true, if_false, if_true]
  rcases hbad with h5 | h5
  · simp [h5]
  · cases tk5.is_end_ <;> simp [h5]

/-! ## Empty input and trailing input -/

theorem Run_blank (fuel : Nat) (self : Interpreter) (s : String)
    (hs : ∀ c ∈ s.data, isspace c = true) :
    self.Run (fuel + 1) s = (Except.error Error.SyntaxError, self) := by
  have hn : nextToken s.data = Except.ok none :=
    (nextToken_eq_none_iff _).2 (List.dropWhile_eq_nil_iff.2 hs)
  simp [Interpreter.Run, Read_new, hn]

theorem Run_not_at_end (fuel : Nat) (self : Interpreter) (s : String) (T : Tree)
    (tk : Tokenizer) (hr : Read fuel (Tokenizer.new s.data) = Except.ok (T, tk))
    (he : tk.IsEnd.1 = false) :
    self.Run fuel s = (Except.error Error.SyntaxError, self) := by
  simp [Interpreter.Run, hr, he]

theorem Run_trailing (fuelE fuel : Nat) (self : Interpreter) (E rest : List Char) (T : Tree)
    (tk : Tokenizer) (hr : Read fuelE (Tokenizer.new E) = Except.ok (T, tk))
    (he : tk.IsEnd.1 = true) (hs : peekIs stopper rest = true)
    (hrest : ∃ c ∈ rest, isspace c = false) (hle : fuelE ≤ fuel) :
    self.Run fuel (String.mk (E ++ rest)) = (Except.error Error.SyntaxError, self) := by
  have hr2 := Read_mono hle hr
  have hm := Read_new_ne_monostate hr
  have hx := Read_new_extend rest hs hr2
  rw [IsEnd_of_ne hm] at he
  simp only at he hm
  have hnn : nextToken rest ≠ Except.ok none := by
    intro h
    have := List.dropWhile_eq_nil_iff.1 ((nextToken_eq_none_iff rest).1 h)
    obtain ⟨c, hc, hsp⟩ := hrest
    rw [this c hc] at hsp
    cases hsp
  simp only [extendResult, Tokenizer.continued, he, if_true, Next_eq] at hx
  cases hn : nextToken rest with
  | error e =>
    rw [hn] at hx
    simp only at hx
    rw [nextToken_error hn] at hx
    simp [Interpreter.Run, hx]
  | ok o =>
    cases o with
    | none => exact absurd hn hnn
    | some x =>
      rw [hn] at hx
      simp only at hx
      have hmx : x.1 ≠ Token.monostate := nextToken_ne_monostate hn
      simp [Interpreter.Run, hx, Tokenizer.IsEnd, hmx]

/-! ## Decimal digits -/

theorem digitChar_isDigit (k : Nat) (hk : k < 10) :
    IsDigit (Nat.digitChar k) = true ∧ digitValue (Nat.digitChar k) = (k : Int) := by
  interval_cases k <;> decide

/-- The characters that `Nat.toDigitsCore` puts before its accumulator are digits, and their
decimal value is the number written. -/
theorem core_digits (budget : Nat) :
    ∀ (tail : List Char) (n : Nat), n < budget →
      ∃ pre : List Char, pre ≠ [] ∧ (∀ c ∈ pre, IsDigit c = true) ∧
        (∀ v : Int, pre.foldl (fun v c => v * 10 + digitValue c) v
          = v * 10 ^ pre.length + (n : Int)) ∧
        Nat.toDigitsCore 10 budget n tail = pre ++ tail := by
  induction budget with
  | zero => intro tail n h; omega
  | succ budget ih =>
    intro tail n hn
    have hd := digitChar_isDigit (n % 10) (Nat.mod_lt _ (by decide))
    simp only [Nat.toDigitsCore]
    by_cases h0 : n / 10 = 0
    · refine ⟨[Nat.digitChar (n % 10)], by simp, ?_, ?_, by simp [h0]⟩
      · intro c hc
        simp only [List.mem_singleton] at hc
        rw [hc]; exact hd.1
      · intro v
        simp only [List.foldl_cons, List.foldl_nil, List.length_singleton, pow_one, hd.2]
        have : n % 10 = n := by omega
        rw [this]
    · have hlt : n / 10 < budget := by omega
      obtain ⟨pre, _, hdig, hval, heq⟩ := ih (Nat.digitChar (n % 10) :: tail) (n / 10) hlt
      refine ⟨pre ++ [Nat.digitChar (n % 10)], by simp, ?_, ?_, by simp [h0, heq]⟩
      · intro c hc
        rcases List.mem_append.1 hc with h1 | h1
        · exact hdig c h1
        · simp only [List.mem_singleton] at h1
          rw [h1]; exact hd.1
      · intro v
        simp only [List.foldl_append, List.foldl_cons, List.foldl_nil, hval, hd.2,
          List.length_append, List.length_singleton]
        have h10 : (n : Int) = (n / 10 : Nat) * 10 + (n % 10 : Nat) := by
          have := Nat.div_add_mod n 10
          omega
        rw [pow_succ]
        push_cast at h10 ⊢
        linarith

theorem toDigits_spec (n : Nat) :
    Nat.toDigits 10 n ≠ [] ∧ (∀ c ∈ Nat.toDigits 10 n, IsDigit c = true) ∧
      decimalValue (Nat.toDigits 10 n) = (n : Int) := by
  obtain ⟨pre, hne, hdig, hval, heq⟩ := core_digits (n + 1) [] n (Nat.lt_succ_self n)
  simp only [List.append_nil] at heq
  unfold Nat.toDigits
  rw [heq]
  refine ⟨hne, hdig, ?_⟩
  have := hval 0
  simpa [decimalValue] using this

/-! ## Self-evaluation -/

theorem nextToken_of_Next {cs : List Char} {cur : Token} {t : Token} {rest : List Char}
    (h : (Tokenizer.mk cs cur false).Next = Except.ok ⟨rest, t, false⟩) :
    nextToken cs = Except.ok (some (t, rest)) := by
  rw [Next_eq] at h
  split at h
  · cases h
  · cases h
  · rename_i x hx
    simp only at h
    cases h
    exact hx

/-- The function `Run` on a text that is one integer token: the integer is stored, evaluates to itself and is
printed. -/
theorem Run_number (fuel : Nat) (self : Interpreter) (s : String) (v : Int)
    (hn : nextToken s.data = Except.ok (some (Token.ConstantToken v, []))) :
    self.Run (fuel + 1) s
      = (Except.ok (to_string v),
          { self with heap := (self.heap.alloc (Object.Number v)).2 }) := by
  have hnil : nextToken [] = Except.ok none := by decide
  have hread : Read (fuel + 1) (Tokenizer.new s.data)
      = Except.ok (Tree.Number v, ⟨[], Token.ConstantToken v, true⟩) := by
    rw [Read_new, hn]
    simp only [Read, Read.body]
    rw [IsEnd_of_ne (by simp), GetToken_of_ne (by simp)]
    simp [Next_eq, hnil]
  have hobj : (self.heap.objects ++ [Object.Number v])[self.heap.objects.length]?
      = some (Object.Number v) := by
    simp
  simp [Interpreter.Run, hread, Tokenizer.IsEnd, Heap.store, Heap.alloc, Evaluate, deref, hobj,
    Serialize]

/-- The function `Run` on a text that is one boolean symbol. -/
theorem Run_boolean (fuel : Nat) (self : Interpreter) (b : Bool) :
    (self.Run (fuel + 1) (if b then "#t" else "#f")).1
      = Except.ok (if b then "#t" else "#f") := by
  have hnil : nextToken [] = Except.ok none := by decide
  have hobj : (self.heap.objects ++ [Object.Boolean b])[self.heap.objects.length]?
      = some (Object.Boolean b) := by
    simp
  cases b
  · have hn : nextToken "#f".data = Except.ok (some (Token.SymbolToken "#f", [])) := by decide
    have hread : Read (fuel + 1) (Tokenizer.new "#f".data)
        = Except.ok (Tree.Boolean false, ⟨[], Token.SymbolToken "#f", true⟩) := by
      rw [Read_new, hn]
      simp only [Read, Read.body]
      rw [IsEnd_of_ne (by simp), GetToken_of_ne (by simp)]
      simp [Next_eq, hnil]
    simp [Interpreter.Run, hread, Tokenizer.IsEnd, Heap.store, Heap.alloc, Evaluate, deref,
      hobj, Serialize]
  · have hn : nextToken "#t".data = Except.ok (some (Token.SymbolToken "#t", [])) := by decide
    have hread : Read (fuel + 1) (Tokenizer.new "#t".data)
        = Except.ok (Tree.Boolean true, ⟨[], Token.SymbolToken "#t", true⟩) := by
      rw [Read_new, hn]
      simp only [Read, Read.body]
      rw [IsEnd_of_ne (by simp), GetToken_of_ne (by simp)]
      simp [Next_eq, hnil]
    simp [Interpreter.Run, hread, Tokenizer.IsEnd, Heap.store, Heap.alloc, Evaluate, deref,
      hobj, Serialize]

theorem nextToken_to_string (n : Int) (h0 : -(2 ^ 31) < n) (h1 : n < 2 ^ 31) :
    nextToken (to_string n).data = Except.ok (some (Token.ConstantToken n, [])) := by
  unfold to_string
  by_cases hneg : n < 0
  · simp only [hneg, if_true]
    obtain ⟨hne, hdig, hval⟩ := toDigits_spec n.natAbs
    have hfit : decimalValue (Nat.toDigits 10 n.natAbs) < 2 ^ 31 := by rw [hval]; omega
    have := Next_sign_digits '-' (Nat.toDigits 10 n.natAbs) [] Token.monostate false
      (by decide) hne hdig rfl hfit
    simp only [List.append_nil, if_true, hval] at this
    have hn : -((n.natAbs : Nat) : Int) = n := by omega
    rw [hn] at this
    have hdata : ("-" ++ Nat.repr n.natAbs).data = '-' :: Nat.toDigits 10 n.natAbs := rfl
    rw [hdata]
    exact nextToken_of_Next this
  · simp only [hneg, if_false]
    obtain ⟨hne, hdig, hval⟩ := toDigits_spec n.toNat
    have hfit : decimalValue (Nat.toDigits 10 n.toNat) < 2 ^ 31 := by rw [hval]; omega
    have := Next_digits (Nat.toDigits 10 n.toNat) [] Token.monostate false hne hdig rfl hfit
    simp only [List.append_nil, hval] at this
    have hn : ((n.toNat : Nat) : Int) = n := by omega
    rw [hn] at this
    have hdata : (Nat.repr n.toNat).data = Nat.toDigits 10 n.toNat := rfl
    rw [hdata]
    exact nextToken_of_Next this

/-- C2, as the code has it. Self-evaluation: for every integer `n` with `-2^31 < n < 2^31` and
every boolean `b`, `Run` applied to the decimal print of `n` returns that same print, and `Run`
applied to `#t` or `#f` returns `#t` or `#f`; in every interpreter and with every fuel that is
not zero. -/
theorem C2_self_evaluation_within_int :
    (∀ (fuel : Nat) (self : Interpreter) (n : Int), -(2 ^ 31) < n → n < 2 ^ 31 →
      (self.Run (fuel + 1) (to_string n)).1 = Except.ok (to_string n)) ∧
    (∀ (fuel : Nat) (self : Interpreter) (b : Bool),
      (self.Run (fuel + 1) (if b then "#t" else "#f")).1
        = Except.ok (if b then "#t" else "#f")) := by
  refine ⟨?_, Run_boolean⟩
  intro fuel self n h0 h1
  rw [Run_number fuel self _ n (nextToken_to_string n h0 h1)]

/-- The instance of C2 on the integer `-12` in a new interpreter. -/
theorem C2_self_evaluation_within_int_witness :
    (Interpreter.new.Run 1 (to_string (-12))).1 = Except.ok (to_string (-12)) :=
  C2_self_evaluation_within_int.1 0 Interpreter.new (-12) (by decide) (by decide)

set_option maxRecDepth 100000 in
/-- C2 as stated fails: the decimal print of the 64-bit integer `2147483648` is `2147483648`,
on which `Run` returns `-2147483648` with every fuel that is not zero, and never returns
`2147483648`. -/
theorem C2_counterexample :
    to_string 2147483648 = "2147483648" ∧
    (∀ fuel : Nat, (Interpreter.new.Run (fuel + 1) (to_string 2147483648)).1
      = Except.ok "-2147483648") ∧
    (∀ fuel : Nat, (Interpreter.new.Run fuel (to_string 2147483648)).1
      ≠ Except.ok (to_string 2147483648)) := by
  have hs : to_string 2147483648 = "2147483648" := by decide
  have hn : nextToken "2147483648".data
      = Except.ok (some (Token.ConstantToken (-2147483648), [])) := by decide
  have hp : to_string (-2147483648) = "-2147483648" := by decide
  refine ⟨hs, ?_, ?_⟩
  · intro fuel
    rw [hs, Run_number fuel _ _ _ hn, hp]
  · intro fuel
    cases fuel with
    | zero =>
      rw [hs]
      simp [Interpreter.Run, Read]
    | succ fuel =>
      rw [hs, Run_number fuel _ _ _ hn, hp]
      decide

/-! ## Trees in the heap -/

theorem store_objects (t : Tree) :
    ∀ h : Heap, ∃ new : List Object, (h.store t).2.objects = h.objects ++ new ∧
      (h.store t).2.contexts = h.contexts := by
  induction t with
  | Null => intro h; exact ⟨[], by simp [Heap.store]⟩
  | Number v => intro h; exact ⟨[Object.Number v], by simp [Heap.store, Heap.alloc]⟩
  | Boolean v => intro h; exact ⟨[Object.Boolean v], by simp [Heap.store, Heap.alloc]⟩
  | Symbol n => intro h; exact ⟨[Object.Symbol n], by simp [Heap.store, Heap.alloc]⟩
  | Cell a b iha ihb =>
    intro h
    obtain ⟨n1, h1, c1⟩ := iha h
    obtain ⟨n2, h2, c2⟩ := ihb (h.store a).2
    refine ⟨n1 ++ n2 ++ [Object.Cell (h.store a).1 ((h.store a).2.store b).1], ?_, ?_⟩
    · simp [Heap.store, Heap.alloc, h2, h1]
    · simp [Heap.store, Heap.alloc, c2, c1]

theorem Heap.Extends.lookup {h2 h : Heap} (hx : h2.Extends h) {a : Nat} {o : Object}
    (ho : h.objects[a]? = some o) : h2.objects[a]? = some o := by
  obtain ⟨new, hn⟩ := hx
  have hlt : a < h.objects.length := by
    by_contra hge
    rw [List.getElem?_eq_none (by omega)] at ho
    cases ho
  rw [hn, List.getElem?_append_left hlt, ho]

theorem Heap.Extends.refl (h : Heap) : h.Extends h := ⟨[], by simp⟩

theorem Heap.Extends.trans {h3 h2 h : Heap} (h32 : h3.Extends h2) (h21 : h2.Extends h) :
    h3.Extends h := by
  obtain ⟨n1, e1⟩ := h21
  obtain ⟨n2, e2⟩ := h32
  exact ⟨n1 ++ n2, by rw [e2, e1, List.append_assoc]⟩

theorem store_extends (h : Heap) (t : Tree) : (h.store t).2.Extends h := by
  obtain ⟨new, hn, _⟩ := store_objects t h
  exact ⟨new, hn⟩

theorem alloc_extends (h : Heap) (o : Object) : (h.alloc o).2.Extends h :=
  ⟨[o], rfl⟩

theorem alloc_lookup (h : Heap) (o : Object) :
    (h.alloc o).2.objects[h.objects.length]? = some o := by
  simp [Heap.alloc]

theorem Represents.mono {h h2 : Heap} {p : ObjectPtr} {t : Tree} (hr : Represents h p t)
    (hx : h2.Extends h) : Represents h2 p t := by
  induction hr with
  | null => exact Represents.null
  | number ho => exact Represents.number (hx.lookup ho)
  | boolean ho => exact Represents.boolean (hx.lookup ho)
  | symbol ho => exact Represents.symbol (hx.lookup ho)
  | cell ho _ _ ihf ihs => exact Represents.cell (hx.lookup ho) ihf ihs

/-- The pointer returned by `store` represents the tree stored. -/
theorem store_represents (t : Tree) : ∀ h : Heap, Represents (h.store t).2 (h.store t).1 t := by
  induction t with
  | Null => intro h; exact Represents.null
  | Number v => intro h; exact Represents.number (alloc_lookup h _)
  | Boolean v => intro h; exact Represents.boolean (alloc_lookup h _)
  | Symbol n => intro h; exact Represents.symbol (alloc_lookup h _)
  | Cell a b iha ihb =>
    intro h
    have ra := iha h
    have rb := ihb (h.store a).2
    have x2 := store_extends (h.store a).2 b
    have x3 := alloc_extends ((h.store a).2.store b).2
      (Object.Cell (h.store a).1 ((h.store a).2.store b).1)
    exact Represents.cell (alloc_lookup _ _) ((ra.mono x2).mono x3) (rb.mono x3)

/-! ## Reading a quoted expression -/

theorem Read_new_cases {fuel : Nat} {cs : List Char} {r : Tree × Tokenizer}
    (h : Read fuel (Tokenizer.new cs) = Except.ok r) :
    ∃ x : Token × List Char, nextToken cs = Except.ok (some x) ∧
      Read fuel ⟨x.2, x.1, false⟩ = Except.ok r := by
  cases fuel with
  | zero => simp [Read] at h
  | succ n =>
    rw [Read_new] at h
    split at h
    · cases h
    · cases h
    · rename_i x hx
      exact ⟨x, hx, h⟩

/-- The reader succeeds neither on a dot nor on a close bracket. -/
theorem Read_first_token {fuel : Nat} {tk : Tokenizer} {r : Tree × Tokenizer}
    (hm : tk.current_token_ ≠ Token.monostate) (he : tk.is_end_ = false)
    (h : Read fuel tk = Except.ok r) :
    tk.current_token_ ≠ Token.DotToken ∧
      tk.current_token_ ≠ Token.BracketToken BracketToken.CLOSE := by
  cases fuel with
  | zero => simp [Read] at h
  | succ n =>
    simp only [Read, Read.body, IsEnd_of_ne hm, GetToken_of_ne hm, he, Bool.false_eq_true,
      if_false] at h
    cases hn : tk.Next with
    | error e => simp [hn] at h
    | ok tk2 =>
      simp only [hn] at h
      constructor
      · intro hc
        simp [hc] at h
      · intro hc
        simp [hc] at h

theorem nextToken_space (cs : List Char) : nextToken (' ' :: cs) = nextToken cs := by
  have : isspace ' ' = true := by decide
  simp [nextToken, List.dropWhile, this]

theorem Read_quote_mark {fuelE fuel : Nat} {E : List Char} {T : Tree} {tk : Tokenizer}
    (hread : Read fuelE (Tokenizer.new E) = Except.ok (T, tk)) (hle : fuelE ≤ fuel) :
    Read (fuel + 1) (Tokenizer.new ('\'' :: E))
      = Except.ok (Tree.Cell (Tree.Symbol "quote") (Tree.Cell T Tree.Null), tk) := by
  obtain ⟨x, hx, hrx⟩ := Read_new_cases hread
  have hrx2 := Read_mono hle hrx
  have hsp : isspace '\'' = false := by decide
  have n1 : nextToken ('\'' :: E) = Except.ok (some (Token.QuoteToken, E)) := by
    simp [nextToken, List.dropWhile, hsp, IsParen, IsDot, IsQuote, GetQuote]
  rw [Read_new, n1]
  simp only [Read, Read.body]
  rw [IsEnd_of_ne (by simp), GetToken_of_ne (by simp)]
  simp [Next_eq, hx, hrx2]

theorem Read_quote_form {fuelE fuel : Nat} {E : List Char} {T : Tree} {tk : Tokenizer}
    (hread : Read fuelE (Tokenizer.new E) = Except.ok (T, tk)) (hend : tk.IsEnd.1 = true)
    (hle : fuelE ≤ fuel) :
    Read (fuel + 3) (Tokenizer.new ("(quote ".data ++ E ++ [')']))
      = Except.ok (Tree.Cell (Tree.Symbol "quote") (Tree.Cell T Tree.Null),
          ⟨[], Token.BracketToken BracketToken.CLOSE, true⟩) := by
  obtain ⟨x, hx, hrx⟩ := Read_new_cases hread
  have hrx2 := Read_mono hle hrx
  have hm : x.1 ≠ Token.monostate := nextToken_ne_monostate hx
  obtain ⟨hdot, hclose⟩ := @Read_first_token fuelE ⟨x.2, x.1, false⟩ _ hm rfl hrx
  have hmtk := Read_new_ne_monostate hread
  rw [IsEnd_of_ne hmtk] at hend
  simp only at hend hmtk
  obtain ⟨m, hfuel⟩ : ∃ m, fuel = m + 1 := by
    cases fuel with
    | zero =>
      have : fuelE = 0 := by omega
      rw [this] at hread
      simp [Read] at hread
    | succ m => exact ⟨m, rfl⟩
  have hstop : peekIs stopper [')'] = true := by decide
  have ncl : nextToken [')']
      = Except.ok (some (Token.BracketToken BracketToken.CLOSE, [])) := by decide
  have nnil : nextToken [] = Except.ok none := by decide
  -- the close bracket of the list
  have hRL0 : ReadList fuel ⟨[], Token.BracketToken BracketToken.CLOSE, false⟩
      = Except.ok (Tree.Null, ⟨[], Token.BracketToken BracketToken.CLOSE, true⟩) := by
    rw [hfuel]
    simp only [ReadList, ReadList.body]
    rw [IsEnd_of_ne (by simp), GetToken_of_ne (by simp)]
    simp [Next_eq, nnil]
  -- the expression, followed by the close bracket
  have hR1 : Read fuel ⟨x.2 ++ [')'], x.1, false⟩
      = Except.ok (T, ⟨[], Token.BracketToken BracketToken.CLOSE, false⟩) := by
    have := ((Read_extends [')'] hstop fuel).1 ⟨x.2, x.1, false⟩ (T, tk) hm rfl hrx2).2
    simp only [extendResult, Tokenizer.continued, hend, if_true, Next_eq, ncl] at this
    exact this
  have hRL1 : ReadList (fuel + 1) ⟨x.2 ++ [')'], x.1, false⟩
      = Except.ok (Tree.Cell T Tree.Null,
          ⟨[], Token.BracketToken BracketToken.CLOSE, true⟩) := by
    simp only [ReadList, ReadList.body]
    rw [IsEnd_of_ne (by exact hm), GetToken_of_ne (by exact hm)]
    simp only [Bool.false_eq_true, if_false, hclose, hdot, hR1]
    rw [IsEnd_of_ne (by simp), GetToken_of_ne (by simp)]
    simp [hRL0]
  -- the symbol `quote`
  have nq : nextToken ("quote".data ++ ' ' :: (E ++ [')']))
      = Except.ok (some (Token.SymbolToken "quote", ' ' :: (E ++ [')']))) := by
    rw [nextToken_extend (' ' :: (E ++ [')'])) (show stopper ' ' = true by decide)]
    have : nextToken "quote".data = Except.ok (some (Token.SymbolToken "quote", [])) := by
      decide
    rw [this]
    rfl
  have nE : nextToken (' ' :: (E ++ [')'])) = Except.ok (some (x.1, x.2 ++ [')'])) := by
    rw [nextToken_space, nextToken_extend [')'] hstop, hx]
  have hR2 : Read (fuel + 1) ⟨' ' :: (E ++ [')']), Token.SymbolToken "quote", false⟩
      = Except.ok (Tree.Symbol "quote", ⟨x.2 ++ [')'], x.1, false⟩) := by
    simp only [Read, Read.body]
    rw [IsEnd_of_ne (by simp), GetToken_of_ne (by simp)]
    simp [Next_eq, nE]
  have hRL2 : ReadList (fuel + 2) ⟨' ' :: (E ++ [')']), Token.SymbolToken "quote", false⟩
      = Except.ok (Tree.Cell (Tree.Symbol "quote") (Tree.Cell T Tree.Null),
          ⟨[], Token.BracketToken BracketToken.CLOSE, true⟩) := by
    show ReadList.body (Read (fuel + 1)) (ReadList (fuel + 1)) _ = _
    simp only [ReadList.body]
    rw [IsEnd_of_ne (by simp), GetToken_of_ne (by simp)]
    simp only [Bool.false_eq_true, if_false, reduceCtorEq, hR2]
    rw [IsEnd_of_ne (by exact hm), GetToken_of_ne (by exact hm)]
    simp [hdot, hRL1]
  have n1 : nextToken ("(quote ".data ++ E ++ [')'])
      = Except.ok (some (Token.BracketToken BracketToken.OPEN,
          "quote".data ++ ' ' :: (E ++ [')']))) := by
    have hsp : isspace '(' = false := by decide
    simp [nextToken, List.dropWhile, hsp, IsParen, GetParen]
  rw [Read_new, n1]
  simp only [Read, Read.body]
  rw [IsEnd_of_ne (by simp), GetToken_of_ne (by simp)]
  simp only [Bool.false_eq_true, if_false, Next_eq, nq]
  exact hRL2

/-! ## Evaluating a quoted expression -/

theorem walk_congr {h h2 : Heap} (hc : h.contexts = h2.contexts) (name : String) :
    ∀ (n : Nat) (p : Option Nat), Context.walk h name n p = Context.walk h2 name n p := by
  intro n
  induction n with
  | zero => intro p; rfl
  | succ n ih =>
    intro p
    cases p with
    | none => rfl
    | some c =>
      simp only [Context.walk, hc]
      cases h2.contexts[c]? with
      | none => rfl
      | some ctx =>
        simp only
        split
        · rfl
        · exact ih _

/-- The function `Get` reads the frames of the heap only. -/
theorem Get_congr {h h2 : Heap} (hc : h.contexts = h2.contexts) (c : Nat) (name : String) :
    Context.Get h c name = Context.Get h2 c name := by
  simp only [Context.Get, walk_congr hc name, hc]

/-- The tree of `(quote T)` in the heap. -/
theorem store_quote (h0 : Heap) (T : Tree) :
    ∃ (a a2 : Nat) (pT : ObjectPtr),
      (h0.store (Tree.Cell (Tree.Symbol "quote") (Tree.Cell T Tree.Null))).1 = some a ∧
      (h0.store (Tree.Cell (Tree.Symbol "quote") (Tree.Cell T Tree.Null))).2.objects[a]?
        = some (Object.Cell (some h0.objects.length) (some a2)) ∧
      (h0.store (Tree.Cell (Tree.Symbol "quote") (Tree.Cell T Tree.Null))).2.objects[
          h0.objects.length]? = some (Object.Symbol "quote") ∧
      (h0.store (Tree.Cell (Tree.Symbol "quote") (Tree.Cell T Tree.Null))).2.objects[a2]?
        = some (Object.Cell pT none) ∧
      Represents (h0.store (Tree.Cell (Tree.Symbol "quote") (Tree.Cell T Tree.Null))).2 pT T ∧
      (h0.store (Tree.Cell (Tree.Symbol "quote") (Tree.Cell T Tree.Null))).2.Extends h0 ∧
      (h0.store (Tree.Cell (Tree.Symbol "quote") (Tree.Cell T Tree.Null))).2.contexts
        = h0.contexts := by
  have x1 := alloc_extends h0 (Object.Symbol "quote")
  have l1 := alloc_lookup h0 (Object.Symbol "quote")
  generalize hh1 : (h0.alloc (Object.Symbol "quote")).2 = h1 at x1 l1
  have c1 : h1.contexts = h0.contexts := by rw [← hh1]; rfl
  have xT := store_extends h1 T
  have rT := store_represents T h1
  have cT := (store_objects T h1).choose_spec.2
  generalize hhT : h1.store T = sT at xT rT cT
  obtain ⟨pT, hT⟩ := sT
  simp only at xT rT cT
  have x2 := alloc_extends hT (Object.Cell pT none)
  have l2 := alloc_lookup hT (Object.Cell pT none)
  generalize hh2 : (hT.alloc (Object.Cell pT none)).2 = h2 at x2 l2
  have c2 : h2.contexts = hT.contexts := by rw [← hh2]; rfl
  have x3 := alloc_extends h2 (Object.Cell (some h0.objects.length) (some hT.objects.length))
  have l3 := alloc_lookup h2 (Object.Cell (some h0.objects.length) (some hT.objects.length))
  have hst : h0.store (Tree.Cell (Tree.Symbol "quote") (Tree.Cell T Tree.Null))
      = h2.alloc (Object.Cell (some h0.objects.length) (some hT.objects.length)) := by
    simp only [Heap.store]
    rw [show (h0.alloc (Object.Symbol "quote")).1 = some h0.objects.length from rfl, hh1, hhT]
    simp only
    rw [show (hT.alloc (Object.Cell pT none)).1 = some hT.objects.length from rfl, hh2]
  rw [hst]
  refine ⟨h2.objects.length, hT.objects.length, pT, rfl, l3, ?_, ?_, ?_, ?_, ?_⟩
  · exact x3.lookup (x2.lookup (xT.lookup l1))
  · exact x3.lookup l2
  · exact (rT.mono x2).mono x3
  · exact x3.trans (x2.trans (xT.trans x1))
  · show h2.contexts = h0.contexts
    rw [c2, cT, c1]

/-- In a heap that has the frames and the operator objects of a new interpreter, the list
`(quote X)` evaluates in the global frame to its unevaluated element, and the heap is not
changed. -/
theorem Evaluate_quote (fuel : Nat) (h : Heap) (a q a2 : Nat) (pT : ObjectPtr)
    (hctx : h.contexts = Interpreter.new.heap.contexts)
    (hx : h.Extends Interpreter.new.heap)
    (ha : h.objects[a]? = some (Object.Cell (some q) (some a2)))
    (hq : h.objects[q]? = some (Object.Symbol "quote"))
    (ha2 : h.objects[a2]? = some (Object.Cell pT none)) :
    Evaluate (fuel + 2) (some a) 1 h = (Except.ok pT, h) := by
  have hget : Context.Get h 1 "quote" = Except.ok (some 26) := by
    rw [@Get_congr h Interpreter.new.heap hctx]
    decide
  have h26 : h.objects[26]? = some (Object.Builtin Operator.QuoteOp) :=
    hx.lookup (by decide)
  obtain ⟨k, hk⟩ : ∃ k, h.objects.length = k + 1 := by
    obtain ⟨new, hn⟩ := hx
    refine ⟨33 + new.length, ?_⟩
    rw [hn, List.length_append]
    have : Interpreter.new.heap.objects.length = 34 := by decide
    omega
  simp [Evaluate, deref, ha, Cell.Evaluate, hq, hget, h26, Object.IsFunction, Function.Apply,
    Operator.Apply, QuoteOp.Apply, VectorizeList, ha2, hk, VectorizeList.loop]

theorem Run_quote_tree (fuel : Nat) (s : String) (T : Tree) (tk : Tokenizer)
    (hread : Read (fuel + 2) (Tokenizer.new s.data)
      = Except.ok (Tree.Cell (Tree.Symbol "quote") (Tree.Cell T Tree.Null), tk))
    (hend : tk.IsEnd.1 = true) (hsize : T.size < fuel + 2) :
    Interpreter.new.Run (fuel + 2) s
      = (Except.ok (printRef T),
          { Interpreter.new with
            heap := (Interpreter.new.heap.store
              (Tree.Cell (Tree.Symbol "quote") (Tree.Cell T Tree.Null))).2 }) := by
  obtain ⟨a, a2, pT, hp, ha, hq, ha2, hrep, hx, hctx⟩ := store_quote Interpreter.new.heap T
  have hev := Evaluate_quote fuel _ a _ a2 pT hctx hx ha hq ha2
  have hser := Serialize_eq _ (fuel + 2) T pT hrep hsize
  simp only [Interpreter.Run, hread, hend, Bool.not_true, Bool.false_eq_true, if_false, hp]
  rw [show Interpreter.new.global_context_ = 1 from rfl, hev]
  simp only [hser]

/-- C1. Quote identity: in a new interpreter, for every readable expression `E` (the reader reads
the tree `T` from `E` and is then at the end of `E`), `Run` on `(quote E)` and `Run` on `'E` both
return the print of `T`, which is what `Serialize` gives on `T` placed in the heap. The heap after
each run is the heap of the new interpreter with the tree that was read placed in it: nothing has
been evaluated. This holds for every fuel from `fuelE + T.size + 3` on, where `fuelE` is a fuel
with which `E` is read. -/
theorem C1_quote_identity (E : String) (T : Tree) (tk : Tokenizer) (fuelE fuel : Nat)
    (hread : Read fuelE (Tokenizer.new E.data) = Except.ok (T, tk))
    (hend : tk.IsEnd.1 = true) (hfuel : fuelE + T.size + 3 ≤ fuel) :
    Serialize fuel (Interpreter.new.heap.store T).2 (Interpreter.new.heap.store T).1
      = Except.ok (printRef T) ∧
    Interpreter.new.Run fuel ("(quote " ++ E ++ ")")
      = (Except.ok (printRef T),
          { Interpreter.new with
            heap := (Interpreter.new.heap.store
              (Tree.Cell (Tree.Symbol "quote") (Tree.Cell T Tree.Null))).2 }) ∧
    Interpreter.new.Run fuel ("'" ++ E)
      = (Except.ok (printRef T),
          { Interpreter.new with
            heap := (Interpreter.new.heap.store
              (Tree.Cell (Tree.Symbol "quote") (Tree.Cell T Tree.Null))).2 }) := by
  obtain ⟨f, rfl⟩ : ∃ f, fuel = f + 3 := ⟨fuel - 3, by omega⟩
  have hsz : 1 ≤ T.size := by cases T <;> simp only [Tree.size] <;> omega
  refine ⟨?_, ?_, ?_⟩
  · exact Serialize_eq _ _ T _ (store_represents T _) (by omega)
  · have hd : ("(quote " ++ E ++ ")").data = "(quote ".data ++ E.data ++ [')'] := by
      simp [String.data_append]
    have hr := @Read_quote_form fuelE f _ _ _ hread hend (by omega)
    rw [← hd] at hr
    exact Run_quote_tree (f + 1) _ T _ hr rfl (by omega)
  · have hd : ("'" ++ E).data = '\'' :: E.data := by
      simp [String.data_append]
    have hr := @Read_quote_mark fuelE (f + 2) _ _ _ hread (by omega)
    rw [← hd] at hr
    exact Run_quote_tree (f + 1) _ T _ hr hend (by omega)

/-- The instance of C1 on the expression `(a . 1)`. -/
theorem C1_quote_identity_witness :
    Read 3 (Tokenizer.new "(a . 1)".data)
      = Except.ok (Tree.Cell (Tree.Symbol "a") (Tree.Number 1),
          ⟨[], Token.BracketToken BracketToken.CLOSE, true⟩) ∧
    Serialize 9 (Interpreter.new.heap.store (Tree.Cell (Tree.Symbol "a") (Tree.Number 1))).2
        (Interpreter.new.heap.store (Tree.Cell (Tree.Symbol "a") (Tree.Number 1))).1
      = Except.ok (printRef (Tree.Cell (Tree.Symbol "a") (Tree.Number 1))) ∧
    Interpreter.new.Run 9 ("(quote " ++ "(a . 1)" ++ ")")
      = (Except.ok (printRef (Tree.Cell (Tree.Symbol "a") (Tree.Number 1))),
          { Interpreter.new with
            heap := (Interpreter.new.heap.store
              (Tree.Cell (Tree.Symbol "quote")
                (Tree.Cell (Tree.Cell (Tree.Symbol "a") (Tree.Number 1)) Tree.Null))).2 }) ∧
    Interpreter.new.Run 9 ("'" ++ "(a . 1)")
      = (Except.ok (printRef (Tree.Cell (Tree.Symbol "a") (Tree.Number 1))),
          { Interpreter.new with
            heap := (Interpreter.new.heap.store
              (Tree.Cell (Tree.Symbol "quote")
                (Tree.Cell (Tree.Cell (Tree.Symbol "a") (Tree.Number 1)) Tree.Null))).2 }) :=
  ⟨by decide,
    C1_quote_identity "(a . 1)" (Tree.Cell (Tree.Symbol "a") (Tree.Number 1))
      ⟨[], Token.BracketToken BracketToken.CLOSE, true⟩ 3 9 (by decide) (by decide)
      (by decide)⟩

/-! ## Lists in the heap -/

theorem lt_of_lookup {h : Heap} {a : Nat} {o : Object} (ho : h.objects[a]? = some o) :
    a < h.objects.length := by
  by_contra hge
  rw [List.getElem?_eq_none (by omega)] at ho
  cases ho

theorem TailPath_functional {h : Heap} {p : ObjectPtr} {l1 l2 : List (Nat × ObjectPtr)}
    {t1 t2 : ObjectPtr} (h1 : TailPath h p l1 t1) (h2 : TailPath h p l2 t2) :
    l1 = l2 ∧ t1 = t2 := by
  induction h1 generalizing l2 t2 with
  | null => cases h2; exact ⟨rfl, rfl⟩
  | atom ho hc =>
    cases h2 with
    | atom _ _ => exact ⟨rfl, rfl⟩
    | cell ho2 _ => rw [ho] at ho2; cases ho2; simp [Object.IsCell] at hc
  | cell ho _ ih =>
    cases h2 with
    | atom ho2 hc => rw [ho] at ho2; cases ho2; simp [Object.IsCell] at hc
    | cell ho2 hr2 =>
      rw [ho] at ho2
      cases ho2
      obtain ⟨hl, ht⟩ := ih hr2
      exact ⟨by rw [hl], ht⟩

/-- From every cell of a chain of pairs the chain continues as a shorter one. -/
theorem TailPath_suffix_of_mem {h : Heap} {p : ObjectPtr} {l : List (Nat × ObjectPtr)}
    {t : ObjectPtr} (hl : TailPath h p l t) {c : Nat × ObjectPtr} (hc : c ∈ l) :
    ∃ l2, TailPath h (some c.1) l2 t ∧ l2.length ≤ l.length := by
  induction hl with
  | null => cases hc
  | atom _ _ => cases hc
  | cell ho hr ih =>
    rcases List.mem_cons.1 hc with rfl | hm
    · exact ⟨_, TailPath.cell ho hr, le_refl _⟩
    · obtain ⟨l2, h2, hlen⟩ := ih hm
      exact ⟨l2, h2, by simp only [List.length_cons]; omega⟩

theorem TailPath_nodup {h : Heap} {p : ObjectPtr} {l : List (Nat × ObjectPtr)} {t : ObjectPtr}
    (hl : TailPath h p l t) : (l.map Prod.fst).Nodup := by
  induction hl with
  | null => simp
  | atom _ _ => simp
  | @cell a f s path t ho hr ih =>
    simp only [List.map_cons, List.nodup_cons]
    refine ⟨?_, ih⟩
    intro hmem
    obtain ⟨c, hc, hca⟩ := List.mem_map.1 hmem
    obtain ⟨l2, h2, hlen⟩ := TailPath_suffix_of_mem hr hc
    rw [hca] at h2
    have := (TailPath_functional h2 (TailPath.cell ho hr)).1
    rw [this] at hlen
    simp only [List.length_cons] at hlen
    omega

theorem TailPath_lookup_of_mem {h : Heap} {p : ObjectPtr} {l : List (Nat × ObjectPtr)}
    {t : ObjectPtr} (hl : TailPath h p l t) {c : Nat × ObjectPtr} (hc : c ∈ l) :
    c.1 < h.objects.length := by
  induction hl with
  | null => cases hc
  | atom _ _ => cases hc
  | cell ho _ ih =>
    rcases List.mem_cons.1 hc with rfl | hm
    · exact lt_of_lookup ho
    · exact ih hm

/-- A chain of pairs has no more cells than the heap has objects. -/
theorem TailPath_length_le {h : Heap} {p : ObjectPtr} {l : List (Nat × ObjectPtr)} {t : ObjectPtr}
    (hl : TailPath h p l t) : l.length ≤ h.objects.length := by
  have hnd := TailPath_nodup hl
  have hsub : (l.map Prod.fst).toFinset ⊆ Finset.range h.objects.length := by
    intro a ha
    rw [List.mem_toFinset] at ha
    obtain ⟨c, hc, rfl⟩ := List.mem_map.1 ha
    rw [Finset.mem_range]
    exact TailPath_lookup_of_mem hl hc
  have hcard := Finset.card_le_card hsub
  rw [List.toFinset_card_of_nodup hnd, Finset.card_range, List.length_map] at hcard
  exact hcard

theorem ListOf_path {h : Heap} {p : ObjectPtr} {l : List ObjectPtr} (hl : ListOf h p l) :
    ∃ path, TailPath h p path none ∧ path.map Prod.snd = l := by
  induction hl with
  | nil => exact ⟨[], TailPath.null, rfl⟩
  | @cons a f s rest ho _ ih =>
    obtain ⟨path, hp, hm⟩ := ih
    exact ⟨(a, f) :: path, TailPath.cell ho hp, by simp [hm]⟩

theorem ImproperList_path {h : Heap} {p : ObjectPtr} (hl : ImproperList h p) :
    ∃ path a, TailPath h p path (some a) := by
  induction hl with
  | atom ho hc => exact ⟨[], _, TailPath.atom ho hc⟩
  | @cons a f s ho _ ih =>
    obtain ⟨path, t, hp⟩ := ih
    exact ⟨(a, f) :: path, t, TailPath.cell ho hp⟩

theorem ListOf_functional {h : Heap} {p : ObjectPtr} {l1 l2 : List ObjectPtr}
    (h1 : ListOf h p l1) (h2 : ListOf h p l2) : l1 = l2 := by
  induction h1 generalizing l2 with
  | nil => cases h2; rfl
  | cons ho _ ih =>
    cases h2 with
    | cons ho2 hr2 =>
      rw [ho] at ho2
      cases ho2
      rw [ih hr2]

/-- A proper list stays one in a heap that keeps the objects. -/
theorem ListOf_mono {h h2 : Heap} {p : ObjectPtr} {l : List ObjectPtr} (hl : ListOf h p l)
    (hx : h2.Extends h) : ListOf h2 p l := by
  induction hl with
  | nil => exact ListOf.nil
  | cons ho _ ih => exact ListOf.cons (hx.lookup ho) ih

/-- The loop of `VectorizeList` on a chain of pairs: the heads of the cells when the final tail
is the empty value, and a runtime error when it is an object. -/
theorem VectorizeList_loop {h : Heap} {s : ObjectPtr} {path : List (Nat × ObjectPtr)}
    {t : ObjectPtr} (hp : TailPath h s path t) (f : ObjectPtr) (n : Nat) (hn : path.length < n) :
    VectorizeList.loop h n f s =
      match t with
      | none => Except.ok (f :: path.map Prod.snd)
      | some _ => Except.error Error.RuntimeError := by
  induction hp generalizing f n with
  | null =>
    cases n with
    | zero => simp at hn
    | succ n => simp [VectorizeList.loop]
  | @atom a o ho hc =>
    cases n with
    | zero => simp at hn
    | succ n =>
      cases o <;> simp [Object.IsCell] at hc <;> simp [VectorizeList.loop, ho]
  | @cell a f1 s1 path t ho hr ih =>
    cases n with
    | zero => simp at hn
    | succ n =>
      simp only [List.length_cons, Nat.add_lt_add_iff_right] at hn
      simp only [VectorizeList.loop, ho, ih f1 n hn]
      cases t <;> simp

theorem VectorizeList_path {h : Heap} {p : ObjectPtr} {path : List (Nat × ObjectPtr)}
    {t : ObjectPtr} (hp : TailPath h p path t) :
    VectorizeList p h =
      match t with
      | none => (Except.ok (path.map Prod.snd), h)
      | some _ => (Except.error Error.RuntimeError, h) := by
  cases hp with
  | null => simp [VectorizeList]
  | @atom a o ho hc =>
    cases o <;> simp [Object.IsCell] at hc <;> simp [VectorizeList, ho]
  | @cell a f s path t ho hr =>
    have hlen := TailPath_length_le (TailPath.cell ho hr)
    simp only [List.length_cons] at hlen
    have hloop := VectorizeList_loop hr f h.objects.length (by omega)
    simp only [VectorizeList, M.read_apply, ho, hloop]
    cases t <;> simp

/-- The function `VectorizeList` returns the elements of a proper list and leaves the heap as it
is. -/
theorem VectorizeList_listOf {h : Heap} {p : ObjectPtr} {l : List ObjectPtr} (hl : ListOf h p l) :
    VectorizeList p h = (Except.ok l, h) := by
  obtain ⟨path, hp, hm⟩ := ListOf_path hl
  rw [VectorizeList_path hp, hm]

/-- The function `VectorizeList` throws a runtime error on an object that is no proper list. -/
theorem VectorizeList_improper {h : Heap} {p : ObjectPtr} (hl : ImproperList h p) :
    VectorizeList p h = (Except.error Error.RuntimeError, h) := by
  obtain ⟨path, a, hp⟩ := ImproperList_path hl
  rw [VectorizeList_path hp]

/-! ## Evaluation of a function object -/

/-- C11, as the code has it. Evaluating a builtin node or a lambda node fails with a runtime
error, in every scope and with every fuel that is not zero, and leaves the heap as it is. -/
theorem C11_Function_Evaluate_throws (fuel : Nat) (h : Heap) (a : Nat) (o : Object)
    (context : Nat) (ho : h.objects[a]? = some o) (hf : o.IsFunction = true) :
    Evaluate (fuel + 1) (some a) context h = (Except.error Error.RuntimeError, h) := by
  cases o <;> simp [Object.IsFunction] at hf <;> simp [Evaluate, deref_some ho]

/-- The instance of C11 on the operator `+`, the object `0` of a new interpreter, in the global
scope. -/
theorem C11_Function_Evaluate_throws_witness :
    Interpreter.new.heap.objects[0]? = some (Object.Builtin Operator.PlusOp) ∧
    (Object.Builtin Operator.PlusOp).IsFunction = true ∧
    Evaluate 1 (some 0) 1 Interpreter.new.heap
      = (Except.error Error.RuntimeError, Interpreter.new.heap) :=
  ⟨rfl, rfl, C11_Function_Evaluate_throws 0 Interpreter.new.heap 0 _ 1 rfl rfl⟩

/-- C11 as stated fails: the operator `+` is the object `0` of a new interpreter; evaluating that
node in the global scope never returns it, with no fuel, and fails with a runtime error with
every fuel that is not zero. The same holds for a lambda node, here the object `34` made by
`(lambda (x) x)`. -/
theorem C11_counterexample :
    Interpreter.new.heap.objects[0]? = some (Object.Builtin Operator.PlusOp) ∧
    (∀ fuel : Nat, (Evaluate fuel (some 0) 1 Interpreter.new.heap).1 ≠ Except.ok (some 0)) ∧
    (∀ fuel : Nat, Evaluate (fuel + 1) (some 0) 1 Interpreter.new.heap
      = (Except.error Error.RuntimeError, Interpreter.new.heap)) ∧
    (∀ (fuel : Nat) (h : Heap), h.objects[34]? = some (Object.Lambda [some 1] ["x"] 2) →
      Evaluate (fuel + 1) (some 34) 1 h = (Except.error Error.RuntimeError, h)) := by
  refine ⟨rfl, ?_, ?_, ?_⟩
  · intro fuel
    cases fuel with
    | zero => simp [Evaluate]
    | succ n =>
      have ho : Interpreter.new.heap.objects[0]? = some (Object.Builtin Operator.PlusOp) := rfl
      simp [Evaluate, deref_some ho]
  · intro fuel
    have ho : Interpreter.new.heap.objects[0]? = some (Object.Builtin Operator.PlusOp) := rfl
    simp [Evaluate, deref_some ho]
  · intro fuel h ho
    simp [Evaluate, deref_some ho]

/-! ## The conditional -/

theorem ofObject_true {h : Heap} {v : ObjectPtr} (hv : IsTrue h v) :
    Boolean.ofObject v h = (Except.ok true, h) := by
  rcases hv with rfl | ⟨a, o, rfl, ho, hne⟩
  · simp [Boolean.ofObject]
  · cases o with
    | Boolean b =>
      cases b
      · exact absurd rfl hne
      · simp [Boolean.ofObject, deref_some ho]
    | _ => simp [Boolean.ofObject, deref_some ho]

theorem ofObject_false {h : Heap} {v : ObjectPtr} (hv : IsFalse h v) :
    Boolean.ofObject v h = (Except.ok false, h) := by
  obtain ⟨a, rfl, ho⟩ := hv
  simp [Boolean.ofObject, deref_some ho]

/-- C15. The form `(if test then [else])` with 2 or 3 arguments evaluates `test` first. When the
value of `test` is not the boolean `#f` (the empty value, an integer such as `0`, a pair and
every other object), the outcome is that of evaluating `then` in the heap left by `test`: nothing
else is evaluated. When the value is `#f`, the outcome is that of evaluating `else` in that heap,
or the empty value with that heap when `else` is absent. -/
theorem C15_IfOp_truthiness (eval : Evaluator) (h h1 : Heap) (args : ObjectPtr) (context : Nat)
    (test thenE : ObjectPtr) (rest : List ObjectPtr) (v : ObjectPtr)
    (hargs : ListOf h args (test :: thenE :: rest)) (hlen : rest.length ≤ 1)
    (htest : eval test context h = (Except.ok v, h1)) :
    (IsTrue h1 v → IfOp.Apply eval args context h = eval thenE context h1) ∧
    (IsFalse h1 v → rest = [] → IfOp.Apply eval args context h = (Except.ok none, h1)) ∧
    (∀ elseE, IsFalse h1 v → rest = [elseE] →
      IfOp.Apply eval args context h = eval elseE context h1) ∧
    IsTrue h1 none ∧
    (∀ a x, h1.objects[a]? = some (Object.Number x) → IsTrue h1 (some a)) ∧
    (∀ a f s, h1.objects[a]? = some (Object.Cell f s) → IsTrue h1 (some a)) := by
  have hv := VectorizeList_listOf hargs
  refine ⟨?_, ?_, ?_, Or.inl rfl, ?_, ?_⟩
  · intro ht
    match rest, hlen with
    | [], _ =>
      simp [IfOp.Apply, hv, htest, ofObject_true ht]
    | [e], _ =>
      simp [IfOp.Apply, hv, htest, ofObject_true ht]
  · intro hf hr
    subst hr
    simp [IfOp.Apply, hv, htest, ofObject_false hf]
  · intro elseE hf hr
    subst hr
    simp [IfOp.Apply, hv, htest, ofObject_false hf]
  · intro a x ho
    exact Or.inr ⟨a, _, rfl, ho, by simp⟩
  · intro a f s ho
    exact Or.inr ⟨a, _, rfl, ho, by simp⟩

/-- The instance of C15 on the arguments `(0 1 2)` of `exampleHeapArgs`: the test `0` is not
`#f`, and the value is that of the branch `1`. -/
theorem C15_IfOp_truthiness_witness :
    ListOf exampleHeapArgs (some 6) [some 0, some 1, some 2] ∧
    [some 2].length ≤ 1 ∧
    Evaluate 1 (some 0) 0 exampleHeapArgs = (Except.ok (some 0), exampleHeapArgs) ∧
    IsTrue exampleHeapArgs (some 0) ∧
    IfOp.Apply (Evaluate 1) (some 6) 0 exampleHeapArgs = Evaluate 1 (some 1) 0 exampleHeapArgs :=
  ⟨ListOf.cons rfl (ListOf.cons rfl (ListOf.cons rfl ListOf.nil)), by decide, rfl,
    Or.inr ⟨0, _, rfl, rfl, by decide⟩,
    (C15_IfOp_truthiness (Evaluate 1) exampleHeapArgs exampleHeapArgs (some 6) 0 (some 0) (some 1)
      [some 2] (some 0) (ListOf.cons rfl (ListOf.cons rfl (ListOf.cons rfl ListOf.nil)))
      (by decide) rfl).1 (Or.inr ⟨0, _, rfl, rfl, by decide⟩)⟩

/-! ## The forms `and` and `or` -/

theorem AndOp_loop_stop {eval : Evaluator} {context : Nat} {pre : List ObjectPtr} {h h1 : Heap}
    (hpre : EvalAll eval context IsTrue pre h h1) (e : ObjectPtr) (post : List ObjectPtr)
    (v : ObjectPtr) (h2 : Heap) (he : eval e context h1 = (Except.ok v, h2))
    (hv : IsFalse h2 v ∨ (IsTrue h2 v ∧ post = [])) (acc : ObjectPtr) :
    AndOp.loop eval context (pre ++ e :: post) acc h = (Except.ok v, h2) := by
  induction hpre generalizing acc with
  | nil =>
    rcases hv with hf | ⟨ht, rfl⟩
    · simp [AndOp.loop, he, ofObject_false hf]
    · simp [AndOp.loop, he, ofObject_true ht]
  | cons hev hp _ ih =>
    simp [AndOp.loop, hev, ofObject_true hp, ih he]

theorem OrOp_loop_stop {eval : Evaluator} {context : Nat} {pre : List ObjectPtr} {h h1 : Heap}
    (hpre : EvalAll eval context IsFalse pre h h1) (e : ObjectPtr) (post : List ObjectPtr)
    (v : ObjectPtr) (h2 : Heap) (he : eval e context h1 = (Except.ok v, h2))
    (hv : IsTrue h2 v) :
    OrOp.loop eval context (pre ++ e :: post) h = (Except.ok v, h2) := by
  induction hpre with
  | nil => simp [OrOp.loop, he, ofObject_true hv]
  | cons hev hp _ ih => simp [OrOp.loop, hev, ofObject_false hp, ih he]

theorem OrOp_loop_all {eval : Evaluator} {context : Nat} {es : List ObjectPtr} {h h1 : Heap}
    (hes : EvalAll eval context IsFalse es h h1) :
    OrOp.loop eval context es h = make (Object.Boolean false) h1 := by
  induction hes with
  | nil => simp [OrOp.loop]
  | cons hev hp _ ih => simp [OrOp.loop, hev, ofObject_false hp, ih]

/-- C16. The forms `and` and `or` evaluate their arguments from left to right in the current
scope. `(and)` is a new `#t`. `(and e1 ... en)` in which the arguments before `e` are not `#f`
and `e` is `#f` returns the value of `e` with the heap left by `e`, whatever follows `e`; when
no argument is `#f` it returns the value of the last one. `(or e1 ... en)` in which the arguments
before `e` are `#f` and `e` is not returns the value of `e` with the heap left by `e`, whatever
follows `e`; when every argument is `#f`, and when there is none, it returns a new `#f`. -/
theorem C16_AndOp_OrOp_short_circuit (eval : Evaluator) (h : Heap) (args : ObjectPtr)
    (context : Nat) :
    (ListOf h args [] → AndOp.Apply eval args context h = make (Object.Boolean true) h) ∧
    (∀ pre e post h1 v h2, ListOf h args (pre ++ e :: post) →
      EvalAll eval context IsTrue pre h h1 → eval e context h1 = (Except.ok v, h2) →
      IsFalse h2 v → AndOp.Apply eval args context h = (Except.ok v, h2)) ∧
    (∀ pre e h1 v h2, ListOf h args (pre ++ [e]) →
      EvalAll eval context IsTrue pre h h1 → eval e context h1 = (Except.ok v, h2) →
      IsTrue h2 v → AndOp.Apply eval args context h = (Except.ok v, h2)) ∧
    (∀ pre e post h1 v h2, ListOf h args (pre ++ e :: post) →
      EvalAll eval context IsFalse pre h h1 → eval e context h1 = (Except.ok v, h2) →
      IsTrue h2 v → OrOp.Apply eval args context h = (Except.ok v, h2)) ∧
    (∀ es h1, ListOf h args es → EvalAll eval context IsFalse es h h1 →
      OrOp.Apply eval args context h = make (Object.Boolean false) h1) := by
  refine ⟨?_, ?_, ?_, ?_, ?_⟩
  · intro hargs
    simp [AndOp.Apply, VectorizeList_listOf hargs]
  · intro pre e post h1 v h2 hargs hpre he hf
    simp [AndOp.Apply, VectorizeList_listOf hargs,
      AndOp_loop_stop hpre e post v h2 he (Or.inl hf) none]
  · intro pre e h1 v h2 hargs hpre he ht
    simp [AndOp.Apply, VectorizeList_listOf hargs,
      AndOp_loop_stop hpre e [] v h2 he (Or.inr ⟨ht, rfl⟩) none]
  · intro pre e post h1 v h2 hargs hpre he ht
    simp [OrOp.Apply, VectorizeList_listOf hargs, OrOp_loop_stop hpre e post v h2 he ht]
  · intro es h1 hargs hes
    cases hes with
    | nil => simp [OrOp.Apply, VectorizeList_listOf hargs]
    | cons hev hp hr =>
      simp [OrOp.Apply, VectorizeList_listOf hargs, OrOp_loop_all (EvalAll.cons hev hp hr)]

/-- The instance of C16 on the argument lists `(#f 1 2)` and `(#f #f)` of `exampleHeapArgs`:
`and` stops at the first argument, and `or` finds no argument other than `#f`. -/
theorem C16_AndOp_OrOp_short_circuit_witness :
    (ListOf exampleHeapArgs (some 7) ([] ++ some 3 :: [some 1, some 2]) ∧
      EvalAll (Evaluate 1) 0 IsTrue [] exampleHeapArgs exampleHeapArgs ∧
      Evaluate 1 (some 3) 0 exampleHeapArgs = (Except.ok (some 3), exampleHeapArgs) ∧
      IsFalse exampleHeapArgs (some 3) ∧
      AndOp.Apply (Evaluate 1) (some 7) 0 exampleHeapArgs
        = (Except.ok (some 3), exampleHeapArgs)) ∧
    (ListOf exampleHeapArgs (some 12) [some 3, some 3] ∧
      EvalAll (Evaluate 1) 0 IsFalse [some 3, some 3] exampleHeapArgs exampleHeapArgs ∧
      OrOp.Apply (Evaluate 1) (some 12) 0 exampleHeapArgs
        = make (Object.Boolean false) exampleHeapArgs) :=
  ⟨⟨ListOf.cons rfl (ListOf.cons rfl (ListOf.cons rfl ListOf.nil)), EvalAll.nil, rfl,
      ⟨3, rfl, rfl⟩,
      (C16_AndOp_OrOp_short_circuit (Evaluate 1) exampleHeapArgs (some 7) 0).2.1 [] (some 3)
        [some 1, some 2] exampleHeapArgs (some 3) exampleHeapArgs
        (ListOf.cons rfl (ListOf.cons rfl (ListOf.cons rfl ListOf.nil))) EvalAll.nil rfl
        ⟨3, rfl, rfl⟩⟩,
    ⟨ListOf.cons rfl (ListOf.cons rfl ListOf.nil),
      EvalAll.cons rfl ⟨3, rfl, rfl⟩ (EvalAll.cons rfl ⟨3, rfl, rfl⟩ EvalAll.nil),
      (C16_AndOp_OrOp_short_circuit (Evaluate 1) exampleHeapArgs (some 12) 0).2.2.2.2
        [some 3, some 3] exampleHeapArgs (ListOf.cons rfl (ListOf.cons rfl ListOf.nil))
        (EvalAll.cons rfl ⟨3, rfl, rfl⟩ (EvalAll.cons rfl ⟨3, rfl, rfl⟩ EvalAll.nil))⟩⟩

/-! ## Arithmetic -/

theorem wrap64_of_range {x : Int} (hx : InRange x) : wrap64 x = x := by
  obtain ⟨h0, h1⟩ := hx
  unfold wrap64 wrap
  norm_num
  rw [Int.emod_eq_of_lt (by omega) (by omega)]
  omega

theorem asNumber_number {h : Heap} {p : Nat} {x : Int}
    (hp : h.objects[p]? = some (Object.Number x)) : asNumber (some p) h = (Except.ok x, h) := by
  simp [asNumber, deref_some hp]

theorem arithLoop_fold (op : Int → Int → Int) {eval : Evaluator} {context : Nat}
    {es : List ObjectPtr} {h h2 : Heap} {xs : List Int}
    (hev : EvalNumbers eval context es h xs h2) (acc : Int) (hr : FoldInRange op acc xs) :
    arithLoop op eval context es acc h = (Except.ok (xs.foldl op acc), h2) := by
  induction hev generalizing acc with
  | nil => simp [arithLoop]
  | cons he hp _ ih =>
    obtain ⟨hr1, hr2⟩ := hr
    simp [arithLoop, he, asNumber_number hp, wrap64_of_range hr1, ih _ hr2]

theorem divide_ok {x y : Int} (hy : y ≠ 0) (hxy : ¬ (x = -(2 ^ 63) ∧ y = -1)) (h : Heap) :
    divide x y h = (Except.ok (Int.tdiv x y), h) := by
  unfold divide
  rw [if_neg hy, if_neg hxy]
  rfl

theorem DivideOp_loop_fold {eval : Evaluator} {context : Nat}
    {es : List ObjectPtr} {h h2 : Heap} {xs : List Int}
    (hev : EvalNumbers eval context es h xs h2) (acc : Int) (hd : Divisible acc xs) :
    DivideOp.loop eval context es acc h = (Except.ok (xs.foldl Int.tdiv acc), h2) := by
  induction hev generalizing acc with
  | nil => simp [DivideOp.loop]
  | cons he hp _ ih =>
    obtain ⟨hd1, hd2, hd3⟩ := hd
    simp [DivideOp.loop, he, asNumber_number hp, divide_ok hd1 hd2, ih _ hd3]

theorem tdiv_one (x : Int) :
    (x = 1 → Int.tdiv 1 x = 1) ∧ (x = -1 → Int.tdiv 1 x = -1) ∧
    (x < -1 ∨ 1 < x → Int.tdiv 1 x = 0) := by
  refine ⟨?_, ?_, ?_⟩
  · rintro rfl; rfl
  · rintro rfl; rfl
  · rintro (hx | hx)
    · have : Int.tdiv 1 (-x) = 0 := Int.tdiv_eq_zero_of_lt (by omega) (by omega)
      rw [Int.tdiv_neg] at this
      omega
    · exact Int.tdiv_eq_zero_of_lt (by omega) hx

/-- C17. The arithmetic operators on arguments that evaluate, from left to right, to the
integers `xs`, with no intermediate result out of the range of `int64_t` and no zero divisor:
`+` returns a new integer that is the left fold of the sum from `0`, and `*` that of the product
from `1` (so `(+)` is `0` and `(*)` is `1`); `(- x)` is `-x` and `(- x1 x2 ... xn)` the left
fold of the difference from `x1`; `(/ x)` is the truncating quotient of `1` by `x`, which is `1`
for `x = 1`, `-1` for `x = -1` and `0` for the other `x`, and `(/ x1 x2 ... xn)` the left fold of
the truncating quotient from `x1`; `(-)` and `(/)` fail with a runtime error. -/
theorem C17_arithmetic_folds (eval : Evaluator) (h h2 : Heap) (args : ObjectPtr) (context : Nat)
    (es : List ObjectPtr) (xs : List Int) (hargs : ListOf h args es)
    (hev : EvalNumbers eval context es h xs h2) :
    (FoldInRange (fun x y => x + y) 0 xs →
      PlusOp.Apply eval args context h
        = make (Object.Number (xs.foldl (fun x y => x + y) 0)) h2) ∧
    (FoldInRange (fun x y => x * y) 1 xs →
      MultiplyOp.Apply eval args context h
        = make (Object.Number (xs.foldl (fun x y => x * y) 1)) h2) ∧
    (es = [] →
      PlusOp.Apply eval args context h = make (Object.Number 0) h ∧
      MultiplyOp.Apply eval args context h = make (Object.Number 1) h ∧
      MinusOp.Apply eval args context h = (Except.error Error.RuntimeError, h) ∧
      DivideOp.Apply eval args context h = (Except.error Error.RuntimeError, h)) ∧
    (∀ x, xs = [x] → InRange (-x) →
      MinusOp.Apply eval args context h = make (Object.Number (-x)) h2) ∧
    (∀ x1 x2 rest, xs = x1 :: x2 :: rest → FoldInRange (fun x y => x - y) x1 (x2 :: rest) →
      MinusOp.Apply eval args context h
        = make (Object.Number ((x2 :: rest).foldl (fun x y => x - y) x1)) h2) ∧
    (∀ x, xs = [x] → x ≠ 0 →
      DivideOp.Apply eval args context h = make (Object.Number (Int.tdiv 1 x)) h2 ∧
      (x = 1 → Int.tdiv 1 x = 1) ∧ (x = -1 → Int.tdiv 1 x = -1) ∧
      (x < -1 ∨ 1 < x → Int.tdiv 1 x = 0)) ∧
    (∀ x1 x2 rest, xs = x1 :: x2 :: rest → Divisible x1 (x2 :: rest) →
      DivideOp.Apply eval args context h
        = make (Object.Number ((x2 :: rest).foldl Int.tdiv x1)) h2) := by
  have hv := VectorizeList_listOf hargs
  refine ⟨?_, ?_, ?_, ?_, ?_, ?_, ?_⟩
  · intro hr
    simp [PlusOp.Apply, hv, arithLoop_fold _ hev 0 hr]
  · intro hr
    simp [MultiplyOp.Apply, hv, arithLoop_fold _ hev 1 hr]
  · intro hes
    subst hes
    simp [PlusOp.Apply, MultiplyOp.Apply, MinusOp.Apply, DivideOp.Apply, hv, arithLoop]
  · intro x hxs hr
    subst hxs
    cases hev with
    | cons he hp hrest =>
      cases hrest
      simp [MinusOp.Apply, hv, he, asNumber_number hp, wrap64_of_range hr]
  · intro x1 x2 rest hxs hr
    subst hxs
    cases hev with
    | cons he hp hrest =>
      cases hrest with
      | cons he2 hp2 hrest2 =>
        simp [MinusOp.Apply, hv, he, asNumber_number hp,
          arithLoop_fold _ (EvalNumbers.cons he2 hp2 hrest2) x1 hr]
  · intro x hxs hx
    subst hxs
    refine ⟨?_, tdiv_one x⟩
    cases hev with
    | cons he hp hrest =>
      cases hrest
      have hd : ¬ ((1 : Int) = -(2 ^ 63) ∧ x = -1) := by
        rintro ⟨h1, _⟩
        norm_num at h1
      simp [DivideOp.Apply, hv, he, asNumber_number hp, divide_ok hx hd]
  · intro x1 x2 rest hxs hd
    subst hxs
    cases hev with
    | cons he hp hrest =>
      cases hrest with
      | cons he2 hp2 hrest2 =>
        simp [DivideOp.Apply, hv, he, asNumber_number hp,
          DivideOp_loop_fold (EvalNumbers.cons he2 hp2 hrest2) x1 hd]

theorem exampleHeapArgs_numbers :
    EvalNumbers (Evaluate 1) 0 [some 0, some 1, some 2] exampleHeapArgs [0, 1, 2]
      exampleHeapArgs :=
  EvalNumbers.cons (p := 0) rfl rfl
    (EvalNumbers.cons (p := 1) rfl rfl (EvalNumbers.cons (p := 2) rfl rfl EvalNumbers.nil))

/-- The instance of C17 on the arguments `(0 1 2)` of `exampleHeapArgs`: the sum is a new
integer `3` and the difference a new integer `-3`. -/
theorem C17_arithmetic_folds_witness :
    ListOf exampleHeapArgs (some 6) [some 0, some 1, some 2] ∧
    EvalNumbers (Evaluate 1) 0 [some 0, some 1, some 2] exampleHeapArgs [0, 1, 2]
      exampleHeapArgs ∧
    FoldInRange (fun x y => x + y) 0 [0, 1, 2] ∧
    PlusOp.Apply (Evaluate 1) (some 6) 0 exampleHeapArgs
      = make (Object.Number 3) exampleHeapArgs ∧
    FoldInRange (fun x y => x - y) 0 [1, 2] ∧
    MinusOp.Apply (Evaluate 1) (some 6) 0 exampleHeapArgs
      = make (Object.Number (-3)) exampleHeapArgs :=
  ⟨ListOf.cons rfl (ListOf.cons rfl (ListOf.cons rfl ListOf.nil)), exampleHeapArgs_numbers,
    by simp [FoldInRange, InRange],
    (C17_arithmetic_folds (Evaluate 1) exampleHeapArgs exampleHeapArgs (some 6) 0
      [some 0, some 1, some 2] [0, 1, 2]
      (ListOf.cons rfl (ListOf.cons rfl (ListOf.cons rfl ListOf.nil)))
      exampleHeapArgs_numbers).1 (by simp [FoldInRange, InRange]),
    by simp [FoldInRange, InRange],
    (C17_arithmetic_folds (Evaluate 1) exampleHeapArgs exampleHeapArgs (some 6) 0
      [some 0, some 1, some 2] [0, 1, 2]
      (ListOf.cons rfl (ListOf.cons rfl (ListOf.cons rfl ListOf.nil)))
      exampleHeapArgs_numbers).2.2.2.2.1 0 1 [2] rfl (by simp [FoldInRange, InRange])⟩

/-! ## Comparisons -/

theorem make_returnsBoolean (b : Bool) (h : Heap) (P : Prop) (hb : b = true ↔ P) :
    ReturnsBoolean (make (Object.Boolean b) h) P :=
  ⟨h.objects.length, _, b, rfl, by simp [Heap.alloc], hb⟩

theorem compareLoop_chain (rel : Int → Int → Bool) {eval : Evaluator} {context : Nat}
    {es : List ObjectPtr} {h h2 : Heap} {xs : List Int}
    (hev : EvalNumbers eval context es h xs h2) (previous_value : Int) :
    ∃ b h3, compareLoop rel eval context es previous_value h = (Except.ok b, h3) ∧
      (b = true ↔ List.Chain (fun x y => rel x y = true) previous_value xs) := by
  induction hev generalizing previous_value with
  | nil => exact ⟨true, _, rfl, by simp⟩
  | @cons e es h h1 h2 p x xs he hp _ ih =>
    cases hr : rel previous_value x
    · exact ⟨false, h1, by simp [compareLoop, he, asNumber_number hp, hr], by simp [hr]⟩
    · obtain ⟨b, h3, hb, hiff⟩ := ih x
      exact ⟨b, h3, by simp [compareLoop, he, asNumber_number hp, hr, hb], by simp [hr, hiff]⟩

/-- The four ordering operators on arguments that evaluate to integers: the result is a boolean,
which is `#t` exactly when the relation holds for every adjacent pair. -/
theorem compareApply_chain (rel : Int → Int → Bool) {eval : Evaluator} {context : Nat}
    {args : ObjectPtr} {es : List ObjectPtr} {h h2 : Heap} {xs : List Int}
    (hargs : ListOf h args es) (hev : EvalNumbers eval context es h xs h2) :
    ReturnsBoolean (compareApply rel eval args context h)
      (List.Chain' (fun x y => rel x y = true) xs) := by
  have hv := VectorizeList_listOf hargs
  cases hev with
  | nil =>
    have : compareApply rel eval args context h = make (Object.Boolean true) h := by
      simp [compareApply, hv]
    rw [this]
    exact make_returnsBoolean _ _ _ (by simp)
  | @cons e es h h1 h2 p x xs he hp hrest =>
    cases hrest with
    | nil =>
      have : compareApply rel eval args context h = make (Object.Boolean true) h := by
        simp [compareApply, hv]
      rw [this]
      exact make_returnsBoolean _ _ _ (by simp)
    | cons he2 hp2 hrest2 =>
      obtain ⟨b, h3, hb, hiff⟩ := compareLoop_chain rel (EvalNumbers.cons he2 hp2 hrest2) x
      have : compareApply rel eval args context h = make (Object.Boolean b) h3 := by
        simp [compareApply, hv, he, asNumber_number hp, hb]
      rw [this]
      exact make_returnsBoolean _ _ _ (by simpa [List.Chain'] using hiff)

theorem compareApply_short {rel : Int → Int → Bool} {eval : Evaluator} {context : Nat}
    {args : ObjectPtr} {es : List ObjectPtr} {h : Heap}
    (hargs : ListOf h args es) (hlen : es.length ≤ 1) :
    compareApply rel eval args context h = make (Object.Boolean true) h := by
  have hv := VectorizeList_listOf hargs
  match es, hlen with
  | [], _ => simp [compareApply, hv]
  | [_], _ => simp [compareApply, hv]

theorem EqualOp_loop_all {eval : Evaluator} {context : Nat}
    {es : List ObjectPtr} {h h2 : Heap} {xs : List Int}
    (hev : EvalNumbers eval context es h xs h2) (first_value : Int) :
    ∃ b h3, EqualOp.loop eval context first_value es h = (Except.ok b, h3) ∧
      (b = true ↔ ∀ x ∈ xs, first_value = x) := by
  induction hev with
  | nil => exact ⟨true, _, rfl, by simp⟩
  | @cons e es h h1 h2 p x xs he hp _ ih =>
    by_cases hx : first_value = x
    · subst hx
      obtain ⟨b, h3, hb, hiff⟩ := ih
      exact ⟨b, h3, by simp [EqualOp.loop, he, asNumber_number hp, hb], by simp [hiff]⟩
    · exact ⟨false, h1, by simp [EqualOp.loop, he, asNumber_number hp, hx], by simp [hx]⟩

theorem chain_eq_iff (x : Int) (xs : List Int) :
    List.Chain (fun a b => a = b) x xs ↔ ∀ y ∈ xs, x = y := by
  induction xs generalizing x with
  | nil => simp
  | cons y ys ih =>
    simp only [List.chain_cons, List.mem_cons, forall_eq_or_imp, ih]
    constructor
    · rintro ⟨rfl, hall⟩
      exact ⟨rfl, hall⟩
    · rintro ⟨rfl, hall⟩
      exact ⟨rfl, hall⟩

theorem ReturnsBoolean.congr {r : Except Error ObjectPtr × Heap} {P Q : Prop} (hPQ : P ↔ Q)
    (hr : ReturnsBoolean r P) : ReturnsBoolean r Q := by
  obtain ⟨p, h, b, h1, h2, h3⟩ := hr
  exact ⟨p, h, b, h1, h2, h3.trans hPQ⟩

/-- C18. The comparisons `=`, `<`, `>`, `<=`, `>=`. With no argument or one argument each returns
a new `#t`, and evaluates nothing. On arguments that evaluate, from left to right, to the integers
`xs`, each of `<`, `>`, `<=`, `>=` returns a boolean that is `#t` exactly when the relation holds
for every adjacent pair of `xs`; so does `=`, whose first argument the code evaluates twice,
when both evaluations give the same integer; in particular `(< a b c)` is `#t` exactly when
`a < b` and `b < c`. -/
theorem C18_chained_comparisons (eval : Evaluator) (h h2 : Heap) (args : ObjectPtr)
    (context : Nat) (es : List ObjectPtr) (xs : List Int) (hargs : ListOf h args es) :
    (es.length ≤ 1 →
      EqualOp.Apply eval args context h = make (Object.Boolean true) h ∧
      LessOp.Apply eval args context h = make (Object.Boolean true) h ∧
      GreaterOp.Apply eval args context h = make (Object.Boolean true) h ∧
      LessEqualOp.Apply eval args context h = make (Object.Boolean true) h ∧
      GreaterEqualOp.Apply eval args context h = make (Object.Boolean true) h) ∧
    (EvalNumbers eval context es h xs h2 →
      ReturnsBoolean (LessOp.Apply eval args context h) (List.Chain' (fun x y => x < y) xs) ∧
      ReturnsBoolean (GreaterOp.Apply eval args context h) (List.Chain' (fun x y => x > y) xs) ∧
      ReturnsBoolean (LessEqualOp.Apply eval args context h)
        (List.Chain' (fun x y => x ≤ y) xs) ∧
      ReturnsBoolean (GreaterEqualOp.Apply eval args context h)
        (List.Chain' (fun x y => x ≥ y) xs)) ∧
    (∀ e1 e2 rest x1 ys, es = e1 :: e2 :: rest →
      EvalNumbers eval context (e1 :: e1 :: e2 :: rest) h (x1 :: x1 :: ys) h2 →
      ReturnsBoolean (EqualOp.Apply eval args context h)
        (List.Chain' (fun x y => x = y) (x1 :: ys))) ∧
    (∀ a b c, xs = [a, b, c] → EvalNumbers eval context es h xs h2 →
      ReturnsBoolean (LessOp.Apply eval args context h) (a < b ∧ b < c)) := by
  refine ⟨?_, ?_, ?_, ?_⟩
  · intro hlen
    refine ⟨?_, compareApply_short hargs hlen, compareApply_short hargs hlen,
      compareApply_short hargs hlen, compareApply_short hargs hlen⟩
    have hv := VectorizeList_listOf hargs
    match es, hlen with
    | [], _ => simp [EqualOp.Apply, hv]
    | [_], _ => simp [EqualOp.Apply, hv]
  · intro hev
    refine ⟨?_, ?_, ?_, ?_⟩
    · exact (compareApply_chain (fun x y => decide (x < y)) hargs hev).congr (by simp)
    · exact (compareApply_chain (fun x y => decide (x > y)) hargs hev).congr (by simp)
    · exact (compareApply_chain (fun x y => decide (x ≤ y)) hargs hev).congr (by simp)
    · exact (compareApply_chain (fun x y => decide (x ≥ y)) hargs hev).congr (by simp)
  · intro e1 e2 rest x1 ys hes hev
    subst hes
    have hv := VectorizeList_listOf hargs
    cases hev with
    | cons he hp hrest =>
      obtain ⟨b, h3, hb, hiff⟩ := EqualOp_loop_all hrest x1
      have : EqualOp.Apply eval args context h = make (Object.Boolean b) h3 := by
        simp [EqualOp.Apply, hv, he, asNumber_number hp, hb]
      rw [this]
      refine make_returnsBoolean _ _ _ (hiff.trans ?_)
      simp [List.Chain', chain_eq_iff]
  · intro a b c hxs hev
    subst hxs
    exact (compareApply_chain (fun x y => decide (x < y)) hargs hev).congr (by simp)

/-- The instance of C18 on the arguments `(0 1 2)` of `exampleHeapArgs`, on which `<` returns
a boolean that is `#t` exactly when `0 < 1` and `1 < 2`. -/
theorem C18_chained_comparisons_witness :
    ListOf exampleHeapArgs (some 6) [some 0, some 1, some 2] ∧
    EvalNumbers (Evaluate 1) 0 [some 0, some 1, some 2] exampleHeapArgs [0, 1, 2]
      exampleHeapArgs ∧
    ReturnsBoolean (LessOp.Apply (Evaluate 1) (some 6) 0 exampleHeapArgs)
      ((0 : Int) < 1 ∧ (1 : Int) < 2) :=
  ⟨ListOf.cons rfl (ListOf.cons rfl (ListOf.cons rfl ListOf.nil)), exampleHeapArgs_numbers,
    (C18_chained_comparisons (Evaluate 1) exampleHeapArgs exampleHeapArgs (some 6) 0
      [some 0, some 1, some 2] [0, 1, 2]
      (ListOf.cons rfl (ListOf.cons rfl (ListOf.cons rfl ListOf.nil)))).2.2.2 0 1 2 rfl
      exampleHeapArgs_numbers⟩

/-! ## The form `set!` -/

/-- The function `Set` on a chain in which the nearest frame that holds the name is the frame
`a`: the frame is replaced by one that binds the name to the value, and nothing else changes. -/
theorem Set_found {h : Heap} {c : Nat} {frames : List (Nat × Context)} {name : String}
    (value : ObjectPtr) {a : Nat} {ctx : Context} (hchain : IsChain h (some c) frames)
    (hfind : frames.find? (holds name) = some (a, ctx)) :
    (Context.Set c name value h).1 = Except.ok () ∧
    (Context.Set c name value h).2.objects = h.objects ∧
    (Context.Set c name value h).2.contexts.length = h.contexts.length ∧
    (∀ b other, (b ≠ a ∨ other ≠ name) →
      (Context.Set c name value h).2.binding b other = h.binding b other) ∧
    (∀ b, (Context.Set c name value h).2.upper b = h.upper b) ∧
    (Context.Set c name value h).2.binding a name = some value ∧
    Context.Get (Context.Set c name value h).2 c name = Except.ok value := by
  have hmem : (a, ctx) ∈ frames := List.mem_of_find?_eq_some hfind
  have hctx : h.contexts[a]? = some ctx := hchain.lookup_of_mem hmem
  have hlt : a < h.contexts.length := by
    by_contra hge
    rw [List.getElem?_eq_none (by omega)] at hctx
    cases hctx
  have hset : Context.Set c name value h =
      (Except.ok (), Heap.mk h.objects
        (h.contexts.set a { ctx with name_table_ := assign ctx.name_table_ name value })) := by
    unfold Context.Set
    rw [walk_chain hchain name, hfind]
    simp [hctx]
  rw [hset]
  refine ⟨rfl, rfl, by simp, ?_, ?_, ?_, ?_⟩
  · intro b other hne
    rw [binding_set]
    by_cases hab : a = b
    · subst hab
      have hon : other ≠ name := by
        rcases hne with h1 | h1
        · exact absurd rfl h1
        · exact h1
      simp [hlt, Heap.binding, hctx, lookup_assign_ne _ _ _ _ hon]
    · simp [hab]
  · intro b
    exact upper_set h a ctx { ctx with name_table_ := assign ctx.name_table_ name value } hctx rfl b
  · rw [binding_set]
    simp [hlt, lookup_assign_self]
  · have hch2 := hchain.set a ctx { ctx with name_table_ := assign ctx.name_table_ name value }
      hctx rfl
    rw [Get_eq hch2 name]
    have huniq : ∀ f ∈ frames, f.1 = a → f = (a, ctx) := by
      intro f hf hfa
      have := hchain.lookup_of_mem hf
      rw [hfa, hctx] at this
      cases this
      exact Prod.ext hfa rfl
    rw [find_map_set huniq hfind (by simp [holds, contains_assign_self])]
    simp [lookup_assign_self]

theorem Set_not_found {h : Heap} {c : Nat} {frames : List (Nat × Context)} {name : String}
    (value : ObjectPtr) (hchain : IsChain h (some c) frames)
    (hfind : frames.find? (holds name) = none) :
    Context.Set c name value h = (Except.error Error.NameError, h) := by
  unfold Context.Set
  rw [walk_chain hchain name, hfind]
  rfl

theorem asSymbol_symbol {h : Heap} {p : Nat} {name : String}
    (hp : h.objects[p]? = some (Object.Symbol name)) :
    asSymbol (some p) h = (Except.ok name, h) := by
  simp [asSymbol, deref_some hp]

set_option maxRecDepth 100000 in
/-- C14. The form `(set! name expr)` evaluates `expr` first. On the scope chain of the current
scope, read in the heap left by `expr`: when the nearest frame that holds `name` is the frame
`a`, the form returns the value `name` had in that frame and leaves a heap in which the frame
`a` binds `name` to the value of `expr`, so that `name` now evaluates to it, and in which the
objects, the upper frames and every other binding are those left by `expr`; when no frame holds
`name`, it fails with a name error and leaves the heap as `expr` left it. After `(define x 5)`,
`(set! x (+ x 1))` prints `5` and `x` then prints `6`. -/
theorem C14_SetOp_rebinds (eval : Evaluator) (h h1 : Heap) (args : ObjectPtr) (context : Nat)
    (n : Nat) (expr : ObjectPtr) (name : String) (v : ObjectPtr) (frames : List (Nat × Context))
    (hargs : ListOf h args [some n, expr])
    (heval : eval expr context h = (Except.ok v, h1))
    (hname : h1.objects[n]? = some (Object.Symbol name))
    (hchain : IsChain h1 (some context) frames) :
    (∀ a ctx, frames.find? (holds name) = some (a, ctx) →
      ∃ old h2, ctx.name_table_.lookup name = some old ∧
        Context.Get h1 context name = Except.ok old ∧
        SetOp.Apply eval args context h = (Except.ok old, h2) ∧
        h2.objects = h1.objects ∧
        h2.contexts.length = h1.contexts.length ∧
        (∀ b other, (b ≠ a ∨ other ≠ name) → h2.binding b other = h1.binding b other) ∧
        (∀ b, h2.upper b = h1.upper b) ∧
        h2.binding a name = some v ∧
        Context.Get h2 context name = Except.ok v) ∧
    (frames.find? (holds name) = none →
      SetOp.Apply eval args context h = (Except.error Error.NameError, h1)) ∧
    repl.main 10 ["(define x 5)", "(set! x (+ x 1))", "x"]
      = [Except.ok "x", Except.ok "5", Except.ok "6"] := by
  have hv := VectorizeList_listOf hargs
  refine ⟨?_, ?_, by decide⟩
  · intro a ctx hfind
    have hh : holds name (a, ctx) = true := List.find?_some hfind
    simp only [holds, contains, Option.isSome_iff_exists] at hh
    obtain ⟨old, hold⟩ := hh
    have hget : Context.Get h1 context name = Except.ok old := by
      rw [Get_eq hchain name, hfind]
      simp [hold]
    obtain ⟨s1, s2, s3, s4, s5, s6, s7⟩ := Set_found v hchain hfind
    refine ⟨old, (Context.Set context name v h1).2, hold, hget, ?_, s2, s3, s4, s5, s6, s7⟩
    have hset : Context.Set context name v h1
        = (Except.ok (), (Context.Set context name v h1).2) := by
      rw [← s1]
    simp only [SetOp.Apply, M.bind_apply, hv, heval, asSymbol_symbol hname, M.read_apply, hget]
    rw [hset]
    rfl
  · intro hfind
    have hget : Context.Get h1 context name = Except.error Error.NameError := by
      rw [Get_eq hchain name, hfind]
    simp [SetOp.Apply, hv, heval, asSymbol_symbol hname, hget]

/-- The instance of C14 on the arguments `(x 1)` of `exampleHeapArgs`, whose frame binds `x` to
the object `2`: the form returns that object and the frame then binds `x` to the object `1`. -/
theorem C14_SetOp_rebinds_witness :
    ListOf exampleHeapArgs (some 10) [some 8, some 1] ∧
    Evaluate 1 (some 1) 0 exampleHeapArgs = (Except.ok (some 1), exampleHeapArgs) ∧
    exampleHeapArgs.objects[8]? = some (Object.Symbol "x") ∧
    IsChain exampleHeapArgs (some 0) [(0, ⟨[("x", some 2)], none⟩)] ∧
    (∃ old h2, [("x", some 2)].lookup "x" = some old ∧
        Context.Get exampleHeapArgs 0 "x" = Except.ok old ∧
        SetOp.Apply (Evaluate 1) (some 10) 0 exampleHeapArgs = (Except.ok old, h2) ∧
        h2.objects = exampleHeapArgs.objects ∧
        h2.contexts.length = exampleHeapArgs.contexts.length ∧
        (∀ b other, (b ≠ 0 ∨ other ≠ "x") →
          h2.binding b other = exampleHeapArgs.binding b other) ∧
        (∀ b, h2.upper b = exampleHeapArgs.upper b) ∧
        h2.binding 0 "x" = some (some 1) ∧
        Context.Get h2 0 "x" = Except.ok (some 1)) :=
  ⟨ListOf.cons rfl (ListOf.cons rfl ListOf.nil), rfl, rfl,
    IsChain.cons (c := 0) rfl IsChain.nil,
    (C14_SetOp_rebinds (Evaluate 1) exampleHeapArgs exampleHeapArgs (some 10) 0 8 (some 1) "x"
      (some 1) [(0, ⟨[("x", some 2)], none⟩)] (ListOf.cons rfl (ListOf.cons rfl ListOf.nil))
      rfl rfl (IsChain.cons (c := 0) rfl IsChain.nil)).1 0 ⟨[("x", some 2)], none⟩ rfl⟩

/-! ## Application of a lambda -/

theorem bindLoop_eq {eval : Evaluator} {contextp frame : Nat} {names : List String}
    {arguments : List ObjectPtr} {h h1 : Heap}
    (hb : BindArgs eval contextp frame names arguments h h1) :
    Lambda.bindLoop eval contextp frame names arguments h = (Except.ok (), h1) := by
  induction hb with
  | nil => simp [Lambda.bindLoop]
  | cons he _ ih => simp [Lambda.bindLoop, he, define, ih]

theorem bodyLoop_eq {eval : Evaluator} {frame : Nat} {commands : List ObjectPtr} {h h2 : Heap}
    {values : List ObjectPtr} (hs : EvalSeq eval frame commands h values h2)
    (last_result : ObjectPtr) :
    Lambda.bodyLoop eval frame commands last_result h
      = (Except.ok (values.getLastD last_result), h2) := by
  induction hs generalizing last_result with
  | nil => simp [Lambda.bodyLoop]
  | cons he _ ih =>
    simp only [Lambda.bodyLoop, M.bind_apply, he, ih, List.getLastD_cons]

set_option maxRecDepth 100000 in
/-- C12. Applying a lambda with the parameters `arg_names` and the captured scope `context` to
an argument list, from the scope `contextp` of the caller: it fails with a runtime error when the
list is not proper and when it is proper with a number of elements other than that of the
parameters. Otherwise a new frame is made, with no binding and with the captured scope as its
upper frame; each argument is evaluated in the scope of the caller and bound to its parameter in
the new frame; the body expressions are evaluated in order in the new frame, and the value of
the last is returned (the empty value when there is none). After `(define x 1)`,
`(define f (lambda () x))` and `(define x 2)`, `(f)` prints `2`. -/
theorem C12_Lambda_Apply (eval : Evaluator) (h : Heap) (commands : List ObjectPtr)
    (arg_names : List String) (context : Nat) (args : ObjectPtr) (contextp : Nat) :
    (ImproperList h args →
      Lambda.Apply eval commands arg_names context args contextp h
        = (Except.error Error.RuntimeError, h)) ∧
    (∀ arguments, ListOf h args arguments → arguments.length ≠ arg_names.length →
      Lambda.Apply eval commands arg_names context args contextp h
        = (Except.error Error.RuntimeError, h)) ∧
    (∀ arguments h1 values h2, ListOf h args arguments →
      arguments.length = arg_names.length →
      BindArgs eval contextp h.contexts.length arg_names arguments
        (Heap.mk h.objects (h.contexts ++ [⟨[], some context⟩])) h1 →
      EvalSeq eval h.contexts.length commands h1 values h2 →
      Lambda.Apply eval commands arg_names context args contextp h
        = (Except.ok (values.getLastD none), h2)) ∧
    repl.main 12 ["(define x 1)", "(define f (lambda () x))", "(define x 2)", "(f)"]
      = [Except.ok "x", Except.ok "f", Except.ok "x", Except.ok "2"] := by
  refine ⟨?_, ?_, ?_, by decide⟩
  · intro himp
    simp [Lambda.Apply, VectorizeList_improper himp]
  · intro arguments hargs hlen
    simp [Lambda.Apply, VectorizeList_listOf hargs, hlen]
  · intro arguments h1 values h2 hargs hlen hbind hbody
    simp [Lambda.Apply, VectorizeList_listOf hargs, hlen, makeContext, Heap.allocContext,
      bindLoop_eq hbind, bodyLoop_eq hbody]

/-- The instance of C12 on `exampleHeapArgs`: the lambda with the parameter `x`, the body `x`
and the captured scope `0`, applied to the argument list `(1)`, returns the object `1`. -/
theorem C12_Lambda_Apply_witness :
    ListOf exampleHeapArgs (some 9) [some 1] ∧
    [some 1].length = ["x"].length ∧
    BindArgs (Evaluate 1) 0 exampleHeapArgs.contexts.length ["x"] [some 1]
      (Heap.mk exampleHeapArgs.objects (exampleHeapArgs.contexts ++ [⟨[], some 0⟩]))
      (Context.Define 1 "x" (some 1)
        (Heap.mk exampleHeapArgs.objects (exampleHeapArgs.contexts ++ [⟨[], some 0⟩]))) ∧
    EvalSeq (Evaluate 1) exampleHeapArgs.contexts.length [some 8]
      (Context.Define 1 "x" (some 1)
        (Heap.mk exampleHeapArgs.objects (exampleHeapArgs.contexts ++ [⟨[], some 0⟩])))
      [some 1]
      (Context.Define 1 "x" (some 1)
        (Heap.mk exampleHeapArgs.objects (exampleHeapArgs.contexts ++ [⟨[], some 0⟩]))) ∧
    Lambda.Apply (Evaluate 1) [some 8] ["x"] 0 (some 9) 0 exampleHeapArgs
      = (Except.ok (some 1), Context.Define 1 "x" (some 1)
          (Heap.mk exampleHeapArgs.objects (exampleHeapArgs.contexts ++ [⟨[], some 0⟩]))) :=
  ⟨ListOf.cons rfl ListOf.nil, rfl, BindArgs.cons rfl BindArgs.nil,
    EvalSeq.cons rfl EvalSeq.nil,
    (C12_Lambda_Apply (Evaluate 1) exampleHeapArgs [some 8] ["x"] 0 (some 9) 0).2.2.1
      [some 1] _ [some 1] _ (ListOf.cons rfl ListOf.nil) rfl (BindArgs.cons rfl BindArgs.nil)
      (EvalSeq.cons rfl EvalSeq.nil)⟩

/-! ## The two shapes of `define` -/

theorem Is_eq (test : Object → Bool) {h : Heap} {p : Nat} {o : Object}
    (hp : h.objects[p]? = some o) : Is test (some p) h = (Except.ok (test o), h) := by
  simp [Is, deref_some hp]

theorem asSymbol_heap (p : ObjectPtr) (h : Heap) : (asSymbol p h).2 = h := by
  cases p with
  | none => simp [asSymbol]
  | some a =>
    cases ha : h.objects[a]? with
    | none => simp [asSymbol, deref, ha]
    | some o => cases o <;> simp [asSymbol, deref, ha]

/-- The loop over the parameters reads the heap only. -/
theorem argNames_heap (l : List ObjectPtr) (h : Heap) : (argNames l h).2 = h := by
  induction l with
  | nil => rfl
  | cons p rest ih =>
    have hs := asSymbol_heap p h
    simp only [argNames, M.bind_apply]
    cases hr : asSymbol p h with
    | mk r h1 =>
      rw [hr] at hs
      simp only at hs
      subst hs
      cases r with
      | error e => rfl
      | ok name =>
        simp only
        cases hr2 : argNames rest h1 with
        | mk r2 h2 =>
          rw [hr2] at ih
          simp only at ih
          subst ih
          cases r2 <;> rfl

theorem withContexts_extends (h : Heap) (cs : List Context) :
    (Heap.mk h.objects cs).Extends h := ⟨[], by simp⟩

/-- The two shapes of `define` with a body that is not empty: when the parameters are a proper
list, `(define (name . params) c0 body ...)` and `(define name (lambda params c0 body ...))`,
with `lambda` bound to the operator `lambda`, have the same outcome and leave the same heap. -/
theorem DefineOp_shapes_agree (fuel : Nat) (h : Heap) (context : Nat)
    (sugarArgs lambdaArgs params largs c0 : ObjectPtr) (cmds ps : List ObjectPtr)
    (c n le ls lb : Nat) (name : String)
    (hsugar : ListOf h sugarArgs (some c :: c0 :: cmds))
    (hc : h.objects[c]? = some (Object.Cell (some n) params))
    (hn : h.objects[n]? = some (Object.Symbol name))
    (hps : ListOf h params ps)
    (hlambda : ListOf h lambdaArgs [some n, some le])
    (hle : h.objects[le]? = some (Object.Cell (some ls) largs))
    (hls : h.objects[ls]? = some (Object.Symbol "lambda"))
    (hget : Context.Get h context "lambda" = Except.ok (some lb))
    (hlb : h.objects[lb]? = some (Object.Builtin Operator.LambdaOp))
    (hlargs : ListOf h largs (params :: c0 :: cmds)) :
    DefineOp.Apply (Evaluate (fuel + 2)) sugarArgs context h
      = DefineOp.Apply (Evaluate (fuel + 2)) lambdaArgs context h := by
  have hx := withContexts_extends h (h.contexts ++ [⟨[], some context⟩])
  have hv1 := VectorizeList_listOf hsugar
  have hv2 := VectorizeList_listOf (ListOf.cons hc hps)
  have hv3 := VectorizeList_listOf hlambda
  have hv4 := VectorizeList_listOf (ListOf_mono hlargs hx)
  have hv5 := VectorizeList_listOf (ListOf_mono hps hx)
  have hheap := argNames_heap ps (Heap.mk h.objects (h.contexts ++ [⟨[], some context⟩]))
  have hlhs : DefineOp.Apply (Evaluate (fuel + 2)) sugarArgs context h =
      match argNames ps (Heap.mk h.objects (h.contexts ++ [⟨[], some context⟩])) with
      | (Except.ok arg_names, h1) =>
        (do
          let result ← make (Object.Lambda (c0 :: cmds) arg_names h.contexts.length)
          define context name result
          make (Object.Symbol name)) h1
      | (Except.error e, h1) => (Except.error e, h1) := by
    simp [DefineOp.Apply, hv1, Is_eq Object.IsSymbol hc, Is_eq Object.IsCell hc,
      Object.IsSymbol, Object.IsCell, hv2, asSymbol_symbol hn, makeContext, Heap.allocContext]
    cases argNames ps (Heap.mk h.objects (h.contexts ++ [⟨[], some context⟩])) with
    | mk r h1 => cases r <;> rfl
  have hrhs : DefineOp.Apply (Evaluate (fuel + 2)) lambdaArgs context h =
      match argNames ps (Heap.mk h.objects (h.contexts ++ [⟨[], some context⟩])) with
      | (Except.ok arg_names, h1) =>
        (do
          let result ← make (Object.Lambda (c0 :: cmds) arg_names h.contexts.length)
          define context name result
          make (Object.Symbol name)) h1
      | (Except.error e, h1) => (Except.error e, h1) := by
    have hev : Evaluate (fuel + 2) (some le) context h
        = LambdaOp.Apply (Evaluate (fuel + 1)) largs context h := by
      simp [Evaluate, deref_some hle, Cell.Evaluate, deref_some hls, hget, deref_some hlb,
        Object.IsFunction, Function.Apply, Operator.Apply]
    simp only [DefineOp.Apply, M.bind_apply, hv3, Is_eq Object.IsSymbol hn, Object.IsSymbol, hev,
      LambdaOp.Apply, makeContext, Heap.allocContext, hv4, hv5, if_true]
    cases hr : argNames ps (Heap.mk h.objects (h.contexts ++ [⟨[], some context⟩])) with
    | mk r h1 =>
      rw [hr] at hheap
      simp only at hheap
      subst hheap
      cases r with
      | error e => simp
      | ok arg_names =>
        have hn2 : (Heap.alloc (Heap.mk h.objects (h.contexts ++ [⟨[], some context⟩]))
            (Object.Lambda (c0 :: cmds) arg_names h.contexts.length)).2.objects[n]?
            = some (Object.Symbol name) :=
          (alloc_extends _ _).lookup (hx.lookup hn)
        simp [make, asSymbol_symbol hn2]
  rw [hlhs, hrhs]

set_option maxRecDepth 100000 in
/-- C13 at the empty body: `(define (f))` returns `f` and binds `f` to a lambda with no body
expression, whose call `(f)` returns the empty value, while `(define f (lambda ()))` fails with
a syntax error and binds nothing, so that `(f)` then fails with a name error. With one body
expression the two shapes have the same outcome. -/
theorem C13_define_shapes_differ_on_empty_body :
    repl.main 10 ["(define (f))", "(f)"] = [Except.ok "f", Except.ok "()"] ∧
    repl.main 10 ["(define f (lambda ()))", "(f)"]
      = [Except.error Error.SyntaxError, Except.error Error.NameError] ∧
    repl.main 10 ["(define (f x))", "(f 1)"] = [Except.ok "f", Except.ok "()"] ∧
    repl.main 10 ["(define f (lambda (x)))", "(f 1)"]
      = [Except.error Error.SyntaxError, Except.error Error.NameError] ∧
    repl.main 10 ["(define (f x) x)", "(f 1)"] = [Except.ok "f", Except.ok "1"] ∧
    repl.main 10 ["(define f (lambda (x) x))", "(f 1)"] = [Except.ok "f", Except.ok "1"] := by
  decide

/-! ## The operator `list` -/

theorem ListOp_copy_eq {h : Heap} {p : ObjectPtr} {l : List ObjectPtr} (hl : ListOf h p l)
    (n : Nat) (hn : l.length < n) :
    ∃ q h2, ListOp.copy n p h = (Except.ok q, h2) ∧ ListOf h2 q l ∧ h2.Extends h ∧
      h2.contexts = h.contexts := by
  induction hl generalizing n with
  | nil =>
    cases n with
    | zero => simp at hn
    | succ n => exact ⟨none, h, rfl, ListOf.nil, Heap.Extends.refl h, rfl⟩
  | @cons a f s rest ho hr ih =>
    cases n with
    | zero => simp at hn
    | succ n =>
      simp only [List.length_cons, Nat.add_lt_add_iff_right] at hn
      obtain ⟨q, h2, hq, hl2, hx, hc⟩ := ih n hn
      refine ⟨some h2.objects.length, (h2.alloc (Object.Cell f q)).2, ?_, ?_, ?_, ?_⟩
      · simp [ListOp.copy, asCell, deref_some ho, hq, make, Heap.alloc]
      · exact ListOf.cons (alloc_lookup h2 _) (ListOf_mono hl2 (alloc_extends h2 _))
      · exact (alloc_extends h2 _).trans hx
      · simpa [Heap.alloc] using hc

theorem ListOf_length_le {h : Heap} {p : ObjectPtr} {l : List ObjectPtr} (hl : ListOf h p l) :
    l.length ≤ h.objects.length := by
  obtain ⟨path, hp, hm⟩ := ListOf_path hl
  have := TailPath_length_le hp
  rw [← hm, List.length_map]
  exact this

/-- The operator `list` returns a new proper list of its argument expressions as they are: it
calls the evaluator on none of them, keeps the objects of the heap and changes no frame. -/
theorem ListOp_Apply_copies (eval : Evaluator) {h : Heap} {args : ObjectPtr}
    {l : List ObjectPtr} (context : Nat) (hl : ListOf h args l) :
    ∃ q h2, ListOp.Apply eval args context h = (Except.ok q, h2) ∧ ListOf h2 q l ∧
      h2.Extends h ∧ h2.contexts = h.contexts := by
  have hlen := ListOf_length_le hl
  obtain ⟨q, h2, hq, r⟩ := ListOp_copy_eq hl (h.objects.length + 1) (by omega)
  exact ⟨q, h2, by simp [ListOp.Apply, hq], r⟩

set_option maxRecDepth 100000 in
/-- C19 at an argument that is not a constant: `(list (+ 1 2))` prints `((+ 1 2))`, the
argument expression itself, where the list of the value of the argument prints `(3)`, as
`(cons (+ 1 2) (quote ()))` does; `(list x)` prints `(x)` where `x` is unbound, and `(list 1 2)`
and `(list)`, whose arguments are constants, print `(1 2)` and `()`. -/
theorem C19_list_keeps_expressions :
    repl.main 10 ["(list (+ 1 2))", "(cons (+ 1 2) '())", "(list x)", "x", "(list 1 2)",
        "(list)"]
      = [Except.ok "((+ 1 2))", Except.ok "(3)", Except.ok "(x)",
          Except.error Error.NameError, Except.ok "(1 2)", Except.ok "()"] := by
  decide

/-! ## The predicate `list?` -/

theorem ListPredicate_walk_eq {h : Heap} {v : ObjectPtr} {path : List (Nat × ObjectPtr)}
    {t : ObjectPtr} (hp : TailPath h v path t) (n : Nat) (hn : path.length < n) :
    ListPredicate.walk h n v = Except.ok t := by
  induction hp generalizing n with
  | null =>
    cases n with
    | zero => simp at hn
    | succ n => simp [ListPredicate.walk]
  | @atom a o ho hc =>
    cases n with
    | zero => simp at hn
    | succ n => cases o <;> simp [Object.IsCell] at hc <;> simp [ListPredicate.walk, ho]
  | @cell a f s path t ho hr ih =>
    cases n with
    | zero => simp at hn
    | succ n =>
      simp only [List.length_cons, Nat.add_lt_add_iff_right] at hn
      simp [ListPredicate.walk, ho, ih n hn]

/-- The predicate `list?` on an argument whose value is a chain of pairs with the final tail `t`:
when `t` is the empty value the result is a new `#t`; when `t` is an object, that object is
evaluated in the current scope, and the result is a new boolean that tells whether the evaluation
returned the empty value. -/
theorem ListPredicate_Apply_eq (eval : Evaluator) {h h1 : Heap} {args a v : ObjectPtr}
    {path : List (Nat × ObjectPtr)} {t : ObjectPtr} (context : Nat)
    (hargs : ListOf h args [a]) (he : eval a context h = (Except.ok v, h1))
    (hp : TailPath h1 v path t) :
    ListPredicate.Apply eval args context h =
      match t with
      | none => make (Object.Boolean true) h1
      | some b =>
        match eval (some b) context h1 with
        | (Except.ok r, h2) => make (Object.Boolean r.isNone) h2
        | (Except.error e, h2) => (Except.error e, h2) := by
  have hw := ListPredicate_walk_eq hp (h1.objects.length + 1)
    (Nat.lt_succ_of_le (TailPath_length_le hp))
  cases t with
  | none => simp [ListPredicate.Apply, VectorizeList_listOf hargs, he, hw]
  | some b =>
    simp only [ListPredicate.Apply, M.bind_apply, VectorizeList_listOf hargs, he,
      M.read_apply, hw]
    cases eval (some b) context h1 with
    | mk r h2 => cases r <;> rfl

/-- The predicate `list?` with the evaluator of the interpreter, on an argument whose value is a
chain of pairs with the final tail `t`: a new `#t` when `t` is the empty value, a new `#f` when
`t` is an integer or a boolean; when `t` is a symbol, the outcome of the lookup of its name in
the current scope, that is the error of the lookup or a new boolean that tells whether the name
is bound to the empty value; a runtime error when `t` is a builtin or a lambda. -/
theorem ListPredicate_Apply_cases (fuel : Nat) {h h1 : Heap} {args a v : ObjectPtr}
    {path : List (Nat × ObjectPtr)} {t : ObjectPtr} (context : Nat)
    (hargs : ListOf h args [a])
    (he : Evaluate (fuel + 1) a context h = (Except.ok v, h1))
    (hp : TailPath h1 v path t) :
    (t = none →
      ListPredicate.Apply (Evaluate (fuel + 1)) args context h
        = make (Object.Boolean true) h1) ∧
    (∀ b x, t = some b → h1.objects[b]? = some (Object.Number x) →
      ListPredicate.Apply (Evaluate (fuel + 1)) args context h
        = make (Object.Boolean false) h1) ∧
    (∀ b x, t = some b → h1.objects[b]? = some (Object.Boolean x) →
      ListPredicate.Apply (Evaluate (fuel + 1)) args context h
        = make (Object.Boolean false) h1) ∧
    (∀ b name, t = some b → h1.objects[b]? = some (Object.Symbol name) →
      ListPredicate.Apply (Evaluate (fuel + 1)) args context h =
        match Context.Get h1 context name with
        | Except.ok r => make (Object.Boolean r.isNone) h1
        | Except.error e => (Except.error e, h1)) ∧
    (∀ b o, t = some b → h1.objects[b]? = some o → o.IsFunction = true →
      ListPredicate.Apply (Evaluate (fuel + 1)) args context h
        = (Except.error Error.RuntimeError, h1)) := by
  have hgen := ListPredicate_Apply_eq (Evaluate (fuel + 1)) context hargs he hp
  refine ⟨?_, ?_, ?_, ?_, ?_⟩
  · intro ht
    subst ht
    exact hgen
  · intro b x ht hb
    subst ht
    rw [hgen]
    simp [Evaluate, deref_some hb]
  · intro b x ht hb
    subst ht
    rw [hgen]
    simp [Evaluate, deref_some hb]
  · intro b name ht hb
    subst ht
    rw [hgen]
    simp only [Evaluate, M.bind_apply, deref_some hb, M.read_apply]
    cases Context.Get h1 context name <;> rfl
  · intro b o ht hb hf
    subst ht
    rw [hgen]
    cases o <;> simp [Object.IsFunction] at hf <;> simp [Evaluate, deref_some hb]

set_option maxRecDepth 100000 in
/-- C20 at a chain of pairs whose final tail is a symbol or a callable. `(list? '(1 . x))` fails
with a name error where `x` is unbound; after `(define e '())`, `(list? '(1 . e))` and
`(list? 'e)` print `#t`, though neither value is a proper list; after `(define y 1)`,
`(list? '(1 . y))` prints `#f`; `(list? (cons 1 car))` fails with a runtime error. On a proper
list and on a chain that ends in an integer the predicate prints `#t` and `#f`. -/
theorem C20_list_predicate_evaluates_tail :
    repl.main 10 ["(list? '(1 . x))", "(define e '())", "(list? '(1 . e))", "(list? 'e)",
        "(define y 1)", "(list? '(1 . y))", "(list? (cons 1 car))", "(list? '(1 2))",
        "(list? '(1 . 2))"]
      = [Except.error Error.NameError, Except.ok "e", Except.ok "#t", Except.ok "#t",
          Except.ok "y", Except.ok "#f", Except.error Error.RuntimeError, Except.ok "#t",
          Except.ok "#f"] := by
  decide

/-! ## Calls and examples -/

/-- Evaluating a pair whose head is a symbol bound to a function is the `Apply` of that function
on the tail of the pair, unevaluated, in the current scope. -/
theorem Evaluate_call (fuel : Nat) {h : Heap} {a s f : Nat} {args : ObjectPtr} {name : String}
    {o : Object} (context : Nat) (ha : h.objects[a]? = some (Object.Cell (some s) args))
    (hs : h.objects[s]? = some (Object.Symbol name))
    (hget : Context.Get h context name = Except.ok (some f))
    (hf : h.objects[f]? = some o) (ho : o.IsFunction = true) :
    Evaluate (fuel + 2) (some a) context h
      = Function.Apply (Evaluate (fuel + 1)) o args context h := by
  simp [Evaluate, deref_some ha, Cell.Evaluate, deref_some hs, hget, deref_some hf, ho]

set_option maxRecDepth 100000 in
/-- The conditional through `Run`: `0`, the empty list and a pair are not `#f`; the branch that
is not chosen is not evaluated. -/
theorem repl_examples_if :
    repl.main 10 ["(if 0 1 2)", "(if '() 1 2)", "(if '(1) 1 2)", "(if #f 1 2)", "(if #f 1)",
        "(if #t 1 zz)", "(if #f zz 2)", "(if)", "(if 1 2 3 4)"]
      = [Except.ok "1", Except.ok "1", Except.ok "1", Except.ok "2", Except.ok "()",
          Except.ok "1", Except.ok "2", Except.error Error.SyntaxError,
          Except.error Error.SyntaxError] := by
  decide

set_option maxRecDepth 100000 in
/-- The forms `and` and `or` through `Run`: the arguments after the one at which the form stops
are not evaluated. -/
theorem repl_examples_and_or :
    repl.main 10 ["(and)", "(or)", "(and 1 2 3)", "(and 1 #f zz)", "(or #f 2 zz)",
        "(or #f #f)", "(and 1 zz)"]
      = [Except.ok "#t", Except.ok "#f", Except.ok "3", Except.ok "#f", Except.ok "2",
          Except.ok "#f", Except.error Error.NameError] := by
  decide

set_option maxRecDepth 100000 in
/-- The arithmetic operators through `Run`. -/
theorem repl_examples_arithmetic :
    repl.main 10 ["(+)", "(*)", "(+ 1 2 3)", "(* 2 3 4)", "(- 5)", "(- 10 1 2)", "(/ 1)",
        "(/ -1)", "(/ 5)", "(/ 7 2)", "(/ -7 2)", "(/ 100 5 2)", "(-)", "(/)"]
      = [Except.ok "0", Except.ok "1", Except.ok "6", Except.ok "24", Except.ok "-5",
          Except.ok "7", Except.ok "1", Except.ok "-1", Except.ok "0", Except.ok "3",
          Except.ok "-3", Except.ok "10", Except.error Error.RuntimeError,
          Except.error Error.RuntimeError] := by
  decide

set_option maxRecDepth 100000 in
/-- The comparisons through `Run`. -/
theorem repl_examples_comparisons :
    repl.main 10 ["(<)", "(< zz)", "(< 1 2 3)", "(< 1 3 2)", "(= 2 2 2)", "(= 2 2 3)",
        "(>= 3 3 1)", "(<= 1 1 0)", "(> 3 2 1)"]
      = [Except.ok "#t", Except.ok "#t", Except.ok "#t", Except.ok "#f", Except.ok "#t",
          Except.ok "#f", Except.ok "#t", Except.ok "#f", Except.ok "#t"] := by
  decide

/-! ## The operators `list-ref` and `list-tail` -/

theorem ListTail_loop_eq {h : Heap} {p : ObjectPtr} {l : List ObjectPtr} (hl : ListOf h p l)
    (n : Nat) (hn : n ≤ l.length) :
    ∃ t, ListTail.loop n p h = (Except.ok t, h) ∧ ListOf h t (l.drop n) := by
  induction n generalizing p l with
  | zero => exact ⟨p, rfl, by simpa using hl⟩
  | succ n ih =>
    cases hl with
    | nil => simp at hn
    | @cons a f s rest ho hr =>
      simp only [List.length_cons, Nat.add_le_add_iff_right] at hn
      obtain ⟨t, ht, hd⟩ := ih hr hn
      exact ⟨t, by simp [ListTail.loop, deref_some ho, ht], by simpa using hd⟩

theorem ListOf_getElem {h : Heap} {p : ObjectPtr} {l : List ObjectPtr} (hl : ListOf h p l)
    (n : Nat) (hn : n < l.length) :
    ∃ x c s t, l[n]? = some x ∧ ListTail.loop n p h = (Except.ok (some c), h) ∧
      h.objects[c]? = some (Object.Cell x s) ∧ ListOf h s t := by
  induction n generalizing p l with
  | zero =>
    cases hl with
    | nil => simp at hn
    | @cons a f s rest ho hr => exact ⟨f, a, s, rest, by simp, rfl, ho, hr⟩
  | succ n ih =>
    cases hl with
    | nil => simp at hn
    | @cons a f s rest ho hr =>
      simp only [List.length_cons, Nat.add_lt_add_iff_right] at hn
      obtain ⟨x, c, s2, t, hx, hloop, hc, ht⟩ := ih hr hn
      exact ⟨x, c, s2, t, by simpa using hx, by simp [ListTail.loop, deref_some ho, hloop],
        hc, ht⟩

/-- C21. The operators `list-ref` and `list-tail` on two arguments, of which the first
evaluates to a proper list `l` and the second to the integer `k`. When `0 <= k < length l`,
`list-ref` returns the element of `l` at the position `k`, counted from `0`; otherwise it fails
with a runtime error. When `0 <= k <= length l`, `list-tail` returns the list of the elements of
`l` from the position `k` on, which is the empty value for `k = length l`; otherwise it fails
with a runtime error. When `0 <= k < length l` the value of `list-tail` is a pair whose head is
the value of `list-ref`. -/
theorem C21_ListRef_ListTail (eval : Evaluator) (h h1 h2 : Heap) (args : ObjectPtr)
    (context : Nat) (a0 a1 lp : ObjectPtr) (ip : Nat) (k : Int) (l : List ObjectPtr)
    (hargs : ListOf h args [a0, a1])
    (hlist : eval a0 context h = (Except.ok lp, h1))
    (hind : eval a1 context h1 = (Except.ok (some ip), h2))
    (hk : h2.objects[ip]? = some (Object.Number k))
    (hl : ListOf h2 lp l) :
    (0 ≤ k → k < l.length →
      ∃ x, l[k.toNat]? = some x ∧ ListRef.Apply eval args context h = (Except.ok x, h2)) ∧
    (k < 0 ∨ (l.length : Int) ≤ k →
      ListRef.Apply eval args context h = (Except.error Error.RuntimeError, h2)) ∧
    (0 ≤ k → k ≤ l.length →
      ∃ t, ListTail.Apply eval args context h = (Except.ok t, h2) ∧
        ListOf h2 t (l.drop k.toNat)) ∧
    (k = l.length → ListTail.Apply eval args context h = (Except.ok none, h2)) ∧
    (k < 0 ∨ (l.length : Int) < k →
      ListTail.Apply eval args context h = (Except.error Error.RuntimeError, h2)) ∧
    (0 ≤ k → k < l.length →
      ∃ x c s, ListRef.Apply eval args context h = (Except.ok x, h2) ∧
        ListTail.Apply eval args context h = (Except.ok (some c), h2) ∧
        h2.objects[c]? = some (Object.Cell x s)) := by
  have hv := VectorizeList_listOf hargs
  have hvl := VectorizeList_listOf hl
  have href : ListRef.Apply eval args context h =
      if k < 0 ∨ k.toNat ≥ l.length then (Except.error Error.RuntimeError, h2)
      else elementAt l k.toNat h2 := by
    simp only [ListRef.Apply, M.bind_apply, hv, hlist, hind, asNumber_number hk, hvl]
    split <;> rfl
  have htail : ListTail.Apply eval args context h =
      if k < 0 ∨ k.toNat > l.length then (Except.error Error.RuntimeError, h2)
      else ListTail.loop k.toNat lp h2 := by
    simp only [ListTail.Apply, M.bind_apply, hv, hlist, hind, asNumber_number hk, hvl]
    split <;> rfl
  have hrefOk : 0 ≤ k → k < l.length →
      ∃ x c s, l[k.toNat]? = some x ∧ ListRef.Apply eval args context h = (Except.ok x, h2) ∧
        ListTail.Apply eval args context h = (Except.ok (some c), h2) ∧
        h2.objects[c]? = some (Object.Cell x s) := by
    intro h0 hlt
    have hn : k.toNat < l.length := by omega
    obtain ⟨x, c, s, t, hx, hloop, hc, _⟩ := ListOf_getElem hl k.toNat hn
    refine ⟨x, c, s, hx, ?_, ?_, hc⟩
    · rw [href, if_neg (by omega)]
      simp [elementAt, hx]
    · rw [htail, if_neg (by omega), hloop]
  refine ⟨?_, ?_, ?_, ?_, ?_, ?_⟩
  · intro h0 hlt
    obtain ⟨x, c, s, hx, hr, _, _⟩ := hrefOk h0 hlt
    exact ⟨x, hx, hr⟩
  · intro hout
    rw [href, if_pos (by omega)]
  · intro h0 hle
    obtain ⟨t, ht, hd⟩ := ListTail_loop_eq hl k.toNat (by omega)
    exact ⟨t, by rw [htail, if_neg (by omega), ht], hd⟩
  · intro hkn
    obtain ⟨t, ht, hd⟩ := ListTail_loop_eq hl k.toNat (by omega)
    have hnil : l.drop k.toNat = [] := List.drop_of_length_le (by omega)
    rw [hnil] at hd
    cases hd
    rw [htail, if_neg (by omega), ht]
  · intro hout
    rw [htail, if_pos (by omega)]
  · intro h0 hlt
    obtain ⟨x, c, s, _, hr, ht, hc⟩ := hrefOk h0 hlt
    exact ⟨x, c, s, hr, ht, hc⟩

/-- The instance of C21 on the arguments `(l 1)` of `exampleHeapList`, in which `l` is bound to
the list `(7 8)`: `list-ref` returns the object `2`, the integer `8`. -/
theorem C21_ListRef_ListTail_witness :
    ListOf exampleHeapList (some 7) [some 5, some 0] ∧
    Evaluate 1 (some 5) 0 exampleHeapList = (Except.ok (some 4), exampleHeapList) ∧
    Evaluate 1 (some 0) 0 exampleHeapList = (Except.ok (some 0), exampleHeapList) ∧
    exampleHeapList.objects[0]? = some (Object.Number 1) ∧
    ListOf exampleHeapList (some 4) [some 1, some 2] ∧
    (0 : Int) ≤ 1 ∧ (1 : Int) < ([some 1, some 2] : List ObjectPtr).length ∧
    (∃ x, ([some 1, some 2] : List ObjectPtr)[(1 : Int).toNat]? = some x ∧
      ListRef.Apply (Evaluate 1) (some 7) 0 exampleHeapList = (Except.ok x, exampleHeapList)) :=
  ⟨ListOf.cons rfl (ListOf.cons rfl ListOf.nil), rfl, rfl, rfl,
    ListOf.cons rfl (ListOf.cons rfl ListOf.nil), by decide, by decide,
    (C21_ListRef_ListTail (Evaluate 1) exampleHeapList exampleHeapList exampleHeapList (some 7) 0
      (some 5) (some 0) (some 4) 0 1 [some 1, some 2]
      (ListOf.cons rfl (ListOf.cons rfl ListOf.nil)) rfl rfl rfl
      (ListOf.cons rfl (ListOf.cons rfl ListOf.nil))).1 (by decide) (by decide)⟩

/-! ## Pairs -/

theorem asCell_cell {h : Heap} {p : Nat} {f s : ObjectPtr}
    (hp : h.objects[p]? = some (Object.Cell f s)) :
    asCell (some p) h = (Except.ok (p, f, s), h) := by
  simp [asCell, deref_some hp]

theorem asCell_not_cell {h : Heap} {v : ObjectPtr}
    (hv : v = none ∨ ∃ p o, v = some p ∧ h.objects[p]? = some o ∧ o.IsCell = false) :
    asCell v h = (Except.error Error.RuntimeError, h) := by
  rcases hv with rfl | ⟨p, o, rfl, ho, hc⟩
  · simp [asCell]
  · cases o <;> simp [Object.IsCell] at hc <;> simp [asCell, deref_some ho]

/-- C22. The operators `car` and `cdr` on one argument that is an application of `cons` to `a`
and `b`, which evaluate to `va` and `vb`, return `va` and `vb`, and leave the heap with the new
pair; this holds for both orders in which the two arguments of `cons` may be evaluated. On an
argument whose value is no pair, the empty value included, `car` and `cdr` fail with a runtime
error. -/
theorem C22_cons_car_cdr (eval evalIn : Evaluator) (h : Heap) (carArgs consArgs : ObjectPtr)
    (context : Nat) (e a b : ObjectPtr) (hcar : ListOf h carArgs [e])
    (hcons : ListOf h consArgs [a, b]) :
    (∀ va vb h1 h2, eval e context h = ConsOp.Apply evalIn consArgs context h →
      evalIn a context h = (Except.ok va, h1) → evalIn b context h1 = (Except.ok vb, h2) →
      CarOp.Apply eval carArgs context h = (Except.ok va, (h2.alloc (Object.Cell va vb)).2) ∧
      CdrOp.Apply eval carArgs context h = (Except.ok vb, (h2.alloc (Object.Cell va vb)).2)) ∧
    (∀ va vb h1 h2, eval e context h = ConsOp.ApplyRightFirst evalIn consArgs context h →
      evalIn b context h = (Except.ok vb, h1) → evalIn a context h1 = (Except.ok va, h2) →
      CarOp.Apply eval carArgs context h = (Except.ok va, (h2.alloc (Object.Cell va vb)).2) ∧
      CdrOp.Apply eval carArgs context h = (Except.ok vb, (h2.alloc (Object.Cell va vb)).2)) ∧
    (∀ v h1, eval e context h = (Except.ok v, h1) →
      (v = none ∨ ∃ p o, v = some p ∧ h1.objects[p]? = some o ∧ o.IsCell = false) →
      CarOp.Apply eval carArgs context h = (Except.error Error.RuntimeError, h1) ∧
      CdrOp.Apply eval carArgs context h = (Except.error Error.RuntimeError, h1)) := by
  have hv := VectorizeList_listOf hcar
  have hvc := VectorizeList_listOf hcons
  refine ⟨?_, ?_, ?_⟩
  · intro va vb h1 h2 he ha hb
    have hc : ConsOp.Apply evalIn consArgs context h
        = (Except.ok (some h2.objects.length), (h2.alloc (Object.Cell va vb)).2) := by
      simp [ConsOp.Apply, hvc, ha, hb, make, Heap.alloc]
    have hcell := asCell_cell (alloc_lookup h2 (Object.Cell va vb))
    constructor
    · simp [CarOp.Apply, hv, he, hc, hcell]
    · simp [CdrOp.Apply, hv, he, hc, hcell]
  · intro va vb h1 h2 he hb ha
    have hc : ConsOp.ApplyRightFirst evalIn consArgs context h
        = (Except.ok (some h2.objects.length), (h2.alloc (Object.Cell va vb)).2) := by
      simp [ConsOp.ApplyRightFirst, hvc, ha, hb, make, Heap.alloc]
    have hcell := asCell_cell (alloc_lookup h2 (Object.Cell va vb))
    constructor
    · simp [CarOp.Apply, hv, he, hc, hcell]
    · simp [CdrOp.Apply, hv, he, hc, hcell]
  · intro v h1 he hnc
    constructor
    · simp [CarOp.Apply, hv, he, asCell_not_cell hnc]
    · simp [CdrOp.Apply, hv, he, asCell_not_cell hnc]

set_option maxRecDepth 100000 in
/-- The instance of C22 on the argument list `((cons 1 2))` of `exampleHeapCons`, with the
evaluator of the interpreter in the global scope: `car` returns the object `35`, the integer
`1`. -/
theorem C22_cons_car_cdr_witness :
    ListOf exampleHeapCons (some 40) [some 39] ∧
    ListOf exampleHeapCons (some 38) [some 35, some 36] ∧
    Evaluate 3 (some 39) 1 exampleHeapCons
      = ConsOp.Apply (Evaluate 2) (some 38) 1 exampleHeapCons ∧
    Evaluate 2 (some 35) 1 exampleHeapCons = (Except.ok (some 35), exampleHeapCons) ∧
    Evaluate 2 (some 36) 1 exampleHeapCons = (Except.ok (some 36), exampleHeapCons) ∧
    CarOp.Apply (Evaluate 3) (some 40) 1 exampleHeapCons
      = (Except.ok (some 35),
          (exampleHeapCons.alloc (Object.Cell (some 35) (some 36))).2) :=
  ⟨ListOf.cons rfl ListOf.nil,
    ListOf.cons rfl (ListOf.cons rfl ListOf.nil), by decide, by decide,
    by decide,
    ((C22_cons_car_cdr (Evaluate 3) (Evaluate 2) exampleHeapCons (some 40) (some 38) 1
      (some 39) (some 35) (some 36) (ListOf.cons rfl ListOf.nil)
      (ListOf.cons rfl (ListOf.cons rfl ListOf.nil))).1 (some 35) (some 36)
      exampleHeapCons exampleHeapCons (by decide) (by decide) (by decide)).1⟩

set_option maxRecDepth 100000 in
/-- The operators on pairs through `Run`. -/
theorem repl_examples_pairs :
    repl.main 20 ["(car (cons 1 2))", "(cdr (cons 1 2))", "(car (cons (+ 1 2) 'a))",
        "(cdr (cons 1 '(2 3)))", "(car '())", "(cdr 5)", "(car 'a)"]
      = [Except.ok "1", Except.ok "2", Except.ok "3", Except.ok "(2 3)",
          Except.error Error.RuntimeError, Except.error Error.RuntimeError,
          Except.error Error.RuntimeError] := by
  decide

/-! ## Mutation of pairs -/

theorem SetFirst_cell {h : Heap} {c : Nat} {f s : ObjectPtr} (v : ObjectPtr)
    (hc : h.objects[c]? = some (Object.Cell f s)) :
    SetFirst c v h = (Except.ok (), Heap.mk (h.objects.set c (Object.Cell v s)) h.contexts) := by
  simp [SetFirst, hc]

theorem SetSecond_cell {h : Heap} {c : Nat} {f s : ObjectPtr} (v : ObjectPtr)
    (hc : h.objects[c]? = some (Object.Cell f s)) :
    SetSecond c v h = (Except.ok (), Heap.mk (h.objects.set c (Object.Cell f v)) h.contexts) := by
  simp [SetSecond, hc]

theorem CarOp_CdrOp_cell (eval : Evaluator) {h h1 : Heap} {args e : ObjectPtr} {c : Nat}
    {f s : ObjectPtr} (context : Nat) (hargs : ListOf h args [e])
    (he : eval e context h = (Except.ok (some c), h1))
    (hc : h1.objects[c]? = some (Object.Cell f s)) :
    CarOp.Apply eval args context h = (Except.ok f, h1) ∧
    CdrOp.Apply eval args context h = (Except.ok s, h1) := by
  have hv := VectorizeList_listOf hargs
  constructor
  · simp [CarOp.Apply, hv, he, asCell_cell hc]
  · simp [CdrOp.Apply, hv, he, asCell_cell hc]

set_option maxRecDepth 100000 in
/-- C23. The operators `set-car!` and `set-cdr!` on two arguments, of which the first evaluates
to the pair at the address `c` and the second to the value `v`: each returns the empty value;
`set-car!` leaves a heap in which the head of the pair `c` is `v` and its tail is as before,
`set-cdr!` one in which the tail is `v` and the head as before; every other object and every
frame is as the evaluation of the arguments left it. In the heap left by `set-car!`, for every
expression that evaluates to the pair `c`, in every scope, `car` of it returns `v` and `cdr` the
tail as before; likewise for `set-cdr!`. After `(define p (cons 1 2))` and `(set-car! p 9)`,
`(car p)` prints `9`. -/
theorem C23_SetCar_SetCdr (eval : Evaluator) (h h1 h2 : Heap) (args : ObjectPtr)
    (context : Nat) (a0 a1 : ObjectPtr) (c : Nat) (v f s : ObjectPtr)
    (hargs : ListOf h args [a0, a1])
    (hp : eval a0 context h = (Except.ok (some c), h1))
    (hv : eval a1 context h1 = (Except.ok v, h2))
    (hc : h2.objects[c]? = some (Object.Cell f s)) :
    SetCar.Apply eval args context h
      = (Except.ok none, Heap.mk (h2.objects.set c (Object.Cell v s)) h2.contexts) ∧
    SetCdr.Apply eval args context h
      = (Except.ok none, Heap.mk (h2.objects.set c (Object.Cell f v)) h2.contexts) ∧
    (∀ o b, b ≠ c → (h2.objects.set c o)[b]? = h2.objects[b]?) ∧
    (∀ (eval2 : Evaluator) (args2 e : ObjectPtr) (context2 : Nat),
      ListOf (Heap.mk (h2.objects.set c (Object.Cell v s)) h2.contexts) args2 [e] →
      eval2 e context2 (Heap.mk (h2.objects.set c (Object.Cell v s)) h2.contexts)
        = (Except.ok (some c), Heap.mk (h2.objects.set c (Object.Cell v s)) h2.contexts) →
      CarOp.Apply eval2 args2 context2
          (Heap.mk (h2.objects.set c (Object.Cell v s)) h2.contexts)
        = (Except.ok v, Heap.mk (h2.objects.set c (Object.Cell v s)) h2.contexts) ∧
      CdrOp.Apply eval2 args2 context2
          (Heap.mk (h2.objects.set c (Object.Cell v s)) h2.contexts)
        = (Except.ok s, Heap.mk (h2.objects.set c (Object.Cell v s)) h2.contexts)) ∧
    (∀ (eval2 : Evaluator) (args2 e : ObjectPtr) (context2 : Nat),
      ListOf (Heap.mk (h2.objects.set c (Object.Cell f v)) h2.contexts) args2 [e] →
      eval2 e context2 (Heap.mk (h2.objects.set c (Object.Cell f v)) h2.contexts)
        = (Except.ok (some c), Heap.mk (h2.objects.set c (Object.Cell f v)) h2.contexts) →
      CarOp.Apply eval2 args2 context2
          (Heap.mk (h2.objects.set c (Object.Cell f v)) h2.contexts)
        = (Except.ok f, Heap.mk (h2.objects.set c (Object.Cell f v)) h2.contexts) ∧
      CdrOp.Apply eval2 args2 context2
          (Heap.mk (h2.objects.set c (Object.Cell f v)) h2.contexts)
        = (Except.ok v, Heap.mk (h2.objects.set c (Object.Cell f v)) h2.contexts)) ∧
    repl.main 20 ["(define p (cons 1 2))", "(set-car! p 9)", "(car p)", "(cdr p)",
        "(define q p)", "(set-cdr! q 7)", "(cdr p)", "p", "q"]
      = [Except.ok "p", Except.ok "()", Except.ok "9", Except.ok "2", Except.ok "q",
          Except.ok "()", Except.ok "7", Except.ok "(9 . 7)", Except.ok "(9 . 7)"] := by
  have hvec := VectorizeList_listOf hargs
  have hlt : c < h2.objects.length := lt_of_lookup hc
  refine ⟨?_, ?_, ?_, ?_, ?_, by decide⟩
  · simp [SetCar.Apply, hvec, hp, hv, asCell_cell hc, SetFirst_cell v hc]
  · simp [SetCdr.Apply, hvec, hp, hv, asCell_cell hc, SetSecond_cell v hc]
  · intro o b hb
    simp [List.getElem?_set, Ne.symm hb]
  · intro eval2 args2 e context2 hargs2 he
    exact CarOp_CdrOp_cell eval2 context2 hargs2 he (by simp [List.getElem?_set, hlt])
  · intro eval2 args2 e context2 hargs2 he
    exact CarOp_CdrOp_cell eval2 context2 hargs2 he (by simp [List.getElem?_set, hlt])

/-- The instance of C23 on the arguments `(l 1)` of `exampleHeapList`, in which `l` is bound to
the pair at the address `4`: `set-car!` returns the empty value and makes the object `0` the
head of that pair. -/
theorem C23_SetCar_SetCdr_witness :
    ListOf exampleHeapList (some 7) [some 5, some 0] ∧
    Evaluate 1 (some 5) 0 exampleHeapList = (Except.ok (some 4), exampleHeapList) ∧
    Evaluate 1 (some 0) 0 exampleHeapList = (Except.ok (some 0), exampleHeapList) ∧
    exampleHeapList.objects[4]? = some (Object.Cell (some 1) (some 3)) ∧
    SetCar.Apply (Evaluate 1) (some 7) 0 exampleHeapList
      = (Except.ok none,
          Heap.mk (exampleHeapList.objects.set 4 (Object.Cell (some 0) (some 3)))
            exampleHeapList.contexts) :=
  ⟨ListOf.cons rfl (ListOf.cons rfl ListOf.nil), rfl, rfl, rfl,
    (C23_SetCar_SetCdr (Evaluate 1) exampleHeapList exampleHeapList exampleHeapList (some 7) 0
      (some 5) (some 0) 4 (some 0) (some 1) (some 3)
      (ListOf.cons rfl (ListOf.cons rfl ListOf.nil)) rfl rfl rfl).1⟩

/-! ## Wrong numbers of arguments -/

/-- C25, as the code has it. A builtin that evaluates its arguments, applied to a proper argument
list whose length is outside its arity, fails before it evaluates anything: `abs`, `not`, `car`,
`cdr` and the six type predicates with a count other than 1, and `cons`, `list-ref`, `list-tail`
with a count other than 2, and `-`, `/`, `min`, `max` with no argument, with a runtime error;
`set-car!` and `set-cdr!` with a count other than 2, with a syntax error. -/
theorem C25_arity_errors (eval : Evaluator) (h : Heap) (args : ObjectPtr) (context : Nat)
    (l : List ObjectPtr) (hargs : ListOf h args l) :
    (l.length ≠ 1 →
      ∀ op ∈ [Operator.AbsOp, Operator.NotOp, Operator.CarOp, Operator.CdrOp,
          Operator.IntegerPredicate, Operator.BooleanPredicate, Operator.PairPredicate,
          Operator.NullPredicate, Operator.ListPredicate, Operator.SymbolPredicate],
        Operator.Apply eval op args context h = (Except.error Error.RuntimeError, h)) ∧
    (l.length ≠ 2 →
      ∀ op ∈ [Operator.ConsOp, Operator.ListRef, Operator.ListTail],
        Operator.Apply eval op args context h = (Except.error Error.RuntimeError, h)) ∧
    (l.length ≠ 2 →
      ∀ op ∈ [Operator.SetCar, Operator.SetCdr],
        Operator.Apply eval op args context h = (Except.error Error.SyntaxError, h)) ∧
    (l = [] →
      ∀ op ∈ [Operator.MinusOp, Operator.DivideOp, Operator.MinOp, Operator.MaxOp],
        Operator.Apply eval op args context h = (Except.error Error.RuntimeError, h)) := by
  have hv := VectorizeList_listOf hargs
  refine ⟨?_, ?_, ?_, ?_⟩
  · intro hlen op hop
    simp only [List.mem_cons, List.mem_singleton, List.not_mem_nil, or_false] at hop
    match l, hlen with
    | [], _ =>
      rcases hop with rfl | rfl | rfl | rfl | rfl | rfl | rfl | rfl | rfl | rfl <;>
        simp [Operator.Apply, AbsOp.Apply, NotOp.Apply, CarOp.Apply, CdrOp.Apply,
          IntegerPredicate.Apply, BooleanPredicate.Apply, PairPredicate.Apply,
          NullPredicate.Apply, ListPredicate.Apply, SymbolPredicate.Apply, predicate, hv]
    | _ :: _ :: _, _ =>
      rcases hop with rfl | rfl | rfl | rfl | rfl | rfl | rfl | rfl | rfl | rfl <;>
        simp [Operator.Apply, AbsOp.Apply, NotOp.Apply, CarOp.Apply, CdrOp.Apply,
          IntegerPredicate.Apply, BooleanPredicate.Apply, PairPredicate.Apply,
          NullPredicate.Apply, ListPredicate.Apply, SymbolPredicate.Apply, predicate, hv]
  · intro hlen op hop
    simp only [List.mem_cons, List.mem_singleton, List.not_mem_nil, or_false] at hop
    match l, hlen with
    | [], _ =>
      rcases hop with rfl | rfl | rfl <;>
        simp [Operator.Apply, ConsOp.Apply, ListRef.Apply, ListTail.Apply, hv]
    | [_], _ =>
      rcases hop with rfl | rfl | rfl <;>
        simp [Operator.Apply, ConsOp.Apply, ListRef.Apply, ListTail.Apply, hv]
    | _ :: _ :: _ :: _, _ =>
      rcases hop with rfl | rfl | rfl <;>
        simp [Operator.Apply, ConsOp.Apply, ListRef.Apply, ListTail.Apply, hv]
  · intro hlen op hop
    simp only [List.mem_cons, List.mem_singleton, List.not_mem_nil, or_false] at hop
    match l, hlen with
    | [], _ =>
      rcases hop with rfl | rfl <;> simp [Operator.Apply, SetCar.Apply, SetCdr.Apply, hv]
    | [_], _ =>
      rcases hop with rfl | rfl <;> simp [Operator.Apply, SetCar.Apply, SetCdr.Apply, hv]
    | _ :: _ :: _ :: _, _ =>
      rcases hop with rfl | rfl <;> simp [Operator.Apply, SetCar.Apply, SetCdr.Apply, hv]
  · intro hl op hop
    subst hl
    simp only [List.mem_cons, List.mem_singleton, List.not_mem_nil, or_false] at hop
    rcases hop with rfl | rfl | rfl | rfl <;>
      simp [Operator.Apply, MinusOp.Apply, DivideOp.Apply, MinOp.Apply, MaxOp.Apply,
        extremumApply, hv]

/-- The instance of C25 on the three arguments `(0 1 2)` of `exampleHeapArgs`, on which `abs`
and `set-car!` fail. -/
theorem C25_arity_errors_witness :
    ListOf exampleHeapArgs (some 6) [some 0, some 1, some 2] ∧
    ([some 0, some 1, some 2] : List ObjectPtr).length ≠ 1 ∧
    Operator.Apply (Evaluate 1) Operator.AbsOp (some 6) 0 exampleHeapArgs
      = (Except.error Error.RuntimeError, exampleHeapArgs) ∧
    ([some 0, some 1, some 2] : List ObjectPtr).length ≠ 2 ∧
    Operator.Apply (Evaluate 1) Operator.SetCar (some 6) 0 exampleHeapArgs
      = (Except.error Error.SyntaxError, exampleHeapArgs) :=
  ⟨ListOf.cons rfl (ListOf.cons rfl (ListOf.cons rfl ListOf.nil)), by decide,
    (C25_arity_errors (Evaluate 1) exampleHeapArgs (some 6) 0 [some 0, some 1, some 2]
      (ListOf.cons rfl (ListOf.cons rfl (ListOf.cons rfl ListOf.nil)))).1 (by decide)
      Operator.AbsOp (by simp),
    by decide,
    (C25_arity_errors (Evaluate 1) exampleHeapArgs (some 6) 0 [some 0, some 1, some 2]
      (ListOf.cons rfl (ListOf.cons rfl (ListOf.cons rfl ListOf.nil)))).2.2.1 (by decide)
      Operator.SetCar (by simp)⟩

set_option maxRecDepth 100000 in
/-- C25 as stated fails: `set-car!` and `set-cdr!` with a number of arguments other than 2 fail
with a syntax error, with no argument, with one and with three. -/
theorem C25_counterexample :
    repl.main 10 ["(set-car!)", "(set-cdr!)", "(set-car! 1)", "(set-cdr! 1)", "(set-car! 1 2 3)",
        "(set-cdr! 1 2 3)"]
      = [Except.error Error.SyntaxError, Except.error Error.SyntaxError,
          Except.error Error.SyntaxError, Except.error Error.SyntaxError,
          Except.error Error.SyntaxError, Except.error Error.SyntaxError] := by
  decide

/-! ## Ill-formed special forms -/

theorem asSymbol_notSymbol {h : Heap} {p : ObjectPtr} (hp : NotSymbol h p) :
    asSymbol p h = (Except.error Error.RuntimeError, h) := by
  rcases hp with rfl | ⟨a, o, rfl, ho, hs⟩
  · simp [asSymbol]
  · cases o <;> simp [Object.IsSymbol] at hs <;> simp [asSymbol, deref_some ho]

theorem argNames_symbols {h : Heap} {ps : List ObjectPtr} {names : List String}
    (hps : AllSymbols h ps names) : argNames ps h = (Except.ok names, h) := by
  induction hps with
  | nil => rfl
  | cons hp _ ih =>
    obtain ⟨a, rfl, ha⟩ := hp
    simp [argNames, asSymbol_symbol ha, ih]

theorem argNames_notSymbol {h : Heap} {pre : List ObjectPtr} {names : List String}
    (hpre : AllSymbols h pre names) {p : ObjectPtr} (hp : NotSymbol h p)
    (post : List ObjectPtr) :
    argNames (pre ++ p :: post) h = (Except.error Error.RuntimeError, h) := by
  induction hpre with
  | nil => simp [argNames, asSymbol_notSymbol hp]
  | cons hq _ ih =>
    obtain ⟨a, rfl, ha⟩ := hq
    simp [argNames, asSymbol_symbol ha, ih]

theorem Is_none (test : Object → Bool) (h : Heap) : Is test none h = (Except.ok false, h) := by
  simp [Is]

/-- C26, as the code has it. The special forms on a proper argument list `l`. With a syntax
error fail: `if` with a number of arguments other than 2 and 3; `set!` with a number other than
2; `lambda` with fewer than 2, which is the case of the empty body; `define` with no argument,
`define` whose first argument is a symbol with a number of arguments other than 2, and `define`
whose first argument is neither a symbol nor a pair. With a runtime error fail: `quote` with a
number of arguments other than 1; `set!` whose first argument is no symbol, after its second
argument has been evaluated; `lambda` and the function shape of `define` whose parameters are a
proper list that holds a value that is no symbol after symbols. -/
theorem C26_special_form_errors (eval : Evaluator) (h : Heap) (args : ObjectPtr)
    (context : Nat) (l : List ObjectPtr) (hargs : ListOf h args l) :
    (l.length ≠ 2 → l.length ≠ 3 →
      IfOp.Apply eval args context h = (Except.error Error.SyntaxError, h)) ∧
    (l.length ≠ 2 →
      SetOp.Apply eval args context h = (Except.error Error.SyntaxError, h)) ∧
    (l.length < 2 →
      LambdaOp.Apply eval args context h
        = (Except.error Error.SyntaxError, (h.allocContext (some context)).2)) ∧
    (l = [] → DefineOp.Apply eval args context h = (Except.error Error.SyntaxError, h)) ∧
    (∀ n name rest, l = some n :: rest → h.objects[n]? = some (Object.Symbol name) →
      rest.length ≠ 1 →
      DefineOp.Apply eval args context h = (Except.error Error.SyntaxError, h)) ∧
    (∀ t rest, l = t :: rest →
      (t = none ∨ ∃ a o, t = some a ∧ h.objects[a]? = some o ∧ o.IsSymbol = false ∧
        o.IsCell = false) →
      DefineOp.Apply eval args context h = (Except.error Error.SyntaxError, h)) ∧
    (l.length ≠ 1 →
      QuoteOp.Apply args context h = (Except.error Error.RuntimeError, h)) ∧
    (∀ t e v h1, l = [t, e] → eval e context h = (Except.ok v, h1) → NotSymbol h1 t →
      SetOp.Apply eval args context h = (Except.error Error.RuntimeError, h1)) ∧
    (∀ params c0 cmds pre names p post, l = params :: c0 :: cmds →
      ListOf h params (pre ++ p :: post) → AllSymbols h pre names → NotSymbol h p →
      LambdaOp.Apply eval args context h
        = (Except.error Error.RuntimeError, (h.allocContext (some context)).2)) ∧
    (∀ c cmds n name params pre names p post, l = some c :: cmds →
      h.objects[c]? = some (Object.Cell (some n) params) →
      h.objects[n]? = some (Object.Symbol name) →
      ListOf h params (pre ++ p :: post) → AllSymbols h pre names → NotSymbol h p →
      DefineOp.Apply eval args context h
        = (Except.error Error.RuntimeError, (h.allocContext (some context)).2)) := by
  have hv := VectorizeList_listOf hargs
  refine ⟨?_, ?_, ?_, ?_, ?_, ?_, ?_, ?_, ?_, ?_⟩
  · intro h2 h3
    match l, h2, h3 with
    | [], _, _ => simp [IfOp.Apply, hv]
    | [_], _, _ => simp [IfOp.Apply, hv]
    | _ :: _ :: _ :: _ :: _, _, _ => simp [IfOp.Apply, hv]
  · intro h2
    match l, h2 with
    | [], _ => simp [SetOp.Apply, hv]
    | [_], _ => simp [SetOp.Apply, hv]
    | _ :: _ :: _ :: _, _ => simp [SetOp.Apply, hv]
  · intro h2
    have hx := withContexts_extends h (h.contexts ++ [⟨[], some context⟩])
    have hv2 := VectorizeList_listOf (ListOf_mono hargs hx)
    match l, h2 with
    | [], _ => simp [LambdaOp.Apply, makeContext, Heap.allocContext, hv2]
    | [_], _ => simp [LambdaOp.Apply, makeContext, Heap.allocContext, hv2]
  · intro hl
    subst hl
    simp [DefineOp.Apply, hv]
  · intro n name rest hl hn hlen
    subst hl
    match rest, hlen with
    | [], _ => simp [DefineOp.Apply, hv, Is_eq Object.IsSymbol hn, Object.IsSymbol]
    | _ :: _ :: _, _ => simp [DefineOp.Apply, hv, Is_eq Object.IsSymbol hn, Object.IsSymbol]
  · intro t rest hl ht
    subst hl
    rcases ht with rfl | ⟨a, o, rfl, ho, hs, hc⟩
    · simp [DefineOp.Apply, hv, Is_none]
    · simp [DefineOp.Apply, hv, Is_eq Object.IsSymbol ho, Is_eq Object.IsCell ho, hs, hc]
  · intro h1
    match l, h1 with
    | [], _ => simp [QuoteOp.Apply, hv]
    | _ :: _ :: _, _ => simp [QuoteOp.Apply, hv]
  · intro t e v h1 hl he ht
    subst hl
    simp [SetOp.Apply, hv, he, asSymbol_notSymbol ht]
  · intro params c0 cmds pre names p post hl hparams hpre hp
    subst hl
    have hx := withContexts_extends h (h.contexts ++ [⟨[], some context⟩])
    have hv2 := VectorizeList_listOf (ListOf_mono hargs hx)
    have hv3 := VectorizeList_listOf (ListOf_mono hparams hx)
    have hnames : argNames (pre ++ p :: post)
        (Heap.mk h.objects (h.contexts ++ [⟨[], some context⟩]))
        = (Except.error Error.RuntimeError,
            Heap.mk h.objects (h.contexts ++ [⟨[], some context⟩])) :=
      @argNames_notSymbol (Heap.mk h.objects (h.contexts ++ [⟨[], some context⟩])) pre names
        hpre p hp post
    simp [LambdaOp.Apply, makeContext, Heap.allocContext, hv2, hv3, hnames]
  · intro c cmds n name params pre names p post hl hc hn hparams hpre hp
    subst hl
    have hv2 := VectorizeList_listOf (ListOf.cons hc hparams)
    have hnames : argNames (pre ++ p :: post)
        (Heap.mk h.objects (h.contexts ++ [⟨[], some context⟩]))
        = (Except.error Error.RuntimeError,
            Heap.mk h.objects (h.contexts ++ [⟨[], some context⟩])) :=
      @argNames_notSymbol (Heap.mk h.objects (h.contexts ++ [⟨[], some context⟩])) pre names
        hpre p hp post
    simp [DefineOp.Apply, hv, Is_eq Object.IsSymbol hc, Is_eq Object.IsCell hc,
      Object.IsSymbol, Object.IsCell, hv2, asSymbol_symbol hn, makeContext, Heap.allocContext,
      hnames]

/-- The instance of C26 on the arguments `(1 2)` of `exampleHeapArgs`: `set!` with the integer
`1` as its first argument fails with a runtime error. -/
theorem C26_special_form_errors_witness :
    ListOf exampleHeapArgs (some 5) [some 1, some 2] ∧
    Evaluate 1 (some 2) 0 exampleHeapArgs = (Except.ok (some 2), exampleHeapArgs) ∧
    NotSymbol exampleHeapArgs (some 1) ∧
    SetOp.Apply (Evaluate 1) (some 5) 0 exampleHeapArgs
      = (Except.error Error.RuntimeError, exampleHeapArgs) :=
  ⟨ListOf.cons rfl (ListOf.cons rfl ListOf.nil), rfl, Or.inr ⟨1, _, rfl, rfl, rfl⟩,
    (C26_special_form_errors (Evaluate 1) exampleHeapArgs (some 5) 0 [some 1, some 2]
      (ListOf.cons rfl (ListOf.cons rfl ListOf.nil))).2.2.2.2.2.2.2.1 (some 1) (some 2) (some 2)
      exampleHeapArgs rfl rfl (Or.inr ⟨1, _, rfl, rfl, rfl⟩)⟩

set_option maxRecDepth 100000 in
/-- C26 as stated fails: `quote` with no argument and with two, a `lambda` and a `define` whose
parameter list holds the integer `1`, and a `set!` whose target is the integer `1` fail with a
runtime error, not with a syntax error. -/
theorem C26_counterexample :
    repl.main 10 ["(quote)", "(quote 1 2)", "(lambda (1) 1)", "(define (f 1) 1)", "(set! 1 2)"]
      = [Except.error Error.RuntimeError, Except.error Error.RuntimeError,
          Except.error Error.RuntimeError, Except.error Error.RuntimeError,
          Except.error Error.RuntimeError] := by
  decide

set_option maxRecDepth 100000 in
/-- The ill-formed special forms through `Run`. -/
theorem repl_examples_special_forms :
    repl.main 10 ["(if)", "(if 1)", "(if 1 2 3 4)", "(define)", "(define x)", "(define x 1 2)",
        "(define 1 2)", "(set!)", "(set! x)", "(set! x 1 2)", "(lambda)", "(lambda (x))"]
      = [Except.error Error.SyntaxError, Except.error Error.SyntaxError,
          Except.error Error.SyntaxError, Except.error Error.SyntaxError,
          Except.error Error.SyntaxError, Except.error Error.SyntaxError,
          Except.error Error.SyntaxError, Except.error Error.SyntaxError,
          Except.error Error.SyntaxError, Except.error Error.SyntaxError,
          Except.error Error.SyntaxError, Except.error Error.SyntaxError] := by
  decide

/-! ## Arguments that are no integers -/

theorem asNumber_notNumber {h : Heap} {v : ObjectPtr} (hv : NotNumber h v) :
    asNumber v h = (Except.error Error.RuntimeError, h) := by
  rcases hv with rfl | ⟨a, o, rfl, ho, hn⟩
  · simp [asNumber]
  · cases o <;> simp [Object.IsNumber] at hn <;> simp [asNumber, deref_some ho]

theorem arithLoop_notNumber (op : Int → Int → Int) {eval : Evaluator} {context : Nat}
    {pre : List ObjectPtr} {h h1 h2 : Heap} {xs : List Int}
    (hpre : EvalNumbers eval context pre h xs h1) {e v : ObjectPtr}
    (he : eval e context h1 = (Except.ok v, h2)) (hv : NotNumber h2 v) (post : List ObjectPtr)
    (acc : Int) :
    arithLoop op eval context (pre ++ e :: post) acc h
      = (Except.error Error.RuntimeError, h2) := by
  induction hpre generalizing acc with
  | nil => simp [arithLoop, he, asNumber_notNumber hv]
  | cons hq hp _ ih => simp [arithLoop, hq, asNumber_number hp, ih he]

theorem DivideOp_loop_notNumber {eval : Evaluator} {context : Nat}
    {pre : List ObjectPtr} {h h1 h2 : Heap} {xs : List Int}
    (hpre : EvalNumbers eval context pre h xs h1) {e v : ObjectPtr}
    (he : eval e context h1 = (Except.ok v, h2)) (hv : NotNumber h2 v) (post : List ObjectPtr)
    (acc : Int) (hd : Divisible acc xs) :
    DivideOp.loop eval context (pre ++ e :: post) acc h
      = (Except.error Error.RuntimeError, h2) := by
  induction hpre generalizing acc with
  | nil => simp [DivideOp.loop, he, asNumber_notNumber hv]
  | cons hq hp _ ih =>
    obtain ⟨hd1, hd2, hd3⟩ := hd
    simp [DivideOp.loop, hq, asNumber_number hp, divide_ok hd1 hd2, ih he _ hd3]

theorem compareLoop_notNumber (rel : Int → Int → Bool) {eval : Evaluator} {context : Nat}
    {pre : List ObjectPtr} {h h1 h2 : Heap} {xs : List Int}
    (hpre : EvalNumbers eval context pre h xs h1) {e v : ObjectPtr}
    (he : eval e context h1 = (Except.ok v, h2)) (hv : NotNumber h2 v) (post : List ObjectPtr)
    (previous_value : Int) (hc : List.Chain (fun x y => rel x y = true) previous_value xs) :
    compareLoop rel eval context (pre ++ e :: post) previous_value h
      = (Except.error Error.RuntimeError, h2) := by
  induction hpre generalizing previous_value with
  | nil => simp [compareLoop, he, asNumber_notNumber hv]
  | cons hq hp _ ih =>
    rw [List.chain_cons] at hc
    simp [compareLoop, hq, asNumber_number hp, hc.1, ih he _ hc.2]

theorem EqualOp_loop_notNumber {eval : Evaluator} {context : Nat}
    {pre : List ObjectPtr} {h h1 h2 : Heap} {xs : List Int}
    (hpre : EvalNumbers eval context pre h xs h1) {e v : ObjectPtr}
    (he : eval e context h1 = (Except.ok v, h2)) (hv : NotNumber h2 v) (post : List ObjectPtr)
    (first_value : Int) (hall : ∀ x ∈ xs, first_value = x) :
    EqualOp.loop eval context first_value (pre ++ e :: post) h
      = (Except.error Error.RuntimeError, h2) := by
  induction hpre with
  | nil => simp [EqualOp.loop, he, asNumber_notNumber hv]
  | cons hq hp _ ih =>
    have hx := hall _ (List.mem_cons_self _ _)
    subst hx
    simp [EqualOp.loop, hq, asNumber_number hp,
      ih he (fun x hx => hall x (List.mem_cons_of_mem _ hx))]

/-! ## Where the comparisons stop -/

/-- The loop of the ordering operators stops at the first value for which the relation fails:
it returns false in the heap left by that argument, and evaluates no argument after it. -/
theorem compareLoop_stop (rel : Int → Int → Bool) {eval : Evaluator} {context : Nat}
    {pre : List ObjectPtr} {h h1 h2 : Heap} {xs : List Int}
    (hpre : EvalNumbers eval context pre h xs h1) {e : ObjectPtr} {p : Nat} {y : Int}
    (he : eval e context h1 = (Except.ok (some p), h2))
    (hp : h2.objects[p]? = some (Object.Number y)) (post : List ObjectPtr)
    (previous_value : Int) (hc : List.Chain (fun x y => rel x y = true) previous_value xs)
    (hfail : ¬ List.Chain (fun x y => rel x y = true) previous_value (xs ++ [y])) :
    compareLoop rel eval context (pre ++ e :: post) previous_value h
      = (Except.ok false, h2) := by
  induction hpre generalizing previous_value with
  | nil =>
    have hr : rel previous_value y = false := by
      cases hrel : rel previous_value y with
      | false => rfl
      | true =>
        refine absurd ?_ hfail
        simp only [List.nil_append, List.chain_cons]
        exact ⟨hrel, List.Chain.nil⟩
    simp [compareLoop, he, asNumber_number hp, hr]
  | cons hq hpx _ ih =>
    rw [List.chain_cons] at hc
    have hf2 : ¬ List.Chain (fun x y => rel x y = true) _ (_ ++ [y]) :=
      fun hch => hfail (List.Chain.cons hc.1 hch)
    simp [compareLoop, hq, asNumber_number hpx, hc.1, ih he _ hc.2 hf2]

/-- An ordering operator with at least two arguments stops at the first adjacent pair for which
the relation fails: it returns a new `#f` in the heap left by the second argument of the pair,
whatever the arguments after it are. -/
theorem compareApply_stop (rel : Int → Int → Bool) {eval : Evaluator} {context : Nat}
    {args : ObjectPtr} {pre : List ObjectPtr} {e : ObjectPtr} {post : List ObjectPtr}
    {h h1 h2 : Heap} {xs : List Int} {p : Nat} {y : Int}
    (hargs : ListOf h args (pre ++ e :: post)) (hne : pre ≠ [])
    (hpre : EvalNumbers eval context pre h xs h1)
    (he : eval e context h1 = (Except.ok (some p), h2))
    (hp : h2.objects[p]? = some (Object.Number y))
    (hc : List.Chain' (fun x y => rel x y = true) xs)
    (hfail : ¬ List.Chain' (fun x y => rel x y = true) (xs ++ [y])) :
    compareApply rel eval args context h = make (Object.Boolean false) h2 := by
  have hvec := VectorizeList_listOf hargs
  cases hpre with
  | nil => exact absurd rfl hne
  | @cons e1 es _ h1a _ p1 x xs2 hq hp1 hrest =>
    have hl := compareLoop_stop rel hrest he hp post x hc hfail
    match es, hrest, hvec, hl with
    | [], _, hvec, hl =>
      simp only [List.nil_append] at hl
      simp [compareApply, hvec, hq, asNumber_number hp1, hl]
    | e2 :: es2, _, hvec, hl =>
      simp only [List.cons_append] at hl
      simp [compareApply, hvec, hq, asNumber_number hp1, hl]

/-- An ordering operator with fewer than two arguments returns a new `#t` and calls the
evaluator on nothing. -/
theorem compareApply_few (rel : Int → Int → Bool) (eval : Evaluator) {context : Nat}
    {args : ObjectPtr} {es : List ObjectPtr} {h : Heap}
    (hargs : ListOf h args es) (hlen : es.length < 2) :
    compareApply rel eval args context h = make (Object.Boolean true) h := by
  have hvec := VectorizeList_listOf hargs
  match es, hlen, hvec with
  | [], _, hvec => simp [compareApply, hvec]
  | [_], _, hvec => simp [compareApply, hvec]

/-- The operator `=` with fewer than two arguments returns a new `#t` and calls the evaluator
on nothing. -/
theorem EqualOp_Apply_few (eval : Evaluator) {context : Nat}
    {args : ObjectPtr} {es : List ObjectPtr} {h : Heap}
    (hargs : ListOf h args es) (hlen : es.length < 2) :
    EqualOp.Apply eval args context h = make (Object.Boolean true) h := by
  have hvec := VectorizeList_listOf hargs
  match es, hlen, hvec with
  | [], _, hvec => simp [EqualOp.Apply, hvec]
  | [_], _, hvec => simp [EqualOp.Apply, hvec]

/-- The loop of `=` stops at the first value that differs from the first one. -/
theorem EqualOp_loop_stop {eval : Evaluator} {context : Nat}
    {pre : List ObjectPtr} {h h1 h2 : Heap} {xs : List Int}
    (hpre : EvalNumbers eval context pre h xs h1) {e : ObjectPtr} {p : Nat} {y : Int}
    (he : eval e context h1 = (Except.ok (some p), h2))
    (hp : h2.objects[p]? = some (Object.Number y)) (post : List ObjectPtr)
    (first_value : Int) (hall : ∀ x ∈ xs, first_value = x) (hne : first_value ≠ y) :
    EqualOp.loop eval context first_value (pre ++ e :: post) h = (Except.ok false, h2) := by
  induction hpre with
  | nil => simp [EqualOp.loop, he, asNumber_number hp, hne]
  | cons hq hpx _ ih =>
    have hx := hall _ (List.mem_cons_self _ _)
    subst hx
    simp [EqualOp.loop, hq, asNumber_number hpx,
      ih he (fun x hx => hall x (List.mem_cons_of_mem _ hx))]

/-- The operator `=` with at least two arguments, of which `e1` is the first: `e1` is
evaluated, then the arguments from `e1` on, and at the first argument `e` whose value differs
from the first value the operator returns a new `#f` in the heap left by `e`, whatever the
arguments after it are. -/
theorem EqualOp_Apply_stop {eval : Evaluator} {context : Nat}
    {args : ObjectPtr} {e1 : ObjectPtr} {pre : List ObjectPtr} {e : ObjectPtr}
    {post : List ObjectPtr} {h h1 h2 : Heap} {x1 : Int} {xs : List Int} {p : Nat} {y : Int}
    (hargs : ListOf h args (pre ++ e :: post)) (hlen : 2 ≤ (pre ++ e :: post).length)
    (hfirst : (pre ++ e :: post).head? = some e1)
    (hpre : EvalNumbers eval context (e1 :: pre) h (x1 :: xs) h1)
    (hall : ∀ x ∈ xs, x1 = x)
    (he : eval e context h1 = (Except.ok (some p), h2))
    (hp : h2.objects[p]? = some (Object.Number y)) (hne : x1 ≠ y) :
    EqualOp.Apply eval args context h = make (Object.Boolean false) h2 := by
  have hvec := VectorizeList_listOf hargs
  cases hpre with
  | cons hq hp1 hrest =>
    have hl := EqualOp_loop_stop hrest he hp post x1 hall hne
    match hs : pre ++ e :: post, hlen, hfirst with
    | a0 :: a1 :: tail, _, hfirst =>
      simp only [List.head?_cons, Option.some.injEq] at hfirst
      subst hfirst
      rw [hs] at hvec hl
      simp [EqualOp.Apply, hvec, hq, asNumber_number hp1, hl]

/-- C24, as the code has it. An application to the proper argument list `pre ++ e :: post`, in
which `e` evaluates to a value that is no integer, fails with a runtime error, in the heap left
by `e`: for `+`, `*`, `-` and `abs` when the arguments `pre` evaluate to integers, and for `/`
when moreover no division before `e` is by zero; for `<`, `>`, `<=`, `>=` with at least two
arguments when `pre` evaluate to integers between whose adjacent pairs the relation holds; for
`min`, `max` and `=`, which evaluate their first argument twice, when the first argument, once
more, and then the rest of `pre` evaluate to integers, which for `=`, given at least two
arguments, are all equal. Where the comparisons stop: `<`, `>`, `<=`, `>=` with `pre` not
empty, when `pre` evaluate to integers between whose adjacent pairs the relation holds and `e`
to an integer for which it fails, return a new `#f` in the heap left by `e`, whatever the
arguments `post` are; `=` with at least two arguments, when its first argument, the arguments
`pre` and then `e` evaluate to integers of which that of `e` is the first to differ from the
first one, returns a new `#f` in the heap left by `e`; and the five comparisons with the one
argument `e` return a new `#t` in the heap as it was, with every evaluator. -/
theorem C24_type_errors (eval : Evaluator) (h : Heap) (args : ObjectPtr) (context : Nat)
    (pre : List ObjectPtr) (e : ObjectPtr) (post : List ObjectPtr)
    (hargs : ListOf h args (pre ++ e :: post)) :
    (∀ xs h1 v h2, EvalNumbers eval context pre h xs h1 →
      eval e context h1 = (Except.ok v, h2) → NotNumber h2 v →
      PlusOp.Apply eval args context h = (Except.error Error.RuntimeError, h2) ∧
      MultiplyOp.Apply eval args context h = (Except.error Error.RuntimeError, h2) ∧
      MinusOp.Apply eval args context h = (Except.error Error.RuntimeError, h2) ∧
      ((∀ x rest, xs = x :: rest → Divisible x rest) →
        DivideOp.Apply eval args context h = (Except.error Error.RuntimeError, h2)) ∧
      (pre = [] → post = [] →
        AbsOp.Apply eval args context h = (Except.error Error.RuntimeError, h2)) ∧
      (2 ≤ (pre ++ e :: post).length →
        (List.Chain' (fun x y => x < y) xs →
          LessOp.Apply eval args context h = (Except.error Error.RuntimeError, h2)) ∧
        (List.Chain' (fun x y => x > y) xs →
          GreaterOp.Apply eval args context h = (Except.error Error.RuntimeError, h2)) ∧
        (List.Chain' (fun x y => x ≤ y) xs →
          LessEqualOp.Apply eval args context h = (Except.error Error.RuntimeError, h2)) ∧
        (List.Chain' (fun x y => x ≥ y) xs →
          GreaterEqualOp.Apply eval args context h
            = (Except.error Error.RuntimeError, h2)))) ∧
    (∀ v h2, pre = [] → eval e context h = (Except.ok v, h2) → NotNumber h2 v →
      MinOp.Apply eval args context h = (Except.error Error.RuntimeError, h2) ∧
      MaxOp.Apply eval args context h = (Except.error Error.RuntimeError, h2) ∧
      (post ≠ [] →
        EqualOp.Apply eval args context h = (Except.error Error.RuntimeError, h2))) ∧
    (∀ e1 rest x1 xs h1 v h2, pre = e1 :: rest →
      EvalNumbers eval context (e1 :: e1 :: rest) h (x1 :: xs) h1 →
      eval e context h1 = (Except.ok v, h2) → NotNumber h2 v →
      MinOp.Apply eval args context h = (Except.error Error.RuntimeError, h2) ∧
      MaxOp.Apply eval args context h = (Except.error Error.RuntimeError, h2) ∧
      ((∀ x ∈ xs, x1 = x) →
        EqualOp.Apply eval args context h = (Except.error Error.RuntimeError, h2))) ∧
    (∀ xs h1 p y h2, pre ≠ [] → EvalNumbers eval context pre h xs h1 →
      eval e context h1 = (Except.ok (some p), h2) →
      h2.objects[p]? = some (Object.Number y) →
      (List.Chain' (fun a b => a < b) xs → ¬ List.Chain' (fun a b => a < b) (xs ++ [y]) →
        LessOp.Apply eval args context h = make (Object.Boolean false) h2) ∧
      (List.Chain' (fun a b => a > b) xs → ¬ List.Chain' (fun a b => a > b) (xs ++ [y]) →
        GreaterOp.Apply eval args context h = make (Object.Boolean false) h2) ∧
      (List.Chain' (fun a b => a ≤ b) xs → ¬ List.Chain' (fun a b => a ≤ b) (xs ++ [y]) →
        LessEqualOp.Apply eval args context h = make (Object.Boolean false) h2) ∧
      (List.Chain' (fun a b => a ≥ b) xs → ¬ List.Chain' (fun a b => a ≥ b) (xs ++ [y]) →
        GreaterEqualOp.Apply eval args context h = make (Object.Boolean false) h2)) ∧
    (∀ e1 x1 xs h1 p y h2, 2 ≤ (pre ++ e :: post).length →
      (pre ++ e :: post).head? = some e1 →
      EvalNumbers eval context (e1 :: pre) h (x1 :: xs) h1 → (∀ x ∈ xs, x1 = x) →
      eval e context h1 = (Except.ok (some p), h2) →
      h2.objects[p]? = some (Object.Number y) → x1 ≠ y →
      EqualOp.Apply eval args context h = make (Object.Boolean false) h2) ∧
    (pre = [] → post = [] →
      LessOp.Apply eval args context h = make (Object.Boolean true) h ∧
      GreaterOp.Apply eval args context h = make (Object.Boolean true) h ∧
      LessEqualOp.Apply eval args context h = make (Object.Boolean true) h ∧
      GreaterEqualOp.Apply eval args context h = make (Object.Boolean true) h ∧
      EqualOp.Apply eval args context h = make (Object.Boolean true) h) := by
  have hvec := VectorizeList_listOf hargs
  have hcmp : ∀ (rel : Int → Int → Bool) xs h1 v h2, EvalNumbers eval context pre h xs h1 →
      eval e context h1 = (Except.ok v, h2) → NotNumber h2 v →
      2 ≤ (pre ++ e :: post).length → List.Chain' (fun x y => rel x y = true) xs →
      compareApply rel eval args context h = (Except.error Error.RuntimeError, h2) := by
    intro rel xs h1 v h2 hpre he hv hlen hc
    cases hpre with
    | nil =>
      match post, hlen with
      | p :: post2, _ =>
        simp [compareApply, hvec, he, asNumber_notNumber hv]
    | @cons e1 es _ h1a _ p x xs2 hq hp hrest =>
      have hl := compareLoop_notNumber rel hrest he hv post x hc
      match es, hrest, hvec, hl with
      | [], _, hvec, hl =>
        simp only [List.nil_append] at hl
        simp [compareApply, hvec, hq, asNumber_number hp, hl]
      | e2 :: es2, _, hvec, hl =>
        simp only [List.cons_append] at hl
        simp [compareApply, hvec, hq, asNumber_number hp, hl]
  refine ⟨?_, ?_, ?_, ?_, ?_, ?_⟩
  · intro xs h1 v h2 hpre he hv
    refine ⟨?_, ?_, ?_, ?_, ?_, ?_⟩
    · simp [PlusOp.Apply, hvec, arithLoop_notNumber _ hpre he hv post 0]
    · simp [MultiplyOp.Apply, hvec, arithLoop_notNumber _ hpre he hv post 1]
    · cases hpre with
      | nil => simp [MinusOp.Apply, hvec, he, asNumber_notNumber hv]
      | cons hq hp hrest =>
        simp [MinusOp.Apply, hvec, hq, asNumber_number hp,
          arithLoop_notNumber _ hrest he hv post]
    · intro hd
      cases hpre with
      | nil => simp [DivideOp.Apply, hvec, he, asNumber_notNumber hv]
      | cons hq hp hrest =>
        simp [DivideOp.Apply, hvec, hq, asNumber_number hp,
          DivideOp_loop_notNumber hrest he hv post _ (hd _ _ rfl)]
    · intro hp1 hp2
      subst hp1 hp2
      cases hpre
      simp [AbsOp.Apply, hvec, he, asNumber_notNumber hv]
    · intro hlen
      refine ⟨?_, ?_, ?_, ?_⟩
      · intro hc
        exact hcmp _ xs h1 v h2 hpre he hv hlen (by simpa using hc)
      · intro hc
        exact hcmp _ xs h1 v h2 hpre he hv hlen (by simpa using hc)
      · intro hc
        exact hcmp _ xs h1 v h2 hpre he hv hlen (by simpa using hc)
      · intro hc
        exact hcmp _ xs h1 v h2 hpre he hv hlen (by simpa using hc)
  · intro v h2 hp he hv
    subst hp
    refine ⟨?_, ?_, ?_⟩
    · simp [MinOp.Apply, extremumApply, hvec, he, asNumber_notNumber hv]
    · simp [MaxOp.Apply, extremumApply, hvec, he, asNumber_notNumber hv]
    · intro hpost
      match post, hpost with
      | p :: post2, _ => simp [EqualOp.Apply, hvec, he, asNumber_notNumber hv]
  · intro e1 rest x1 xs h1 v h2 hp hpre he hv
    subst hp
    cases hpre with
    | cons hq hp hrest =>
      have hl := arithLoop_notNumber (fun x y => min x y) hrest he hv post x1
      have hl2 := arithLoop_notNumber (fun x y => max x y) hrest he hv post x1
      simp only [List.cons_append] at hl hl2 hvec
      refine ⟨?_, ?_, ?_⟩
      · simp [MinOp.Apply, extremumApply, hvec, hq, asNumber_number hp, hl]
      · simp [MaxOp.Apply, extremumApply, hvec, hq, asNumber_number hp, hl2]
      · intro hall
        have hl3 := EqualOp_loop_notNumber hrest he hv post x1 hall
        simp only [List.cons_append] at hl3
        match rest, hvec, hl3 with
        | [], hvec, hl3 =>
          simp only [List.nil_append] at hvec hl3
          simp [EqualOp.Apply, hvec, hq, asNumber_number hp, hl3]
        | e2 :: rest2, hvec, hl3 =>
          simp only [List.cons_append] at hvec hl3
          simp [EqualOp.Apply, hvec, hq, asNumber_number hp, hl3]
  · intro xs h1 p y h2 hne hpre he hp
    refine ⟨?_, ?_, ?_, ?_⟩
    · intro hc hf
      exact compareApply_stop _ hargs hne hpre he hp (by simpa using hc) (by simpa using hf)
    · intro hc hf
      exact compareApply_stop _ hargs hne hpre he hp (by simpa using hc) (by simpa using hf)
    · intro hc hf
      exact compareApply_stop _ hargs hne hpre he hp (by simpa using hc) (by simpa using hf)
    · intro hc hf
      exact compareApply_stop _ hargs hne hpre he hp (by simpa using hc) (by simpa using hf)
  · intro e1 x1 xs h1 p y h2 hlen hfirst hpre hall he hp hne
    exact EqualOp_Apply_stop hargs hlen hfirst hpre hall he hp hne
  · intro hp1 hp2
    subst hp1 hp2
    have hl : ([] ++ e :: ([] : List ObjectPtr)).length < 2 := by simp
    exact ⟨compareApply_few _ eval hargs hl, compareApply_few _ eval hargs hl,
      compareApply_few _ eval hargs hl, compareApply_few _ eval hargs hl,
      EqualOp_Apply_few eval hargs hl⟩

/-- The instance of C24 on the arguments `(#f 1 2)` of `exampleHeapArgs`, whose first argument is
a boolean: `+` fails with a runtime error; and on the arguments `(0 1 2)`: `>` stops at the
pair of `0` and `1` and returns a new `#f`. -/
theorem C24_type_errors_witness :
    ListOf exampleHeapArgs (some 7) ([] ++ some 3 :: [some 1, some 2]) ∧
    EvalNumbers (Evaluate 1) 0 [] exampleHeapArgs [] exampleHeapArgs ∧
    Evaluate 1 (some 3) 0 exampleHeapArgs = (Except.ok (some 3), exampleHeapArgs) ∧
    NotNumber exampleHeapArgs (some 3) ∧
    PlusOp.Apply (Evaluate 1) (some 7) 0 exampleHeapArgs
      = (Except.error Error.RuntimeError, exampleHeapArgs) ∧
    GreaterOp.Apply (Evaluate 1) (some 6) 0 exampleHeapArgs
      = make (Object.Boolean false) exampleHeapArgs :=
  ⟨ListOf.cons rfl (ListOf.cons rfl (ListOf.cons rfl ListOf.nil)), EvalNumbers.nil, rfl,
    Or.inr ⟨3, _, rfl, rfl, rfl⟩,
    ((C24_type_errors (Evaluate 1) exampleHeapArgs (some 7) 0 [] (some 3) [some 1, some 2]
      (ListOf.cons rfl (ListOf.cons rfl (ListOf.cons rfl ListOf.nil)))).1 [] exampleHeapArgs
      (some 3) exampleHeapArgs EvalNumbers.nil rfl (Or.inr ⟨3, _, rfl, rfl, rfl⟩)).1,
    ((C24_type_errors (Evaluate 1) exampleHeapArgs (some 6) 0 [some 0] (some 1) [some 2]
      (ListOf.cons rfl (ListOf.cons rfl (ListOf.cons rfl ListOf.nil)))).2.2.2.1 [0]
      exampleHeapArgs 1 1 exampleHeapArgs (by simp)
      (EvalNumbers.cons (p := 0) rfl rfl EvalNumbers.nil) rfl rfl).2.1 (by simp) (by simp)⟩

set_option maxRecDepth 100000 in
/-- C24 as stated fails: `(< 3 1 #t)` and `(= 1 2 #t)` return `#f`, and `(< #t)` and `(= #t)`
return `#t`, though the argument `#t` is no integer; `(< 1 2 #t)` and `(+ 1 #t)` fail with a
runtime error. -/
theorem C24_counterexample :
    repl.main 10 ["(< 3 1 #t)", "(= 1 2 #t)", "(< #t)", "(= #t)", "(< 1 2 #t)", "(+ 1 #t)"]
      = [Except.ok "#f", Except.ok "#f", Except.ok "#t", Except.ok "#t",
          Except.error Error.RuntimeError, Except.error Error.RuntimeError] := by
  decide

/-! ## How often an argument is evaluated -/

theorem foldInRange_min {acc : Int} {xs : List Int} (hacc : InRange acc)
    (hxs : ∀ x ∈ xs, InRange x) : FoldInRange (fun x y => min x y) acc xs := by
  induction xs generalizing acc with
  | nil => trivial
  | cons x xs ih =>
    have hx := hxs x (List.mem_cons_self _ _)
    have hm : InRange (min acc x) := by
      unfold InRange at *
      omega
    exact ⟨hm, ih hm (fun y hy => hxs y (List.mem_cons_of_mem _ hy))⟩

theorem foldInRange_max {acc : Int} {xs : List Int} (hacc : InRange acc)
    (hxs : ∀ x ∈ xs, InRange x) : FoldInRange (fun x y => max x y) acc xs := by
  induction xs generalizing acc with
  | nil => trivial
  | cons x xs ih =>
    have hx := hxs x (List.mem_cons_self _ _)
    have hm : InRange (max acc x) := by
      unfold InRange at *
      omega
    exact ⟨hm, ih hm (fun y hy => hxs y (List.mem_cons_of_mem _ hy))⟩

theorem compareLoop_all (rel : Int → Int → Bool) {eval : Evaluator} {context : Nat}
    {es : List ObjectPtr} {h h2 : Heap} {xs : List Int}
    (hev : EvalNumbers eval context es h xs h2) (previous_value : Int)
    (hc : List.Chain (fun x y => rel x y = true) previous_value xs) :
    compareLoop rel eval context es previous_value h = (Except.ok true, h2) := by
  induction hev generalizing previous_value with
  | nil => rfl
  | cons hq hp _ ih =>
    rw [List.chain_cons] at hc
    simp [compareLoop, hq, asNumber_number hp, hc.1, ih _ hc.2]

theorem compareApply_all (rel : Int → Int → Bool) {eval : Evaluator} {context : Nat}
    {args : ObjectPtr} {es : List ObjectPtr} {h h2 : Heap} {xs : List Int}
    (hargs : ListOf h args es) (hlen : 2 ≤ es.length)
    (hev : EvalNumbers eval context es h xs h2)
    (hc : List.Chain' (fun x y => rel x y = true) xs) :
    compareApply rel eval args context h = make (Object.Boolean true) h2 := by
  have hv := VectorizeList_listOf hargs
  cases hev with
  | nil => simp at hlen
  | cons hq hp hrest =>
    cases hrest with
    | nil => simp at hlen
    | cons hq2 hp2 hrest2 =>
      simp [compareApply, hv, hq, asNumber_number hp,
        compareLoop_all rel (EvalNumbers.cons hq2 hp2 hrest2) _ hc]

theorem EqualOp_loop_true {eval : Evaluator} {context : Nat}
    {es : List ObjectPtr} {h h2 : Heap} {xs : List Int}
    (hev : EvalNumbers eval context es h xs h2) (first_value : Int)
    (hall : ∀ x ∈ xs, first_value = x) :
    EqualOp.loop eval context first_value es h = (Except.ok true, h2) := by
  induction hev with
  | nil => rfl
  | cons hq hp _ ih =>
    have hx := hall _ (List.mem_cons_self _ _)
    subst hx
    simp [EqualOp.loop, hq, asNumber_number hp,
      ih (fun x hx => hall x (List.mem_cons_of_mem _ hx))]

set_option maxRecDepth 100000 in
/-- C30. On the proper argument list `e1 :: rest`, with every evaluator: `min` and `max`
evaluate `e1`, then `e1` once more from the heap left by the first evaluation, then each
argument of `rest` once, in order, and return the least and the greatest of the integers of
all these evaluations; `=` with at least two arguments does the same and returns `#t` when all
the integers are equal. The operators `+`, `*`, `-`, `/` evaluate `e1` and then each
argument of `rest` once, in order, and so do `<`, `>`, `<=`, `>=` with at least two arguments
between whose values the relation holds. Through `Run`: a `set!` in the first argument of
`min`, `max` and `=` takes effect twice, and once in the first argument of `+` and `<`. Where
the comparisons stop: `=` with at least two arguments evaluates `e1`, then the arguments from
`e1` on, and at the first argument `e` whose integer differs from the first one it returns a
new `#f` in the heap left by `e`; `<`, `>`, `<=`, `>=` evaluate the arguments once, in order,
up to the first argument `e` for whose integer the relation fails, and return a new `#f` in the
heap left by `e`; the arguments after `e` are not evaluated. -/
theorem C30_first_argument_twice (eval : Evaluator) (h : Heap) (args : ObjectPtr)
    (context : Nat) (e1 : ObjectPtr) (rest : List ObjectPtr)
    (hargs : ListOf h args (e1 :: rest)) :
    (∀ x1 xs h2, EvalNumbers eval context (e1 :: e1 :: rest) h (x1 :: xs) h2 →
      (∀ x ∈ x1 :: xs, InRange x) →
      MinOp.Apply eval args context h
        = make (Object.Number (xs.foldl (fun x y => min x y) x1)) h2 ∧
      MaxOp.Apply eval args context h
        = make (Object.Number (xs.foldl (fun x y => max x y) x1)) h2) ∧
    (∀ x1 xs h2, rest ≠ [] →
      EvalNumbers eval context (e1 :: e1 :: rest) h (x1 :: xs) h2 → (∀ x ∈ xs, x1 = x) →
      EqualOp.Apply eval args context h = make (Object.Boolean true) h2) ∧
    (∀ xs h2, EvalNumbers eval context (e1 :: rest) h xs h2 →
      (FoldInRange (fun x y => x + y) 0 xs →
        PlusOp.Apply eval args context h
          = make (Object.Number (xs.foldl (fun x y => x + y) 0)) h2) ∧
      (FoldInRange (fun x y => x * y) 1 xs →
        MultiplyOp.Apply eval args context h
          = make (Object.Number (xs.foldl (fun x y => x * y) 1)) h2) ∧
      (∀ x1 x2 ys, xs = x1 :: x2 :: ys → FoldInRange (fun x y => x - y) x1 (x2 :: ys) →
        MinusOp.Apply eval args context h
          = make (Object.Number ((x2 :: ys).foldl (fun x y => x - y) x1)) h2) ∧
      (∀ x1 x2 ys, xs = x1 :: x2 :: ys → Divisible x1 (x2 :: ys) →
        DivideOp.Apply eval args context h
          = make (Object.Number ((x2 :: ys).foldl Int.tdiv x1)) h2) ∧
      (rest ≠ [] →
        (List.Chain' (fun x y => x < y) xs →
          LessOp.Apply eval args context h = make (Object.Boolean true) h2) ∧
        (List.Chain' (fun x y => x > y) xs →
          GreaterOp.Apply eval args context h = make (Object.Boolean true) h2) ∧
        (List.Chain' (fun x y => x ≤ y) xs →
          LessEqualOp.Apply eval args context h = make (Object.Boolean true) h2) ∧
        (List.Chain' (fun x y => x ≥ y) xs →
          GreaterEqualOp.Apply eval args context h = make (Object.Boolean true) h2))) ∧
    repl.main 20 ["(define x 0)", "(min (set! x (+ x 1)))", "x",
        "(define w 0)", "(max (set! w (+ w 1)) 5)", "w",
        "(define z 0)", "(= (set! z (+ z 1)) 0)", "z",
        "(define y 0)", "(+ (set! y (+ y 1)))", "y",
        "(define v 0)", "(< (set! v (+ v 1)) 5)", "v"]
      = [Except.ok "x", Except.ok "0", Except.ok "2",
          Except.ok "w", Except.ok "5", Except.ok "2",
          Except.ok "z", Except.ok "#f", Except.ok "2",
          Except.ok "y", Except.ok "0", Except.ok "1",
          Except.ok "v", Except.ok "#t", Except.ok "1"] ∧
    (∀ pre e post x1 xs h1 p y h2, rest ≠ [] → e1 :: rest = pre ++ e :: post →
      EvalNumbers eval context (e1 :: pre) h (x1 :: xs) h1 → (∀ x ∈ xs, x1 = x) →
      eval e context h1 = (Except.ok (some p), h2) →
      h2.objects[p]? = some (Object.Number y) → x1 ≠ y →
      EqualOp.Apply eval args context h = make (Object.Boolean false) h2) ∧
    (∀ pre e post xs h1 p y h2, pre ≠ [] → e1 :: rest = pre ++ e :: post →
      EvalNumbers eval context pre h xs h1 →
      eval e context h1 = (Except.ok (some p), h2) →
      h2.objects[p]? = some (Object.Number y) →
      (List.Chain' (fun a b => a < b) xs → ¬ List.Chain' (fun a b => a < b) (xs ++ [y]) →
        LessOp.Apply eval args context h = make (Object.Boolean false) h2) ∧
      (List.Chain' (fun a b => a > b) xs → ¬ List.Chain' (fun a b => a > b) (xs ++ [y]) →
        GreaterOp.Apply eval args context h = make (Object.Boolean false) h2) ∧
      (List.Chain' (fun a b => a ≤ b) xs → ¬ List.Chain' (fun a b => a ≤ b) (xs ++ [y]) →
        LessEqualOp.Apply eval args context h = make (Object.Boolean false) h2) ∧
      (List.Chain' (fun a b => a ≥ b) xs → ¬ List.Chain' (fun a b => a ≥ b) (xs ++ [y]) →
        GreaterEqualOp.Apply eval args context h = make (Object.Boolean false) h2)) := by
  have hv := VectorizeList_listOf hargs
  have hlen2 : rest ≠ [] → 2 ≤ (e1 :: rest).length := by
    intro hr
    cases rest with
    | nil => exact absurd rfl hr
    | cons _ _ => simp
  refine ⟨?_, ?_, ?_, by decide, ?_, ?_⟩
  · intro x1 xs h2 hev hr
    cases hev with
    | cons hq hp hrest =>
      have h1r : InRange x1 := hr x1 (List.mem_cons_self _ _)
      have hxs : ∀ x ∈ xs, InRange x := fun x hx => hr x (List.mem_cons_of_mem _ hx)
      constructor
      · simp [MinOp.Apply, extremumApply, hv, hq, asNumber_number hp,
          arithLoop_fold _ hrest x1 (foldInRange_min h1r hxs)]
      · simp [MaxOp.Apply, extremumApply, hv, hq, asNumber_number hp,
          arithLoop_fold _ hrest x1 (foldInRange_max h1r hxs)]
  · intro x1 xs h2 hr hev hall
    cases hev with
    | cons hq hp hrest =>
      match rest, hr, hv, hrest with
      | e2 :: rest2, _, hv, hrest =>
        simp [EqualOp.Apply, hv, hq, asNumber_number hp, EqualOp_loop_true hrest x1 hall]
  · intro xs h2 hev
    refine ⟨?_, ?_, ?_, ?_, ?_⟩
    · intro hr
      simp [PlusOp.Apply, hv, arithLoop_fold _ hev 0 hr]
    · intro hr
      simp [MultiplyOp.Apply, hv, arithLoop_fold _ hev 1 hr]
    · intro x1 x2 ys hxs hr
      subst hxs
      cases hev with
      | cons hq hp hrest =>
        cases hrest with
        | cons hq2 hp2 hrest2 =>
          simp [MinusOp.Apply, hv, hq, asNumber_number hp,
            arithLoop_fold _ (EvalNumbers.cons hq2 hp2 hrest2) x1 hr]
    · intro x1 x2 ys hxs hd
      subst hxs
      cases hev with
      | cons hq hp hrest =>
        cases hrest with
        | cons hq2 hp2 hrest2 =>
          simp [DivideOp.Apply, hv, hq, asNumber_number hp,
            DivideOp_loop_fold (EvalNumbers.cons hq2 hp2 hrest2) x1 hd]
    · intro hr
      refine ⟨?_, ?_, ?_, ?_⟩
      · intro hc
        exact compareApply_all _ hargs (hlen2 hr) hev (by simpa using hc)
      · intro hc
        exact compareApply_all _ hargs (hlen2 hr) hev (by simpa using hc)
      · intro hc
        exact compareApply_all _ hargs (hlen2 hr) hev (by simpa using hc)
      · intro hc
        exact compareApply_all _ hargs (hlen2 hr) hev (by simpa using hc)
  · intro pre e post x1 xs h1 p y h2 hr hsplit hpre hall he hp hne
    have hargs2 : ListOf h args (pre ++ e :: post) := hsplit ▸ hargs
    exact EqualOp_Apply_stop hargs2 (by rw [← hsplit]; exact hlen2 hr)
      (by rw [← hsplit]; rfl) hpre hall he hp hne
  · intro pre e post xs h1 p y h2 hne hsplit hpre he hp
    have hargs2 : ListOf h args (pre ++ e :: post) := hsplit ▸ hargs
    refine ⟨?_, ?_, ?_, ?_⟩
    · intro hc hf
      exact compareApply_stop _ hargs2 hne hpre he hp (by simpa using hc) (by simpa using hf)
    · intro hc hf
      exact compareApply_stop _ hargs2 hne hpre he hp (by simpa using hc) (by simpa using hf)
    · intro hc hf
      exact compareApply_stop _ hargs2 hne hpre he hp (by simpa using hc) (by simpa using hf)
    · intro hc hf
      exact compareApply_stop _ hargs2 hne hpre he hp (by simpa using hc) (by simpa using hf)

/-- The instance of C30 on the arguments `(0 1 2)` of `exampleHeapArgs`: `min` evaluates the
first argument twice and returns a new integer `0`, and `=` evaluates the first argument twice,
stops at the second argument and returns a new `#f`. -/
theorem C30_first_argument_twice_witness :
    ListOf exampleHeapArgs (some 6) [some 0, some 1, some 2] ∧
    EvalNumbers (Evaluate 1) 0 [some 0, some 0, some 1, some 2] exampleHeapArgs [0, 0, 1, 2]
      exampleHeapArgs ∧
    (∀ x ∈ ([0, 0, 1, 2] : List Int), InRange x) ∧
    MinOp.Apply (Evaluate 1) (some 6) 0 exampleHeapArgs
      = make (Object.Number 0) exampleHeapArgs ∧
    EvalNumbers (Evaluate 1) 0 [some 0, some 0] exampleHeapArgs [0, 0] exampleHeapArgs ∧
    EqualOp.Apply (Evaluate 1) (some 6) 0 exampleHeapArgs
      = make (Object.Boolean false) exampleHeapArgs :=
  ⟨ListOf.cons rfl (ListOf.cons rfl (ListOf.cons rfl ListOf.nil)),
    EvalNumbers.cons (p := 0) rfl rfl exampleHeapArgs_numbers,
    by simp [InRange],
    ((C30_first_argument_twice (Evaluate 1) exampleHeapArgs (some 6) 0 (some 0)
      [some 1, some 2] (ListOf.cons rfl (ListOf.cons rfl (ListOf.cons rfl ListOf.nil)))).1 0
      [0, 1, 2] exampleHeapArgs (EvalNumbers.cons (p := 0) rfl rfl exampleHeapArgs_numbers)
      (by simp [InRange])).1,
    EvalNumbers.cons (p := 0) rfl rfl (EvalNumbers.cons (p := 0) rfl rfl EvalNumbers.nil),
    (C30_first_argument_twice (Evaluate 1) exampleHeapArgs (some 6) 0 (some 0)
      [some 1, some 2] (ListOf.cons rfl (ListOf.cons rfl (ListOf.cons rfl ListOf.nil)))).2.2.2.2.1
      [some 0] (some 1) [some 2] 0 [0] exampleHeapArgs 1 1 exampleHeapArgs (by simp) rfl
      (EvalNumbers.cons (p := 0) rfl rfl (EvalNumbers.cons (p := 0) rfl rfl EvalNumbers.nil))
      (by simp) rfl rfl (by decide)⟩

/-! ## Errors of the arguments -/

theorem arithLoop_error (op : Int → Int → Int) {eval : Evaluator} {context : Nat}
    {pre : List ObjectPtr} {h h1 h2 : Heap} {xs : List Int}
    (hpre : EvalNumbers eval context pre h xs h1) {e : ObjectPtr} {err : Error}
    (he : eval e context h1 = (Except.error err, h2)) (post : List ObjectPtr) (acc : Int) :
    arithLoop op eval context (pre ++ e :: post) acc h = (Except.error err, h2) := by
  induction hpre generalizing acc with
  | nil => simp [arithLoop, he]
  | cons hq hp _ ih => simp [arithLoop, hq, asNumber_number hp, ih he]

theorem DivideOp_loop_error {eval : Evaluator} {context : Nat}
    {pre : List ObjectPtr} {h h1 h2 : Heap} {xs : List Int}
    (hpre : EvalNumbers eval context pre h xs h1) {e : ObjectPtr} {err : Error}
    (he : eval e context h1 = (Except.error err, h2)) (post : List ObjectPtr)
    (acc : Int) (hd : Divisible acc xs) :
    DivideOp.loop eval context (pre ++ e :: post) acc h = (Except.error err, h2) := by
  induction hpre generalizing acc with
  | nil => simp [DivideOp.loop, he]
  | cons hq hp _ ih =>
    obtain ⟨hd1, hd2, hd3⟩ := hd
    simp [DivideOp.loop, hq, asNumber_number hp, divide_ok hd1 hd2, ih he _ hd3]

theorem compareLoop_error (rel : Int → Int → Bool) {eval : Evaluator} {context : Nat}
    {pre : List ObjectPtr} {h h1 h2 : Heap} {xs : List Int}
    (hpre : EvalNumbers eval context pre h xs h1) {e : ObjectPtr} {err : Error}
    (he : eval e context h1 = (Except.error err, h2)) (post : List ObjectPtr)
    (previous_value : Int) (hc : List.Chain (fun x y => rel x y = true) previous_value xs) :
    compareLoop rel eval context (pre ++ e :: post) previous_value h
      = (Except.error err, h2) := by
  induction hpre generalizing previous_value with
  | nil => simp [compareLoop, he]
  | cons hq hp _ ih =>
    rw [List.chain_cons] at hc
    simp [compareLoop, hq, asNumber_number hp, hc.1, ih he _ hc.2]

theorem EqualOp_loop_error {eval : Evaluator} {context : Nat}
    {pre : List ObjectPtr} {h h1 h2 : Heap} {xs : List Int}
    (hpre : EvalNumbers eval context pre h xs h1) {e : ObjectPtr} {err : Error}
    (he : eval e context h1 = (Except.error err, h2)) (post : List ObjectPtr)
    (first_value : Int) (hall : ∀ x ∈ xs, first_value = x) :
    EqualOp.loop eval context first_value (pre ++ e :: post) h = (Except.error err, h2) := by
  induction hpre with
  | nil => simp [EqualOp.loop, he]
  | cons hq hp _ ih =>
    have hx := hall _ (List.mem_cons_self _ _)
    subst hx
    simp [EqualOp.loop, hq, asNumber_number hp,
      ih he (fun x hx => hall x (List.mem_cons_of_mem _ hx))]

theorem compareApply_error (rel : Int → Int → Bool) {eval : Evaluator} {context : Nat}
    {args : ObjectPtr} {pre : List ObjectPtr} {e : ObjectPtr} {post : List ObjectPtr}
    {h h1 h2 : Heap} {xs : List Int} {err : Error}
    (hargs : ListOf h args (pre ++ e :: post)) (hlen : 2 ≤ (pre ++ e :: post).length)
    (hpre : EvalNumbers eval context pre h xs h1)
    (he : eval e context h1 = (Except.error err, h2))
    (hc : List.Chain' (fun x y => rel x y = true) xs) :
    compareApply rel eval args context h = (Except.error err, h2) := by
  have hvec := VectorizeList_listOf hargs
  cases hpre with
  | nil =>
    match post, hlen with
    | p :: post2, _ => simp [compareApply, hvec, he]
  | @cons e1 es _ h1a _ p x xs2 hq hp hrest =>
    have hl := compareLoop_error rel hrest he post x hc
    match es, hrest, hvec, hl with
    | [], _, hvec, hl =>
      simp only [List.nil_append] at hl
      simp [compareApply, hvec, hq, asNumber_number hp, hl]
    | e2 :: es2, _, hvec, hl =>
      simp only [List.cons_append] at hl
      simp [compareApply, hvec, hq, asNumber_number hp, hl]

/-- C28, as the code has it. An application to the proper argument list `pre ++ e :: post`, in
which the evaluation of `e` raises an error, raises that error, with the heap left by `e`, when
the evaluation of `e` is reached in the order from left to right: for `+`, `*`, `-` when the
arguments `pre` evaluate to integers, each from the heap left by the one before, and for `/`
when moreover no division before `e` is by zero; for `<`, `>`, `<=`, `>=` with at least two
arguments when moreover the relation holds between the adjacent values of `pre`; for `min`,
`max` and `=`, which evaluate the first argument twice, when the first argument, once more, and
the rest of `pre` evaluate to integers, all equal in the case of `=`; for the operators of one
argument when `e` is the argument; for `cons`, `list-ref`, `list-tail`, `set-car!` and
`set-cdr!` when `e` is the first of two arguments, and when it is the second and the first has
a value. For `cons` with its arguments evaluated in the other order, the error of the second
argument is raised, and that of the first when the second has a value. Where the comparisons
stop: `<`, `>`, `<=`, `>=` with `pre` not empty, when `pre` evaluate to integers between whose
adjacent pairs the relation holds and `e` to an integer for which it fails, return a new `#f`
in the heap left by `e`, whatever the arguments `post` are; `=` with at least two arguments,
when its first argument, the arguments `pre` and then `e` evaluate to integers of which that of
`e` is the first to differ from the first one, returns a new `#f` in the heap left by `e`; and
the five comparisons with the one argument `e` return a new `#t` in the heap as it was, with
every evaluator. -/
theorem C28_argument_errors_propagate (eval : Evaluator) (h : Heap) (args : ObjectPtr)
    (context : Nat) (pre : List ObjectPtr) (e : ObjectPtr) (post : List ObjectPtr)
    (err : Error) (hargs : ListOf h args (pre ++ e :: post)) :
    (∀ xs h1 h2, EvalNumbers eval context pre h xs h1 →
      eval e context h1 = (Except.error err, h2) →
      PlusOp.Apply eval args context h = (Except.error err, h2) ∧
      MultiplyOp.Apply eval args context h = (Except.error err, h2) ∧
      MinusOp.Apply eval args context h = (Except.error err, h2) ∧
      ((∀ x rest, xs = x :: rest → Divisible x rest) →
        DivideOp.Apply eval args context h = (Except.error err, h2)) ∧
      (2 ≤ (pre ++ e :: post).length →
        (List.Chain' (fun x y => x < y) xs →
          LessOp.Apply eval args context h = (Except.error err, h2)) ∧
        (List.Chain' (fun x y => x > y) xs →
          GreaterOp.Apply eval args context h = (Except.error err, h2)) ∧
        (List.Chain' (fun x y => x ≤ y) xs →
          LessEqualOp.Apply eval args context h = (Except.error err, h2)) ∧
        (List.Chain' (fun x y => x ≥ y) xs →
          GreaterEqualOp.Apply eval args context h = (Except.error err, h2)))) ∧
    (∀ h2, pre = [] → eval e context h = (Except.error err, h2) →
      MinOp.Apply eval args context h = (Except.error err, h2) ∧
      MaxOp.Apply eval args context h = (Except.error err, h2) ∧
      (post ≠ [] → EqualOp.Apply eval args context h = (Except.error err, h2))) ∧
    (∀ e1 rest x1 xs h1 h2, pre = e1 :: rest →
      EvalNumbers eval context (e1 :: e1 :: rest) h (x1 :: xs) h1 →
      eval e context h1 = (Except.error err, h2) →
      MinOp.Apply eval args context h = (Except.error err, h2) ∧
      MaxOp.Apply eval args context h = (Except.error err, h2) ∧
      ((∀ x ∈ xs, x1 = x) → EqualOp.Apply eval args context h = (Except.error err, h2))) ∧
    (∀ h2, pre = [] → post = [] → eval e context h = (Except.error err, h2) →
      ∀ op ∈ [Operator.AbsOp, Operator.NotOp, Operator.CarOp, Operator.CdrOp,
          Operator.IntegerPredicate, Operator.BooleanPredicate, Operator.PairPredicate,
          Operator.NullPredicate, Operator.ListPredicate, Operator.SymbolPredicate],
        Operator.Apply eval op args context h = (Except.error err, h2)) ∧
    (∀ b h2, pre = [] → post = [b] → eval e context h = (Except.error err, h2) →
      ∀ op ∈ [Operator.ConsOp, Operator.ListRef, Operator.ListTail, Operator.SetCar,
          Operator.SetCdr],
        Operator.Apply eval op args context h = (Except.error err, h2)) ∧
    (∀ a v h1 h2, pre = [a] → post = [] → eval a context h = (Except.ok v, h1) →
      eval e context h1 = (Except.error err, h2) →
      ∀ op ∈ [Operator.ConsOp, Operator.ListRef, Operator.ListTail, Operator.SetCar,
          Operator.SetCdr],
        Operator.Apply eval op args context h = (Except.error err, h2)) ∧
    (∀ a h2, pre = [a] → post = [] → eval e context h = (Except.error err, h2) →
      ConsOp.ApplyRightFirst eval args context h = (Except.error err, h2)) ∧
    (∀ b v h1 h2, pre = [] → post = [b] → eval b context h = (Except.ok v, h1) →
      eval e context h1 = (Except.error err, h2) →
      ConsOp.ApplyRightFirst eval args context h = (Except.error err, h2)) ∧
    (∀ xs h1 p y h2, pre ≠ [] → EvalNumbers eval context pre h xs h1 →
      eval e context h1 = (Except.ok (some p), h2) →
      h2.objects[p]? = some (Object.Number y) →
      (List.Chain' (fun a b => a < b) xs → ¬ List.Chain' (fun a b => a < b) (xs ++ [y]) →
        LessOp.Apply eval args context h = make (Object.Boolean false) h2) ∧
      (List.Chain' (fun a b => a > b) xs → ¬ List.Chain' (fun a b => a > b) (xs ++ [y]) →
        GreaterOp.Apply eval args context h = make (Object.Boolean false) h2) ∧
      (List.Chain' (fun a b => a ≤ b) xs → ¬ List.Chain' (fun a b => a ≤ b) (xs ++ [y]) →
        LessEqualOp.Apply eval args context h = make (Object.Boolean false) h2) ∧
      (List.Chain' (fun a b => a ≥ b) xs → ¬ List.Chain' (fun a b => a ≥ b) (xs ++ [y]) →
        GreaterEqualOp.Apply eval args context h = make (Object.Boolean false) h2)) ∧
    (∀ e1 x1 xs h1 p y h2, 2 ≤ (pre ++ e :: post).length →
      (pre ++ e :: post).head? = some e1 →
      EvalNumbers eval context (e1 :: pre) h (x1 :: xs) h1 → (∀ x ∈ xs, x1 = x) →
      eval e context h1 = (Except.ok (some p), h2) →
      h2.objects[p]? = some (Object.Number y) → x1 ≠ y →
      EqualOp.Apply eval args context h = make (Object.Boolean false) h2) ∧
    (pre = [] → post = [] →
      LessOp.Apply eval args context h = make (Object.Boolean true) h ∧
      GreaterOp.Apply eval args context h = make (Object.Boolean true) h ∧
      LessEqualOp.Apply eval args context h = make (Object.Boolean true) h ∧
      GreaterEqualOp.Apply eval args context h = make (Object.Boolean true) h ∧
      EqualOp.Apply eval args context h = make (Object.Boolean true) h) := by
  have hvec := VectorizeList_listOf hargs
  refine ⟨?_, ?_, ?_, ?_, ?_, ?_, ?_, ?_, ?_, ?_, ?_⟩
  · intro xs h1 h2 hpre he
    refine ⟨?_, ?_, ?_, ?_, ?_⟩
    · simp [PlusOp.Apply, hvec, arithLoop_error _ hpre he post 0]
    · simp [MultiplyOp.Apply, hvec, arithLoop_error _ hpre he post 1]
    · cases hpre with
      | nil => simp [MinusOp.Apply, hvec, he]
      | cons hq hp hrest =>
        simp [MinusOp.Apply, hvec, hq, asNumber_number hp, arithLoop_error _ hrest he post]
    · intro hd
      cases hpre with
      | nil => simp [DivideOp.Apply, hvec, he]
      | cons hq hp hrest =>
        simp [DivideOp.Apply, hvec, hq, asNumber_number hp,
          DivideOp_loop_error hrest he post _ (hd _ _ rfl)]
    · intro hlen
      refine ⟨?_, ?_, ?_, ?_⟩
      · intro hc
        exact compareApply_error _ hargs hlen hpre he (by simpa using hc)
      · intro hc
        exact compareApply_error _ hargs hlen hpre he (by simpa using hc)
      · intro hc
        exact compareApply_error _ hargs hlen hpre he (by simpa using hc)
      · intro hc
        exact compareApply_error _ hargs hlen hpre he (by simpa using hc)
  · intro h2 hp he
    subst hp
    refine ⟨?_, ?_, ?_⟩
    · simp [MinOp.Apply, extremumApply, hvec, he]
    · simp [MaxOp.Apply, extremumApply, hvec, he]
    · intro hpost
      match post, hpost with
      | p :: post2, _ => simp [EqualOp.Apply, hvec, he]
  · intro e1 rest x1 xs h1 h2 hp hpre he
    subst hp
    cases hpre with
    | cons hq hp hrest =>
      have hl := arithLoop_error (fun x y => min x y) hrest he post x1
      have hl2 := arithLoop_error (fun x y => max x y) hrest he post x1
      simp only [List.cons_append] at hl hl2 hvec
      refine ⟨?_, ?_, ?_⟩
      · simp [MinOp.Apply, extremumApply, hvec, hq, asNumber_number hp, hl]
      · simp [MaxOp.Apply, extremumApply, hvec, hq, asNumber_number hp, hl2]
      · intro hall
        have hl3 := EqualOp_loop_error hrest he post x1 hall
        simp only [List.cons_append] at hl3
        match rest, hvec, hl3 with
        | [], hvec, hl3 =>
          simp only [List.nil_append] at hvec hl3
          simp [EqualOp.Apply, hvec, hq, asNumber_number hp, hl3]
        | e2 :: rest2, hvec, hl3 =>
          simp only [List.cons_append] at hvec hl3
          simp [EqualOp.Apply, hvec, hq, asNumber_number hp, hl3]
  · intro h2 hp1 hp2 he op hop
    subst hp1 hp2
    simp only [List.mem_cons, List.mem_singleton, List.not_mem_nil, or_false] at hop
    rcases hop with rfl | rfl | rfl | rfl | rfl | rfl | rfl | rfl | rfl | rfl <;>
      simp [Operator.Apply, AbsOp.Apply, NotOp.Apply, CarOp.Apply, CdrOp.Apply,
        IntegerPredicate.Apply, BooleanPredicate.Apply, PairPredicate.Apply,
        NullPredicate.Apply, ListPredicate.Apply, SymbolPredicate.Apply, predicate, hvec, he]
  · intro b h2 hp1 hp2 he op hop
    subst hp1 hp2
    simp only [List.mem_cons, List.mem_singleton, List.not_mem_nil, or_false] at hop
    rcases hop with rfl | rfl | rfl | rfl | rfl <;>
      simp [Operator.Apply, ConsOp.Apply, ListRef.Apply, ListTail.Apply, SetCar.Apply,
        SetCdr.Apply, hvec, he]
  · intro a v h1 h2 hp1 hp2 ha he op hop
    subst hp1 hp2
    simp only [List.mem_cons, List.mem_singleton, List.not_mem_nil, or_false] at hop
    rcases hop with rfl | rfl | rfl | rfl | rfl <;>
      simp [Operator.Apply, ConsOp.Apply, ListRef.Apply, ListTail.Apply, SetCar.Apply,
        SetCdr.Apply, hvec, ha, he]
  · intro a h2 hp1 hp2 he
    subst hp1 hp2
    simp [ConsOp.ApplyRightFirst, hvec, he]
  · intro b v h1 h2 hp1 hp2 hb he
    subst hp1 hp2
    simp [ConsOp.ApplyRightFirst, hvec, hb, he]
  · intro xs h1 p y h2 hne hpre he hp
    refine ⟨?_, ?_, ?_, ?_⟩
    · intro hc hf
      exact compareApply_stop _ hargs hne hpre he hp (by simpa using hc) (by simpa using hf)
    · intro hc hf
      exact compareApply_stop _ hargs hne hpre he hp (by simpa using hc) (by simpa using hf)
    · intro hc hf
      exact compareApply_stop _ hargs hne hpre he hp (by simpa using hc) (by simpa using hf)
    · intro hc hf
      exact compareApply_stop _ hargs hne hpre he hp (by simpa using hc) (by simpa using hf)
  · intro e1 x1 xs h1 p y h2 hlen hfirst hpre hall he hp hne
    exact EqualOp_Apply_stop hargs hlen hfirst hpre hall he hp hne
  · intro hp1 hp2
    subst hp1 hp2
    have hl : ([] ++ e :: ([] : List ObjectPtr)).length < 2 := by simp
    exact ⟨compareApply_few _ eval hargs hl, compareApply_few _ eval hargs hl,
      compareApply_few _ eval hargs hl, compareApply_few _ eval hargs hl,
      EqualOp_Apply_few eval hargs hl⟩

/-- The instance of C28 on the arguments `(1 zz)` of `exampleHeapError`, in which `zz` is
unbound: the name error of the second argument is the outcome of `+`; and on the arguments
`(0 1 2)` of `exampleHeapArgs`: `>` stops at the pair of `0` and `1` and returns a new `#f`. -/
theorem C28_argument_errors_propagate_witness :
    ListOf exampleHeapError (some 3) ([some 0] ++ some 1 :: []) ∧
    EvalNumbers (Evaluate 1) 0 [some 0] exampleHeapError [1] exampleHeapError ∧
    Evaluate 1 (some 1) 0 exampleHeapError = (Except.error Error.NameError, exampleHeapError) ∧
    PlusOp.Apply (Evaluate 1) (some 3) 0 exampleHeapError
      = (Except.error Error.NameError, exampleHeapError) ∧
    GreaterOp.Apply (Evaluate 1) (some 6) 0 exampleHeapArgs
      = make (Object.Boolean false) exampleHeapArgs :=
  ⟨ListOf.cons rfl (ListOf.cons rfl ListOf.nil),
    EvalNumbers.cons (p := 0) rfl rfl EvalNumbers.nil, rfl,
    ((C28_argument_errors_propagate (Evaluate 1) exampleHeapError (some 3) 0 [some 0] (some 1)
      [] Error.NameError (ListOf.cons rfl (ListOf.cons rfl ListOf.nil))).1 [1]
      exampleHeapError exampleHeapError (EvalNumbers.cons (p := 0) rfl rfl EvalNumbers.nil)
      rfl).1,
    ((C28_argument_errors_propagate (Evaluate 1) exampleHeapArgs (some 6) 0 [some 0] (some 1)
      [some 2] Error.NameError
      (ListOf.cons rfl (ListOf.cons rfl (ListOf.cons rfl ListOf.nil)))).2.2.2.2.2.2.2.2.1 [0]
      exampleHeapArgs 1 1 exampleHeapArgs (by simp)
      (EvalNumbers.cons (p := 0) rfl rfl EvalNumbers.nil) rfl rfl).2.1 (by simp) (by simp)⟩

set_option maxRecDepth 100000 in
/-- C28 as stated fails: the evaluation of `zz` raises a name error, and yet `(< 3 1 zz)` and
`(= 1 2 zz)` return `#f` and `(< zz)` returns `#t`; the error is raised by `(< 1 2 zz)` and by
`(+ 1 zz)`. -/
theorem C28_counterexample :
    repl.main 10 ["zz", "(< 3 1 zz)", "(= 1 2 zz)", "(< zz)", "(< 1 2 zz)", "(+ 1 zz)"]
      = [Except.error Error.NameError, Except.ok "#f", Except.ok "#f", Except.ok "#t",
          Except.error Error.NameError, Except.error Error.NameError] := by
  decide

/-! ## The factorial program -/

theorem Heap.Grows.refl_grows (h : Heap) : h.Grows h := ⟨⟨[], by simp⟩, ⟨[], by simp⟩⟩

theorem Heap.Grows.trans_grows {h3 h2 h : Heap} (h32 : h3.Grows h2) (h21 : h2.Grows h) :
    h3.Grows h := by
  obtain ⟨⟨o1, e1⟩, ⟨c1, d1⟩⟩ := h21
  obtain ⟨⟨o2, e2⟩, ⟨c2, d2⟩⟩ := h32
  exact ⟨⟨o1 ++ o2, by rw [e2, e1, List.append_assoc]⟩,
    ⟨c1 ++ c2, by rw [d2, d1, List.append_assoc]⟩⟩

theorem Heap.Grows.extends {h2 h : Heap} (hg : h2.Grows h) : h2.Extends h := hg.1

theorem Heap.Grows.object {h2 h : Heap} (hg : h2.Grows h) {a : Nat} {o : Object}
    (ho : h.objects[a]? = some o) : h2.objects[a]? = some o :=
  Heap.Extends.lookup hg.1 ho

theorem Heap.Grows.context {h2 h : Heap} (hg : h2.Grows h) {c : Nat} {ctx : Context}
    (hc : h.contexts[c]? = some ctx) : h2.contexts[c]? = some ctx := by
  obtain ⟨_, ⟨cs, hcs⟩⟩ := hg
  have hlt : c < h.contexts.length := by
    by_contra hge
    rw [List.getElem?_eq_none (by omega)] at hc
    cases hc
  rw [hcs, List.getElem?_append_left hlt]
  exact hc

theorem Heap.Grows.alloc (h : Heap) (o : Object) : (h.alloc o).2.Grows h :=
  ⟨⟨[o], rfl⟩, ⟨[], by simp [Heap.alloc]⟩⟩

/-- Making a frame and binding a name in it keeps the heap before. -/
theorem Heap.Grows.frame (h : Heap) (upper : Nat) (name : String) (value : ObjectPtr) :
    (Context.Define h.contexts.length name value
        (Heap.mk h.objects (h.contexts ++ [⟨[], some upper⟩]))).Grows h ∧
    (Context.Define h.contexts.length name value
        (Heap.mk h.objects (h.contexts ++ [⟨[], some upper⟩]))).contexts[h.contexts.length]?
      = some ⟨[(name, value)], some upper⟩ := by
  have hd : Context.Define h.contexts.length name value
        (Heap.mk h.objects (h.contexts ++ [⟨[], some upper⟩]))
      = Heap.mk h.objects (h.contexts ++ [⟨[(name, value)], some upper⟩]) := by
    simp [Context.Define, assign]
  rw [hd]
  exact ⟨⟨⟨[], by simp⟩, ⟨_, rfl⟩⟩, by simp⟩

theorem Evaluate_symbol (fuel : Nat) {h : Heap} {a : Nat} {name : String} (context : Nat)
    (ha : h.objects[a]? = some (Object.Symbol name)) :
    Evaluate (fuel + 1) (some a) context h = (Context.Get h context name, h) := by
  simp [Evaluate, deref_some ha]

theorem Evaluate_number (fuel : Nat) {h : Heap} {a : Nat} {v : Int} (context : Nat)
    (ha : h.objects[a]? = some (Object.Number v)) :
    Evaluate (fuel + 1) (some a) context h = (Except.ok (some a), h) := by
  simp [Evaluate, deref_some ha]

/-- The scope chain of a frame that binds `n` above the scope captured by `fact`. -/
theorem fact_chain {h : Heap} {c p : Nat} (hg : h.Grows factHeap)
    (hc : h.contexts[c]? = some ⟨[("n", some p)], some 2⟩) :
    IsChain h (some c)
      [(c, ⟨[("n", some p)], some 2⟩), (2, ⟨[], some 1⟩), (1, ⟨[("fact", some 68)], some 0⟩),
        (0, keywordContext)] :=
  IsChain.cons hc (IsChain.cons (c := 2) (hg.context rfl) (IsChain.cons (c := 1)
    (hg.context rfl) (IsChain.cons (c := 0) (hg.context rfl) IsChain.nil)))

theorem fact_Get {h : Heap} {c p : Nat} (hg : h.Grows factHeap)
    (hc : h.contexts[c]? = some ⟨[("n", some p)], some 2⟩) :
    Context.Get h c "n" = Except.ok (some p) ∧
    Context.Get h c "fact" = Except.ok (some 68) ∧
    Context.Get h c "if" = Except.ok (some 32) ∧
    Context.Get h c "=" = Except.ok (some 5) ∧
    Context.Get h c "*" = Except.ok (some 2) ∧
    Context.Get h c "-" = Except.ok (some 1) := by
  have hchain := fact_chain hg hc
  refine ⟨?_, ?_, ?_, ?_, ?_, ?_⟩ <;>
    (rw [Get_eq hchain]; simp [holds, contains, List.lookup, keywordContext, keywordTable]) 

/-- The test `(= n 0)` of the body of `fact`, in a frame that binds `n` to the integer `v`. -/
theorem fact_test (g : Nat) {h : Heap} {c p : Nat} {v : Int} (hg : h.Grows factHeap)
    (hc : h.contexts[c]? = some ⟨[("n", some p)], some 2⟩)
    (hp : h.objects[p]? = some (Object.Number v)) :
    Evaluate (g + 2) (some 45) c h = make (Object.Boolean (decide (v = 0))) h := by
  obtain ⟨gn, _, _, geq, _, _⟩ := fact_Get hg hc
  have hargs : ListOf h (some 44) [some 41, some 42] :=
    ListOf.cons (hg.object rfl) (ListOf.cons (hg.object rfl) ListOf.nil)
  have h41 : Evaluate (g + 1) (some 41) c h = (Except.ok (some p), h) := by
    rw [Evaluate_symbol g c (hg.object (a := 41) rfl), gn]
  have h42 : Evaluate (g + 1) (some 42) c h = (Except.ok (some 42), h) :=
    Evaluate_number g c (hg.object (a := 42) rfl)
  have h0 : h.objects[42]? = some (Object.Number 0) := hg.object rfl
  rw [Evaluate_call g c (hg.object (a := 45) rfl) (hg.object (a := 40) rfl) geq
    (hg.object (a := 5) (o := Object.Builtin Operator.EqualOp) rfl) rfl]
  by_cases hv : v = 0
  · subst hv
    simp [Function.Apply, Operator.Apply, EqualOp.Apply, VectorizeList_listOf hargs, h41,
      asNumber_number hp, EqualOp.loop, h42, asNumber_number h0]
  · simp [Function.Apply, Operator.Apply, EqualOp.Apply, VectorizeList_listOf hargs, h41,
      asNumber_number hp, EqualOp.loop, h42, asNumber_number h0, hv]

/-- The argument `(- n 1)` of the call of `fact` in its body, in a frame that binds `n` to the
integer `v`. -/
theorem fact_argument (g : Nat) {h : Heap} {c p : Nat} {v : Int} (hg : h.Grows factHeap)
    (hc : h.contexts[c]? = some ⟨[("n", some p)], some 2⟩)
    (hp : h.objects[p]? = some (Object.Number v)) (hr : InRange (v - 1)) :
    Evaluate (g + 2) (some 55) c h = make (Object.Number (v - 1)) h := by
  obtain ⟨gn, _, _, _, _, gminus⟩ := fact_Get hg hc
  have hargs : ListOf h (some 54) [some 51, some 52] :=
    ListOf.cons (hg.object rfl) (ListOf.cons (hg.object rfl) ListOf.nil)
  have h51 : Evaluate (g + 1) (some 51) c h = (Except.ok (some p), h) := by
    rw [Evaluate_symbol g c (hg.object (a := 51) rfl), gn]
  have h52 : Evaluate (g + 1) (some 52) c h = (Except.ok (some 52), h) :=
    Evaluate_number g c (hg.object (a := 52) rfl)
  have h1 : h.objects[52]? = some (Object.Number 1) := hg.object rfl
  rw [Evaluate_call g c (hg.object (a := 55) rfl) (hg.object (a := 50) rfl) gminus
    (hg.object (a := 1) (o := Object.Builtin Operator.MinusOp) rfl) rfl]
  simp [Function.Apply, Operator.Apply, MinusOp.Apply, VectorizeList_listOf hargs, h51,
    asNumber_number hp, arithLoop, h52, asNumber_number h1, wrap64_of_range hr]

/-- The application of the lambda of `fact` to one argument: the argument is evaluated in the
scope of the caller and bound to `n` in a new frame above the captured scope `2`, in which the
body is evaluated. -/
theorem fact_apply (eval : Evaluator) {h h1 h2 : Heap} {args e : ObjectPtr} {contextp : Nat}
    {pv r : ObjectPtr} (hargs : ListOf h args [e])
    (he : eval e contextp (Heap.mk h.objects (h.contexts ++ [⟨[], some 2⟩]))
      = (Except.ok pv, h1))
    (hb : eval (some 64) h.contexts.length (Context.Define h.contexts.length "n" pv h1)
      = (Except.ok r, h2)) :
    Lambda.Apply eval [some 64] ["n"] 2 args contextp h = (Except.ok r, h2) := by
  simp [Lambda.Apply, VectorizeList_listOf hargs, makeContext, Heap.allocContext,
    Lambda.bindLoop, he, define, Lambda.bodyLoop, hb]

theorem Define_new_frame (h : Heap) (objects : List Object) (upper : Nat) (name : String)
    (value : ObjectPtr) :
    Context.Define h.contexts.length name value
        (Heap.mk objects (h.contexts ++ [⟨[], some upper⟩]))
      = Heap.mk objects (h.contexts ++ [⟨[(name, value)], some upper⟩]) := by
  simp [Context.Define, assign]

theorem Grows_append (h : Heap) (objects : List Object) (contexts : List Context) :
    (Heap.mk (h.objects ++ objects) (h.contexts ++ contexts)).Grows h :=
  ⟨⟨objects, rfl⟩, ⟨contexts, rfl⟩⟩

theorem factorial_succ_range {k : Nat} (hr : InRange ((k + 1).factorial : Int)) :
    InRange (k.factorial : Int) ∧ InRange (((k : Int) + 1) - 1) ∧
      InRange (1 * ((k : Int) + 1)) := by
  have h1 : k.factorial ≤ (k + 1).factorial := Nat.factorial_le (Nat.le_succ k)
  have h2 : k + 1 ≤ (k + 1).factorial := Nat.self_le_factorial (k + 1)
  unfold InRange at *
  have h3 : ((k.factorial : Nat) : Int) ≤ ((k + 1).factorial : Int) := by exact_mod_cast h1
  have h4 : ((k : Int) + 1) ≤ ((k + 1).factorial : Int) := by exact_mod_cast h2
  have h5 : (0 : Int) ≤ (k.factorial : Int) := by positivity
  refine ⟨⟨by omega, by omega⟩, ⟨by omega, by omega⟩, ⟨by omega, by omega⟩⟩

/-- The body of `fact` in a frame that binds `n` to the integer `k`, above the scope captured by
`fact`: with fuel `3 * k + 3` or more it returns a new integer `k!`, and the heap keeps what it
held. -/
theorem fact_body (k : Nat) : ∀ (h : Heap) (c p g : Nat), h.Grows factHeap →
    h.contexts[c]? = some ⟨[("n", some p)], some 2⟩ →
    h.objects[p]? = some (Object.Number k) →
    InRange (k.factorial : Int) → 3 * k ≤ g →
    ∃ q h2, Evaluate (g + 3) (some 64) c h = (Except.ok (some q), h2) ∧
      h2.objects[q]? = some (Object.Number (k.factorial : Int)) ∧ h2.Grows h := by
  induction k with
  | zero =>
    intro h c p g hg hc hp _ _
    obtain ⟨_, _, gif, _, _, _⟩ := fact_Get hg hc
    have hargs : ListOf h (some 63) [some 45, some 46, some 60] :=
      ListOf.cons (hg.object rfl) (ListOf.cons (hg.object rfl)
        (ListOf.cons (hg.object rfl) ListOf.nil))
    have htest := fact_test g hg hc hp
    have hg1 : (h.alloc (Object.Boolean true)).2.Grows h := Heap.Grows.alloc h _
    have h46 : (h.alloc (Object.Boolean true)).2.objects[46]? = some (Object.Number 1) :=
      hg1.object (hg.object rfl)
    refine ⟨46, (h.alloc (Object.Boolean true)).2, ?_, by simpa using h46, hg1⟩
    rw [Evaluate_call (g + 1) c (hg.object (a := 64) rfl) (hg.object (a := 39) rfl) gif
      (hg.object (a := 32) (o := Object.Builtin Operator.IfOp) rfl) rfl]
    have hb : Boolean.ofObject (some h.objects.length) (h.alloc (Object.Boolean true)).2
        = (Except.ok true, (h.alloc (Object.Boolean true)).2) := by
      simp [Boolean.ofObject, deref, Heap.alloc]
    have htest2 : Evaluate (g + 2) (some 45) c h
        = (Except.ok (some h.objects.length), (h.alloc (Object.Boolean true)).2) := by
      rw [htest]; rfl
    simp [Function.Apply, Operator.Apply, IfOp.Apply, VectorizeList_listOf hargs, htest2, hb,
      Evaluate_number (g + 1) c h46]
  | succ k ih =>
    intro h c p g hg hc hp hr hfuel
    obtain ⟨g, rfl⟩ : ∃ g2, g = g2 + 3 := ⟨g - 3, by omega⟩
    obtain ⟨hrk, hrm, hrt⟩ := factorial_succ_range hr
    have hpk : h.objects[p]? = some (Object.Number ((k : Int) + 1)) := by
      simpa using hp
    -- the test
    have hargs : ListOf h (some 63) [some 45, some 46, some 60] :=
      ListOf.cons (hg.object rfl) (ListOf.cons (hg.object rfl)
        (ListOf.cons (hg.object rfl) ListOf.nil))
    obtain ⟨_, _, gif, _, _, _⟩ := fact_Get hg hc
    have hne : ¬ ((k : Int) + 1 = 0) := by omega
    have htest : Evaluate (g + 5) (some 45) c h
        = (Except.ok (some h.objects.length), (h.alloc (Object.Boolean false)).2) := by
      rw [fact_test (g + 3) hg hc hpk]
      simp [hne, make, Heap.alloc]
    have hb : Boolean.ofObject (some h.objects.length) (h.alloc (Object.Boolean false)).2
        = (Except.ok false, (h.alloc (Object.Boolean false)).2) := by
      simp [Boolean.ofObject, deref, Heap.alloc]
    -- the heap after the test
    have hg1h : (h.alloc (Object.Boolean false)).2.Grows h := Heap.Grows.alloc h _
    have hg1 : (h.alloc (Object.Boolean false)).2.Grows factHeap := hg1h.trans_grows hg
    have hc1 : (h.alloc (Object.Boolean false)).2.contexts[c]?
        = some ⟨[("n", some p)], some 2⟩ := hg1h.context hc
    have hp1 : (h.alloc (Object.Boolean false)).2.objects[p]?
        = some (Object.Number ((k : Int) + 1)) := hg1h.object hpk
    generalize (h.alloc (Object.Boolean false)).2 = h1 at htest hb hg1h hg1 hc1 hp1
    obtain ⟨gn1, gfact1, _, _, gtimes1, _⟩ := fact_Get hg1 hc1
    -- the heap with the new frame, in which the argument is evaluated
    have hgA : (Heap.mk h1.objects (h1.contexts ++ [⟨[], some 2⟩])).Grows h1 := by
      have := Grows_append h1 [] [⟨[], some 2⟩]
      simpa using this
    have harg := fact_argument (g + 1) (hgA.trans_grows hg1) (hgA.context hc1) (hgA.object hp1) hrm
    have harg2 : Evaluate (g + 3) (some 55) c (Heap.mk h1.objects (h1.contexts ++ [⟨[], some 2⟩]))
        = (Except.ok (some h1.objects.length),
            Heap.mk (h1.objects ++ [Object.Number k]) (h1.contexts ++ [⟨[], some 2⟩])) := by
      rw [harg]
      simp [make, Heap.alloc]
    -- the frame of the call
    have hgD : (Heap.mk (h1.objects ++ [Object.Number k])
        (h1.contexts ++ [⟨[("n", some h1.objects.length)], some 2⟩])).Grows h1 :=
      Grows_append h1 _ _
    obtain ⟨q, h4, hbody, hq, hg4⟩ := ih
      (Heap.mk (h1.objects ++ [Object.Number k])
        (h1.contexts ++ [⟨[("n", some h1.objects.length)], some 2⟩]))
      h1.contexts.length h1.objects.length g (hgD.trans_grows hg1) (by simp) (by simp) hrk
      (by omega)
    have hcall : Evaluate (g + 4) (some 57) c h1 = (Except.ok (some q), h4) := by
      rw [Evaluate_call (g + 2) c (hg1.object (a := 57) rfl) (hg1.object (a := 49) rfl) gfact1
        (hg1.object (a := 68) (o := Object.Lambda [some 64] ["n"] 2) rfl) rfl]
      refine fact_apply (Evaluate (g + 3))
        (ListOf.cons (hg1.object (a := 56) rfl) ListOf.nil) harg2 ?_
      rw [Define_new_frame]
      exact hbody
    -- the product
    have hmul : ListOf h1 (some 59) [some 48, some 57] :=
      ListOf.cons (hg1.object rfl) (ListOf.cons (hg1.object rfl) ListOf.nil)
    have h48 : Evaluate (g + 4) (some 48) c h1 = (Except.ok (some p), h1) := by
      rw [Evaluate_symbol (g + 3) c (hg1.object (a := 48) rfl), gn1]
    have hprod : wrap64 (wrap64 (1 * ((k : Int) + 1)) * (k.factorial : Int))
        = ((k + 1).factorial : Int) := by
      rw [wrap64_of_range hrt]
      have : (1 * ((k : Int) + 1)) * (k.factorial : Int) = ((k + 1).factorial : Int) := by
        rw [Nat.factorial_succ]
        push_cast
        ring
      rw [this, wrap64_of_range hr]
    have h60 : Evaluate (g + 5) (some 60) c h1
        = make (Object.Number ((k + 1).factorial : Int)) h4 := by
      rw [Evaluate_call (g + 3) c (hg1.object (a := 60) rfl) (hg1.object (a := 47) rfl)
        gtimes1 (hg1.object (a := 2) (o := Object.Builtin Operator.MultiplyOp) rfl) rfl]
      simp only [Function.Apply, Operator.Apply, MultiplyOp.Apply, M.bind_apply,
        VectorizeList_listOf hmul, arithLoop, h48, asNumber_number hp1, hcall,
        asNumber_number hq, hprod, M.pure_apply]
    refine ⟨h4.objects.length, (h4.alloc (Object.Number ((k + 1).factorial : Int))).2, ?_,
      alloc_lookup h4 _, ((Heap.Grows.alloc h4 _).trans_grows hg4).trans_grows (hgD.trans_grows hg1h)⟩
    rw [Evaluate_call (g + 4) c (hg.object (a := 64) rfl) (hg.object (a := 39) rfl) gif
      (hg.object (a := 32) (o := Object.Builtin Operator.IfOp) rfl) rfl]
    simp only [Function.Apply, Operator.Apply, IfOp.Apply, M.bind_apply,
      VectorizeList_listOf hargs, htest, hb, Bool.false_eq_true, if_false, h60]
    rfl

set_option maxRecDepth 100000 in
theorem Read_factSource :
    Read 21 (Tokenizer.new factSource.data)
      = Except.ok (factTree, ⟨[], Token.BracketToken BracketToken.CLOSE, true⟩) := by
  decide

set_option maxRecDepth 100000 in
theorem store_factTree :
    (Interpreter.new.heap.store factTree).1 = some 67 ∧
    (Interpreter.new.heap.store factTree).2.objects = factHeap.objects.take 68 ∧
    (Interpreter.new.heap.store factTree).2.contexts = [keywordContext, ⟨[], some 0⟩] := by
  decide

/-- The function `Run` on `factSource` in a new interpreter, with fuel `21` or more: it returns
`fact` and leaves the heap `factHeap`. -/
theorem Run_factSource_fuel {fuel : Nat} (hfuel : 21 ≤ fuel) :
    Interpreter.new.Run fuel factSource = (Except.ok "fact", ⟨factHeap, 1⟩) := by
  obtain ⟨f, rfl⟩ : ∃ f, fuel = f + 2 := ⟨fuel - 2, by omega⟩
  have hread := Read_mono hfuel Read_factSource
  obtain ⟨hs1, hs2, hs3⟩ := store_factTree
  have hstore : Interpreter.new.heap.store factTree
      = (some 67, Heap.mk (factHeap.objects.take 68) [keywordContext, ⟨[], some 0⟩]) := by
    rw [← hs1, ← hs2, ← hs3]
  have heval : Evaluate (f + 2) (some 67) 1
      (Heap.mk (factHeap.objects.take 68) [keywordContext, ⟨[], some 0⟩])
      = (Except.ok (some 69), factHeap) := by
    rw [Evaluate_call f 1 (a := 67) (s := 34) (f := 27) (o := Object.Builtin Operator.DefineOp)
      (by rfl) (by rfl) (by rfl) (by rfl) rfl]
    rfl
  have hser : Serialize (f + 2) factHeap (some 69) = Except.ok "fact" :=
    Serialize_eq factHeap (f + 2) (Tree.Symbol "fact") (some 69) (Represents.symbol rfl)
      (by simp [Tree.size])
  simp only [Interpreter.Run, hread, Tokenizer.IsEnd, hstore, heval, hser]
  rfl

set_option maxRecDepth 100000 in
theorem Read_fact_call :
    ∀ n : Nat, n ≤ 20 →
      Read 4 (Tokenizer.new ("(fact " ++ to_string (n : Int) ++ ")").data)
        = Except.ok (Tree.Cell (Tree.Symbol "fact") (Tree.Cell (Tree.Number n) Tree.Null),
            ⟨[], Token.BracketToken BracketToken.CLOSE, true⟩) := by
  decide

theorem factorial_range {n : Nat} (hn : n ≤ 20) : InRange (n.factorial : Int) := by
  have h1 : n.factorial ≤ (20).factorial := Nat.factorial_le hn
  have h2 : (20).factorial = 2432902008176640000 := by decide
  rw [h2] at h1
  have h3 : ((n.factorial : Nat) : Int) ≤ 2432902008176640000 := by exact_mod_cast h1
  have h5 : (0 : Int) ≤ (n.factorial : Int) := by positivity
  unfold InRange
  constructor <;> omega

theorem store_fact_call (n : Int) :
    factHeap.store (Tree.Cell (Tree.Symbol "fact") (Tree.Cell (Tree.Number n) Tree.Null))
      = (some 73, factCallHeap n) := by
  have hlen70 : factHeap.objects.length = 70 := by decide
  simp [Heap.store, Heap.alloc, hlen70, factCallHeap]

theorem factCallHeap_grows (n : Int) : (factCallHeap n).Grows factHeap :=
  ⟨⟨_, rfl⟩, ⟨[], by simp [factCallHeap]⟩⟩

/-- The call `(fact n)` after the definition, with fuel `3 * n + 4` or more, for `n` whose
factorial is an `int64_t`: it prints `n!`. -/
theorem Run_fact_call {fuel n : Nat} (hfuel : 3 * n + 4 ≤ fuel)
    (hr : InRange (n.factorial : Int)) {s : String}
    (hread : Read fuel (Tokenizer.new s.data)
      = Except.ok (Tree.Cell (Tree.Symbol "fact") (Tree.Cell (Tree.Number n) Tree.Null),
          ⟨[], Token.BracketToken BracketToken.CLOSE, true⟩)) :
    (Interpreter.Run fuel ⟨factHeap, 1⟩ s).1 = Except.ok (to_string (n.factorial : Int)) := by
  obtain ⟨g, rfl⟩ : ∃ g, fuel = g + 4 := ⟨fuel - 4, by omega⟩
  have hg0 := factCallHeap_grows n
  have h73 : (factCallHeap n).objects[73]? = some (Object.Cell (some 70) (some 72)) := rfl
  have h72 : (factCallHeap n).objects[72]? = some (Object.Cell (some 71) none) := rfl
  have h71 : (factCallHeap n).objects[71]? = some (Object.Number n) := rfl
  have h70 : (factCallHeap n).objects[70]? = some (Object.Symbol "fact") := rfl
  have hlen : (factCallHeap n).contexts.length = 3 := rfl
  have hget : Context.Get (factCallHeap n) 1 "fact" = Except.ok (some 68) := rfl
  -- the frame of the call
  have hgD : (Heap.mk (factCallHeap n).objects
      ((factCallHeap n).contexts ++ [⟨[("n", some 71)], some 2⟩])).Grows (factCallHeap n) :=
    ⟨⟨[], by simp⟩, ⟨_, rfl⟩⟩
  have hframe : (Heap.mk (factCallHeap n).objects
      ((factCallHeap n).contexts ++ [⟨[("n", some 71)], some 2⟩])).contexts[
        (factCallHeap n).contexts.length]? = some ⟨[("n", some 71)], some 2⟩ := by
    simp
  obtain ⟨q, h2, hbody, hq, _⟩ := fact_body n _ _ 71 g (hgD.trans_grows hg0) hframe
    (hgD.object h71) hr (by omega)
  have heval : Evaluate (g + 4) (some 73) 1 (factCallHeap n) = (Except.ok (some q), h2) := by
    rw [Evaluate_call (g + 2) 1 h73 h70 hget
      (hg0.object (a := 68) (o := Object.Lambda [some 64] ["n"] 2) rfl) rfl]
    refine fact_apply (Evaluate (g + 3)) (ListOf.cons h72 ListOf.nil)
      (Evaluate_number (g + 2) 1
        (h := Heap.mk (factCallHeap n).objects ((factCallHeap n).contexts ++ [⟨[], some 2⟩]))
        h71) ?_
    rw [Define_new_frame]
    exact hbody
  have hser : Serialize (g + 4) h2 (some q) = Except.ok (to_string (n.factorial : Int)) :=
    Serialize_eq h2 (g + 4) (Tree.Number (n.factorial : Int)) (some q) (Represents.number hq)
      (by simp [Tree.size])
  have hend : (Tokenizer.IsEnd ⟨[], Token.BracketToken BracketToken.CLOSE, true⟩).1 = true :=
    rfl
  simp [Interpreter.Run, hread, hend, store_fact_call, heval, hser]

/-- C27. In a new interpreter, with fuel `64` or more: `Run` on the definition of `fact` returns
`fact`, and then `Run` on `(fact n)`, where `n` is the decimal print of an integer from `0` to
`20`, returns the decimal print of `n!`; `(fact 5)` returns `120`. -/
theorem C27_factorial (fuel : Nat) (hfuel : 64 ≤ fuel) :
    (Interpreter.new.Run fuel factSource).1 = Except.ok "fact" ∧
    (∀ n : Nat, n ≤ 20 →
      ((Interpreter.new.Run fuel factSource).2.Run fuel
        ("(fact " ++ to_string (n : Int) ++ ")")).1
        = Except.ok (to_string (n.factorial : Int))) ∧
    ((Interpreter.new.Run fuel factSource).2.Run fuel "(fact 5)").1 = Except.ok "120" := by
  have hdef := Run_factSource_fuel (show 21 ≤ fuel by omega)
  have hall : ∀ n : Nat, n ≤ 20 →
      ((Interpreter.new.Run fuel factSource).2.Run fuel
        ("(fact " ++ to_string (n : Int) ++ ")")).1
        = Except.ok (to_string (n.factorial : Int)) := by
    intro n hn
    rw [hdef]
    exact Run_fact_call (by omega) (factorial_range hn)
      (Read_mono (by omega) (Read_fact_call n hn))
  refine ⟨by rw [hdef], hall, ?_⟩
  have h5 := hall 5 (by omega)
  have hs : "(fact " ++ to_string ((5 : Nat) : Int) ++ ")" = "(fact 5)" := by decide
  have hp : to_string ((Nat.factorial 5 : Nat) : Int) = "120" := by decide
  rw [hs, hp] at h5
  exact h5

/-- The instance of C27 with fuel `64`. -/
theorem C27_factorial_witness :
    64 ≤ 64 ∧
    ((Interpreter.new.Run 64 factSource).1 = Except.ok "fact" ∧
    (∀ n : Nat, n ≤ 20 →
      ((Interpreter.new.Run 64 factSource).2.Run 64
        ("(fact " ++ to_string (n : Int) ++ ")")).1
        = Except.ok (to_string (n.factorial : Int))) ∧
    ((Interpreter.new.Run 64 factSource).2.Run 64 "(fact 5)").1 = Except.ok "120") :=
  ⟨by decide, C27_factorial 64 (by decide)⟩

theorem Tree.size_pos (t : Tree) : 1 ≤ t.size := by
  cases t <;> simp [Tree.size]
  omega

theorem ReadList_close (fuel : Nat) :
    ReadList (fuel + 1) ⟨[], Token.BracketToken BracketToken.CLOSE, false⟩
      = Except.ok (Tree.Null, ⟨[], Token.BracketToken BracketToken.CLOSE, true⟩) := by
  have nnil : nextToken [] = Except.ok none := by decide
  simp only [ReadList, ReadList.body]
  rw [IsEnd_of_ne (by simp), GetToken_of_ne (by simp)]
  simp [Next_eq, nnil]

/-- Reading an expression that ends its stream, on the stream continued by a text that starts
with a stopper: the same tree, and the tokenizer holds the first token of the continuation. -/
theorem Read_suffix {fuel : Nat} {tok last : Token} {rest : List Char} {t : Tree}
    (sfx : List Char) (hs : peekIs stopper sfx = true) (hm : tok ≠ Token.monostate)
    (hr : Read fuel ⟨rest, tok, false⟩ = Except.ok (t, ⟨[], last, true⟩))
    {x : Token × List Char} (hx : nextToken sfx = Except.ok (some x)) :
    Read fuel ⟨rest ++ sfx, tok, false⟩ = Except.ok (t, ⟨x.2, x.1, false⟩) := by
  have := ((Read_extends sfx hs fuel).1 ⟨rest, tok, false⟩ (t, ⟨[], last, true⟩) hm rfl hr).2
  simp only [extendResult, Tokenizer.continued, if_true, Next_eq, hx] at this
  exact this

theorem tailString_atom {b : Tree} (hb : b.isAtom = true) :
    tailString b = " . " ++ printRef b ++ ")" := by
  cases b <;> simp [Tree.isAtom, tailString, printRef] at hb ⊢

theorem tailString_stopper (b : Tree) : peekIs stopper (tailString b).data = true := by
  cases b <;> simp [tailString, String.data_append, peekIs] <;> decide

/-- An atom reads back. -/
theorem ReadsBack_atom {t : Tree} {tok : Token}
    (hn : nextToken (printRef t).data = Except.ok (some (tok, [])))
    (hread : ∀ fuel, Read.body (Read fuel) (ReadList fuel) ⟨[], tok, false⟩
        = Except.ok (t, ⟨[], tok, true⟩)) :
    ReadsBack t := by
  refine ⟨tok, [], tok, hn, nextToken_ne_monostate hn, ?_⟩
  intro fuel hf
  have hpos := Tree.size_pos t
  obtain ⟨m, rfl⟩ : ∃ m, fuel = m + 1 := ⟨fuel - 1, by omega⟩
  simp only [Read]
  exact hread m

theorem ReadsBack_number {v : Int} (h0 : -(2 ^ 31) ≤ v) (h1 : v < 2 ^ 31) :
    ReadsBack (Tree.Number v) := by
  have nnil : nextToken [] = Except.ok none := by decide
  have hn : nextToken (printRef (Tree.Number v)).data
      = Except.ok (some (Token.ConstantToken v, [])) := by
    simp only [printRef]
    by_cases hv : v = -(2 ^ 31)
    · subst hv
      decide
    · exact nextToken_to_string v (lt_of_le_of_ne h0 (Ne.symm hv)) h1
  refine ReadsBack_atom hn ?_
  intro fuel
  simp only [Read.body]
  rw [IsEnd_of_ne (by simp), GetToken_of_ne (by simp)]
  simp [Next_eq, nnil]

theorem ReadsBack_boolean (b : Bool) : ReadsBack (Tree.Boolean b) := by
  have nnil : nextToken [] = Except.ok none := by decide
  cases b
  · have hn : nextToken (printRef (Tree.Boolean false)).data
        = Except.ok (some (Token.SymbolToken "#f", [])) := by decide
    refine ReadsBack_atom hn ?_
    intro fuel
    simp only [Read.body]
    rw [IsEnd_of_ne (by simp), GetToken_of_ne (by simp)]
    simp [Next_eq, nnil]
  · have hn : nextToken (printRef (Tree.Boolean true)).data
        = Except.ok (some (Token.SymbolToken "#t", [])) := by decide
    refine ReadsBack_atom hn ?_
    intro fuel
    simp only [Read.body]
    rw [IsEnd_of_ne (by simp), GetToken_of_ne (by simp)]
    simp [Next_eq, nnil]

theorem ReadsBack_symbol {name : String} (hl : LegalSymbol name) (ht : name ≠ "#t")
    (hf : name ≠ "#f") : ReadsBack (Tree.Symbol name) := by
  have nnil : nextToken [] = Except.ok none := by decide
  have hn : nextToken (printRef (Tree.Symbol name)).data
      = Except.ok (some (Token.SymbolToken name, [])) := by
    simp only [printRef]
    exact hl
  refine ReadsBack_atom hn ?_
  intro fuel
  simp only [Read.body]
  rw [IsEnd_of_ne (by simp), GetToken_of_ne (by simp)]
  simp [Next_eq, nnil, ht, hf]

theorem ReadsBack_null : ReadsBack Tree.Null := by
  have ncl : nextToken [')']
      = Except.ok (some (Token.BracketToken BracketToken.CLOSE, [])) := by decide
  refine ⟨Token.BracketToken BracketToken.OPEN, [')'], Token.BracketToken BracketToken.CLOSE,
    by decide, by simp, ?_⟩
  intro fuel hf
  simp only [Tree.size] at hf
  obtain ⟨m, rfl⟩ : ∃ m, fuel = m + 2 := ⟨fuel - 2, by omega⟩
  simp only [Read, Read.body]
  rw [IsEnd_of_ne (by simp), GetToken_of_ne (by simp)]
  simp only [Next_eq, ncl]
  exact ReadList_close m

/-- The inside of the print of a pair reads back when its first element reads back and its
tail is the empty value, an atom that reads back, or a pair whose inside reads back. -/
theorem ReadsBackList_step {a b : Tree} (ha : ReadsBack a)
    (hb : b = Tree.Null ∨ (b.isAtom = true ∧ ReadsBack b) ∨
      ∃ a2 b2, b = Tree.Cell a2 b2 ∧ ReadsBackList a2 b2) :
    ReadsBackList a b := by
  obtain ⟨tok, rest, last, hn, hlast, hread⟩ := ha
  have hm : tok ≠ Token.monostate := nextToken_ne_monostate hn
  obtain ⟨hdot, hclose⟩ := @Read_first_token (2 * a.size) ⟨rest, tok, false⟩ _ hm rfl
    (hread _ (le_refl _))
  have hstop := tailString_stopper b
  have nnil : nextToken [] = Except.ok none := by decide
  have ncl : nextToken [')']
      = Except.ok (some (Token.BracketToken BracketToken.CLOSE, [])) := by decide
  have hn2 : nextToken (printRef a ++ tailString b).data
      = Except.ok (some (tok, rest ++ (tailString b).data)) := by
    rw [String.data_append, nextToken_extend _ hstop, hn]
  refine ⟨tok, rest ++ (tailString b).data, hn2, hdot, hclose, ?_⟩
  intro fuel hf
  have hpa := Tree.size_pos a
  have hpb := Tree.size_pos b
  obtain ⟨m, rfl⟩ : ∃ m, fuel = m + 1 := ⟨fuel - 1, by omega⟩
  have hra := hread m (by omega)
  simp only [ReadList, ReadList.body]
  rw [IsEnd_of_ne (by exact hm), GetToken_of_ne (by exact hm)]
  simp only [Bool.false_eq_true, if_false, hclose, hdot]
  rcases hb with hb | ⟨hatom, hrb⟩ | ⟨a2, b2, hb, hl⟩
  · -- the closing bracket
    subst hb
    have hx : nextToken (tailString Tree.Null).data
        = Except.ok (some (Token.BracketToken BracketToken.CLOSE, [])) := ncl
    rw [Read_suffix _ hstop hm hra hx]
    simp only
    rw [IsEnd_of_ne (by simp), GetToken_of_ne (by simp)]
    obtain ⟨k, rfl⟩ : ∃ k, m = k + 1 := ⟨m - 1, by omega⟩
    simp [ReadList_close]
  · -- the dotted tail
    obtain ⟨tokb, restb, lastb, hnb, hlastb, hreadb⟩ := hrb
    have hmb : tokb ≠ Token.monostate := nextToken_ne_monostate hnb
    have hx : nextToken (tailString b).data
        = Except.ok (some (Token.DotToken, ' ' :: ((printRef b).data ++ [')']))) := by
      rw [tailString_atom hatom]
      have hsp : isspace '.' = false := by decide
      simp only [String.data_append]
      show nextToken (' ' :: '.' :: ' ' :: ((printRef b).data ++ [')'])) = _
      rw [nextToken_space]
      simp [nextToken, List.dropWhile, hsp, IsParen, IsDot, GetDot]
    have hxb : nextToken (' ' :: ((printRef b).data ++ [')']))
        = Except.ok (some (tokb, restb ++ [')'])) := by
      rw [nextToken_space, nextToken_extend [')'] (by decide), hnb]
    have hrb2 := Read_suffix [')'] (by decide) hmb (hreadb m (by
      have : b.size = 1 := by cases b <;> simp [Tree.isAtom, Tree.size] at hatom ⊢
      omega)) ncl
    rw [Read_suffix _ hstop hm hra hx]
    simp only
    rw [IsEnd_of_ne (by simp), GetToken_of_ne (by simp)]
    simp only [Bool.false_eq_true, if_false, if_true, Next_eq, hxb, hrb2]
    rw [IsEnd_of_ne (by simp), GetToken_of_ne (by simp)]
    simp [Next_eq, nnil]
  · -- the next element
    subst hb
    obtain ⟨tok2, rest2, hn3, hdot2, hclose2, hread2⟩ := hl
    have hm2 : tok2 ≠ Token.monostate := nextToken_ne_monostate hn3
    have hx : nextToken (tailString (Tree.Cell a2 b2)).data
        = Except.ok (some (tok2, rest2)) := by
      simp only [tailString]
      rw [String.data_append]
      show nextToken (' ' :: (printRef a2 ++ tailString b2).data) = _
      rw [nextToken_space, hn3]
    rw [Read_suffix _ hstop hm hra hx]
    simp only
    rw [IsEnd_of_ne (by exact hm2), GetToken_of_ne (by exact hm2)]
    simp only [Bool.false_eq_true, if_false, hdot2]
    rw [hread2 m (by simp only [Tree.size] at hf; omega)]

/-- A pair reads back when its inside does. -/
theorem ReadsBack_cell {a b : Tree} (hl : ReadsBackList a b) : ReadsBack (Tree.Cell a b) := by
  obtain ⟨tok, rest, hn, hdot, hclose, hread⟩ := hl
  have hn1 : nextToken (printRef (Tree.Cell a b)).data
      = Except.ok (some (Token.BracketToken BracketToken.OPEN,
          (printRef a ++ tailString b).data)) := by
    rw [printRef_cell, String.data_append]
    have hsp : isspace '(' = false := by decide
    simp [nextToken, List.dropWhile, hsp, IsParen, GetParen]
  refine ⟨_, _, Token.BracketToken BracketToken.CLOSE, hn1, by simp, ?_⟩
  intro fuel hf
  simp only [Tree.size] at hf
  obtain ⟨m, rfl⟩ : ∃ m, fuel = m + 1 := ⟨fuel - 1, by omega⟩
  simp only [Read, Read.body]
  rw [IsEnd_of_ne (by simp), GetToken_of_ne (by simp)]
  simp only [Next_eq, hn]
  exact hread m (by omega)

/-- Every legal tree with no symbol named `#t` or `#f` reads back, and so does the inside of
its print when it is a pair. -/
theorem ReadsBack_of_legal (t : Tree) : t.Legal → t.NoBooleanName →
    ReadsBack t ∧ ∀ a b, t = Tree.Cell a b → ReadsBackList a b := by
  induction t with
  | Null => exact fun _ _ => ⟨ReadsBack_null, fun _ _ h => by cases h⟩
  | Number v => exact fun hl _ => ⟨ReadsBack_number hl.1 hl.2, fun _ _ h => by cases h⟩
  | Boolean v => exact fun _ _ => ⟨ReadsBack_boolean v, fun _ _ h => by cases h⟩
  | Symbol name => exact fun hl hn => ⟨ReadsBack_symbol hl hn.1 hn.2, fun _ _ h => by cases h⟩
  | Cell a b iha ihb =>
    intro hl hn
    obtain ⟨ra, _⟩ := iha hl.1 hn.1
    obtain ⟨rb, rlb⟩ := ihb hl.2 hn.2
    have hlist : ReadsBackList a b := by
      refine ReadsBackList_step ra ?_
      cases b with
      | Null => exact Or.inl rfl
      | Number v => exact Or.inr (Or.inl ⟨rfl, rb⟩)
      | Boolean v => exact Or.inr (Or.inl ⟨rfl, rb⟩)
      | Symbol name => exact Or.inr (Or.inl ⟨rfl, rb⟩)
      | Cell a2 b2 => exact Or.inr (Or.inr ⟨a2, b2, rfl, rlb a2 b2 rfl⟩)
    refine ⟨ReadsBack_cell hlist, ?_⟩
    intro a3 b3 h
    cases h
    exact hlist

/-- A symbol object named `#t`, placed in a heap by hand: its name is one the tokenizer accepts
whole and it prints as `#t`, but reading that print yields the boolean true, never the symbol.
No path of the program makes such an object (the reader turns the names `#t` and `#f` into
booleans before it makes a symbol), which is why the round trip is stated for trees with no
symbol of these names. -/
theorem symbol_named_true_reads_as_boolean :
    (Tree.Symbol "#t").Legal ∧
    Represents ⟨[Object.Symbol "#t"], []⟩ (some 0) (Tree.Symbol "#t") ∧
    Serialize 2 ⟨[Object.Symbol "#t"], []⟩ (some 0) = Except.ok "#t" ∧
    Read 2 (Tokenizer.new "#t".data)
      = Except.ok (Tree.Boolean true, ⟨[], Token.SymbolToken "#t", true⟩) ∧
    ∀ fuel tk, Read fuel (Tokenizer.new "#t".data) ≠ Except.ok (Tree.Symbol "#t", tk) := by
  have hread : Read 2 (Tokenizer.new "#t".data)
      = Except.ok (Tree.Boolean true, ⟨[], Token.SymbolToken "#t", true⟩) := by decide
  refine ⟨?_, Represents.symbol rfl, ?_, hread, ?_⟩
  · show LegalSymbol "#t"
    decide
  · exact Serialize_eq _ 2 (Tree.Symbol "#t") (some 0) (Represents.symbol rfl) (by decide)
  · intro fuel tk h
    rcases Nat.le_total fuel 2 with hle | hle
    · have := Read_mono hle h
      rw [hread] at this
      cases this
    · have := Read_mono hle hread
      rw [h] at this
      cases this

/-- The round trip in any heap, for a value whose tree has no symbol named `#t` or `#f`: the
value prints as the reference print of its tree, `Read` on that print returns the same tree and
leaves the tokenizer at the end of the stream with nothing unread, and the tree read, stored in
any heap, prints as the value did. -/
theorem round_trip_of_noBooleanName (h : Heap) (p : ObjectPtr) (t : Tree) (fuel : Nat)
    (hrep : Represents h p t) (hl : t.Legal) (hn : t.NoBooleanName)
    (hfuel : 2 * t.size ≤ fuel) :
    Serialize fuel h p = Except.ok (printRef t) ∧
    ∃ tk, Read fuel (Tokenizer.new (printRef t).data) = Except.ok (t, tk) ∧
      tk.IsEnd.1 = true ∧ tk.is_ = [] ∧
      ∀ h2 : Heap, Serialize fuel (h2.store t).2 (h2.store t).1 = Serialize fuel h p := by
  have hpos := Tree.size_pos t
  have hser := Serialize_eq h fuel t p hrep (by omega)
  obtain ⟨tok, rest, last, hnext, hlast, hread⟩ := (ReadsBack_of_legal t hl hn).1
  refine ⟨hser, ⟨[], last, true⟩, ?_, ?_, rfl, ?_⟩
  · obtain ⟨m, rfl⟩ : ∃ m, fuel = m + 1 := ⟨fuel - 1, by omega⟩
    rw [Read_new, hnext]
    exact hread _ hfuel
  · rw [IsEnd_of_ne (by exact hlast)]
  · intro h2
    rw [hser]
    exact Serialize_eq _ fuel t _ (store_represents t h2) (by omega)

/-! ## The frames of the interpreter -/

theorem Keeps_refl (h : Heap) : h.Keeps h := ⟨le_refl _, fun _ _ => rfl, fun _ _ ho _ => ho⟩

theorem Keeps_trans {h h2 h3 : Heap} (h12 : h.Keeps h2) (h23 : h2.Keeps h3) : h.Keeps h3 :=
  ⟨le_trans h12.1 h23.1, fun c hc => by
    rw [h23.2.1 c (lt_of_lt_of_le hc h12.1), h12.2.1 c hc],
    fun a o ho hc => h23.2.2 a o (h12.2.2 a o ho hc) hc⟩

theorem Keeps_of_contexts {h h2 : Heap} (hc : h2.contexts = h.contexts)
    (ho : ∀ (a : Nat) (o : Object), h.objects[a]? = some o → o.IsCell = false →
      h2.objects[a]? = some o) :
    h.Keeps h2 :=
  ⟨by rw [hc], fun c _ => by simp [Heap.upper, hc], ho⟩

theorem Keeps_of_extends {h h2 : Heap} (hc : h2.contexts = h.contexts) (hx : h2.Extends h) :
    h.Keeps h2 :=
  Keeps_of_contexts hc fun _ _ ho _ => hx.lookup ho

theorem Preserving_pure {α : Type} (a : α) : Preserving (Pure.pure a : M α) :=
  ⟨fun h => Keeps_refl h⟩

theorem Preserving_throw {α : Type} (e : Error) : Preserving (M.throw e : M α) :=
  ⟨fun h => Keeps_refl h⟩

theorem Preserving_read {α : Type} (f : Heap → Except Error α) : Preserving (M.read f) :=
  ⟨fun h => Keeps_refl h⟩

theorem Preserving_bind {α β : Type} {x : M α} {f : α → M β} (hx : Preserving x)
    (hf : ∀ a, Preserving (f a)) : Preserving (x >>= f) := by
  constructor
  intro h
  have h1 := hx.keeps h
  show h.Keeps (M.bind x f h).2
  unfold M.bind
  cases hr : x h with
  | mk r h2 =>
    rw [hr] at h1
    cases r with
    | error e => exact h1
    | ok a => exact Keeps_trans h1 ((hf a).keeps h2)

theorem Preserving_make (o : Object) : Preserving (make o) :=
  ⟨fun h => Keeps_of_extends rfl (alloc_extends h o)⟩

theorem Preserving_deref (p : ObjectPtr) : Preserving (deref p) := by
  constructor
  intro h
  unfold deref
  split
  · exact Keeps_refl h
  · split <;> exact Keeps_refl h

theorem Preserving_VectorizeList (p : ObjectPtr) : Preserving (VectorizeList p) :=
  Preserving_read _

theorem Preserving_makeContext (upper : Nat) : Preserving (makeContext upper) := by
  constructor
  intro h
  refine ⟨by simp [makeContext, Heap.allocContext], ?_, fun _ _ ho _ => ho⟩
  intro c hc
  simp [makeContext, Heap.allocContext, Heap.upper, List.getElem?_append_left hc]

theorem Keeps_set (h : Heap) (a : Nat) (ctx : Context) (table : List (String × ObjectPtr))
    (hctx : h.contexts[a]? = some ctx) :
    h.Keeps (Heap.mk h.objects (h.contexts.set a { ctx with name_table_ := table })) :=
  ⟨by simp, fun c _ => upper_set h a ctx ⟨table, ctx.upper_⟩ hctx rfl c, fun _ _ ho _ => ho⟩

theorem Preserving_define (context : Nat) (name : String) (value : ObjectPtr) :
    Preserving (define context name value) := by
  constructor
  intro h
  show h.Keeps (Context.Define context name value h)
  unfold Context.Define
  split
  · exact Keeps_refl h
  · rename_i ctx hctx
    exact Keeps_set h context ctx _ hctx

theorem Preserving_Set (context : Nat) (name : String) (value : ObjectPtr) :
    Preserving (Context.Set context name value : M Unit) := by
  constructor
  intro h
  unfold Context.Set
  split
  · exact Keeps_refl h
  · exact Keeps_refl h
  · split
    · exact Keeps_refl h
    · rename_i ctx hctx
      exact Keeps_set h _ ctx _ hctx

theorem Keeps_set_cell (h : Heap) (a : Nat) (f s f2 s2 : ObjectPtr)
    (ha : h.objects[a]? = some (Object.Cell f s)) :
    h.Keeps (Heap.mk (h.objects.set a (Object.Cell f2 s2)) h.contexts) := by
  refine Keeps_of_contexts rfl ?_
  intro b o ho hc
  by_cases hab : a = b
  · subst hab
    rw [ha] at ho
    cases ho
    cases hc
  · simp [List.getElem?_set, hab, ho]

theorem Preserving_SetFirst (a : Nat) (value : ObjectPtr) : Preserving (SetFirst a value) := by
  constructor
  intro h
  unfold SetFirst
  split
  · rename_i f s ha
    exact Keeps_set_cell h a f s value s ha
  · exact Keeps_refl h

theorem Preserving_SetSecond (a : Nat) (value : ObjectPtr) : Preserving (SetSecond a value) := by
  constructor
  intro h
  unfold SetSecond
  split
  · rename_i f s ha
    exact Keeps_set_cell h a f s f value ha
  · exact Keeps_refl h

theorem Preserving_asNumber (p : ObjectPtr) : Preserving (asNumber p) := by
  unfold asNumber
  repeat' first
    | exact Preserving_pure _
    | exact Preserving_throw _
    | exact Preserving_deref _
    | apply Preserving_bind
    | intro _
    | split

theorem Preserving_asSymbol (p : ObjectPtr) : Preserving (asSymbol p) := by
  unfold asSymbol
  repeat' first
    | exact Preserving_pure _
    | exact Preserving_throw _
    | exact Preserving_deref _
    | apply Preserving_bind
    | intro _
    | split

theorem Preserving_asCell (p : ObjectPtr) : Preserving (asCell p) := by
  unfold asCell
  repeat' first
    | exact Preserving_pure _
    | exact Preserving_throw _
    | exact Preserving_deref _
    | apply Preserving_bind
    | intro _
    | split

theorem Preserving_Is (t : Object → Bool) (p : ObjectPtr) : Preserving (Is t p) := by
  unfold Is
  repeat' first
    | exact Preserving_pure _
    | exact Preserving_throw _
    | exact Preserving_deref _
    | apply Preserving_bind
    | intro _
    | split

theorem Preserving_ofObject (p : ObjectPtr) : Preserving (Boolean.ofObject p) := by
  unfold Boolean.ofObject
  repeat' first
    | exact Preserving_pure _
    | exact Preserving_throw _
    | exact Preserving_deref _
    | apply Preserving_bind
    | intro _
    | split

theorem Preserving_divide (x y : Int) : Preserving (divide x y) := by
  unfold divide
  repeat' first
    | exact Preserving_pure _
    | exact Preserving_throw _
    | split

theorem Preserving_elementAt (l : List ObjectPtr) (i : Nat) : Preserving (elementAt l i) := by
  unfold elementAt
  repeat' first
    | exact Preserving_pure _
    | exact Preserving_throw _
    | split

theorem Preserving_argNames (l : List ObjectPtr) : Preserving (argNames l) := by
  induction l with
  | nil => exact Preserving_pure _
  | cons p rest ih =>
    unfold argNames
    repeat' first
      | exact Preserving_pure _
      | exact Preserving_asSymbol _
      | exact ih
      | apply Preserving_bind
      | intro _

theorem Preserving_copy (n : Nat) : ∀ p, Preserving (ListOp.copy n p) := by
  induction n with
  | zero => intro p; exact Preserving_throw _
  | succ n ih =>
    intro p
    cases p with
    | none => exact Preserving_pure _
    | some a =>
      unfold ListOp.copy
      repeat' first
        | exact Preserving_make _
        | exact Preserving_asCell _
        | exact ih _
        | apply Preserving_bind
        | intro _

theorem Preserving_ListTail_loop (k : Nat) : ∀ p, Preserving (ListTail.loop k p) := by
  induction k with
  | zero => intro p; exact Preserving_pure _
  | succ k ih =>
    intro p
    unfold ListTail.loop
    repeat' first
      | exact Preserving_throw _
      | exact Preserving_deref _
      | exact ih _
      | apply Preserving_bind
      | intro _
      | split

theorem Preserving_arithLoop (op : Int → Int → Int) {eval : Evaluator} (context : Nat)
    (heval : ∀ p c, Preserving (eval p c)) (l : List ObjectPtr) :
    ∀ r, Preserving (arithLoop op eval context l r) := by
  induction l with
  | nil => intro r; exact Preserving_pure _
  | cons p rest ih =>
    intro r
    unfold arithLoop
    repeat' first
      | exact heval _ _
      | exact Preserving_asNumber _
      | exact ih _
      | apply Preserving_bind
      | intro _

theorem Preserving_DivideOp_loop {eval : Evaluator} (context : Nat)
    (heval : ∀ p c, Preserving (eval p c)) (l : List ObjectPtr) :
    ∀ r, Preserving (DivideOp.loop eval context l r) := by
  induction l with
  | nil => intro r; exact Preserving_pure _
  | cons p rest ih =>
    intro r
    unfold DivideOp.loop
    repeat' first
      | exact heval _ _
      | exact Preserving_asNumber _
      | exact Preserving_divide _ _
      | exact ih _
      | apply Preserving_bind
      | intro _

theorem Preserving_EqualOp_loop {eval : Evaluator} (context : Nat)
    (heval : ∀ p c, Preserving (eval p c)) (v : Int) (l : List ObjectPtr) :
    Preserving (EqualOp.loop eval context v l) := by
  induction l with
  | nil => exact Preserving_pure _
  | cons p rest ih =>
    unfold EqualOp.loop
    repeat' first
      | exact heval _ _
      | exact Preserving_asNumber _
      | exact Preserving_pure _
      | exact ih
      | apply Preserving_bind
      | intro _
      | split

theorem Preserving_compareLoop (rel : Int → Int → Bool) {eval : Evaluator} (context : Nat)
    (heval : ∀ p c, Preserving (eval p c)) (l : List ObjectPtr) :
    ∀ v, Preserving (compareLoop rel eval context l v) := by
  induction l with
  | nil => intro v; exact Preserving_pure _
  | cons p rest ih =>
    intro v
    unfold compareLoop
    repeat' first
      | exact heval _ _
      | exact Preserving_asNumber _
      | exact Preserving_pure _
      | exact ih _
      | apply Preserving_bind
      | intro _
      | split

theorem Preserving_AndOp_loop {eval : Evaluator} (context : Nat)
    (heval : ∀ p c, Preserving (eval p c)) (l : List ObjectPtr) :
    ∀ v, Preserving (AndOp.loop eval context l v) := by
  induction l with
  | nil => intro v; exact Preserving_pure _
  | cons p rest ih =>
    intro v
    unfold AndOp.loop
    repeat' first
      | exact heval _ _
      | exact Preserving_ofObject _
      | exact Preserving_pure _
      | exact ih _
      | apply Preserving_bind
      | intro _
      | split

theorem Preserving_OrOp_loop {eval : Evaluator} (context : Nat)
    (heval : ∀ p c, Preserving (eval p c)) (l : List ObjectPtr) :
    Preserving (OrOp.loop eval context l) := by
  induction l with
  | nil => exact Preserving_make _
  | cons p rest ih =>
    unfold OrOp.loop
    repeat' first
      | exact heval _ _
      | exact Preserving_ofObject _
      | exact Preserving_pure _
      | exact ih
      | apply Preserving_bind
      | intro _
      | split

theorem Preserving_bindLoop {eval : Evaluator} (contextp cur : Nat)
    (heval : ∀ p c, Preserving (eval p c)) (names : List String) :
    ∀ l, Preserving (Lambda.bindLoop eval contextp cur names l) := by
  induction names with
  | nil => intro l; unfold Lambda.bindLoop; exact Preserving_pure _
  | cons name rest ih =>
    intro l
    cases l with
    | nil => unfold Lambda.bindLoop; exact Preserving_pure _
    | cons p ps =>
      unfold Lambda.bindLoop
      repeat' first
        | exact heval _ _
        | exact Preserving_define _ _ _
        | exact ih _
        | apply Preserving_bind
        | intro _

theorem Preserving_bodyLoop {eval : Evaluator} (cur : Nat)
    (heval : ∀ p c, Preserving (eval p c)) (l : List ObjectPtr) :
    ∀ r, Preserving (Lambda.bodyLoop eval cur l r) := by
  induction l with
  | nil => intro r; exact Preserving_pure _
  | cons p rest ih =>
    intro r
    unfold Lambda.bodyLoop
    repeat' first
      | exact heval _ _
      | exact ih _
      | apply Preserving_bind
      | intro _

/-- Every operator keeps the frames when the evaluator it is given does. -/
theorem Preserving_Operator_Apply {eval : Evaluator} (heval : ∀ p c, Preserving (eval p c))
    (op : Operator) (args : ObjectPtr) (context : Nat) :
    Preserving (Operator.Apply eval op args context) := by
  cases op <;>
  simp only [Operator.Apply, QuoteOp.Apply, PlusOp.Apply, MinusOp.Apply, MultiplyOp.Apply,
    DivideOp.Apply, IntegerPredicate.Apply, EqualOp.Apply, LessOp.Apply, GreaterOp.Apply,
    LessEqualOp.Apply, GreaterEqualOp.Apply, MinOp.Apply, MaxOp.Apply, AbsOp.Apply,
    PairPredicate.Apply, NullPredicate.Apply, ListPredicate.Apply, ConsOp.Apply, CarOp.Apply,
    CdrOp.Apply, ListOp.Apply, ListRef.Apply, ListTail.Apply, BooleanPredicate.Apply,
    NotOp.Apply, AndOp.Apply, OrOp.Apply, DefineOp.Apply, SymbolPredicate.Apply,
    SetCar.Apply, SetCdr.Apply, IfOp.Apply, LambdaOp.Apply, predicate, compareApply,
    extremumApply] <;>
  repeat' first
    | apply Preserving_bind
    | intro _
    | split
    | exact heval _ _
    | exact Preserving_deref _
    | exact Preserving_pure _
    | exact Preserving_throw _
    | exact Preserving_read _
    | exact Preserving_make _
    | exact Preserving_VectorizeList _
    | exact Preserving_asNumber _
    | exact Preserving_asSymbol _
    | exact Preserving_asCell _
    | exact Preserving_Is _ _
    | exact Preserving_ofObject _
    | exact Preserving_divide _ _
    | exact Preserving_elementAt _ _
    | exact Preserving_argNames _
    | exact Preserving_copy _ _
    | exact Preserving_ListTail_loop _ _
    | exact Preserving_arithLoop _ _ heval _ _
    | exact Preserving_DivideOp_loop _ heval _ _
    | exact Preserving_EqualOp_loop _ heval _ _
    | exact Preserving_compareLoop _ _ heval _ _
    | exact Preserving_AndOp_loop _ heval _ _
    | exact Preserving_OrOp_loop _ heval _
    | exact Preserving_makeContext _
    | exact Preserving_define _ _ _
    | exact Preserving_SetFirst _ _
    | exact Preserving_SetSecond _ _
    | exact Preserving_Set _ _ _

theorem Preserving_Lambda_Apply {eval : Evaluator} (heval : ∀ p c, Preserving (eval p c))
    (commands : List ObjectPtr) (arg_names : List String) (ctx : Nat) (args : ObjectPtr)
    (context : Nat) :
    Preserving (Lambda.Apply eval commands arg_names ctx args context) := by
  unfold Lambda.Apply
  repeat' first
    | exact Preserving_throw _
    | exact Preserving_VectorizeList _
    | exact Preserving_makeContext _
    | exact Preserving_bindLoop _ _ heval _ _
    | exact Preserving_bodyLoop _ heval _ _
    | apply Preserving_bind
    | split
    | intro _

theorem Preserving_Function_Apply {eval : Evaluator} (heval : ∀ p c, Preserving (eval p c))
    (f : Object) (args : ObjectPtr) (context : Nat) :
    Preserving (Function.Apply eval f args context) := by
  cases f <;> simp only [Function.Apply]
  all_goals first
    | exact Preserving_throw _
    | exact Preserving_Operator_Apply heval _ _ _
    | exact Preserving_Lambda_Apply heval _ _ _ _ _

/-- The function `::Evaluate` keeps the frames of the heap: no call removes a frame or changes
the upper frame of one. -/
theorem Preserving_Evaluate (fuel : Nat) : ∀ p c, Preserving (Evaluate fuel p c) := by
  induction fuel with
  | zero =>
    intro p c
    unfold Evaluate
    exact Preserving_throw _
  | succ fuel ih =>
    intro p c
    cases p with
    | none =>
      unfold Evaluate
      exact Preserving_throw _
    | some a =>
      unfold Evaluate
      simp only [Cell.Evaluate]
      repeat' first
        | exact ih _ _
        | exact Preserving_pure _
        | exact Preserving_throw _
        | exact Preserving_read _
        | exact Preserving_deref _
        | exact Preserving_Function_Apply ih _ _ _
        | apply Preserving_bind
        | split
        | intro _

theorem store_keeps (h : Heap) (t : Tree) : h.Keeps (h.store t).2 := by
  obtain ⟨new, hn, hc⟩ := store_objects t h
  exact Keeps_of_extends hc ⟨new, hn⟩

/-- The function `Run` keeps the global frame pointer and the frames of the heap. -/
theorem Run_keeps (fuel : Nat) (self : Interpreter) (s : String) :
    (self.Run fuel s).2.global_context_ = self.global_context_ ∧
    self.heap.Keeps (self.Run fuel s).2.heap := by
  unfold Interpreter.Run
  split
  · exact ⟨rfl, Keeps_refl _⟩
  · rename_i ast tokenizer _
    split
    · exact ⟨rfl, Keeps_refl _⟩
    · have hk := (Preserving_Evaluate fuel (self.heap.store ast).1 self.global_context_).keeps
        (self.heap.store ast).2
      have hs : self.heap.Keeps (self.heap.store ast).2 := store_keeps self.heap ast
      have := Keeps_trans hs hk
      dsimp only
      cases heq : Evaluate fuel (self.heap.store ast).1 self.global_context_
          (self.heap.store ast).2 with
      | mk r h =>
        rw [heq] at this
        cases r <;> exact ⟨rfl, this⟩

/-- In every interpreter that a new one becomes by calls of `Run`, the global frame is the
frame `1`, its upper frame is the frame `0` of the keywords, and that frame has no upper frame. -/
theorem Reachable_frames {i : Interpreter} (hi : Reachable i) :
    i.global_context_ = 1 ∧ i.heap.upper 1 = some 0 ∧ i.heap.upper 0 = none ∧
    2 ≤ i.heap.contexts.length := by
  induction hi with
  | new => exact ⟨rfl, rfl, rfl, by decide⟩
  | run fuel s _ ih =>
    obtain ⟨h1, h2, h3, h4⟩ := ih
    obtain ⟨k1, k2, k3, _⟩ := Run_keeps fuel _ s
    refine ⟨by rw [k1, h1], ?_, ?_, le_trans h4 k2⟩
    · rw [k3 1 (by omega), h2]
    · rw [k3 0 (by omega), h3]

/-- The form `define` on a symbol and an expression: the expression is evaluated and the name is
defined in the current frame, in the heap left by the expression. -/
theorem DefineOp_symbol {eval : Evaluator} {h h1 : Heap} {args expr : ObjectPtr} {n : Nat}
    {name : String} {v : ObjectPtr} (context : Nat)
    (hargs : ListOf h args [some n, expr])
    (hname : h.objects[n]? = some (Object.Symbol name))
    (heval : eval expr context h = (Except.ok v, h1))
    (hname1 : h1.objects[n]? = some (Object.Symbol name)) :
    DefineOp.Apply eval args context h
      = make (Object.Symbol name) (Context.Define context name v h1) := by
  simp [DefineOp.Apply, VectorizeList_listOf hargs, Is_eq Object.IsSymbol hname,
    Object.IsSymbol, heval, asSymbol_symbol hname1, define]

/-- The form `define` on a pair of a name and parameters: a new frame above the current one is
made for the lambda, and the name is defined in the current frame. -/
theorem DefineOp_function {eval : Evaluator} {h : Heap} {sargs params : ObjectPtr} {c n : Nat}
    {cmds ps : List ObjectPtr} {names : List String} {name : String} (context : Nat)
    (hs : ListOf h sargs (some c :: cmds))
    (hc : h.objects[c]? = some (Object.Cell (some n) params))
    (hn : h.objects[n]? = some (Object.Symbol name))
    (hps : ListOf h params ps) (hsym : AllSymbols h ps names) :
    DefineOp.Apply eval sargs context h
      = make (Object.Symbol name)
          (Context.Define context name (some h.objects.length)
            (Heap.mk (h.objects ++ [Object.Lambda cmds names h.contexts.length])
              (h.contexts ++ [⟨[], some context⟩]))) := by
  have hv1 := VectorizeList_listOf hs
  have hv2 := VectorizeList_listOf (ListOf.cons hc hps)
  have hnames := @argNames_symbols (Heap.mk h.objects (h.contexts ++ [⟨[], some context⟩]))
    ps names hsym
  simp [DefineOp.Apply, hv1, Is_eq Object.IsSymbol hc, Is_eq Object.IsCell hc,
    Object.IsSymbol, Object.IsCell, hv2, asSymbol_symbol hn, makeContext, Heap.allocContext,
    hnames, define]
  rfl

/-- The form `set!` on a name that the current frame does not bind and its upper frame binds:
the binding of the upper frame is replaced, in the heap left by the expression, and the old
value is returned. -/
theorem SetOp_upper_frame {eval : Evaluator} {h h1 : Heap} {args expr : ObjectPtr} {n : Nat}
    {name : String} {v old : ObjectPtr} {g b : Nat} {gctx bctx : Context}
    (hargs : ListOf h args [some n, expr])
    (heval : eval expr g h = (Except.ok v, h1))
    (hname1 : h1.objects[n]? = some (Object.Symbol name))
    (hg : h1.contexts[g]? = some gctx) (hup : gctx.upper_ = some b)
    (hb : h1.contexts[b]? = some bctx)
    (hng : gctx.name_table_.lookup name = none)
    (hold : bctx.name_table_.lookup name = some old) :
    SetOp.Apply eval args g h
      = (Except.ok old, Heap.mk h1.objects
          (h1.contexts.set b { bctx with name_table_ := assign bctx.name_table_ name v })) := by
  have hlen : 0 < h1.contexts.length := by
    by_contra hge
    rw [List.getElem?_eq_none (by omega)] at hg
    cases hg
  obtain ⟨m, hm⟩ : ∃ m, h1.contexts.length = m + 1 := ⟨h1.contexts.length - 1, by omega⟩
  have hwalk : Context.walk h1 name (h1.contexts.length + 1) (some g) = Except.ok (some b) := by
    rw [hm]
    simp [Context.walk, hg, contains, hng, hup, hb, hold]
  have hget : Context.Get h1 g name = Except.ok old := by
    simp [Context.Get, hwalk, hb, hold]
  have hset : Context.Set g name v h1
      = (Except.ok (), Heap.mk h1.objects
          (h1.contexts.set b { bctx with name_table_ := assign bctx.name_table_ name v })) := by
    simp [Context.Set, hwalk, hb]
  simp only [SetOp.Apply, M.bind_apply, VectorizeList_listOf hargs, heval,
    asSymbol_symbol hname1, M.read_apply, hget]
  rw [hset]
  rfl

theorem upper_some {h : Heap} {a b : Nat} (hu : h.upper a = some b) :
    ∃ ctx, h.contexts[a]? = some ctx ∧ ctx.upper_ = some b := by
  unfold Heap.upper at hu
  cases hc : h.contexts[a]? with
  | none => rw [hc] at hu; cases hu
  | some ctx =>
    rw [hc] at hu
    exact ⟨ctx, rfl, hu⟩

theorem binding_none {h : Heap} {a : Nat} {name : String} {ctx : Context}
    (hc : h.contexts[a]? = some ctx) (hb : h.binding a name = none) :
    ctx.name_table_.lookup name = none := by
  simpa [Heap.binding, hc] using hb

theorem binding_some {h : Heap} {a : Nat} {name : String} {ctx : Context} {v : ObjectPtr}
    (hc : h.contexts[a]? = some ctx) (hb : h.binding a name = some v) :
    ctx.name_table_.lookup name = some v := by
  simpa [Heap.binding, hc] using hb

/-- A heap in which the frame `a` binds one more name, or one name anew: every other frame,
every upper frame and every other binding of the frame are as before, and `Get` of the name
from the frame returns the value. -/
theorem frame_assign (objects : List Object) (h : Heap) (a : Nat) (ctx : Context)
    (name : String) (v : ObjectPtr) (hctx : h.contexts[a]? = some ctx) :
    (∀ c, c ≠ a →
      (Heap.mk objects (h.contexts.set a
        ⟨assign ctx.name_table_ name v, ctx.upper_⟩)).contexts[c]? = h.contexts[c]?) ∧
    (∀ c, (Heap.mk objects (h.contexts.set a
        ⟨assign ctx.name_table_ name v, ctx.upper_⟩)).upper c = h.upper c) ∧
    (∀ other, other ≠ name →
      (Heap.mk objects (h.contexts.set a
        ⟨assign ctx.name_table_ name v, ctx.upper_⟩)).binding a other = h.binding a other) ∧
    (Heap.mk objects (h.contexts.set a
        ⟨assign ctx.name_table_ name v, ctx.upper_⟩)).binding a name = some v ∧
    Context.Get (Heap.mk objects (h.contexts.set a
        ⟨assign ctx.name_table_ name v, ctx.upper_⟩)) a name = Except.ok v := by
  have hlt : a < h.contexts.length := by
    by_contra hge
    rw [List.getElem?_eq_none (by omega)] at hctx
    cases hctx
  refine ⟨?_, ?_, ?_, ?_, ?_⟩
  · intro c hc
    simp [List.getElem?_set, Ne.symm hc]
  · intro c
    exact upper_set (Heap.mk objects h.contexts) a ctx ⟨assign ctx.name_table_ name v, ctx.upper_⟩
      hctx rfl c
  · intro other hne
    rw [binding_set (Heap.mk objects h.contexts)]
    simp [hlt, Heap.binding, hctx, lookup_assign_ne _ _ _ _ hne]
  · rw [binding_set (Heap.mk objects h.contexts)]
    simp [hlt, lookup_assign_self]
  · simp [Context.Get, Context.walk, List.getElem?_set, hlt, contains_assign_self,
      lookup_assign_self]

/-- In a heap in which the frame `g` does not bind the name and its upper frame `b` binds it to
the value, `Get` of the name from the frame `g` returns the value. -/
theorem Get_upper_frame {h : Heap} {g b : Nat} {gctx bctx : Context} {name : String}
    {v : ObjectPtr} (hg : h.contexts[g]? = some gctx) (hup : gctx.upper_ = some b)
    (hb : h.contexts[b]? = some bctx) (hng : gctx.name_table_.lookup name = none)
    (hv : bctx.name_table_.lookup name = some v) :
    Context.Get h g name = Except.ok v := by
  have hlen : 0 < h.contexts.length := by
    by_contra hge
    rw [List.getElem?_eq_none (by omega)] at hg
    cases hg
  obtain ⟨m, hm⟩ : ∃ m, h.contexts.length = m + 1 := ⟨h.contexts.length - 1, by omega⟩
  have hwalk : Context.walk h name (h.contexts.length + 1) (some g) = Except.ok (some b) := by
    rw [hm]
    simp [Context.walk, hg, contains, hng, hup, hb, hv]
  simp [Context.Get, hwalk, hb, hv]

set_option maxRecDepth 100000 in
/-- C31. Builtins frame isolation. The global frame of a new interpreter is the frame `1`, a new
frame above the frame `0` of the keywords, which has no upper frame; and so it is in every
interpreter `i` that a new one becomes by calls of `Run`, and in the heap `h1` that an expression
leaves when it is evaluated in the global frame, from any heap `h` that keeps the heap of `i`
(such as the one in which `Run` has placed what it read). For the arguments of a symbol `name`
and an expression that evaluates to `v`: `define` applied in the global frame returns the symbol
and leaves every frame other than the frame `1`, the frame of the keywords included, as the
expression left it, while the frame `1` binds `name` to `v`, keeps its other bindings and its
upper frame, and `name` is then read as `v`; whatever the name, a keyword included. When the
frame `1` does not bind `name` and the frame of the keywords binds it, `set!` applied in the
global frame returns the old value and leaves every frame other than the frame `0` as the
expression left it, the frame `1` included, while the frame `0` binds `name` to `v` and keeps
its other bindings. The function shape of `define` makes one new frame above the frame `1`,
binds the name in the frame `1` and leaves the other frames as they were. Through `Run`, in a
new interpreter: `(define car 1)` leaves the frame of the keywords as it was and binds `car` in
the global frame; `(set! car 1)` leaves the global frame empty and rebinds `car` in the frame
of the keywords. -/
theorem C31_builtins_frame_isolation (i : Interpreter) (fuel : Nat) (h h1 : Heap)
    (args expr : ObjectPtr) (n : Nat) (name : String) (v : ObjectPtr)
    (hi : Reachable i) (hh : i.heap.Keeps h)
    (hargs : ListOf h args [some n, expr])
    (hname : h.objects[n]? = some (Object.Symbol name))
    (heval : Evaluate fuel expr i.global_context_ h = (Except.ok v, h1)) :
    (Interpreter.new.global_context_ = 1 ∧
      Interpreter.new.heap.contexts = [keywordContext, ⟨[], some 0⟩] ∧
      keywordContext.upper_ = none) ∧
    (i.global_context_ = 1 ∧ i.heap.upper 1 = some 0 ∧ i.heap.upper 0 = none ∧
      h1.upper 1 = some 0 ∧ h1.upper 0 = none) ∧
    (∃ h2, DefineOp.Apply (Evaluate fuel) args i.global_context_ h
          = (Except.ok (some h1.objects.length), h2) ∧
        h2.objects = h1.objects ++ [Object.Symbol name] ∧
        (∀ c, c ≠ 1 → h2.contexts[c]? = h1.contexts[c]?) ∧
        h2.contexts[0]? = h1.contexts[0]? ∧
        h2.upper 1 = some 0 ∧
        (∀ other, other ≠ name → h2.binding 1 other = h1.binding 1 other) ∧
        h2.binding 1 name = some v ∧
        Context.Get h2 1 name = Except.ok v) ∧
    (∀ old, h1.binding 1 name = none → h1.binding 0 name = some old →
      ∃ h2, SetOp.Apply (Evaluate fuel) args i.global_context_ h = (Except.ok old, h2) ∧
        h2.objects = h1.objects ∧
        (∀ c, c ≠ 0 → h2.contexts[c]? = h1.contexts[c]?) ∧
        h2.contexts[1]? = h1.contexts[1]? ∧
        h2.upper 0 = none ∧
        (∀ other, other ≠ name → h2.binding 0 other = h1.binding 0 other) ∧
        h2.binding 0 name = some v ∧
        Context.Get h2 1 name = Except.ok v) ∧
    (∀ (sargs params : ObjectPtr) (c m : Nat) (cmds ps : List ObjectPtr)
        (names : List String) (fname : String),
      ListOf h sargs (some c :: cmds) →
      h.objects[c]? = some (Object.Cell (some m) params) →
      h.objects[m]? = some (Object.Symbol fname) →
      ListOf h params ps → AllSymbols h ps names →
      ∃ h2, DefineOp.Apply (Evaluate fuel) sargs i.global_context_ h
          = (Except.ok (some (h.objects.length + 1)), h2) ∧
        h2.objects = h.objects ++
          [Object.Lambda cmds names h.contexts.length, Object.Symbol fname] ∧
        (∀ c, c ≠ 1 → h2.contexts[c]? = (h.contexts ++ [⟨[], some 1⟩])[c]?) ∧
        h2.contexts[0]? = h.contexts[0]? ∧
        h2.upper 1 = some 0 ∧
        (∀ other, other ≠ fname → h2.binding 1 other = h.binding 1 other) ∧
        h2.binding 1 fname = some (some h.objects.length)) ∧
    (Interpreter.new.Run 10 "(define car 1)").1 = Except.ok "car" ∧
    (Interpreter.new.Run 10 "(define car 1)").2.heap.contexts
      = [keywordContext, ⟨[("car", some 36)], some 0⟩] ∧
    (Interpreter.new.Run 10 "(set! car 1)").2.heap.contexts
      = [⟨assign keywordContext.name_table_ "car" (some 36), none⟩, ⟨[], some 0⟩] ∧
    repl.main 10 ["(define car 1)", "car", "(car (quote (2 3)))", "(cdr (quote (2 3)))"]
      = [Except.ok "car", Except.ok "1", Except.error Error.RuntimeError, Except.ok "(3)"] ∧
    repl.main 10 ["(set! cdr car)", "(cdr (quote (2 3)))", "(define cdr 7)", "cdr"]
      = [Except.error Error.RuntimeError, Except.ok "2", Except.ok "cdr", Except.ok "7"] := by
  obtain ⟨hg1, hu1, hu0, hlen⟩ := Reachable_frames hi
  rw [hg1] at heval ⊢
  have hk1 : h.Keeps h1 := by
    have := (Preserving_Evaluate fuel expr 1).keeps h
    rw [heval] at this
    exact this
  have hlenh : 2 ≤ h.contexts.length := le_trans hlen hh.1
  have hhu1 : h.upper 1 = some 0 := by rw [hh.2.1 1 (by omega), hu1]
  have hhu0 : h.upper 0 = none := by rw [hh.2.1 0 (by omega), hu0]
  have h1u1 : h1.upper 1 = some 0 := by rw [hk1.2.1 1 (by omega), hhu1]
  have h1u0 : h1.upper 0 = none := by rw [hk1.2.1 0 (by omega), hhu0]
  have hname1 : h1.objects[n]? = some (Object.Symbol name) := hk1.2.2 n _ hname rfl
  obtain ⟨gctx, hg, hgup⟩ := upper_some h1u1
  obtain ⟨bctx, hb⟩ : ∃ bctx, h1.contexts[0]? = some bctx := by
    have : 0 < h1.contexts.length := by
      have := hk1.1
      omega
    exact ⟨h1.contexts[0], List.getElem?_eq_getElem this⟩
  have hbup : bctx.upper_ = none := by
    simpa [Heap.upper, hb] using h1u0
  refine ⟨⟨rfl, rfl, rfl⟩, ⟨rfl, hu1, hu0, h1u1, h1u0⟩, ?_, ?_, ?_, by decide, by decide,
    by decide, by decide, by decide⟩
  · -- define
    obtain ⟨f1, f2, f3, f4, f5⟩ :=
      frame_assign (h1.objects ++ [Object.Symbol name]) h1 1 gctx name v hg
    refine ⟨_, ?_, rfl, f1, f1 0 (by decide), by rw [f2, h1u1], f3, f4, f5⟩
    rw [DefineOp_symbol 1 hargs hname heval hname1]
    simp [make, Heap.alloc, Context.Define, hg]
  · -- set!
    intro old hn1 ho0
    have hng := binding_none hg hn1
    have hold := binding_some hb ho0
    obtain ⟨f1, f2, f3, f4, _⟩ := frame_assign h1.objects h1 0 bctx name v hb
    refine ⟨_, SetOp_upper_frame hargs heval hname1 hg hgup hb hng hold, rfl, f1,
      f1 1 (by decide), by rw [f2, h1u0], f3, f4, ?_⟩
    have hg2 := (f1 1 (by decide)).trans hg
    have hb2 : (Heap.mk h1.objects (h1.contexts.set 0
        ⟨assign bctx.name_table_ name v, bctx.upper_⟩)).contexts[0]?
        = some ⟨assign bctx.name_table_ name v, bctx.upper_⟩ := by
      have : 0 < h1.contexts.length := by
        have := hk1.1
        omega
      simp [List.getElem?_set, this]
    exact Get_upper_frame hg2 hgup hb2 hng (lookup_assign_self _ _ _)
  · -- the function shape of define
    intro sargs params c m cmds ps names fname hs hc hm hps hsym
    obtain ⟨gctx0, hg0, _⟩ := upper_some hhu1
    have hgx : (Heap.mk (h.objects ++ [Object.Lambda cmds names h.contexts.length])
        (h.contexts ++ [⟨[], some 1⟩])).contexts[1]? = some gctx0 := by
      show (h.contexts ++ [⟨[], some 1⟩])[1]? = some gctx0
      rw [List.getElem?_append_left (by omega)]
      exact hg0
    obtain ⟨f1, f2, f3, f4, _⟩ := frame_assign
      (h.objects ++ [Object.Lambda cmds names h.contexts.length] ++ [Object.Symbol fname])
      (Heap.mk (h.objects ++ [Object.Lambda cmds names h.contexts.length])
        (h.contexts ++ [⟨[], some 1⟩])) 1 gctx0 fname (some h.objects.length) hgx
    refine ⟨_, ?_, by simp, f1, ?_, ?_, ?_, f4⟩
    · rw [DefineOp_function 1 hs hc hm hps hsym]
      simp [make, Heap.alloc, Context.Define, hgx]
    · rw [f1 0 (by decide)]
      show (h.contexts ++ [⟨[], some 1⟩])[0]? = h.contexts[0]?
      rw [List.getElem?_append_left (by omega)]
    · rw [f2]
      show Heap.upper (Heap.mk _ (h.contexts ++ [⟨[], some 1⟩])) 1 = some 0
      simp only [Heap.upper]
      rw [List.getElem?_append_left (by omega)]
      exact hhu1
    · intro other hne
      rw [f3 other hne]
      simp only [Heap.binding]
      rw [List.getElem?_append_left (by omega)]

set_option maxRecDepth 100000 in
/-- The instance of C31 on a new interpreter and `exampleHeapGlobal`, with the arguments
`(car 5)`: `define` binds `car` to the integer in the global frame and leaves the frame of the
keywords; `set!` returns the operator `car`, the object `17`, binds `car` to the integer in the
frame of the keywords and leaves the global frame; with the arguments `((f x) x)`, `define`
binds `f` to a new lambda in the global frame and leaves the frame of the keywords. -/
theorem C31_builtins_frame_isolation_witness :
    Reachable Interpreter.new ∧ Interpreter.new.heap.Keeps exampleHeapGlobal ∧
    ListOf exampleHeapGlobal (some 37) [some 34, some 35] ∧
    exampleHeapGlobal.objects[34]? = some (Object.Symbol "car") ∧
    Evaluate 1 (some 35) Interpreter.new.global_context_ exampleHeapGlobal
      = (Except.ok (some 35), exampleHeapGlobal) ∧
    (∃ h2, DefineOp.Apply (Evaluate 1) (some 37) 1 exampleHeapGlobal
        = (Except.ok (some 45), h2) ∧
      h2.contexts[0]? = some keywordContext ∧
      h2.binding 1 "car" = some (some 35) ∧
      Context.Get h2 1 "car" = Except.ok (some 35)) ∧
    (∃ h2, SetOp.Apply (Evaluate 1) (some 37) 1 exampleHeapGlobal
        = (Except.ok (some 17), h2) ∧
      h2.contexts[1]? = some ⟨[], some 0⟩ ∧
      h2.binding 0 "car" = some (some 35) ∧
      Context.Get h2 1 "car" = Except.ok (some 35)) ∧
    (∃ h2, DefineOp.Apply (Evaluate 1) (some 44) 1 exampleHeapGlobal
        = (Except.ok (some 46), h2) ∧
      h2.objects = exampleHeapGlobal.objects ++
        [Object.Lambda [some 42] ["x"] 2, Object.Symbol "f"] ∧
      h2.contexts[0]? = some keywordContext ∧
      h2.binding 1 "f" = some (some 45)) := by
  have hkeeps : Interpreter.new.heap.Keeps exampleHeapGlobal :=
    Keeps_trans (store_keeps _ _) (store_keeps _ _)
  have hlist : ListOf exampleHeapGlobal (some 37) [some 34, some 35] :=
    ListOf.cons rfl (ListOf.cons rfl ListOf.nil)
  have hev : Evaluate 1 (some 35) Interpreter.new.global_context_ exampleHeapGlobal
      = (Except.ok (some 35), exampleHeapGlobal) := by decide
  obtain ⟨_, _, ⟨h2, d1, _, _, d4, _, _, d7, d8⟩, hset, hfun, _⟩ :=
    C31_builtins_frame_isolation Interpreter.new 1 exampleHeapGlobal exampleHeapGlobal
      (some 37) (some 35) 34 "car" (some 35) Reachable.new hkeeps hlist rfl hev
  obtain ⟨h3, s1, _, _, s4, _, _, s7, s8⟩ := hset (some 17) rfl rfl
  obtain ⟨h4, f1, f2, _, f4, _, _, f7⟩ := hfun (some 44) (some 40) 41 38 [some 42] [some 39]
    ["x"] "f" (ListOf.cons rfl (ListOf.cons rfl ListOf.nil)) rfl rfl
    (ListOf.cons rfl ListOf.nil) (List.Forall₂.cons ⟨39, rfl, rfl⟩ List.Forall₂.nil)
  exact ⟨Reachable.new, hkeeps, hlist, rfl, hev, ⟨h2, d1, d4, d7, d8⟩, ⟨h3, s1, s4, s7, s8⟩,
    ⟨h4, f1, f2, f4, f7⟩⟩


/-! ## The names of the symbols of the heap -/

theorem NoBooleanSymbol_of_objects {h h2 : Heap} (ho : h2.objects = h.objects)
    (hn : h.NoBooleanSymbol) : h2.NoBooleanSymbol := by
  intro a name ha
  rw [ho] at ha
  exact hn a name ha

theorem NoBooleanSymbol_append {h : Heap} (hn : h.NoBooleanSymbol) (o : Object)
    (ho : ∀ name, o = Object.Symbol name → name ≠ "#t" ∧ name ≠ "#f")
    (contexts : List Context) :
    (Heap.mk (h.objects ++ [o]) contexts).NoBooleanSymbol := by
  intro a name ha
  by_cases hlt : a < h.objects.length
  · exact hn a name (by simpa [List.getElem?_append_left hlt] using ha)
  · have hge : h.objects.length ≤ a := by omega
    simp only [List.getElem?_append_right hge] at ha
    cases hk : a - h.objects.length with
    | zero =>
      rw [hk] at ha
      simp at ha
      exact ho name ha
    | succ k =>
      rw [hk] at ha
      simp at ha

theorem NoBooleanSymbol_set_cell {h : Heap} (hn : h.NoBooleanSymbol) (a : Nat)
    (f s : ObjectPtr) : (Heap.mk (h.objects.set a (Object.Cell f s)) h.contexts).NoBooleanSymbol := by
  intro b name hb
  by_cases hab : a = b
  · subst hab
    by_cases hlt : a < h.objects.length
    · simp [List.getElem?_set, hlt] at hb
    · simp [List.getElem?_set, hlt] at hb
  · simp only [List.getElem?_set, hab, if_false] at hb
    exact hn b name hb

theorem KeepsSymbols_of_objects {α : Type} {m : M α} (hm : ∀ h, (m h).2.objects = h.objects) :
    KeepsSymbols m :=
  ⟨fun h hn => NoBooleanSymbol_of_objects (hm h) hn⟩

theorem KeepsSymbols_pure {α : Type} (a : α) : KeepsSymbols (Pure.pure a : M α) :=
  ⟨fun _ hn => hn⟩

theorem KeepsSymbols_throw {α : Type} (e : Error) : KeepsSymbols (M.throw e : M α) :=
  ⟨fun _ hn => hn⟩

theorem KeepsSymbols_read {α : Type} (f : Heap → Except Error α) : KeepsSymbols (M.read f) :=
  ⟨fun _ hn => hn⟩

theorem KeepsSymbols_bind {α β : Type} {x : M α} {f : α → M β} (hx : KeepsSymbols x)
    (hf : ∀ a, KeepsSymbols (f a)) : KeepsSymbols (x >>= f) := by
  constructor
  intro h hn
  have h1 := hx.keeps h hn
  show (M.bind x f h).2.NoBooleanSymbol
  unfold M.bind
  cases hr : x h with
  | mk r h2 =>
    rw [hr] at h1
    cases r with
    | error e => exact h1
    | ok a => exact (hf a).keeps h2 h1

/-- Making an object that is no symbol. -/
theorem KeepsSymbols_make (o : Object) (ho : o.IsSymbol = false) : KeepsSymbols (make o) := by
  constructor
  intro h hn
  refine NoBooleanSymbol_append hn o ?_ h.contexts
  intro name hname
  subst hname
  cases ho

/-- Making a symbol whose name is neither `#t` nor `#f`. -/
theorem KeepsSymbols_make_symbol {name : String} (hg : name ≠ "#t" ∧ name ≠ "#f") :
    KeepsSymbols (make (Object.Symbol name)) := by
  constructor
  intro h hn
  refine NoBooleanSymbol_append hn _ ?_ h.contexts
  intro name2 hname
  cases hname
  exact hg

theorem KeepsSymbols_deref (p : ObjectPtr) : KeepsSymbols (deref p) := by
  apply KeepsSymbols_of_objects
  intro h
  unfold deref
  split
  · rfl
  · split <;> rfl

theorem KeepsSymbols_VectorizeList (p : ObjectPtr) : KeepsSymbols (VectorizeList p) :=
  KeepsSymbols_read _

theorem KeepsSymbols_makeContext (upper : Nat) : KeepsSymbols (makeContext upper) :=
  KeepsSymbols_of_objects fun _ => rfl

theorem KeepsSymbols_define (context : Nat) (name : String) (value : ObjectPtr) :
    KeepsSymbols (define context name value) := by
  apply KeepsSymbols_of_objects
  intro h
  show (Context.Define context name value h).objects = h.objects
  unfold Context.Define
  split <;> rfl

theorem KeepsSymbols_Set (context : Nat) (name : String) (value : ObjectPtr) :
    KeepsSymbols (Context.Set context name value : M Unit) := by
  apply KeepsSymbols_of_objects
  intro h
  unfold Context.Set
  split
  · rfl
  · rfl
  · split <;> rfl

theorem KeepsSymbols_SetFirst (a : Nat) (value : ObjectPtr) :
    KeepsSymbols (SetFirst a value) := by
  constructor
  intro h hn
  unfold SetFirst
  split
  · exact NoBooleanSymbol_set_cell hn a _ _
  · exact hn

theorem KeepsSymbols_SetSecond (a : Nat) (value : ObjectPtr) :
    KeepsSymbols (SetSecond a value) := by
  constructor
  intro h hn
  unfold SetSecond
  split
  · exact NoBooleanSymbol_set_cell hn a _ _
  · exact hn

/-- The name that `As<Symbol>` returns is the name of a symbol of the heap, so what follows it
may rely on the name being neither `#t` nor `#f`. -/
theorem KeepsSymbols_asSymbol_bind {β : Type} (p : ObjectPtr) {f : String → M β}
    (hf : ∀ name, name ≠ "#t" ∧ name ≠ "#f" → KeepsSymbols (f name)) :
    KeepsSymbols (asSymbol p >>= f) := by
  constructor
  intro h hn
  show (M.bind (asSymbol p) f h).2.NoBooleanSymbol
  unfold M.bind
  cases p with
  | none => simpa [asSymbol] using hn
  | some a =>
    cases ha : h.objects[a]? with
    | none => simpa [asSymbol, deref, ha] using hn
    | some o =>
      cases o with
      | Symbol name =>
        rw [asSymbol_symbol ha]
        exact (hf name (hn a name ha)).keeps h hn
      | _ => simpa [asSymbol, deref, ha] using hn

theorem KeepsSymbols_asNumber (p : ObjectPtr) : KeepsSymbols (asNumber p) := by
  unfold asNumber
  repeat' first
    | exact KeepsSymbols_pure _
    | exact KeepsSymbols_throw _
    | exact KeepsSymbols_deref _
    | apply KeepsSymbols_bind
    | intro _
    | split

theorem KeepsSymbols_asSymbol (p : ObjectPtr) : KeepsSymbols (asSymbol p) :=
  KeepsSymbols_of_objects fun h => by rw [asSymbol_heap]

theorem KeepsSymbols_asCell (p : ObjectPtr) : KeepsSymbols (asCell p) := by
  unfold asCell
  repeat' first
    | exact KeepsSymbols_pure _
    | exact KeepsSymbols_throw _
    | exact KeepsSymbols_deref _
    | apply KeepsSymbols_bind
    | intro _
    | split

theorem KeepsSymbols_Is (t : Object → Bool) (p : ObjectPtr) : KeepsSymbols (Is t p) := by
  unfold Is
  repeat' first
    | exact KeepsSymbols_pure _
    | exact KeepsSymbols_throw _
    | exact KeepsSymbols_deref _
    | apply KeepsSymbols_bind
    | intro _
    | split

theorem KeepsSymbols_ofObject (p : ObjectPtr) : KeepsSymbols (Boolean.ofObject p) := by
  unfold Boolean.ofObject
  repeat' first
    | exact KeepsSymbols_pure _
    | exact KeepsSymbols_throw _
    | exact KeepsSymbols_deref _
    | apply KeepsSymbols_bind
    | intro _
    | split

theorem KeepsSymbols_divide (x y : Int) : KeepsSymbols (divide x y) := by
  unfold divide
  repeat' first
    | exact KeepsSymbols_pure _
    | exact KeepsSymbols_throw _
    | split

theorem KeepsSymbols_elementAt (l : List ObjectPtr) (i : Nat) : KeepsSymbols (elementAt l i) := by
  unfold elementAt
  repeat' first
    | exact KeepsSymbols_pure _
    | exact KeepsSymbols_throw _
    | split

theorem KeepsSymbols_argNames (l : List ObjectPtr) : KeepsSymbols (argNames l) := by
  induction l with
  | nil => exact KeepsSymbols_pure _
  | cons p rest ih =>
    unfold argNames
    repeat' first
      | exact KeepsSymbols_pure _
      | exact KeepsSymbols_asSymbol _
      | exact ih
      | apply KeepsSymbols_bind
      | intro _

theorem KeepsSymbols_copy (n : Nat) : ∀ p, KeepsSymbols (ListOp.copy n p) := by
  induction n with
  | zero => intro p; exact KeepsSymbols_throw _
  | succ n ih =>
    intro p
    cases p with
    | none => exact KeepsSymbols_pure _
    | some a =>
      unfold ListOp.copy
      repeat' first
        | exact KeepsSymbols_make _ rfl
        | exact KeepsSymbols_asCell _
        | exact ih _
        | apply KeepsSymbols_bind
        | intro _

theorem KeepsSymbols_ListTail_loop (k : Nat) : ∀ p, KeepsSymbols (ListTail.loop k p) := by
  induction k with
  | zero => intro p; exact KeepsSymbols_pure _
  | succ k ih =>
    intro p
    unfold ListTail.loop
    repeat' first
      | exact KeepsSymbols_throw _
      | exact KeepsSymbols_deref _
      | exact ih _
      | apply KeepsSymbols_bind
      | intro _
      | split

theorem KeepsSymbols_arithLoop (op : Int → Int → Int) {eval : Evaluator} (context : Nat)
    (heval : ∀ p c, KeepsSymbols (eval p c)) (l : List ObjectPtr) :
    ∀ r, KeepsSymbols (arithLoop op eval context l r) := by
  induction l with
  | nil => intro r; exact KeepsSymbols_pure _
  | cons p rest ih =>
    intro r
    unfold arithLoop
    repeat' first
      | exact heval _ _
      | exact KeepsSymbols_asNumber _
      | exact ih _
      | apply KeepsSymbols_bind
      | intro _

theorem KeepsSymbols_DivideOp_loop {eval : Evaluator} (context : Nat)
    (heval : ∀ p c, KeepsSymbols (eval p c)) (l : List ObjectPtr) :
    ∀ r, KeepsSymbols (DivideOp.loop eval context l r) := by
  induction l with
  | nil => intro r; exact KeepsSymbols_pure _
  | cons p rest ih =>
    intro r
    unfold DivideOp.loop
    repeat' first
      | exact heval _ _
      | exact KeepsSymbols_asNumber _
      | exact KeepsSymbols_divide _ _
      | exact ih _
      | apply KeepsSymbols_bind
      | intro _

theorem KeepsSymbols_EqualOp_loop {eval : Evaluator} (context : Nat)
    (heval : ∀ p c, KeepsSymbols (eval p c)) (v : Int) (l : List ObjectPtr) :
    KeepsSymbols (EqualOp.loop eval context v l) := by
  induction l with
  | nil => exact KeepsSymbols_pure _
  | cons p rest ih =>
    unfold EqualOp.loop
    repeat' first
      | exact heval _ _
      | exact KeepsSymbols_asNumber _
      | exact KeepsSymbols_pure _
      | exact ih
      | apply KeepsSymbols_bind
      | intro _
      | split

theorem KeepsSymbols_compareLoop (rel : Int → Int → Bool) {eval : Evaluator} (context : Nat)
    (heval : ∀ p c, KeepsSymbols (eval p c)) (l : List ObjectPtr) :
    ∀ v, KeepsSymbols (compareLoop rel eval context l v) := by
  induction l with
  | nil => intro v; exact KeepsSymbols_pure _
  | cons p rest ih =>
    intro v
    unfold compareLoop
    repeat' first
      | exact heval _ _
      | exact KeepsSymbols_asNumber _
      | exact KeepsSymbols_pure _
      | exact ih _
      | apply KeepsSymbols_bind
      | intro _
      | split

theorem KeepsSymbols_AndOp_loop {eval : Evaluator} (context : Nat)
    (heval : ∀ p c, KeepsSymbols (eval p c)) (l : List ObjectPtr) :
    ∀ v, KeepsSymbols (AndOp.loop eval context l v) := by
  induction l with
  | nil => intro v; exact KeepsSymbols_pure _
  | cons p rest ih =>
    intro v
    unfold AndOp.loop
    repeat' first
      | exact heval _ _
      | exact KeepsSymbols_ofObject _
      | exact KeepsSymbols_pure _
      | exact ih _
      | apply KeepsSymbols_bind
      | intro _
      | split

theorem KeepsSymbols_OrOp_loop {eval : Evaluator} (context : Nat)
    (heval : ∀ p c, KeepsSymbols (eval p c)) (l : List ObjectPtr) :
    KeepsSymbols (OrOp.loop eval context l) := by
  induction l with
  | nil => exact KeepsSymbols_make _ rfl
  | cons p rest ih =>
    unfold OrOp.loop
    repeat' first
      | exact heval _ _
      | exact KeepsSymbols_ofObject _
      | exact KeepsSymbols_pure _
      | exact ih
      | apply KeepsSymbols_bind
      | intro _
      | split

theorem KeepsSymbols_bindLoop {eval : Evaluator} (contextp cur : Nat)
    (heval : ∀ p c, KeepsSymbols (eval p c)) (names : List String) :
    ∀ l, KeepsSymbols (Lambda.bindLoop eval contextp cur names l) := by
  induction names with
  | nil => intro l; unfold Lambda.bindLoop; exact KeepsSymbols_pure _
  | cons name rest ih =>
    intro l
    cases l with
    | nil => unfold Lambda.bindLoop; exact KeepsSymbols_pure _
    | cons p ps =>
      unfold Lambda.bindLoop
      repeat' first
        | exact heval _ _
        | exact KeepsSymbols_define _ _ _
        | exact ih _
        | apply KeepsSymbols_bind
        | intro _

theorem KeepsSymbols_bodyLoop {eval : Evaluator} (cur : Nat)
    (heval : ∀ p c, KeepsSymbols (eval p c)) (l : List ObjectPtr) :
    ∀ r, KeepsSymbols (Lambda.bodyLoop eval cur l r) := by
  induction l with
  | nil => intro r; exact KeepsSymbols_pure _
  | cons p rest ih =>
    intro r
    unfold Lambda.bodyLoop
    repeat' first
      | exact heval _ _
      | exact ih _
      | apply KeepsSymbols_bind
      | intro _

/-- Every operator other than `define` makes no symbol, so it leaves a heap with no symbol
named `#t` or `#f` when the evaluator it is given does. -/
theorem KeepsSymbols_Operator_Apply {eval : Evaluator} (heval : ∀ p c, KeepsSymbols (eval p c))
    (op : Operator) (args : ObjectPtr) (context : Nat) :
    KeepsSymbols (Operator.Apply eval op args context) := by
  cases op <;>
  simp only [Operator.Apply, QuoteOp.Apply, PlusOp.Apply, MinusOp.Apply, MultiplyOp.Apply,
    DivideOp.Apply, IntegerPredicate.Apply, EqualOp.Apply, LessOp.Apply, GreaterOp.Apply,
    LessEqualOp.Apply, GreaterEqualOp.Apply, MinOp.Apply, MaxOp.Apply, AbsOp.Apply,
    PairPredicate.Apply, NullPredicate.Apply, ListPredicate.Apply, ConsOp.Apply, CarOp.Apply,
    CdrOp.Apply, ListOp.Apply, ListRef.Apply, ListTail.Apply, BooleanPredicate.Apply,
    NotOp.Apply, AndOp.Apply, OrOp.Apply, DefineOp.Apply, SymbolPredicate.Apply,
    SetCar.Apply, SetCdr.Apply, IfOp.Apply, LambdaOp.Apply, predicate, compareApply,
    extremumApply] <;>
  repeat' first
    | apply KeepsSymbols_asSymbol_bind
    | apply KeepsSymbols_bind
    | intro _
    | split
    | exact heval _ _
    | exact KeepsSymbols_deref _
    | exact KeepsSymbols_pure _
    | exact KeepsSymbols_throw _
    | exact KeepsSymbols_read _
    | exact KeepsSymbols_make _ rfl
    | exact KeepsSymbols_make_symbol (by assumption)
    | exact KeepsSymbols_VectorizeList _
    | exact KeepsSymbols_asNumber _
    | exact KeepsSymbols_asSymbol _
    | exact KeepsSymbols_asCell _
    | exact KeepsSymbols_Is _ _
    | exact KeepsSymbols_ofObject _
    | exact KeepsSymbols_divide _ _
    | exact KeepsSymbols_elementAt _ _
    | exact KeepsSymbols_argNames _
    | exact KeepsSymbols_copy _ _
    | exact KeepsSymbols_ListTail_loop _ _
    | exact KeepsSymbols_arithLoop _ _ heval _ _
    | exact KeepsSymbols_DivideOp_loop _ heval _ _
    | exact KeepsSymbols_EqualOp_loop _ heval _ _
    | exact KeepsSymbols_compareLoop _ _ heval _ _
    | exact KeepsSymbols_AndOp_loop _ heval _ _
    | exact KeepsSymbols_OrOp_loop _ heval _
    | exact KeepsSymbols_makeContext _
    | exact KeepsSymbols_define _ _ _
    | exact KeepsSymbols_SetFirst _ _
    | exact KeepsSymbols_SetSecond _ _
    | exact KeepsSymbols_Set _ _ _

theorem KeepsSymbols_Lambda_Apply {eval : Evaluator} (heval : ∀ p c, KeepsSymbols (eval p c))
    (commands : List ObjectPtr) (arg_names : List String) (ctx : Nat) (args : ObjectPtr)
    (context : Nat) :
    KeepsSymbols (Lambda.Apply eval commands arg_names ctx args context) := by
  unfold Lambda.Apply
  repeat' first
    | exact KeepsSymbols_throw _
    | exact KeepsSymbols_VectorizeList _
    | exact KeepsSymbols_makeContext _
    | exact KeepsSymbols_bindLoop _ _ heval _ _
    | exact KeepsSymbols_bodyLoop _ heval _ _
    | apply KeepsSymbols_bind
    | split
    | intro _

theorem KeepsSymbols_Function_Apply {eval : Evaluator} (heval : ∀ p c, KeepsSymbols (eval p c))
    (f : Object) (args : ObjectPtr) (context : Nat) :
    KeepsSymbols (Function.Apply eval f args context) := by
  cases f <;> simp only [Function.Apply]
  all_goals first
    | exact KeepsSymbols_throw _
    | exact KeepsSymbols_Operator_Apply heval _ _ _
    | exact KeepsSymbols_Lambda_Apply heval _ _ _ _ _

/-- The function `::Evaluate` makes no symbol named `#t` or `#f`. -/
theorem KeepsSymbols_Evaluate (fuel : Nat) : ∀ p c, KeepsSymbols (Evaluate fuel p c) := by
  induction fuel with
  | zero =>
    intro p c
    unfold Evaluate
    exact KeepsSymbols_throw _
  | succ fuel ih =>
    intro p c
    cases p with
    | none =>
      unfold Evaluate
      exact KeepsSymbols_throw _
    | some a =>
      unfold Evaluate
      simp only [Cell.Evaluate]
      repeat' first
        | exact ih _ _
        | exact KeepsSymbols_pure _
        | exact KeepsSymbols_throw _
        | exact KeepsSymbols_read _
        | exact KeepsSymbols_deref _
        | exact KeepsSymbols_Function_Apply ih _ _ _
        | apply KeepsSymbols_bind
        | split
        | intro _


/-- The reader returns no symbol named `#t` or `#f`: it turns these two names into booleans. -/
theorem Read_noBooleanName (fuel : Nat) :
    (∀ tk t tk2, Read fuel tk = Except.ok (t, tk2) → t.NoBooleanName) ∧
    (∀ tk t tk2, ReadList fuel tk = Except.ok (t, tk2) → t.NoBooleanName) := by
  induction fuel with
  | zero => exact ⟨fun _ _ _ h => by simp [Read] at h, fun _ _ _ h => by simp [ReadList] at h⟩
  | succ n ih =>
    obtain ⟨ihr, ihl⟩ := ih
    constructor
    · intro tk t tk2 h
      simp only [Read, Read.body] at h
      repeat' split at h
      all_goals first
        | (cases h; done)
        | exact ihl _ _ _ h
        | (cases h; trivial)
        | (cases h
           exact ⟨⟨by decide, by decide⟩, ihr _ _ _ (by assumption), trivial⟩)
    · intro tk t tk2 h
      simp only [ReadList, ReadList.body] at h
      repeat' split at h
      all_goals first
        | (cases h; done)
        | (cases h; trivial)
        | (cases h
           exact ⟨ihr _ _ _ (by assumption), ihr _ _ _ (by assumption)⟩)
        | (cases h
           exact ⟨ihr _ _ _ (by assumption), ihl _ _ _ (by assumption)⟩)

theorem store_noBooleanSymbol (t : Tree) :
    ∀ h : Heap, t.NoBooleanName → h.NoBooleanSymbol → (h.store t).2.NoBooleanSymbol := by
  induction t with
  | Null => intro h _ hn; exact hn
  | Number v =>
    intro h _ hn
    exact NoBooleanSymbol_append hn _ (fun _ ho => by cases ho) h.contexts
  | Boolean v =>
    intro h _ hn
    exact NoBooleanSymbol_append hn _ (fun _ ho => by cases ho) h.contexts
  | Symbol name =>
    intro h ht hn
    exact NoBooleanSymbol_append hn _ (fun _ ho => by cases ho; exact ht) h.contexts
  | Cell a b iha ihb =>
    intro h ht hn
    have h1 := iha h ht.1 hn
    have h2 := ihb (h.store a).2 ht.2 h1
    exact NoBooleanSymbol_append h2 _ (fun _ ho => by cases ho) _

/-- The function `Run` leaves a heap with no symbol named `#t` or `#f` when it starts from
one. -/
theorem Run_noBooleanSymbol (fuel : Nat) (self : Interpreter) (s : String)
    (hn : self.heap.NoBooleanSymbol) : (self.Run fuel s).2.heap.NoBooleanSymbol := by
  unfold Interpreter.Run
  split
  · exact hn
  · rename_i ast tokenizer hread
    split
    · exact hn
    · have hs := store_noBooleanSymbol ast self.heap ((Read_noBooleanName fuel).1 _ _ _ hread) hn
      have hk := (KeepsSymbols_Evaluate fuel (self.heap.store ast).1 self.global_context_).keeps
        (self.heap.store ast).2 hs
      dsimp only
      cases heq : Evaluate fuel (self.heap.store ast).1 self.global_context_
          (self.heap.store ast).2 with
      | mk r h =>
        rw [heq] at hk
        cases r <;> exact hk

/-- No interpreter that a new one becomes by calls of `Run` holds a symbol named `#t` or `#f`:
a symbol is made by the reader, which makes booleans of these two names, and by `define`, which
takes the name of a symbol of the heap. -/
theorem Reachable_noBooleanSymbol {i : Interpreter} (hi : Reachable i) :
    i.heap.NoBooleanSymbol := by
  induction hi with
  | new =>
    intro a name ha
    have hmem := List.mem_iff_getElem?.2 ⟨a, ha⟩
    simp only [Interpreter.new, List.mem_map] at hmem
    obtain ⟨kw, _, hkw⟩ := hmem
    cases hkw
  | run fuel s _ ih => exact Run_noBooleanSymbol fuel _ s ih

theorem Represents_noBooleanName {h : Heap} {p : ObjectPtr} {t : Tree}
    (hr : Represents h p t) (hn : h.NoBooleanSymbol) : t.NoBooleanName := by
  induction hr with
  | null => trivial
  | number _ => trivial
  | boolean _ => trivial
  | symbol ho => exact hn _ _ ho
  | cell _ _ _ ihf ihs => exact ⟨ihf, ihs⟩

/-- C29. Print/read round trip. No interpreter reached from a new one by calls of `Run` holds a
symbol named `#t` or `#f`: the reader turns these names into booleans before it makes a symbol,
and the evaluator copies names of symbols that exist. In a heap with no such symbol, for every
value built only from integers of the 32-bit range (from `-2^31` to `2^31 - 1`; the print of
`-2^31` is read with the wrapped arithmetic of the `int` of `GetConstantOrSign`), booleans,
symbols whose names the tokenizer accepts, pairs and the empty value, and with a bound on the
depth of at least twice its size: the value prints as the reference print of its tree, `Read`
on that print returns the same tree and leaves the tokenizer at the end of the stream with
nothing unread, and the tree read, stored in any heap, prints as the value did. -/
theorem C29_print_read_round_trip :
    (∀ i : Interpreter, Reachable i → i.heap.NoBooleanSymbol) ∧
    (∀ (h : Heap) (p : ObjectPtr) (t : Tree) (fuel : Nat),
      h.NoBooleanSymbol → Represents h p t → t.Legal → 2 * t.size ≤ fuel →
      Serialize fuel h p = Except.ok (printRef t) ∧
      ∃ tk, Read fuel (Tokenizer.new (printRef t).data) = Except.ok (t, tk) ∧
        tk.IsEnd.1 = true ∧ tk.is_ = [] ∧
        ∀ h2 : Heap, Serialize fuel (h2.store t).2 (h2.store t).1 = Serialize fuel h p) :=
  ⟨fun _ hi => Reachable_noBooleanSymbol hi,
    fun h p t fuel hn hrep hl hfuel =>
      round_trip_of_noBooleanName h p t fuel hrep hl (Represents_noBooleanName hrep hn) hfuel⟩

/-- The instance of C29 at the value of `(quote (-5 (#t . a)))` in the interpreter that has
just run this text: the value is at the address `40`, it prints as `(-5 (#t . a))`, and `Read`
on this print returns its tree at the end of the stream. -/
theorem C29_print_read_round_trip_witness :
    (Interpreter.new.Run 20 "(quote (-5 (#t . a)))").2.heap.NoBooleanSymbol ∧
    Serialize 14 (Interpreter.new.Run 20 "(quote (-5 (#t . a)))").2.heap (some 40)
      = Except.ok "(-5 (#t . a))" ∧
    ∃ tk, Read 14 (Tokenizer.new "(-5 (#t . a))".data)
        = Except.ok (Tree.Cell (Tree.Number (-5))
            (Tree.Cell (Tree.Cell (Tree.Boolean true) (Tree.Symbol "a")) Tree.Null), tk) ∧
      tk.IsEnd.1 = true := by
  have hn := C29_print_read_round_trip.1 (Interpreter.new.Run 20 "(quote (-5 (#t . a)))").2
    (Reachable.run 20 "(quote (-5 (#t . a)))" Reachable.new)
  have hl : (Tree.Cell (Tree.Number (-5))
      (Tree.Cell (Tree.Cell (Tree.Boolean true) (Tree.Symbol "a")) Tree.Null)).Legal :=
    ⟨⟨by decide, by decide⟩, ⟨trivial, show LegalSymbol "a" by decide⟩, trivial⟩
  have hp : printRef (Tree.Cell (Tree.Number (-5))
      (Tree.Cell (Tree.Cell (Tree.Boolean true) (Tree.Symbol "a")) Tree.Null))
      = "(-5 (#t . a))" := by
    simp [printRef_cell, tailString, printRef, to_string]
    decide
  have hobj : (Interpreter.new.Run 20 "(quote (-5 (#t . a)))").2.heap.objects.drop 35
      = [Object.Number (-5), Object.Boolean true, Object.Symbol "a",
          Object.Cell (some 36) (some 37), Object.Cell (some 38) none,
          Object.Cell (some 35) (some 39), Object.Cell (some 40) none,
          Object.Cell (some 34) (some 41)] := by
    decide
  have hat : ∀ k, (Interpreter.new.Run 20 "(quote (-5 (#t . a)))").2.heap.objects[35 + k]?
      = ([Object.Number (-5), Object.Boolean true, Object.Symbol "a",
          Object.Cell (some 36) (some 37), Object.Cell (some 38) none,
          Object.Cell (some 35) (some 39), Object.Cell (some 40) none,
          Object.Cell (some 34) (some 41)] : List Object)[k]? := by
    intro k
    rw [← hobj, List.getElem?_drop]
  have hrep : Represents (Interpreter.new.Run 20 "(quote (-5 (#t . a)))").2.heap (some 40)
      (Tree.Cell (Tree.Number (-5))
        (Tree.Cell (Tree.Cell (Tree.Boolean true) (Tree.Symbol "a")) Tree.Null)) :=
    Represents.cell (hat 5) (Represents.number (hat 0))
      (Represents.cell (hat 4)
        (Represents.cell (hat 3) (Represents.boolean (hat 1)) (Represents.symbol (hat 2)))
        Represents.null)
  obtain ⟨hs, tk, hr, he, _, _⟩ := C29_print_read_round_trip.2 _ _ _ 14 hn hrep hl (by decide)
  rw [hp] at hs hr
  exact ⟨hn, hs, tk, hr, he⟩


/-! ## The reader and its grammar -/

theorem readDigits_length (s : List Char) : ∀ v, (readDigits s v).2.length ≤ s.length := by
  induction s with
  | nil => intro v; simp [readDigits]
  | cons c rest ih =>
    intro v
    unfold readDigits
    split
    · exact le_trans (ih _) (Nat.le_succ _)
    · exact le_refl _

theorem readSymbolTail_length (s : List Char) : (readSymbolTail s).2.length ≤ s.length := by
  induction s with
  | nil => simp [readSymbolTail]
  | cons c rest ih =>
    unfold readSymbolTail
    split
    · split
      · exact le_refl _
      · exact le_trans ih (Nat.le_succ _)
    · exact le_refl _

/-- Every token takes at least one character of the stream. -/
theorem nextToken_length {cs : List Char} {x : Token × List Char}
    (h : nextToken cs = Except.ok (some x)) : x.2.length < cs.length := by
  have hdrop : (cs.dropWhile isspace).length ≤ cs.length :=
    (List.dropWhile_sublist isspace).length_le
  unfold nextToken at h
  cases hd : cs.dropWhile isspace with
  | nil => rw [hd] at h; cases h
  | cons c r =>
    rw [hd] at h hdrop
    simp only [List.length_cons] at hdrop
    have key : x.2.length ≤ r.length := by
      simp only at h
      split at h
      · cases h
        simp only [GetParen]
        split <;> exact le_refl _
      · split at h
        · cases h
          simp [GetDot]
        · split at h
          · cases h
            simp [GetQuote]
          · split at h
            · rename_i hsd
              cases h
              unfold GetConstantOrSign
              simp only
              split
              · split
                · simp
                · split <;> exact readDigits_length _ _
              · rename_i hns
                have hdig : IsDigit c = true := by
                  simpa [hns] using hsd
                simp only [readDigits, hdig, if_true]
                exact readDigits_length _ _
            · cases hg : GetSymbol (c :: r) with
              | error e => rw [hg] at h; cases h
              | ok y =>
                rw [hg] at h
                cases h
                unfold GetSymbol at hg
                simp only at hg
                split at hg
                · cases hg
                  exact le_refl _
                · split at hg
                  · cases hg
                  · cases hg
                    exact readSymbolTail_length _
    omega

/-- No phrase of the grammar starts with a dot. -/
theorem Derives_dot {nt : Nonterminal} {ts : List Token} {t : Tree} {rest : List Token}
    (h : Derives nt ts t rest) : ∀ ts2, ts ≠ Token.DotToken :: ts2 := by
  induction h with
  | int v rest => intro ts2 h; cases h
  | bool_true rest => intro ts2 h; cases h
  | bool_false rest => intro ts2 h; cases h
  | symbol name rest _ _ => intro ts2 h; cases h
  | list _ _ => intro ts2 h; cases h
  | quote _ _ => intro ts2 h; cases h
  | empty rest => intro ts2 h; cases h
  | dotted _ _ ih _ => exact ih
  | cons _ _ ih _ => exact ih

/-- No phrase of the grammar is empty. -/
theorem Derives_nil {nt : Nonterminal} {ts : List Token} {t : Tree} {rest : List Token}
    (h : Derives nt ts t rest) : ts ≠ [] := by
  induction h with
  | int v rest => intro h; cases h
  | bool_true rest => intro h; cases h
  | bool_false rest => intro h; cases h
  | symbol name rest _ _ => intro h; cases h
  | list _ _ => intro h; cases h
  | quote _ _ => intro h; cases h
  | empty rest => intro h; cases h
  | dotted _ _ ih _ => exact ih
  | cons _ _ ih _ => exact ih

/-- No expression starts with a close bracket. -/
theorem Derives_expr_close {ts : List Token} {t : Tree} {rest : List Token} :
    ¬ Derives Nonterminal.expr (Token.BracketToken BracketToken.CLOSE :: ts) t rest := by
  intro h
  cases h

/-- A phrase stays one when tokens are added after it. -/
theorem Derives_append {nt : Nonterminal} {ts : List Token} {t : Tree} {rest : List Token}
    (h : Derives nt ts t rest) : ∀ more, Derives nt (ts ++ more) t (rest ++ more) := by
  induction h with
  | int v rest => intro more; exact Derives.int v _
  | bool_true rest => intro more; exact Derives.bool_true _
  | bool_false rest => intro more; exact Derives.bool_false _
  | symbol name rest h1 h2 => intro more; exact Derives.symbol name _ h1 h2
  | list _ ih => intro more; exact Derives.list (ih more)
  | quote _ ih => intro more; exact Derives.quote (ih more)
  | empty rest => intro more; exact Derives.empty _
  | dotted _ _ ih1 ih2 => intro more; exact Derives.dotted (ih1 more) (ih2 more)
  | cons _ _ ih1 ih2 => intro more; exact Derives.cons (ih1 more) (ih2 more)

/-- The one phrase that starts with a symbol token is that token, which denotes a boolean when
its name is `#t` or `#f` and a symbol otherwise. -/
theorem Derives_symbol_inv {name : String} {r : List Token} {t : Tree} {rest : List Token}
    (h : Derives Nonterminal.expr (Token.SymbolToken name :: r) t rest) :
    rest = r ∧ t = (if name = "#t" then Tree.Boolean true
      else if name = "#f" then Tree.Boolean false else Tree.Symbol name) := by
  generalize hts : (Token.SymbolToken name :: r) = ts at h
  generalize hnt : Nonterminal.expr = nt at h
  cases h with
  | int v rest => cases hts
  | bool_true rest =>
    injection hts with h1 h2
    injection h1 with h1
    subst h1 h2
    simp
  | bool_false rest =>
    injection hts with h1 h2
    injection h1 with h1
    subst h1 h2
    simp
  | symbol name2 rest h1 h2 =>
    injection hts with h3 h4
    injection h3 with h3
    subst h3 h4
    simp [h1, h2]
  | list _ => cases hts
  | quote _ => cases hts
  | empty rest => cases hnt
  | dotted _ _ => cases hnt
  | cons _ _ => cases hnt

/-- The grammar is unambiguous: a list of tokens starts with at most one phrase of a
nonterminal. -/
theorem Derives_unique {nt : Nonterminal} {ts : List Token} {t : Tree} {rest : List Token}
    (h : Derives nt ts t rest) :
    ∀ t2 rest2, Derives nt ts t2 rest2 → t = t2 ∧ rest = rest2 := by
  induction h with
  | int v rest => intro t2 rest2 h2; cases h2; exact ⟨rfl, rfl⟩
  | bool_true rest =>
    intro t2 rest2 h2
    obtain ⟨e1, e2⟩ := Derives_symbol_inv h2
    exact ⟨by rw [e2]; simp, e1.symm⟩
  | bool_false rest =>
    intro t2 rest2 h2
    obtain ⟨e1, e2⟩ := Derives_symbol_inv h2
    exact ⟨by rw [e2]; simp, e1.symm⟩
  | symbol name rest h1 h2 =>
    intro t2 rest2 h3
    obtain ⟨e1, e2⟩ := Derives_symbol_inv h3
    exact ⟨by rw [e2]; simp [h1, h2], e1.symm⟩
  | list _ ih =>
    intro t2 rest2 h2
    cases h2 with
    | list h3 => exact ih _ _ h3
  | quote _ ih =>
    intro t2 rest2 h2
    cases h2 with
    | quote h3 =>
      obtain ⟨e1, e2⟩ := ih _ _ h3
      exact ⟨by rw [e1], e2⟩
  | empty rest =>
    intro t2 rest2 h2
    cases h2 with
    | empty => exact ⟨rfl, rfl⟩
    | dotted h3 _ => exact absurd h3 Derives_expr_close
    | cons h3 _ => exact absurd h3 Derives_expr_close
  | dotted ha hb iha ihb =>
    intro t2 rest2 h2
    cases h2 with
    | empty => exact absurd ha Derives_expr_close
    | dotted h3 h4 =>
      obtain ⟨e1, e2⟩ := iha _ _ h3
      cases e2
      obtain ⟨e3, e4⟩ := ihb _ _ h4
      cases e4
      exact ⟨by rw [e1, e3], rfl⟩
    | cons h3 h4 =>
      obtain ⟨_, e2⟩ := iha _ _ h3
      exact absurd e2.symm (Derives_dot h4 _)
  | cons ha hb iha ihb =>
    intro t2 rest2 h2
    cases h2 with
    | empty => exact absurd ha Derives_expr_close
    | dotted h3 h4 =>
      obtain ⟨_, e2⟩ := iha _ _ h3
      exact absurd e2 (Derives_dot hb _)
    | cons h3 h4 =>
      obtain ⟨e1, e2⟩ := iha _ _ h3
      cases e2
      obtain ⟨e3, e4⟩ := ihb _ _ h4
      exact ⟨by rw [e1, e3], e4⟩

/-- No proper start of a phrase is a phrase: when tokens that are not all there would make a
phrase, those that are there do not. -/
theorem Derives_unfinished {nt : Nonterminal} {ts more : List Token} {t : Tree}
    {rest : List Token} (h : Derives nt (ts ++ more) t rest)
    (hr : rest.length < more.length) :
    ∀ t2 rest2, ¬ Derives nt ts t2 rest2 := by
  intro t2 rest2 h2
  obtain ⟨_, e⟩ := Derives_unique (Derives_append h2 more) _ _ h
  have := congrArg List.length e
  simp only [List.length_append] at this
  omega

theorem GetToken_error {tk : Tokenizer} {e : Error} (h : tk.GetToken = Except.error e) :
    e = Error.SyntaxError := by
  unfold Tokenizer.GetToken at h
  split at h
  · split at h
    · rename_i hn
      cases h
      exact Next_error hn
    · cases h
  · cases h

/-- The reader fails with syntax errors only; the bound on the depth of the recursion, which
the source does not have, is the one other failure of the embedding. -/
theorem Read_error_kind (fuel : Nat) :
    (∀ tk e, Read fuel tk = Except.error e →
      e = Error.SyntaxError ∨ e = Error.OutOfFuel) ∧
    (∀ tk e, ReadList fuel tk = Except.error e →
      e = Error.SyntaxError ∨ e = Error.OutOfFuel) := by
  induction fuel with
  | zero =>
    constructor
    · intro tk e h
      simp only [Read] at h
      cases h
      exact Or.inr rfl
    · intro tk e h
      simp only [ReadList] at h
      cases h
      exact Or.inr rfl
  | succ n ih =>
    obtain ⟨ihr, ihl⟩ := ih
    constructor
    · intro tk e h
      simp only [Read, Read.body] at h
      repeat' split at h
      all_goals first
        | exact ihl _ _ h
        | exact ihr _ _ h
        | (cases h; done)
        | (cases h; exact Or.inl rfl)
        | (cases h; exact Or.inl (Next_error (by assumption)))
        | (cases h; exact Or.inl (GetToken_error (by assumption)))
        | (cases h; exact ihr _ _ (by assumption))
    · intro tk e h
      simp only [ReadList, ReadList.body] at h
      repeat' split at h
      all_goals first
        | exact ihl _ _ h
        | exact ihr _ _ h
        | (cases h; done)
        | (cases h; exact Or.inl rfl)
        | (cases h; exact Or.inl (Next_error (by assumption)))
        | (cases h; exact Or.inl (GetToken_error (by assumption)))
        | (cases h; exact ihr _ _ (by assumption))
        | (cases h; exact ihl _ _ (by assumption))

/-- One call of `Read` on a tokenizer that holds a token: the token is taken, the next one is
read, and the token taken decides. -/
theorem Read_step (n : Nat) {tk : Tokenizer} (hm : tk.current_token_ ≠ Token.monostate)
    (he : tk.is_end_ = false) :
    Read (n + 1) tk =
      match tk.Next with
      | Except.error e => Except.error e
      | Except.ok tk2 =>
        match tk.current_token_ with
        | Token.BracketToken BracketToken.CLOSE => Except.error Error.SyntaxError
        | Token.BracketToken BracketToken.OPEN => ReadList n tk2
        | Token.ConstantToken value => Except.ok (Tree.Number value, tk2)
        | Token.SymbolToken name =>
          if name = "#t" then Except.ok (Tree.Boolean true, tk2)
          else if name = "#f" then Except.ok (Tree.Boolean false, tk2)
          else Except.ok (Tree.Symbol name, tk2)
        | Token.QuoteToken =>
          match Read n tk2 with
          | Except.error e => Except.error e
          | Except.ok (t, tk3) =>
            Except.ok (Tree.Cell (Tree.Symbol "quote") (Tree.Cell t Tree.Null), tk3)
        | Token.DotToken => Except.error Error.SyntaxError
        | Token.monostate => Except.error Error.SyntaxError := by
  simp only [Read, Read.body, IsEnd_of_ne hm, GetToken_of_ne hm, he, Bool.false_eq_true,
    if_false]

/-- The list reader on a close bracket: the empty value. -/
theorem ReadList_close_step (n : Nat) {tk : Tokenizer}
    (hc : tk.current_token_ = Token.BracketToken BracketToken.CLOSE) (he : tk.is_end_ = false) :
    ReadList (n + 1) tk =
      match tk.Next with
      | Except.error e => Except.error e
      | Except.ok tk2 => Except.ok (Tree.Null, tk2) := by
  have hm : tk.current_token_ ≠ Token.monostate := by rw [hc]; simp
  simp only [ReadList, ReadList.body, IsEnd_of_ne hm, GetToken_of_ne hm, he, hc,
    Bool.false_eq_true, if_false, if_true]

/-- An error of the first element is the error of the list. -/
theorem ReadList_element_error (n : Nat) {tk : Tokenizer} {e : Error}
    (hm : tk.current_token_ ≠ Token.monostate) (he : tk.is_end_ = false)
    (hclose : tk.current_token_ ≠ Token.BracketToken BracketToken.CLOSE)
    (hdot : tk.current_token_ ≠ Token.DotToken)
    (hr : Read n tk = Except.error e) :
    ReadList (n + 1) tk = Except.error e := by
  simp [ReadList, ReadList.body, IsEnd_of_ne hm, GetToken_of_ne hm, he, hclose, hdot, hr]

/-- After the first element and a token that is no dot, the list is the element and what
`ReadList` reads from there; an error of that is the error of the list. -/
theorem ReadList_cons_step (n : Nat) {tk tk2 : Tokenizer} {first : Tree}
    (hm : tk.current_token_ ≠ Token.monostate) (he : tk.is_end_ = false)
    (hclose : tk.current_token_ ≠ Token.BracketToken BracketToken.CLOSE)
    (hdot : tk.current_token_ ≠ Token.DotToken)
    (hr : Read n tk = Except.ok (first, tk2)) (he2 : tk2.is_end_ = false)
    (hd2 : tk2.current_token_ ≠ Token.DotToken) :
    ReadList (n + 1) tk =
      match ReadList n tk2 with
      | Except.error e => Except.error e
      | Except.ok (second, tk4) => Except.ok (Tree.Cell first second, tk4) := by
  have hm2 : tk2.current_token_ ≠ Token.monostate := Read_ne_monostate hm he hr
  simp only [ReadList, ReadList.body, IsEnd_of_ne hm, GetToken_of_ne hm, he, hclose, hdot, hr,
    IsEnd_of_ne hm2, he2, GetToken_of_ne hm2, hd2, Bool.false_eq_true, if_false]

/-- After the first element and a dot: the next token is read, the expression from there is
the tail, and a close bracket must follow; an error of the tail is the error of the list. -/
theorem ReadList_dotted_step (n : Nat) {tk tk2 : Tokenizer} {first : Tree}
    (hm : tk.current_token_ ≠ Token.monostate) (he : tk.is_end_ = false)
    (hclose : tk.current_token_ ≠ Token.BracketToken BracketToken.CLOSE)
    (hdot : tk.current_token_ ≠ Token.DotToken)
    (hr : Read n tk = Except.ok (first, tk2)) (he2 : tk2.is_end_ = false)
    (hd2 : tk2.current_token_ = Token.DotToken) :
    ReadList (n + 1) tk =
      match tk2.Next with
      | Except.error e => Except.error e
      | Except.ok tk4 =>
        match Read n tk4 with
        | Except.error e => Except.error e
        | Except.ok (second, tk5) =>
          if tk5.is_end_ then Except.error Error.SyntaxError
          else if tk5.current_token_ ≠ Token.BracketToken BracketToken.CLOSE then
            Except.error Error.SyntaxError
          else
            match tk5.Next with
            | Except.error e => Except.error e
            | Except.ok tk7 => Except.ok (Tree.Cell first second, tk7) := by
  have hm2 : tk2.current_token_ ≠ Token.monostate := Read_ne_monostate hm he hr
  simp only [ReadList, ReadList.body, IsEnd_of_ne hm, GetToken_of_ne hm, he, hclose, hdot, hr,
    IsEnd_of_ne hm2, he2, GetToken_of_ne hm2, hd2, Bool.false_eq_true, if_false, if_true]
  cases hn : tk2.Next with
  | error e => rfl
  | ok tk4 =>
    have hm4 : tk4.current_token_ ≠ Token.monostate := Next_ne_monostate hn hm2
    simp only
    cases hr4 : Read n tk4 with
    | error e => rfl
    | ok r =>
      obtain ⟨second, tk5⟩ := r
      have he4 : tk4.is_end_ = false := by
        cases h : tk4.is_end_ with
        | false => rfl
        | true => exact absurd hr4 (Read_end n hm4 h _)
      have hm5 : tk5.current_token_ ≠ Token.monostate := Read_ne_monostate hm4 he4 hr4
      simp only [IsEnd_of_ne hm5, GetToken_of_ne hm5]

/-- Reading the next token leaves fewer tokens to read. -/
theorem Next_unread {tk tk2 : Tokenizer} (hn : tk.Next = Except.ok tk2)
    (he : tk.is_end_ = false) : tk2.unread < tk.unread := by
  rw [Next_eq] at hn
  split at hn
  · cases hn
  · cases hn
    simp [Tokenizer.unread, he]
  · rename_i x hx
    cases hn
    have := nextToken_length hx
    simp only [Tokenizer.unread, he, Bool.false_eq_true, if_false]
    omega

/-- The reader takes at least one token. -/
theorem Read_unread (fuel : Nat) :
    (∀ tk t tk2, tk.current_token_ ≠ Token.monostate → Read fuel tk = Except.ok (t, tk2) →
      tk2.unread < tk.unread) ∧
    (∀ tk t tk2, tk.current_token_ ≠ Token.monostate → ReadList fuel tk = Except.ok (t, tk2) →
      tk2.unread < tk.unread) := by
  induction fuel with
  | zero => exact ⟨fun _ _ _ _ h => by simp [Read] at h, fun _ _ _ _ h => by simp [ReadList] at h⟩
  | succ n ih =>
    obtain ⟨ihr, ihl⟩ := ih
    constructor
    · intro tk t tk2 hm h
      cases he : tk.is_end_ with
      | true => exact absurd h (Read_end _ hm he _)
      | false =>
        rw [Read_step n hm he] at h
        cases hn : tk.Next with
        | error e => rw [hn] at h; cases h
        | ok tkn =>
          have hlt := Next_unread hn he
          have hmn := Next_ne_monostate hn hm
          rw [hn] at h
          simp only at h
          cases hc : tk.current_token_ with
          | monostate => exact absurd hc hm
          | ConstantToken v =>
            rw [hc] at h
            cases h
            exact hlt
          | SymbolToken name =>
            rw [hc] at h
            simp only at h
            split at h
            · cases h; exact hlt
            · split at h <;> (cases h; exact hlt)
          | BracketToken b =>
            rw [hc] at h
            cases b with
            | OPEN =>
              have := ihl _ _ _ hmn h
              omega
            | CLOSE => cases h
          | QuoteToken =>
            rw [hc] at h
            simp only at h
            cases hq : Read n tkn with
            | error e => rw [hq] at h; cases h
            | ok r =>
              obtain ⟨t3, tk3⟩ := r
              rw [hq] at h
              cases h
              have := ihr _ _ _ hmn hq
              omega
          | DotToken =>
            rw [hc] at h
            cases h
    · intro tk t tk7 hm h
      cases he : tk.is_end_ with
      | true => exact absurd h (ReadList_end _ hm he _)
      | false =>
        by_cases hclose : tk.current_token_ = Token.BracketToken BracketToken.CLOSE
        · rw [ReadList_close_step n hclose he] at h
          cases hn : tk.Next with
          | error e => rw [hn] at h; cases h
          | ok tkn =>
            rw [hn] at h
            cases h
            exact Next_unread hn he
        · by_cases hdot : tk.current_token_ = Token.DotToken
          · rw [ReadList_dot_first n tk hdot he] at h
            cases h
          · cases hr : Read n tk with
            | error e =>
              rw [ReadList_element_error n hm he hclose hdot hr] at h
              cases h
            | ok r =>
              obtain ⟨first, tk2⟩ := r
              have lt1 := ihr _ _ _ hm hr
              have hm2 : tk2.current_token_ ≠ Token.monostate := Read_ne_monostate hm he hr
              cases he2 : tk2.is_end_ with
              | true =>
                rw [ReadList_after_element n tk first tk2 hm he hclose hdot hr he2] at h
                cases h
              | false =>
                by_cases hd2 : tk2.current_token_ = Token.DotToken
                · rw [ReadList_dotted_step n hm he hclose hdot hr he2 hd2] at h
                  cases hn2 : tk2.Next with
                  | error e => rw [hn2] at h; cases h
                  | ok tk4 =>
                    have lt2 := Next_unread hn2 he2
                    have hm4 := Next_ne_monostate hn2 hm2
                    rw [hn2] at h
                    simp only at h
                    cases hr4 : Read n tk4 with
                    | error e => rw [hr4] at h; cases h
                    | ok r4 =>
                      obtain ⟨second, tk5⟩ := r4
                      have lt3 := ihr _ _ _ hm4 hr4
                      rw [hr4] at h
                      simp only at h
                      split at h
                      · cases h
                      · rename_i he5
                        split at h
                        · cases h
                        · cases hn5 : tk5.Next with
                          | error e => rw [hn5] at h; cases h
                          | ok tk6 =>
                            rw [hn5] at h
                            cases h
                            have lt4 := Next_unread hn5 (by simpa using he5)
                            omega
                · rw [ReadList_cons_step n hm he hclose hdot hr he2 hd2] at h
                  cases hl : ReadList n tk2 with
                  | error e => rw [hl] at h; cases h
                  | ok r2 =>
                    obtain ⟨second, tk4⟩ := r2
                    rw [hl] at h
                    cases h
                    have := ihl _ _ _ hm2 hl
                    omega

/-- With a bound on the depth of more than twice the number of tokens left, the reader does not
stop at the bound. -/
theorem Read_fuel (fuel : Nat) :
    (∀ tk, tk.current_token_ ≠ Token.monostate → 2 * tk.unread + 1 ≤ fuel →
      Read fuel tk ≠ Except.error Error.OutOfFuel) ∧
    (∀ tk, tk.current_token_ ≠ Token.monostate → 2 * tk.unread + 2 ≤ fuel →
      ReadList fuel tk ≠ Except.error Error.OutOfFuel) := by
  induction fuel with
  | zero => exact ⟨fun _ _ h => by omega, fun _ _ h => by omega⟩
  | succ n ih =>
    obtain ⟨ihr, ihl⟩ := ih
    constructor
    · intro tk hm hf h
      cases he : tk.is_end_ with
      | true =>
        simp [Read, Read_body_end _ _ hm he] at h
      | false =>
        rw [Read_step n hm he] at h
        cases hn : tk.Next with
        | error e =>
          rw [hn] at h
          cases h
          cases Next_error hn
        | ok tkn =>
          have hlt := Next_unread hn he
          have hmn := Next_ne_monostate hn hm
          rw [hn] at h
          simp only at h
          cases hc : tk.current_token_ with
          | monostate => exact absurd hc hm
          | ConstantToken v =>
            rw [hc] at h
            cases h
          | SymbolToken name =>
            rw [hc] at h
            simp only at h
            split at h
            · cases h
            · split at h <;> cases h
          | BracketToken b =>
            rw [hc] at h
            cases b with
            | OPEN => exact ihl tkn hmn (by omega) h
            | CLOSE => cases h
          | QuoteToken =>
            rw [hc] at h
            simp only at h
            cases hq : Read n tkn with
            | error e =>
              rw [hq] at h
              cases h
              exact ihr tkn hmn (by omega) hq
            | ok r =>
              rw [hq] at h
              cases h
          | DotToken =>
            rw [hc] at h
            cases h
    · intro tk hm hf h
      cases he : tk.is_end_ with
      | true =>
        simp [ReadList, ReadList_body_end _ _ hm he] at h
      | false =>
        by_cases hclose : tk.current_token_ = Token.BracketToken BracketToken.CLOSE
        · rw [ReadList_close_step n hclose he] at h
          cases hn : tk.Next with
          | error e =>
            rw [hn] at h
            cases h
            cases Next_error hn
          | ok tkn =>
            rw [hn] at h
            cases h
        · by_cases hdot : tk.current_token_ = Token.DotToken
          · rw [ReadList_dot_first n tk hdot he] at h
            cases h
          · cases hr : Read n tk with
            | error e =>
              rw [ReadList_element_error n hm he hclose hdot hr] at h
              cases h
              exact ihr tk hm (by omega) hr
            | ok r =>
              obtain ⟨first, tk2⟩ := r
              have lt1 := (Read_unread n).1 _ _ _ hm hr
              have hm2 : tk2.current_token_ ≠ Token.monostate := Read_ne_monostate hm he hr
              cases he2 : tk2.is_end_ with
              | true =>
                rw [ReadList_after_element n tk first tk2 hm he hclose hdot hr he2] at h
                cases h
              | false =>
                by_cases hd2 : tk2.current_token_ = Token.DotToken
                · rw [ReadList_dotted_step n hm he hclose hdot hr he2 hd2] at h
                  cases hn2 : tk2.Next with
                  | error e =>
                    rw [hn2] at h
                    cases h
                    cases Next_error hn2
                  | ok tk4 =>
                    have lt2 := Next_unread hn2 he2
                    have hm4 := Next_ne_monostate hn2 hm2
                    rw [hn2] at h
                    simp only at h
                    cases hr4 : Read n tk4 with
                    | error e =>
                      rw [hr4] at h
                      cases h
                      exact ihr tk4 hm4 (by omega) hr4
                    | ok r4 =>
                      obtain ⟨second, tk5⟩ := r4
                      rw [hr4] at h
                      simp only at h
                      split at h
                      · cases h
                      · split at h
                        · cases h
                        · cases hn5 : tk5.Next with
                          | error e =>
                            rw [hn5] at h
                            cases h
                            cases Next_error hn5
                          | ok tk6 =>
                            rw [hn5] at h
                            cases h
                · rw [ReadList_cons_step n hm he hclose hdot hr he2 hd2] at h
                  cases hl : ReadList n tk2 with
                  | error e =>
                    rw [hl] at h
                    cases h
                    exact ihl tk2 hm2 (by omega) hl
                  | ok r2 =>
                    rw [hl] at h
                    cases h

/-- On a text, with a bound on the depth of more than twice its length, `Read` returns a tree
or fails with a syntax error. -/
theorem Read_new_fuel (cs : List Char) (fuel : Nat) (hf : 2 * cs.length + 3 ≤ fuel) :
    (∃ r, Read fuel (Tokenizer.new cs) = Except.ok r) ∨
    Read fuel (Tokenizer.new cs) = Except.error Error.SyntaxError := by
  obtain ⟨n, rfl⟩ : ∃ n, fuel = n + 1 := ⟨fuel - 1, by omega⟩
  cases hr : Read (n + 1) (Tokenizer.new cs) with
  | ok r => exact Or.inl ⟨r, rfl⟩
  | error e =>
    right
    rcases (Read_error_kind (n + 1)).1 _ _ hr with he | he
    · rw [he]
    · exfalso
      subst he
      rw [Read_new] at hr
      cases hx : nextToken cs with
      | error e2 =>
        rw [hx] at hr
        cases hr
        cases nextToken_error hx
      | ok o =>
        cases o with
        | none => rw [hx] at hr; cases hr
        | some x =>
          rw [hx] at hr
          have hlen := nextToken_length hx
          refine (Read_fuel (n + 1)).1 ⟨x.2, x.1, false⟩ (nextToken_ne_monostate hx) ?_ hr
          simp only [Tokenizer.unread, Bool.false_eq_true, if_false]
          omega

theorem Lexes_append {a b c : List Char} {ts ts2 : List Token} (h1 : Lexes a ts b)
    (h2 : Lexes b ts2 c) : Lexes a (ts ++ ts2) c := by
  induction h1 with
  | nil _ => exact h2
  | cons hx _ ih => exact Lexes.cons hx (ih h2)

theorem Next_mk_eq {tk : Tokenizer} (he : tk.is_end_ = false) :
    (Tokenizer.mk tk.is_ tk.current_token_ false).Next = tk.Next := by
  cases tk
  simp only at he
  subst he
  rfl

/-- The token that `Next` leaves in the tokenizer is the one read from the stream. -/
theorem nextToken_of_Next_ok {tk tk2 : Tokenizer} (hn : tk.Next = Except.ok tk2)
    (he : tk.is_end_ = false) (he2 : tk2.is_end_ = false) :
    nextToken tk.is_ = Except.ok (some (tk2.current_token_, tk2.is_)) := by
  rw [← Next_mk_eq he] at hn
  cases tk2
  simp only at he2
  subst he2
  exact nextToken_of_Next hn

/-- What the reader returns is a phrase of the grammar: the token it starts from and the tokens
it reads from the stream form an expression, or the rest of a list after the open bracket, that
denotes the tree returned; the tokenizer returned is the one after the next token of the
stream. -/
theorem Read_derives (fuel : Nat) :
    (∀ tk t tk2, tk.current_token_ ≠ Token.monostate → Read fuel tk = Except.ok (t, tk2) →
      ∃ ts cs1 c, Lexes tk.is_ ts cs1 ∧ (Tokenizer.mk cs1 c false).Next = Except.ok tk2 ∧
        ∀ r, Derives Nonterminal.expr (tk.current_token_ :: (ts ++ r)) t r) ∧
    (∀ tk t tk2, tk.current_token_ ≠ Token.monostate → ReadList fuel tk = Except.ok (t, tk2) →
      ∃ ts cs1 c, Lexes tk.is_ ts cs1 ∧ (Tokenizer.mk cs1 c false).Next = Except.ok tk2 ∧
        ∀ r, Derives Nonterminal.list_tail (tk.current_token_ :: (ts ++ r)) t r) := by
  induction fuel with
  | zero => exact ⟨fun _ _ _ _ h => by simp [Read] at h, fun _ _ _ _ h => by simp [ReadList] at h⟩
  | succ n ih =>
    obtain ⟨ihr, ihl⟩ := ih
    constructor
    · intro tk t tk2 hm h
      cases he : tk.is_end_ with
      | true => exact absurd h (Read_end _ hm he _)
      | false =>
        rw [Read_step n hm he] at h
        cases hn : tk.Next with
        | error e => rw [hn] at h; cases h
        | ok tkn =>
          have hmn := Next_ne_monostate hn hm
          have hfol : (Tokenizer.mk tk.is_ tk.current_token_ false).Next = Except.ok tkn := by
            rw [Next_mk_eq he, hn]
          rw [hn] at h
          simp only at h
          cases hc : tk.current_token_ with
          | monostate => exact absurd hc hm
          | ConstantToken v =>
            rw [hc] at h hfol
            cases h
            exact ⟨[], tk.is_, _, Lexes.nil _, hfol, fun r => Derives.int v r⟩
          | SymbolToken name =>
            rw [hc] at h hfol
            simp only at h
            split at h
            · rename_i h1
              cases h
              subst h1
              exact ⟨[], tk.is_, _, Lexes.nil _, hfol, fun r => Derives.bool_true r⟩
            · rename_i h1
              split at h
              · rename_i h2
                cases h
                subst h2
                exact ⟨[], tk.is_, _, Lexes.nil _, hfol, fun r => Derives.bool_false r⟩
              · rename_i h2
                cases h
                exact ⟨[], tk.is_, _, Lexes.nil _, hfol, fun r => Derives.symbol name r h1 h2⟩
          | BracketToken b =>
            rw [hc] at h
            cases b with
            | OPEN =>
              have hen : tkn.is_end_ = false := by
                cases hx : tkn.is_end_ with
                | false => rfl
                | true => exact absurd h (ReadList_end _ hmn hx _)
              obtain ⟨ts, cs1, c, hl, hf, hd⟩ := ihl _ _ _ hmn h
              exact ⟨tkn.current_token_ :: ts, cs1, c,
                Lexes.cons (nextToken_of_Next_ok hn he hen) hl, hf,
                fun r => Derives.list (hd r)⟩
            | CLOSE => cases h
          | QuoteToken =>
            rw [hc] at h
            simp only at h
            cases hq : Read n tkn with
            | error e => rw [hq] at h; cases h
            | ok r3 =>
              obtain ⟨t3, tk3⟩ := r3
              rw [hq] at h
              cases h
              have hen : tkn.is_end_ = false := by
                cases hx : tkn.is_end_ with
                | false => rfl
                | true => exact absurd hq (Read_end _ hmn hx _)
              obtain ⟨ts, cs1, c, hl, hf, hd⟩ := ihr _ _ _ hmn hq
              exact ⟨tkn.current_token_ :: ts, cs1, c,
                Lexes.cons (nextToken_of_Next_ok hn he hen) hl, hf,
                fun r => Derives.quote (hd r)⟩
          | DotToken =>
            rw [hc] at h
            cases h
    · intro tk t tk7 hm h
      cases he : tk.is_end_ with
      | true => exact absurd h (ReadList_end _ hm he _)
      | false =>
        by_cases hclose : tk.current_token_ = Token.BracketToken BracketToken.CLOSE
        · rw [ReadList_close_step n hclose he] at h
          cases hn : tk.Next with
          | error e => rw [hn] at h; cases h
          | ok tkn =>
            rw [hn] at h
            cases h
            refine ⟨[], tk.is_, tk.current_token_, Lexes.nil _, by rw [Next_mk_eq he, hn], ?_⟩
            intro r
            rw [hclose]
            exact Derives.empty r
        · by_cases hdot : tk.current_token_ = Token.DotToken
          · rw [ReadList_dot_first n tk hdot he] at h
            cases h
          · cases hr : Read n tk with
            | error e =>
              rw [ReadList_element_error n hm he hclose hdot hr] at h
              cases h
            | ok r1 =>
              obtain ⟨first, tk2⟩ := r1
              obtain ⟨ts1, cs1, c1, hl1, hf1, hd1⟩ := ihr _ _ _ hm hr
              have hm2 : tk2.current_token_ ≠ Token.monostate := Read_ne_monostate hm he hr
              cases he2 : tk2.is_end_ with
              | true =>
                rw [ReadList_after_element n tk first tk2 hm he hclose hdot hr he2] at h
                cases h
              | false =>
                have hx2 : nextToken cs1 = Except.ok (some (tk2.current_token_, tk2.is_)) :=
                  nextToken_of_Next_ok hf1 rfl he2
                by_cases hd2 : tk2.current_token_ = Token.DotToken
                · rw [ReadList_dotted_step n hm he hclose hdot hr he2 hd2] at h
                  cases hn2 : tk2.Next with
                  | error e => rw [hn2] at h; cases h
                  | ok tk4 =>
                    have hm4 := Next_ne_monostate hn2 hm2
                    rw [hn2] at h
                    simp only at h
                    cases hr4 : Read n tk4 with
                    | error e => rw [hr4] at h; cases h
                    | ok r4 =>
                      obtain ⟨second, tk5⟩ := r4
                      have he4 : tk4.is_end_ = false := by
                        cases hx : tk4.is_end_ with
                        | false => rfl
                        | true => exact absurd hr4 (Read_end _ hm4 hx _)
                      have hx4 := nextToken_of_Next_ok hn2 he2 he4
                      obtain ⟨ts4, cs5, c5, hl4, hf4, hd4⟩ := ihr _ _ _ hm4 hr4
                      rw [hr4] at h
                      simp only at h
                      split at h
                      · cases h
                      · rename_i he5
                        split at h
                        · cases h
                        · rename_i hc5
                          have he5b : tk5.is_end_ = false := by simpa using he5
                          have hc5b : tk5.current_token_
                              = Token.BracketToken BracketToken.CLOSE := by simpa using hc5
                          have hx5 := nextToken_of_Next_ok hf4 rfl he5b
                          cases hn5 : tk5.Next with
                          | error e => rw [hn5] at h; cases h
                          | ok tk6 =>
                            rw [hn5] at h
                            cases h
                            rw [hd2] at hx2
                            rw [hc5b] at hx5
                            refine ⟨ts1 ++ Token.DotToken :: tk4.current_token_ ::
                                (ts4 ++ [Token.BracketToken BracketToken.CLOSE]), tk5.is_,
                              tk5.current_token_,
                              Lexes_append hl1 (Lexes.cons hx2 (Lexes.cons hx4
                                (Lexes_append hl4 (Lexes.cons hx5 (Lexes.nil _))))),
                              by rw [Next_mk_eq he5b, hn5], ?_⟩
                            intro r
                            have e : (ts1 ++ Token.DotToken :: tk4.current_token_ ::
                                (ts4 ++ [Token.BracketToken BracketToken.CLOSE])) ++ r
                                = ts1 ++ (Token.DotToken :: (tk4.current_token_ ::
                                  (ts4 ++ (Token.BracketToken BracketToken.CLOSE :: r)))) := by
                              simp
                            rw [e]
                            exact Derives.dotted (hd1 _) (hd4 _)
                · rw [ReadList_cons_step n hm he hclose hdot hr he2 hd2] at h
                  cases hl : ReadList n tk2 with
                  | error e => rw [hl] at h; cases h
                  | ok r2 =>
                    obtain ⟨second, tk4⟩ := r2
                    rw [hl] at h
                    cases h
                    obtain ⟨ts2, cs3, c3, hl2, hf2, hd2b⟩ := ihl _ _ _ hm2 hl
                    refine ⟨ts1 ++ tk2.current_token_ :: ts2, cs3, c3,
                      Lexes_append hl1 (Lexes.cons hx2 hl2), hf2, ?_⟩
                    intro r
                    have e : (ts1 ++ tk2.current_token_ :: ts2) ++ r
                        = ts1 ++ (tk2.current_token_ :: (ts2 ++ r)) := by simp
                    rw [e]
                    exact Derives.cons (hd1 _) (hd2b r)

theorem Holds_cons_inv {tk : Tokenizer} {x : Token} {ts : List Token} (h : Holds tk (x :: ts)) :
    tk.current_token_ = x ∧ tk.current_token_ ≠ Token.monostate ∧ tk.is_end_ = false ∧
    ∃ tk1, tk.Next = Except.ok tk1 ∧ Holds tk1 ts := by
  generalize hl : x :: ts = l at h
  cases h with
  | nil _ _ => cases hl
  | cons hm he hn hh =>
    injection hl with h1 h2
    subst h2
    exact ⟨h1.symm, hm, he, _, hn, hh⟩

theorem Holds_ne_monostate {tk : Tokenizer} {ts : List Token} (h : Holds tk ts) :
    tk.current_token_ ≠ Token.monostate := by
  cases h with
  | nil hm _ => exact hm
  | cons hm _ _ _ => exact hm

/-- The grammar accepts what the reader does, and no less: from a tokenizer whose tokens up to
the end of the stream start with a phrase of the grammar, with a bound on the depth of more than
twice the number of tokens left, the reader returns the tree that the phrase denotes and the
tokenizer that holds the tokens after the phrase. -/
theorem Read_complete (fuel : Nat) :
    (∀ tk ts t r, Derives Nonterminal.expr ts t r → Holds tk ts → 2 * tk.unread + 1 ≤ fuel →
      ∃ tk2, Read fuel tk = Except.ok (t, tk2) ∧ Holds tk2 r) ∧
    (∀ tk ts t r, Derives Nonterminal.list_tail ts t r → Holds tk ts →
      2 * tk.unread + 2 ≤ fuel →
      ∃ tk2, ReadList fuel tk = Except.ok (t, tk2) ∧ Holds tk2 r) := by
  induction fuel with
  | zero => exact ⟨fun _ _ _ _ _ _ h => by omega, fun _ _ _ _ _ _ h => by omega⟩
  | succ n ih =>
    obtain ⟨ihr, ihl⟩ := ih
    constructor
    · intro tk ts t r hd hh hf
      cases hd with
      | int v rest =>
        obtain ⟨hc, hm, he, tk1, hn, hh1⟩ := Holds_cons_inv hh
        exact ⟨tk1, by rw [Read_step n hm he, hn, hc], hh1⟩
      | bool_true rest =>
        obtain ⟨hc, hm, he, tk1, hn, hh1⟩ := Holds_cons_inv hh
        exact ⟨tk1, by rw [Read_step n hm he, hn, hc]; simp, hh1⟩
      | bool_false rest =>
        obtain ⟨hc, hm, he, tk1, hn, hh1⟩ := Holds_cons_inv hh
        exact ⟨tk1, by rw [Read_step n hm he, hn, hc]; simp, hh1⟩
      | symbol name rest h1 h2 =>
        obtain ⟨hc, hm, he, tk1, hn, hh1⟩ := Holds_cons_inv hh
        exact ⟨tk1, by rw [Read_step n hm he, hn, hc]; simp [h1, h2], hh1⟩
      | list hl =>
        obtain ⟨hc, hm, he, tk1, hn, hh1⟩ := Holds_cons_inv hh
        have hlt := Next_unread hn he
        obtain ⟨tk2, hr, hh2⟩ := ihl tk1 _ _ _ hl hh1 (by omega)
        exact ⟨tk2, by rw [Read_step n hm he, hn, hc]; exact hr, hh2⟩
      | quote hq =>
        obtain ⟨hc, hm, he, tk1, hn, hh1⟩ := Holds_cons_inv hh
        have hlt := Next_unread hn he
        obtain ⟨tk2, hr, hh2⟩ := ihr tk1 _ _ _ hq hh1 (by omega)
        exact ⟨tk2, by rw [Read_step n hm he, hn, hc]; simp [hr], hh2⟩
    · intro tk ts t r hd hh hf
      cases hd with
      | empty rest =>
        obtain ⟨hc, hm, he, tk1, hn, hh1⟩ := Holds_cons_inv hh
        exact ⟨tk1, by rw [ReadList_close_step n hc he, hn], hh1⟩
      | dotted ha hb =>
        have hm := Holds_ne_monostate hh
        obtain ⟨tk2, hr, hh2⟩ := ihr tk _ _ _ ha hh (by omega)
        have he : tk.is_end_ = false := by
          cases hx : tk.is_end_ with
          | false => rfl
          | true => exact absurd hr (Read_end _ hm hx _)
        have hfirst := Read_first_token hm he hr
        have lt1 := (Read_unread n).1 _ _ _ hm hr
        obtain ⟨hc2, hm2, he2, tk4, hn2, hh4⟩ := Holds_cons_inv hh2
        have lt2 := Next_unread hn2 he2
        obtain ⟨tk5, hr4, hh5⟩ := ihr tk4 _ _ _ hb hh4 (by omega)
        obtain ⟨hc5, hm5, he5, tk7, hn5, hh7⟩ := Holds_cons_inv hh5
        refine ⟨tk7, ?_, hh7⟩
        rw [ReadList_dotted_step n hm he hfirst.2 hfirst.1 hr he2 hc2, hn2]
        simp [hr4, he5, hc5, hn5]
      | cons ha hb =>
        have hm := Holds_ne_monostate hh
        obtain ⟨tk2, hr, hh2⟩ := ihr tk _ _ _ ha hh (by omega)
        have he : tk.is_end_ = false := by
          cases hx : tk.is_end_ with
          | false => rfl
          | true => exact absurd hr (Read_end _ hm hx _)
        have hfirst := Read_first_token hm he hr
        have lt1 := (Read_unread n).1 _ _ _ hm hr
        obtain ⟨tk4, hl, hh4⟩ := ihl tk2 _ _ _ hb hh2 (by omega)
        have hm2 := Holds_ne_monostate hh2
        have he2 : tk2.is_end_ = false := by
          cases hx : tk2.is_end_ with
          | false => rfl
          | true => exact absurd hl (ReadList_end _ hm2 hx _)
        have hd2 : tk2.current_token_ ≠ Token.DotToken := by
          intro hx
          cases hh2 with
          | nil _ he3 => rw [he3] at he2; cases he2
          | cons _ _ _ _ => exact Derives_dot hb _ (by rw [hx])
        refine ⟨tk4, ?_, hh4⟩
        rw [ReadList_cons_step n hm he hfirst.2 hfirst.1 hr he2 hd2, hl]

theorem Holds_of_lexes {cs rest : List Char} {ts : List Token} (hl : Lexes cs ts rest)
    (hend : nextToken rest = Except.ok none) :
    ∀ t, t ≠ Token.monostate → Holds ⟨cs, t, false⟩ (t :: ts) := by
  induction hl with
  | nil cs =>
    intro t ht
    refine @Holds.cons ⟨cs, t, false⟩ _ _ ht rfl (by rw [Next_eq, hend]) ?_
    exact Holds.nil ht rfl
  | cons hx _ ih =>
    intro t ht
    refine @Holds.cons ⟨_, t, false⟩ _ _ ht rfl (by rw [Next_eq, hx]) ?_
    exact ih hend _ (nextToken_ne_monostate hx)

/-- The tokens of a text are the same however far it is read: of two lists of first tokens,
the one read to the end of the text starts with the other. -/
theorem Lexes_prefix {cs rest : List Char} {ts : List Token} (hl : Lexes cs ts rest)
    (hend : nextToken rest = Except.ok none) :
    ∀ ts2 rest2, Lexes cs ts2 rest2 → ∃ x, ts = ts2 ++ x := by
  induction hl with
  | nil cs =>
    intro ts2 rest2 h2
    cases h2 with
    | nil => exact ⟨[], rfl⟩
    | cons hx _ => rw [hend] at hx; cases hx
  | cons hx _ ih =>
    intro ts2 rest2 h2
    cases h2 with
    | nil => exact ⟨_, rfl⟩
    | cons hx2 hl2 =>
      rw [hx] at hx2
      cases hx2
      obtain ⟨x, e⟩ := ih hend _ _ hl2
      exact ⟨x, by rw [e]; rfl⟩

/-- Two lists of first tokens of one text: one starts with the other. -/
theorem Lexes_comparable {cs rest : List Char} {ts : List Token} (hl : Lexes cs ts rest) :
    ∀ ts2 rest2, Lexes cs ts2 rest2 → (∃ x, ts = ts2 ++ x) ∨ (∃ x, ts2 = ts ++ x) := by
  induction hl with
  | nil cs => intro ts2 rest2 _; exact Or.inr ⟨ts2, rfl⟩
  | cons hx _ ih =>
    intro ts2 rest2 h2
    cases h2 with
    | nil => exact Or.inl ⟨_, rfl⟩
    | cons hx2 hl2 =>
      rw [hx] at hx2
      cases hx2
      rcases ih _ _ hl2 with ⟨x, e⟩ | ⟨x, e⟩
      · exact Or.inl ⟨x, by rw [e]; rfl⟩
      · exact Or.inr ⟨x, by rw [e]; rfl⟩

/-- What `Read` returns on a text is an expression of the grammar: the first tokens of the text
form an expression that denotes the tree returned. -/
theorem Read_new_derives {fuel : Nat} {cs : List Char} {t : Tree} {tk : Tokenizer}
    (h : Read fuel (Tokenizer.new cs) = Except.ok (t, tk)) :
    ∃ ts rest, Lexes cs ts rest ∧ Derives Nonterminal.expr ts t [] := by
  obtain ⟨x, hx, hr⟩ := Read_new_cases h
  obtain ⟨ts, cs1, c, hl, _, hd⟩ :=
    (Read_derives fuel).1 ⟨x.2, x.1, false⟩ t tk (nextToken_ne_monostate hx) hr
  refine ⟨x.1 :: ts, cs1, Lexes.cons hx hl, ?_⟩
  have := hd []
  simpa using this

/-- On a text none of whose first tokens form an expression of the grammar, `Read` fails with a
syntax error. -/
theorem Read_new_malformed (cs : List Char) (fuel : Nat) (hf : 2 * cs.length + 3 ≤ fuel)
    (hbad : ∀ ts rest t, Lexes cs ts rest → ¬ Derives Nonterminal.expr ts t []) :
    Read fuel (Tokenizer.new cs) = Except.error Error.SyntaxError := by
  rcases Read_new_fuel cs fuel hf with ⟨r, hr⟩ | hr
  · obtain ⟨t, tk⟩ := r
    obtain ⟨ts, rest, hl, hd⟩ := Read_new_derives hr
    exact absurd hd (hbad ts rest t hl)
  · exact hr

/-- On a text with first tokens that start no expression, whatever tokens follow them, `Read`
fails with a syntax error. -/
theorem Read_new_no_expression (cs : List Char) (fuel : Nat) (hf : 2 * cs.length + 3 ≤ fuel)
    {ts : List Token} {rest : List Char} (hl : Lexes cs ts rest)
    (hbad : ∀ more t r, ¬ Derives Nonterminal.expr (ts ++ more) t r) :
    Read fuel (Tokenizer.new cs) = Except.error Error.SyntaxError := by
  refine Read_new_malformed cs fuel hf ?_
  intro ts2 rest2 t h2 hd
  rcases Lexes_comparable hl ts2 rest2 h2 with ⟨x, e⟩ | ⟨x, e⟩
  · have := Derives_append hd x
    rw [← e] at this
    exact hbad [] t _ (by simpa using this)
  · rw [e] at hd
    exact hbad x t _ hd

/-- End of input before the expression is complete: on a text whose tokens, all of them, would
form an expression with further tokens after them, `Read` fails with a syntax error. -/
theorem Read_new_unfinished (cs : List Char) (fuel : Nat) (hf : 2 * cs.length + 3 ≤ fuel)
    {ts more : List Token} {rest : List Char} {t : Tree} (hl : Lexes cs ts rest)
    (hend : nextToken rest = Except.ok none) (hm : more ≠ [])
    (hd : Derives Nonterminal.expr (ts ++ more) t []) :
    Read fuel (Tokenizer.new cs) = Except.error Error.SyntaxError := by
  refine Read_new_malformed cs fuel hf ?_
  intro ts2 rest2 t2 h2 hd2
  obtain ⟨x, e⟩ := Lexes_prefix hl hend ts2 rest2 h2
  have h3 := Derives_append hd2 (x ++ more)
  rw [← List.append_assoc, ← e] at h3
  obtain ⟨_, e2⟩ := Derives_unique hd _ _ h3
  have : x ++ more = [] := by simpa using e2.symm
  exact hm (List.append_eq_nil.1 this).2

/-- On a text whose tokens, all of them, start with an expression of the grammar, `Read`
returns the tree of that expression. -/
theorem Read_new_complete (cs : List Char) (fuel : Nat) (hf : 2 * cs.length + 3 ≤ fuel)
    {ts r : List Token} {rest : List Char} {t : Tree} (hl : Lexes cs ts rest)
    (hend : nextToken rest = Except.ok none) (hd : Derives Nonterminal.expr ts t r) :
    ∃ tk, Read fuel (Tokenizer.new cs) = Except.ok (t, tk) := by
  obtain ⟨n, rfl⟩ : ∃ n, fuel = n + 1 := ⟨fuel - 1, by omega⟩
  cases hl with
  | nil => exact absurd rfl (Derives_nil hd)
  | cons hx hl2 =>
    have hlen := nextToken_length hx
    simp only at hlen
    have hh := Holds_of_lexes hl2 hend _ (nextToken_ne_monostate hx)
    obtain ⟨tk2, hr, _⟩ := (Read_complete (n + 1)).1 _ _ _ _ hd hh (by
      simp only [Tokenizer.unread, Bool.false_eq_true, if_false]
      omega)
    exact ⟨tk2, by rw [Read_new, hx]; exact hr⟩

/-- A list with nothing after its open bracket that the grammar accepts is no expression. -/
theorem no_list {ws : List Token} (hbad : ∀ t r, ¬ Derives Nonterminal.list_tail ws t r) :
    ∀ t r, ¬ Derives Nonterminal.expr (Token.BracketToken BracketToken.OPEN :: ws) t r := by
  intro t r h
  cases h with
  | list h1 => exact hbad _ _ h1

theorem no_quote {ws : List Token} (hbad : ∀ t r, ¬ Derives Nonterminal.expr ws t r) :
    ∀ t r, ¬ Derives Nonterminal.expr (Token.QuoteToken :: ws) t r := by
  intro t r h
  cases h with
  | quote h1 => exact hbad _ _ h1

/-- After an element, what the grammar does not accept as the rest of a list, and is no dot,
makes no list. -/
theorem no_cons {as ws : List Token} {a : Tree} (ha : Derives Nonterminal.expr as a [])
    (hdot : ∀ w, ws ≠ Token.DotToken :: w)
    (hbad : ∀ t r, ¬ Derives Nonterminal.list_tail ws t r) :
    ∀ t r, ¬ Derives Nonterminal.list_tail (as ++ ws) t r := by
  intro t r h
  have ha2 : Derives Nonterminal.expr (as ++ ws) a ws := by
    simpa using Derives_append ha ws
  generalize he : as ++ ws = l at h ha2
  cases h with
  | empty rest => exact Derives_expr_close ha2
  | dotted h1 h2 =>
    obtain ⟨_, e⟩ := Derives_unique ha2 _ _ h1
    exact hdot _ e
  | cons h1 h2 =>
    obtain ⟨_, e⟩ := Derives_unique ha2 _ _ h1
    subst e
    exact hbad _ _ h2

/-- After an element and a dot, what is no expression makes no list. -/
theorem no_dotted_tail {as ws : List Token} {a : Tree}
    (ha : Derives Nonterminal.expr as a [])
    (hbad : ∀ t r, ¬ Derives Nonterminal.expr ws t r) :
    ∀ t r, ¬ Derives Nonterminal.list_tail (as ++ Token.DotToken :: ws) t r := by
  intro t r h
  have ha2 : Derives Nonterminal.expr (as ++ Token.DotToken :: ws) a (Token.DotToken :: ws) := by
    simpa using Derives_append ha (Token.DotToken :: ws)
  generalize he : as ++ Token.DotToken :: ws = l at h ha2
  cases h with
  | empty rest => exact Derives_expr_close ha2
  | dotted h1 h2 =>
    obtain ⟨_, e⟩ := Derives_unique ha2 _ _ h1
    cases e
    exact hbad _ _ h2
  | cons h1 h2 =>
    obtain ⟨_, e⟩ := Derives_unique ha2 _ _ h1
    exact Derives_dot h2 _ e.symm

/-- After an element, a dot and an expression, a token that is no close bracket makes no list,
whatever follows. -/
theorem no_dotted_close {as bs : List Token} {a b : Tree} {x : Token}
    (ha : Derives Nonterminal.expr as a []) (hb : Derives Nonterminal.expr bs b [])
    (hx : x ≠ Token.BracketToken BracketToken.CLOSE) :
    ∀ z t r, ¬ Derives Nonterminal.list_tail (as ++ Token.DotToken :: (bs ++ x :: z)) t r := by
  intro z t r h
  have ha2 : Derives Nonterminal.expr (as ++ Token.DotToken :: (bs ++ x :: z)) a
      (Token.DotToken :: (bs ++ x :: z)) := by
    simpa using Derives_append ha (Token.DotToken :: (bs ++ x :: z))
  have hb2 : Derives Nonterminal.expr (bs ++ x :: z) b (x :: z) := by
    simpa using Derives_append hb (x :: z)
  generalize he : as ++ Token.DotToken :: (bs ++ x :: z) = l at h ha2
  cases h with
  | empty rest => exact Derives_expr_close ha2
  | dotted h1 h2 =>
    obtain ⟨_, e⟩ := Derives_unique ha2 _ _ h1
    cases e
    obtain ⟨_, e2⟩ := Derives_unique hb2 _ _ h2
    cases e2
    exact hx rfl
  | cons h1 h2 =>
    obtain ⟨_, e⟩ := Derives_unique ha2 _ _ h1
    exact Derives_dot h2 _ e.symm

theorem Exprs_append_dot {es ws : List Token} (he : Exprs es)
    (hdot : ∀ w, ws ≠ Token.DotToken :: w) : ∀ w, es ++ ws ≠ Token.DotToken :: w := by
  cases he with
  | nil => simpa using hdot
  | @cons ts rest t hd _ =>
    intro w h
    cases ts with
    | nil => exact Derives_nil hd rfl
    | cons x ts2 =>
      simp only [List.cons_append, List.cons.injEq] at h
      exact Derives_dot hd ts2 (by rw [h.1])

/-- After any elements, what makes no list and is no dot makes no list. -/
theorem no_elements {es ws : List Token} (he : Exprs es)
    (hdot : ∀ w, ws ≠ Token.DotToken :: w)
    (hbad : ∀ t r, ¬ Derives Nonterminal.list_tail ws t r) :
    ∀ t r, ¬ Derives Nonterminal.list_tail (es ++ ws) t r := by
  induction he with
  | nil => simpa using hbad
  | cons hd hrest ih =>
    rw [List.append_assoc]
    exact no_cons hd (Exprs_append_dot hrest hdot) ih

/-- A dotted tail followed by another token than the close bracket: on a text whose first
tokens are an open bracket, at least one element, a dot, an expression and a token that is no
close bracket, `Read` fails with a syntax error. -/
theorem Read_new_dotted_tail (cs : List Char) (fuel : Nat) (hf : 2 * cs.length + 3 ≤ fuel)
    {es as bs : List Token} {a b : Tree} {x : Token} {rest : List Char}
    (hl : Lexes cs (Token.BracketToken BracketToken.OPEN ::
      (es ++ (as ++ Token.DotToken :: (bs ++ [x])))) rest)
    (he : Exprs es) (ha : Derives Nonterminal.expr as a [])
    (hb : Derives Nonterminal.expr bs b [])
    (hx : x ≠ Token.BracketToken BracketToken.CLOSE) :
    Read fuel (Tokenizer.new cs) = Except.error Error.SyntaxError := by
  refine Read_new_no_expression cs fuel hf hl ?_
  intro more t r
  have e : (Token.BracketToken BracketToken.OPEN ::
      (es ++ (as ++ Token.DotToken :: (bs ++ [x])))) ++ more
      = Token.BracketToken BracketToken.OPEN ::
        (es ++ (as ++ Token.DotToken :: (bs ++ x :: more))) := by simp
  rw [e]
  refine no_list (no_elements he ?_ (no_dotted_close ha hb hx more)) t r
  intro w h
  cases as with
  | nil => exact Derives_nil ha rfl
  | cons y as2 =>
    simp only [List.cons_append, List.cons.injEq] at h
    exact Derives_dot ha as2 (by rw [h.1])

/-- Where a list element must start, what is no expression and no close bracket makes no
list. -/
theorem no_element {ws : List Token}
    (hc : ∀ w, ws ≠ Token.BracketToken BracketToken.CLOSE :: w)
    (hbad : ∀ t r, ¬ Derives Nonterminal.expr ws t r) :
    ∀ t r, ¬ Derives Nonterminal.list_tail ws t r := by
  intro t r h
  cases h with
  | empty rest => exact hc _ rfl
  | dotted h1 h2 => exact hbad _ _ h1
  | cons h1 h2 => exact hbad _ _ h1

/-- First tokens of a text that start no expression, whatever follows them: then no first
tokens of the text form an expression. -/
theorem Lexes_no_expression {cs rest : List Char} {ts : List Token} (hl : Lexes cs ts rest)
    (hbad : ∀ more t r, ¬ Derives Nonterminal.expr (ts ++ more) t r) :
    ∀ ts2 rest2 t, Lexes cs ts2 rest2 → ¬ Derives Nonterminal.expr ts2 t [] := by
  intro ts2 rest2 t h2 hd
  rcases Lexes_comparable hl ts2 rest2 h2 with ⟨x, e⟩ | ⟨x, e⟩
  · have := Derives_append hd x
    rw [← e] at this
    exact hbad [] t _ (by simpa using this)
  · rw [e] at hd
    exact hbad x t _ hd

/-- C4. `Read` fails with a syntax error on every malformed list.

The throw sites. A dot directly after the open bracket: `ReadList`, entered after the bracket,
fails on a dot, as does `Read` on a text that starts with `(` and a dot. A dotted tail followed
by anything other than the close bracket, or by the end of input: `ReadList` fails when, after
the dot and the expression that follows it, the tokenizer is at its end or holds another token
than the close bracket. End of input before the list is closed: `ReadList` and `Read` fail when
entered at the end of input, and `ReadList` fails when the input ends after an element. A close
bracket where an expression must start: `Read` fails on it, also at the start of a text.

The errors of the nested calls reach the caller. `Read` on an open bracket is `ReadList` on the
next token, and `Read` on a quote fails with the error of the `Read` that follows; `ReadList`
fails with the error of the `Read` of an element, with the error of the `ReadList` of the rest
of the list, and with the error of the `Read` after a dot.

Whole texts, with a bound on the depth of at least `2 * length + 3`. `Read` returns or fails
with a syntax error, with no other failure. It fails with a syntax error on every text none of
whose first tokens form an expression of the grammar; on every text whose first tokens are an
open bracket, elements, one more element, a dot, an expression and a token that is no close
bracket; and on every text that ends before its expression is complete. When `Read` returns a
tree, first tokens of the text form an expression of the grammar with that tree, and on a text
of tokens that start with an expression of the grammar `Read` returns its tree. -/
theorem C4_Read_malformed_list :
    (∀ (fuel : Nat) (tk : Tokenizer), tk.current_token_ = Token.DotToken → tk.is_end_ = false →
      ReadList (fuel + 1) tk = Except.error Error.SyntaxError) ∧
    (∀ (fuel : Nat) (ws rest : List Char), (∀ c ∈ ws, isspace c = true) →
      Read (fuel + 2) (Tokenizer.new ('(' :: (ws ++ '.' :: rest)))
        = Except.error Error.SyntaxError) ∧
    (∀ (fuel : Nat) (tk : Tokenizer) (first : Tree) (tk2 tk4 : Tokenizer) (second : Tree)
      (tk5 : Tokenizer),
      tk.current_token_ ≠ Token.monostate → tk.is_end_ = false →
      tk.current_token_ ≠ Token.BracketToken BracketToken.CLOSE →
      tk.current_token_ ≠ Token.DotToken →
      Read fuel tk = Except.ok (first, tk2) → tk2.is_end_ = false →
      tk2.current_token_ = Token.DotToken → tk2.Next = Except.ok tk4 →
      Read fuel tk4 = Except.ok (second, tk5) →
      (tk5.is_end_ = true ∨ tk5.current_token_ ≠ Token.BracketToken BracketToken.CLOSE) →
      ReadList (fuel + 1) tk = Except.error Error.SyntaxError) ∧
    (∀ (fuel : Nat) (tk : Tokenizer), tk.current_token_ ≠ Token.monostate → tk.is_end_ = true →
      ReadList (fuel + 1) tk = Except.error Error.SyntaxError ∧
      Read (fuel + 1) tk = Except.error Error.SyntaxError) ∧
    (∀ (fuel : Nat) (tk : Tokenizer) (first : Tree) (tk2 : Tokenizer),
      tk.current_token_ ≠ Token.monostate → tk.is_end_ = false →
      tk.current_token_ ≠ Token.BracketToken BracketToken.CLOSE →
      tk.current_token_ ≠ Token.DotToken →
      Read fuel tk = Except.ok (first, tk2) → tk2.is_end_ = true →
      ReadList (fuel + 1) tk = Except.error Error.SyntaxError) ∧
    (∀ (fuel : Nat) (tk : Tokenizer),
      tk.current_token_ = Token.BracketToken BracketToken.CLOSE → tk.is_end_ = false →
      Read (fuel + 1) tk = Except.error Error.SyntaxError) ∧
    (∀ (fuel : Nat) (ws rest : List Char), (∀ c ∈ ws, isspace c = true) →
      Read (fuel + 1) (Tokenizer.new (ws ++ ')' :: rest)) = Except.error Error.SyntaxError) ∧
    (∀ (fuel : Nat) (tk tk2 : Tokenizer),
      tk.current_token_ = Token.BracketToken BracketToken.OPEN → tk.is_end_ = false →
      tk.Next = Except.ok tk2 → Read (fuel + 1) tk = ReadList fuel tk2) ∧
    (∀ (fuel : Nat) (tk tk2 : Tokenizer) (e : Error),
      tk.current_token_ = Token.QuoteToken → tk.is_end_ = false →
      tk.Next = Except.ok tk2 → Read fuel tk2 = Except.error e →
      Read (fuel + 1) tk = Except.error e) ∧
    (∀ (fuel : Nat) (tk : Tokenizer) (e : Error),
      tk.current_token_ ≠ Token.monostate → tk.is_end_ = false →
      tk.current_token_ ≠ Token.BracketToken BracketToken.CLOSE →
      tk.current_token_ ≠ Token.DotToken →
      Read fuel tk = Except.error e → ReadList (fuel + 1) tk = Except.error e) ∧
    (∀ (fuel : Nat) (tk : Tokenizer) (first : Tree) (tk2 : Tokenizer) (e : Error),
      tk.current_token_ ≠ Token.monostate → tk.is_end_ = false →
      tk.current_token_ ≠ Token.BracketToken BracketToken.CLOSE →
      tk.current_token_ ≠ Token.DotToken →
      Read fuel tk = Except.ok (first, tk2) → tk2.is_end_ = false →
      tk2.current_token_ ≠ Token.DotToken →
      ReadList fuel tk2 = Except.error e → ReadList (fuel + 1) tk = Except.error e) ∧
    (∀ (fuel : Nat) (tk : Tokenizer) (first : Tree) (tk2 tk4 : Tokenizer) (e : Error),
      tk.current_token_ ≠ Token.monostate → tk.is_end_ = false →
      tk.current_token_ ≠ Token.BracketToken BracketToken.CLOSE →
      tk.current_token_ ≠ Token.DotToken →
      Read fuel tk = Except.ok (first, tk2) → tk2.is_end_ = false →
      tk2.current_token_ = Token.DotToken → tk2.Next = Except.ok tk4 →
      Read fuel tk4 = Except.error e → ReadList (fuel + 1) tk = Except.error e) ∧
    (∀ (cs : List Char) (fuel : Nat), 2 * cs.length + 3 ≤ fuel →
      (∃ r, Read fuel (Tokenizer.new cs) = Except.ok r) ∨
      Read fuel (Tokenizer.new cs) = Except.error Error.SyntaxError) ∧
    (∀ (cs : List Char) (fuel : Nat), 2 * cs.length + 3 ≤ fuel →
      (∀ ts rest t, Lexes cs ts rest → ¬ Derives Nonterminal.expr ts t []) →
      Read fuel (Tokenizer.new cs) = Except.error Error.SyntaxError) ∧
    (∀ (cs : List Char) (fuel : Nat) (es as bs : List Token) (a b : Tree) (x : Token)
      (rest : List Char), 2 * cs.length + 3 ≤ fuel →
      Lexes cs (Token.BracketToken BracketToken.OPEN ::
        (es ++ (as ++ Token.DotToken :: (bs ++ [x])))) rest →
      Exprs es → Derives Nonterminal.expr as a [] → Derives Nonterminal.expr bs b [] →
      x ≠ Token.BracketToken BracketToken.CLOSE →
      Read fuel (Tokenizer.new cs) = Except.error Error.SyntaxError) ∧
    (∀ (cs : List Char) (fuel : Nat) (ts more : List Token) (rest : List Char) (t : Tree),
      2 * cs.length + 3 ≤ fuel → Lexes cs ts rest → nextToken rest = Except.ok none →
      more ≠ [] → Derives Nonterminal.expr (ts ++ more) t [] →
      Read fuel (Tokenizer.new cs) = Except.error Error.SyntaxError) ∧
    (∀ (cs : List Char) (fuel : Nat) (t : Tree) (tk : Tokenizer),
      Read fuel (Tokenizer.new cs) = Except.ok (t, tk) →
      ∃ ts rest, Lexes cs ts rest ∧ Derives Nonterminal.expr ts t []) ∧
    (∀ (cs : List Char) (fuel : Nat) (ts r : List Token) (rest : List Char) (t : Tree),
      2 * cs.length + 3 ≤ fuel → Lexes cs ts rest → nextToken rest = Except.ok none →
      Derives Nonterminal.expr ts t r →
      ∃ tk, Read fuel (Tokenizer.new cs) = Except.ok (t, tk)) := by
  refine ⟨ReadList_dot_first, ?_, ReadList_after_dotted_tail, ?_, ReadList_after_element,
    Read_close, ?_, ?_, ?_, ?_, ?_, ?_, Read_new_fuel, Read_new_malformed, ?_, ?_, ?_, ?_⟩
  · intro fuel ws rest hws
    have hdw : (ws ++ '.' :: rest).dropWhile isspace = '.' :: rest := by
      rw [List.dropWhile_append]
      have : ws.dropWhile isspace = [] := List.dropWhile_eq_nil_iff.2 hws
      simp [this, List.dropWhile, isspace]
    have h1 : nextToken ('(' :: (ws ++ '.' :: rest))
        = Except.ok (some (Token.BracketToken BracketToken.OPEN, ws ++ '.' :: rest)) := by
      simp [nextToken, List.dropWhile, isspace, IsParen, GetParen]
    have h2 : nextToken (ws ++ '.' :: rest) = Except.ok (some (Token.DotToken, rest)) := by
      simp [nextToken, hdw, IsParen, IsDot, GetDot]
    rw [Read_new, h1]
    simp only [Read, Read.body]
    rw [IsEnd_of_ne (by simp), GetToken_of_ne (by simp)]
    simp only [Bool.false_eq_true, if_false, Next_eq, h2]
    exact ReadList_dot_first fuel _ rfl rfl
  · intro fuel tk hm he
    exact ⟨by simp [ReadList, ReadList_body_end _ _ hm he],
      by simp [Read, Read_body_end _ _ hm he]⟩
  · intro fuel ws rest hws
    have hdw : (ws ++ ')' :: rest).dropWhile isspace = ')' :: rest := by
      rw [List.dropWhile_append]
      have : ws.dropWhile isspace = [] := List.dropWhile_eq_nil_iff.2 hws
      simp [this, List.dropWhile, isspace]
    have h1 : nextToken (ws ++ ')' :: rest)
        = Except.ok (some (Token.BracketToken BracketToken.CLOSE, rest)) := by
      simp [nextToken, hdw, IsParen, GetParen]
    rw [Read_new, h1]
    exact Read_close fuel _ rfl rfl
  · intro fuel tk tk2 hc he hn
    rw [Read_step fuel (by rw [hc]; simp) he, hn, hc]
  · intro fuel tk tk2 e hc he hn hr
    rw [Read_step fuel (by rw [hc]; simp) he, hn, hc]
    simp only [hr]
  · intro fuel tk e hm he hclose hdot hr
    exact ReadList_element_error fuel hm he hclose hdot hr
  · intro fuel tk first tk2 e hm he hclose hdot hr he2 hd2 hl
    rw [ReadList_cons_step fuel hm he hclose hdot hr he2 hd2, hl]
  · intro fuel tk first tk2 tk4 e hm he hclose hdot hr he2 hd2 hn hr4
    rw [ReadList_dotted_step fuel hm he hclose hdot hr he2 hd2, hn]
    simp only [hr4]
  · intro cs fuel es as bs a b x rest hf hl he ha hb hx
    exact Read_new_dotted_tail cs fuel hf hl he ha hb hx
  · intro cs fuel ts more rest t hf hl hend hm hd
    exact Read_new_unfinished cs fuel hf hl hend hm hd
  · intro cs fuel t tk h
    exact Read_new_derives h
  · intro cs fuel ts r rest t hf hl hend hd
    exact Read_new_complete cs fuel hf hl hend hd

/-- The instances of C4 at the throw sites on `( . 1)`, `(1 . 2 3)`, `(1` and `)`, at the nested
calls on `(1`, a quote before a close bracket, `(1 2` and `(1 . )`, and on the whole texts `(1`,
`(1 (2 . 3 4) 5)`, `(1 . 2 3)`, `(1 2` and `(1 . 2)`. -/
theorem C4_Read_malformed_list_witness :
    ReadList 1 ⟨" 1)".toList, Token.DotToken, false⟩ = Except.error Error.SyntaxError ∧
    Read 2 (Tokenizer.new ('(' :: ([' '] ++ '.' :: " 1)".toList)))
      = Except.error Error.SyntaxError ∧
    (Read 1 ⟨" . 2 3)".toList, Token.ConstantToken 1, false⟩
        = Except.ok (Tree.Number 1, ⟨" 2 3)".toList, Token.DotToken, false⟩) ∧
      Read 1 ⟨" 3)".toList, Token.ConstantToken 2, false⟩
        = Except.ok (Tree.Number 2, ⟨[')'], Token.ConstantToken 3, false⟩) ∧
      ReadList 2 ⟨" . 2 3)".toList, Token.ConstantToken 1, false⟩
        = Except.error Error.SyntaxError) ∧
    (ReadList 1 ⟨[], Token.ConstantToken 1, true⟩ = Except.error Error.SyntaxError ∧
      Read 1 ⟨[], Token.ConstantToken 1, true⟩ = Except.error Error.SyntaxError) ∧
    (Read 1 ⟨[], Token.ConstantToken 1, false⟩
        = Except.ok (Tree.Number 1, ⟨[], Token.ConstantToken 1, true⟩) ∧
      ReadList 2 ⟨[], Token.ConstantToken 1, false⟩ = Except.error Error.SyntaxError) ∧
    Read 1 ⟨[], Token.BracketToken BracketToken.CLOSE, false⟩
      = Except.error Error.SyntaxError ∧
    Read 1 (Tokenizer.new ([' '] ++ ')' :: ['x'])) = Except.error Error.SyntaxError ∧
    Read 3 ⟨['1'], Token.BracketToken BracketToken.OPEN, false⟩
      = ReadList 2 ⟨[], Token.ConstantToken 1, false⟩ ∧
    Read 2 ⟨[')'], Token.QuoteToken, false⟩ = Except.error Error.SyntaxError ∧
    ReadList 3 ⟨[')'], Token.QuoteToken, false⟩ = Except.error Error.SyntaxError ∧
    ReadList 3 ⟨" 2".toList, Token.ConstantToken 1, false⟩ = Except.error Error.SyntaxError ∧
    ReadList 2 ⟨" . )".toList, Token.ConstantToken 1, false⟩
      = Except.error Error.SyntaxError ∧
    ((∃ r, Read 7 (Tokenizer.new "(1".toList) = Except.ok r) ∨
      Read 7 (Tokenizer.new "(1".toList) = Except.error Error.SyntaxError) ∧
    Read 33 (Tokenizer.new "(1 (2 . 3 4) 5)".toList) = Except.error Error.SyntaxError ∧
    Read 21 (Tokenizer.new "(1 . 2 3)".toList) = Except.error Error.SyntaxError ∧
    Read 11 (Tokenizer.new "(1 2".toList) = Except.error Error.SyntaxError ∧
    Read 7 (Tokenizer.new "(1".toList) = Except.error Error.SyntaxError ∧
    (∃ tk, Read 17 (Tokenizer.new "(1 . 2)".toList)
      = Except.ok (Tree.Cell (Tree.Number 1) (Tree.Number 2), tk)) ∧
    ∃ ts rest, Lexes "(1 . 2)".toList ts rest ∧
      Derives Nonterminal.expr ts (Tree.Cell (Tree.Number 1) (Tree.Number 2)) [] := by
  have l1 : Lexes "(1 (2 . 3 4) 5)".toList
      [Token.BracketToken BracketToken.OPEN, Token.ConstantToken 1,
        Token.BracketToken BracketToken.OPEN, Token.ConstantToken 2, Token.DotToken,
        Token.ConstantToken 3, Token.ConstantToken 4] ") 5)".toList :=
    @Lexes.cons _ "1 (2 . 3 4) 5)".toList _ _ _ (by decide)
      (@Lexes.cons _ " (2 . 3 4) 5)".toList _ _ _ (by decide)
        (@Lexes.cons _ "2 . 3 4) 5)".toList _ _ _ (by decide)
          (@Lexes.cons _ " . 3 4) 5)".toList _ _ _ (by decide)
            (@Lexes.cons _ " 3 4) 5)".toList _ _ _ (by decide)
              (@Lexes.cons _ " 4) 5)".toList _ _ _ (by decide)
                (@Lexes.cons _ ") 5)".toList _ _ _ (by decide) (Lexes.nil _)))))))
  have l2 : Lexes "(1 . 2 3)".toList
      (Token.BracketToken BracketToken.OPEN :: ([] ++ ([Token.ConstantToken 1] ++
        Token.DotToken :: ([Token.ConstantToken 2] ++ [Token.ConstantToken 3]))))
      ")".toList :=
    @Lexes.cons _ "1 . 2 3)".toList _ _ _ (by decide)
      (@Lexes.cons _ " . 2 3)".toList _ _ _ (by decide)
        (@Lexes.cons _ " 2 3)".toList _ _ _ (by decide)
          (@Lexes.cons _ " 3)".toList _ _ _ (by decide)
            (@Lexes.cons _ ")".toList _ _ _ (by decide) (Lexes.nil _)))))
  have l3 : Lexes "(1 2".toList
      [Token.BracketToken BracketToken.OPEN, Token.ConstantToken 1, Token.ConstantToken 2]
      [] :=
    @Lexes.cons _ "1 2".toList _ _ _ (by decide)
      (@Lexes.cons _ " 2".toList _ _ _ (by decide)
        (@Lexes.cons _ [] _ _ _ (by decide) (Lexes.nil _)))
  have l4 : Lexes "(1".toList
      [Token.BracketToken BracketToken.OPEN, Token.ConstantToken 1] [] :=
    @Lexes.cons _ "1".toList _ _ _ (by decide)
      (@Lexes.cons _ [] _ _ _ (by decide) (Lexes.nil _))
  have l5 : Lexes "(1 . 2)".toList
      [Token.BracketToken BracketToken.OPEN, Token.ConstantToken 1, Token.DotToken,
        Token.ConstantToken 2, Token.BracketToken BracketToken.CLOSE] [] :=
    @Lexes.cons _ "1 . 2)".toList _ _ _ (by decide)
      (@Lexes.cons _ " . 2)".toList _ _ _ (by decide)
        (@Lexes.cons _ " 2)".toList _ _ _ (by decide)
          (@Lexes.cons _ ")".toList _ _ _ (by decide)
            (@Lexes.cons _ [] _ _ _ (by decide) (Lexes.nil _)))))
  have c : ∀ v : Int, Token.ConstantToken v ≠ Token.BracketToken BracketToken.CLOSE := by
    intro v h
    cases h
  have hbad : ∀ more t r, ¬ Derives Nonterminal.expr
      ([Token.BracketToken BracketToken.OPEN, Token.ConstantToken 1,
        Token.BracketToken BracketToken.OPEN, Token.ConstantToken 2, Token.DotToken,
        Token.ConstantToken 3, Token.ConstantToken 4] ++ more) t r := by
    intro more
    have h1 : ∀ t r, ¬ Derives Nonterminal.list_tail
        ([Token.ConstantToken 2] ++ Token.DotToken ::
          ([Token.ConstantToken 3] ++ Token.ConstantToken 4 :: more)) t r :=
      no_dotted_close (Derives.int 2 []) (Derives.int 3 []) (c 4) more
    have h2 : ∀ t r, ¬ Derives Nonterminal.list_tail
        (Token.BracketToken BracketToken.OPEN :: Token.ConstantToken 2 :: Token.DotToken ::
          Token.ConstantToken 3 :: Token.ConstantToken 4 :: more) t r :=
      no_element (fun w h => by cases h) (no_list h1)
    have h3 : ∀ t r, ¬ Derives Nonterminal.list_tail
        ([Token.ConstantToken 1] ++ (Token.BracketToken BracketToken.OPEN ::
          Token.ConstantToken 2 :: Token.DotToken ::
          Token.ConstantToken 3 :: Token.ConstantToken 4 :: more)) t r :=
      no_cons (Derives.int 1 []) (fun w h => by cases h) h2
    exact no_list h3
  have w18 := C4_Read_malformed_list.2.2.2.2.2.2.2.2.2.2.2.2.2.2.2.2.2
    "(1 . 2)".toList 17 _ [] [] (Tree.Cell (Tree.Number 1) (Tree.Number 2))
    (by decide) l5 (by decide)
    (Derives.list (Derives.dotted (Derives.int 1 _) (Derives.int 2 _)))
  refine ⟨C4_Read_malformed_list.1 0 ⟨" 1)".toList, Token.DotToken, false⟩ rfl rfl,
    C4_Read_malformed_list.2.1 0 [' '] " 1)".toList (by decide),
    ⟨by decide, by decide,
      C4_Read_malformed_list.2.2.1 1 ⟨" . 2 3)".toList, Token.ConstantToken 1, false⟩
        (Tree.Number 1) ⟨" 2 3)".toList, Token.DotToken, false⟩
        ⟨" 3)".toList, Token.ConstantToken 2, false⟩ (Tree.Number 2)
        ⟨[')'], Token.ConstantToken 3, false⟩
        (by decide) rfl (by decide) (by decide) (by decide) rfl rfl (by decide) (by decide)
        (Or.inr (by decide))⟩,
    C4_Read_malformed_list.2.2.2.1 0 ⟨[], Token.ConstantToken 1, true⟩ (by decide) rfl,
    ⟨by decide,
      C4_Read_malformed_list.2.2.2.2.1 1 ⟨[], Token.ConstantToken 1, false⟩ (Tree.Number 1)
        ⟨[], Token.ConstantToken 1, true⟩ (by decide) rfl (by decide) (by decide) (by decide)
        rfl⟩,
    C4_Read_malformed_list.2.2.2.2.2.1 0 ⟨[], Token.BracketToken BracketToken.CLOSE, false⟩
      rfl rfl,
    C4_Read_malformed_list.2.2.2.2.2.2.1 0 [' '] ['x'] (by decide),
    C4_Read_malformed_list.2.2.2.2.2.2.2.1 2
      ⟨['1'], Token.BracketToken BracketToken.OPEN, false⟩ ⟨[], Token.ConstantToken 1, false⟩
      rfl rfl (by decide),
    C4_Read_malformed_list.2.2.2.2.2.2.2.2.1 1 ⟨[')'], Token.QuoteToken, false⟩
      ⟨[], Token.BracketToken BracketToken.CLOSE, false⟩ Error.SyntaxError
      rfl rfl (by decide) (by decide),
    C4_Read_malformed_list.2.2.2.2.2.2.2.2.2.1 2 ⟨[')'], Token.QuoteToken, false⟩
      Error.SyntaxError (by decide) rfl (by decide) (by decide) (by decide),
    C4_Read_malformed_list.2.2.2.2.2.2.2.2.2.2.1 2
      ⟨" 2".toList, Token.ConstantToken 1, false⟩ (Tree.Number 1)
      ⟨[], Token.ConstantToken 2, false⟩ Error.SyntaxError
      (by decide) rfl (by decide) (by decide) (by decide) rfl (by decide) (by decide),
    C4_Read_malformed_list.2.2.2.2.2.2.2.2.2.2.2.1 1
      ⟨" . )".toList, Token.ConstantToken 1, false⟩ (Tree.Number 1)
      ⟨" )".toList, Token.DotToken, false⟩
      ⟨[], Token.BracketToken BracketToken.CLOSE, false⟩ Error.SyntaxError
      (by decide) rfl (by decide) (by decide) (by decide) rfl rfl (by decide) (by decide),
    C4_Read_malformed_list.2.2.2.2.2.2.2.2.2.2.2.2.1 "(1".toList 7 (by decide),
    C4_Read_malformed_list.2.2.2.2.2.2.2.2.2.2.2.2.2.1 "(1 (2 . 3 4) 5)".toList 33 (by decide)
      (Lexes_no_expression l1 hbad),
    C4_Read_malformed_list.2.2.2.2.2.2.2.2.2.2.2.2.2.2.1 "(1 . 2 3)".toList 21
      [] [Token.ConstantToken 1] [Token.ConstantToken 2] (Tree.Number 1) (Tree.Number 2)
      (Token.ConstantToken 3) ")".toList (by decide) l2 Exprs.nil
      (Derives.int 1 []) (Derives.int 2 []) (c 3),
    C4_Read_malformed_list.2.2.2.2.2.2.2.2.2.2.2.2.2.2.2.1 "(1 2".toList 11 _
      [Token.BracketToken BracketToken.CLOSE] []
      (Tree.Cell (Tree.Number 1) (Tree.Cell (Tree.Number 2) Tree.Null))
      (by decide) l3 (by decide) (by simp)
      (Derives.list (Derives.cons (Derives.int 1 _)
        (Derives.cons (Derives.int 2 _) (Derives.empty _)))),
    C4_Read_malformed_list.2.2.2.2.2.2.2.2.2.2.2.2.2.2.2.1 "(1".toList 7 _
      [Token.BracketToken BracketToken.CLOSE] []
      (Tree.Cell (Tree.Number 1) Tree.Null)
      (by decide) l4 (by decide) (by simp)
      (Derives.list (Derives.cons (Derives.int 1 _) (Derives.empty _))),
    w18, ?_⟩
  obtain ⟨tk, h⟩ := w18
  exact C4_Read_malformed_list.2.2.2.2.2.2.2.2.2.2.2.2.2.2.2.2.1 _ _ _ tk h


/-! ## Failures of the reader through `Run` -/

/-- When the reader fails on the text, `Run` fails with a syntax error, with a bound on the
depth of at least `2 * length + 3`, and returns the interpreter unchanged. -/
theorem Run_read_error (fuel : Nat) (self : Interpreter) (s : String) (e : Error)
    (hf : 2 * s.data.length + 3 ≤ fuel) (hr : Read fuel (Tokenizer.new s.data) = Except.error e) :
    self.Run fuel s = (Except.error Error.SyntaxError, self) := by
  rcases Read_new_fuel s.data fuel hf with ⟨r, h⟩ | h
  · rw [h] at hr
    cases hr
  · simp [Interpreter.Run, h]

/-- C5. `Run` fails with a syntax error on every empty or whitespace-only input, and on every
input that has a non-whitespace character after its first complete expression: whenever the
reader has read an expression and the tokenizer is not at its end, and in particular on every
text made of a complete expression `E` and a rest that starts with a stopper (so that `E` is the
first expression of the text) and has a character that is no space. In each case the interpreter
is returned unchanged: the error comes before the evaluation. The same holds whenever the
reader itself fails on the text, as it does when the characters after the expression are no
token, with a bound on the depth of at least `2 * length + 3`. -/
theorem C5_Run_syntax_errors :
    (∀ (fuel : Nat) (self : Interpreter) (s : String), (∀ c ∈ s.data, isspace c = true) →
      self.Run (fuel + 1) s = (Except.error Error.SyntaxError, self)) ∧
    (∀ (fuel : Nat) (self : Interpreter) (s : String) (T : Tree) (tk : Tokenizer),
      Read fuel (Tokenizer.new s.data) = Except.ok (T, tk) → tk.IsEnd.1 = false →
      self.Run fuel s = (Except.error Error.SyntaxError, self)) ∧
    (∀ (fuelE fuel : Nat) (self : Interpreter) (E rest : List Char) (T : Tree) (tk : Tokenizer),
      Read fuelE (Tokenizer.new E) = Except.ok (T, tk) → tk.IsEnd.1 = true →
      peekIs stopper rest = true → (∃ c ∈ rest, isspace c = false) → fuelE ≤ fuel →
      self.Run fuel (String.mk (E ++ rest)) = (Except.error Error.SyntaxError, self)) ∧
    (∀ (fuel : Nat) (self : Interpreter) (s : String) (e : Error),
      2 * s.data.length + 3 ≤ fuel → Read fuel (Tokenizer.new s.data) = Except.error e →
      self.Run fuel s = (Except.error Error.SyntaxError, self)) :=
  ⟨Run_blank, Run_not_at_end, Run_trailing, Run_read_error⟩

/-- The instances of C5 on the texts of two spaces, `1 2`, `(a) b`, `(a)!` and `1?`. -/
theorem C5_Run_syntax_errors_witness :
    Interpreter.new.Run 1 "  " = (Except.error Error.SyntaxError, Interpreter.new) ∧
    (Read 1 (Tokenizer.new "1 2".data)
        = Except.ok (Tree.Number 1, ⟨[], Token.ConstantToken 2, false⟩) ∧
      Interpreter.new.Run 1 "1 2" = (Except.error Error.SyntaxError, Interpreter.new)) ∧
    (Read 3 (Tokenizer.new "(a)".data)
        = Except.ok (Tree.Cell (Tree.Symbol "a") Tree.Null,
            ⟨[], Token.BracketToken BracketToken.CLOSE, true⟩) ∧
      Interpreter.new.Run 5 (String.mk ("(a)".data ++ " b".data))
        = (Except.error Error.SyntaxError, Interpreter.new)) ∧
    (Read 11 (Tokenizer.new "(a)!".data) = Except.error Error.SyntaxError ∧
      Interpreter.new.Run 11 "(a)!" = (Except.error Error.SyntaxError, Interpreter.new)) ∧
    (Read 7 (Tokenizer.new "1?".data) = Except.error Error.SyntaxError ∧
      Interpreter.new.Run 7 "1?" = (Except.error Error.SyntaxError, Interpreter.new)) :=
  ⟨C5_Run_syntax_errors.1 0 Interpreter.new "  " (by decide),
    ⟨by decide,
      C5_Run_syntax_errors.2.1 1 Interpreter.new "1 2" (Tree.Number 1)
        ⟨[], Token.ConstantToken 2, false⟩ (by decide) (by decide)⟩,
    ⟨by decide,
      C5_Run_syntax_errors.2.2.1 3 5 Interpreter.new "(a)".data " b".data
        (Tree.Cell (Tree.Symbol "a") Tree.Null)
        ⟨[], Token.BracketToken BracketToken.CLOSE, true⟩ (by decide) (by decide) (by decide)
        ⟨'b', by decide, by decide⟩ (by decide)⟩,
    ⟨by decide,
      C5_Run_syntax_errors.2.2.2 11 Interpreter.new "(a)!" Error.SyntaxError (by decide)
        (by decide)⟩,
    ⟨by decide,
      C5_Run_syntax_errors.2.2.2 7 Interpreter.new "1?" Error.SyntaxError (by decide)
        (by decide)⟩⟩

end Scheme
